import Mathlib

/-!
# Exam OS simulation: a verification development

A shallow embedding of the simulation kernel of `exam_os` (memory manager,
scheduler, I/O buffer, interrupt subsystem) together with theorems about it.

Modelling conventions.

* C `int` and `long` values are `Int`; signed overflow (undefined behaviour in C)
  is not modelled.
* A fixed-size C array is a total map from the index to the element. An access
  whose index is computed from data goes through an explicit bounds check, and a
  function returns `none` exactly when such an access falls outside the array
  (undefined behaviour in C).
* An array that the code uses together with an element count (`ready_queue` with
  `rq_size`, `g_state.processes` with `g_state.process_count`) is the list of its
  live elements; the count is the length of the list.
* Every function is one atomic step: the mutexes of the source serialise the
  calls, and the theorems are about these serialised steps.
* `now_ms()` and `rand()` are inputs: every clock reading and every random draw is a
  parameter of the function that takes it.
* A counting semaphore is its value; `sem_trywait` fails exactly when the value is 0.
* `log_event`, `usleep` and the `float` field `cpu_utilization` are left out, and
  with them the fields `recent_logs` and `log_index` of the world state.
-/

namespace ExamOS

/-! ## Constants and records (`shared.h`) -/

def MAX_STUDENTS : Int := 200
def MAX_FRAMES : Int := 256
def MAX_PAGES : Int := 64
def BUFFER_CAPACITY : Int := 256

inductive ProcessState where
  | NEW | READY | RUNNING | WAITING | TERMINATED
deriving DecidableEq, Repr

inductive SchedAlgo where
  | ROUND_ROBIN | PRIORITY
deriving DecidableEq, Repr

inductive PageAlgo where
  | LRU | FIFO
deriving DecidableEq, Repr

structure PCB where
  pid : Int
  state : ProcessState
  priority : Int
  total_time : Int
  remaining_time : Int
  waiting_time : Int
  turnaround_time : Int
  pages_used : Int
deriving DecidableEq, Repr

structure PageTableEntry where
  virtual_page : Int
  frame_number : Int
  valid : Int
  dirty : Int
  last_accessed : Int
  load_order : Int
deriving DecidableEq, Repr

structure Submission where
  pid : Int
  question_id : Int
  answer : String
  timestamp : Int
  is_partial : Int
deriving DecidableEq, Repr

structure Config where
  num_students : Int
  memory_frames : Int
  page_size : Int
  time_quantum : Int
  exam_duration : Int
  sched_algo : SchedAlgo
  page_algo : PageAlgo
  buffer_capacity : Int
  demo_mode : Int
deriving DecidableEq, Repr

/-- The shared world state `g_state`. The PCB table `processes` is the list of the
`process_count` entries in use. -/
structure SystemState where
  running_pid : Int
  context_switches : Int
  completed_processes : Int
  page_faults : Int
  page_hits : Int
  frames_used : Int
  buffer_count : Int
  total_submissions : Int
  dropped_submissions : Int
  flush_count : Int
  timeouts_fired : Int
  overload_signals : Int
  processes : List PCB
  simulation_running : Int
  current_tick : Int
deriving DecidableEq, Repr

/-- The field `g_state.process_count`. -/
def SystemState.process_count (w : SystemState) : Int := w.processes.length

/-- The world state after `state_init` of `main.c`. -/
def state_init : SystemState :=
  { running_pid := -1, context_switches := 0, completed_processes := 0,
    page_faults := 0, page_hits := 0, frames_used := 0,
    buffer_count := 0, total_submissions := 0, dropped_submissions := 0, flush_count := 0,
    timeouts_fired := 0, overload_signals := 0,
    processes := [], simulation_running := 1, current_tick := 0 }

/-- The configuration after `config_load_defaults`. -/
def config_load_defaults : Config :=
  { num_students := 50, memory_frames := 64, page_size := 4, time_quantum := 5,
    exam_duration := 100, sched_algo := SchedAlgo.PRIORITY, page_algo := PageAlgo.LRU,
    buffer_capacity := 256, demo_mode := 0 }

/-! ## Memory manager (`memory.c`) -/

structure Frame where
  pid : Int
  virtual_page : Int
  load_order : Int
  last_accessed : Int
deriving DecidableEq, Repr

/-- The private state of `memory.c`: `frame_pool[MAX_FRAMES]`, `total_frames`,
`fifo_counter` and `page_tables[MAX_STUDENTS][MAX_PAGES]`. -/
structure MemState where
  frame_pool : Int → Frame
  total_frames : Int
  fifo_counter : Int
  page_tables : Int → Int → PageTableEntry

/-- Zero-initialised static storage of `memory.c`, before `memory_init`. -/
def mem_static : MemState :=
  { frame_pool := fun _ => ⟨0, 0, 0, 0⟩, total_frames := 0, fifo_counter := 0,
    page_tables := fun _ _ => ⟨0, 0, 0, 0, 0, 0⟩ }

/-- Index `(pid, vp)` lies inside `page_tables[MAX_STUDENTS][MAX_PAGES]`. -/
def pt_in_bounds (pid vp : Int) : Prop :=
  0 ≤ pid ∧ pid < MAX_STUDENTS ∧ 0 ≤ vp ∧ vp < MAX_PAGES

instance (pid vp : Int) : Decidable (pt_in_bounds pid vp) := by
  unfold pt_in_bounds; infer_instance

/-- Index `f` lies inside `frame_pool[MAX_FRAMES]`. -/
def frame_in_bounds (f : Int) : Prop := 0 ≤ f ∧ f < MAX_FRAMES

instance (f : Int) : Decidable (frame_in_bounds f) := by
  unfold frame_in_bounds; infer_instance

/-- Array store `a[i] = x`. -/
def set_frame (a : Int → Frame) (i : Int) (x : Frame) : Int → Frame :=
  fun j => if j = i then x else a j

/-- Array store `t[p][v] = x`. -/
def set_pte (t : Int → Int → PageTableEntry) (p v : Int) (x : PageTableEntry) :
    Int → Int → PageTableEntry :=
  fun q u => if q = p ∧ u = v then x else t q u

/-- Model of `memory_init`: `total_frames` is `g_config.memory_frames` clamped to
`MAX_FRAMES`, the first `total_frames` frames are freed and every page-table entry
is reset. -/
def memory_init (cfg : Config) (m : MemState) : MemState :=
  let total := if cfg.memory_frames > MAX_FRAMES then MAX_FRAMES else cfg.memory_frames
  { frame_pool := fun i => if 0 ≤ i ∧ i < total then ⟨-1, -1, 0, 0⟩ else m.frame_pool i,
    total_frames := total,
    fifo_counter := m.fifo_counter,
    page_tables := fun i j =>
      if pt_in_bounds i j then ⟨j, -1, 0, 0, 0, 0⟩ else m.page_tables i j }

/-- Loop of `find_free_frame`, at index `i` with `fuel` iterations left. -/
def find_free_loop (m : MemState) : Nat → Nat → Int
  | _, 0 => -1
  | i, fuel + 1 =>
    if (m.frame_pool i).pid = -1 then (i : Int) else find_free_loop m (i + 1) fuel

/-- Model of `find_free_frame`. -/
def find_free_frame (m : MemState) : Int :=
  find_free_loop m 0 m.total_frames.toNat

/-- Loop of `evict_fifo`, at index `i` with `fuel` iterations left. -/
def evict_fifo_loop (m : MemState) : Nat → Nat → Int → Int → Int
  | _, 0, oldest_frame, _ => oldest_frame
  | i, fuel + 1, oldest_frame, oldest_order =>
    if (m.frame_pool i).load_order < oldest_order then
      evict_fifo_loop m (i + 1) fuel i (m.frame_pool i).load_order
    else
      evict_fifo_loop m (i + 1) fuel oldest_frame oldest_order

/-- Model of `evict_fifo`. -/
def evict_fifo (m : MemState) : Int :=
  evict_fifo_loop m 1 (m.total_frames.toNat - 1) 0 (m.frame_pool 0).load_order

/-- Loop of `evict_lru`, at index `i` with `fuel` iterations left. -/
def evict_lru_loop (m : MemState) : Nat → Nat → Int → Int → Int
  | _, 0, lru_frame, _ => lru_frame
  | i, fuel + 1, lru_frame, lru_time =>
    if (m.frame_pool i).last_accessed < lru_time then
      evict_lru_loop m (i + 1) fuel i (m.frame_pool i).last_accessed
    else
      evict_lru_loop m (i + 1) fuel lru_frame lru_time

/-- Model of `evict_lru`. -/
def evict_lru (m : MemState) : Int :=
  evict_lru_loop m 1 (m.total_frames.toNat - 1) 0 (m.frame_pool 0).last_accessed

/-- Model of `load_page(pid, virtual_page, frame)`; `t1` and `t2` are the two
readings of `now_ms()`. -/
def load_page (m : MemState) (t1 t2 : Int) (pid virtual_page frame : Int) :
    Option MemState :=
  if ¬ frame_in_bounds frame then none else
  let prev_pid := (m.frame_pool frame).pid
  let prev_page := (m.frame_pool frame).virtual_page
  let invalidated : Option (Int → Int → PageTableEntry) :=
    if prev_pid ≥ 0 ∧ prev_pid < MAX_STUDENTS ∧ prev_page ≥ 0 then
      if ¬ pt_in_bounds prev_pid prev_page then none else
      some (set_pte m.page_tables prev_pid prev_page
        { m.page_tables prev_pid prev_page with
          valid := 0, frame_number := -1,
          dirty := if (m.page_tables prev_pid prev_page).dirty ≠ 0 then 0
                   else (m.page_tables prev_pid prev_page).dirty })
    else some m.page_tables
  match invalidated with
  | none => none
  | some pt =>
    if ¬ pt_in_bounds pid virtual_page then none else
    let fr : Frame := ⟨pid, virtual_page, m.fifo_counter, t1⟩
    some { frame_pool := set_frame m.frame_pool frame fr,
           total_frames := m.total_frames,
           fifo_counter := m.fifo_counter + 1,
           page_tables := set_pte pt pid virtual_page
             { pt pid virtual_page with
               frame_number := frame, valid := 1, last_accessed := t2,
               load_order := m.fifo_counter } }

/-- Loop that counts the occupied frames (`frame_pool[i].pid != -1`). -/
def count_used_loop (m : MemState) : Nat → Nat → Int → Int
  | _, 0, used => used
  | i, fuel + 1, used =>
    count_used_loop m (i + 1) fuel (if (m.frame_pool i).pid ≠ -1 then used + 1 else used)

/-- The scan `for (i = 0; i < total_frames; i++) if (frame_pool[i].pid != -1) used++`. -/
def count_used (m : MemState) : Int :=
  count_used_loop m 0 m.total_frames.toNat 0

/-- The frame chosen on a page fault (`memory_access`, the block "Find or evict a
frame"). -/
def choose_frame (cfg : Config) (m : MemState) : Int :=
  let frame := find_free_frame m
  if frame = -1 then
    (if cfg.page_algo = PageAlgo.LRU then evict_lru m else evict_fifo m)
  else frame

/-- Model of `memory_access(pid, virtual_page)`. The result is the returned `int`
with the new memory and world state; `t1`, `t2` are the two readings of `now_ms()`
taken on either path. -/
def memory_access (cfg : Config) (t1 t2 : Int) (pid virtual_page : Int)
    (m : MemState) (w : SystemState) : Option (Int × MemState × SystemState) :=
  if pid < 0 ∨ pid ≥ MAX_STUDENTS then some (-1, m, w) else
  if virtual_page < 0 ∨ virtual_page ≥ MAX_PAGES then some (-1, m, w) else
  let entry := m.page_tables pid virtual_page
  if entry.valid ≠ 0 then
    if ¬ frame_in_bounds entry.frame_number then none else
    let pt := set_pte m.page_tables pid virtual_page { entry with last_accessed := t1 }
    let fp := set_frame m.frame_pool entry.frame_number
      { m.frame_pool entry.frame_number with last_accessed := t2 }
    some (entry.frame_number,
          { m with page_tables := pt, frame_pool := fp },
          { w with page_hits := w.page_hits + 1 })
  else
    let w1 := { w with page_faults := w.page_faults + 1 }
    let frame := choose_frame cfg m
    match load_page m t1 t2 pid virtual_page frame with
    | none => none
    | some m1 => some (frame, m1, { w1 with frames_used := count_used m1 })

/-- Loop of `memory_free_process`, at index `i` with `fuel` iterations left. -/
def free_loop (pid : Int) : MemState → Nat → Nat → Option MemState
  | m, _, 0 => some m
  | m, i, fuel + 1 =>
    if (m.frame_pool i).pid = pid then
      let vp := (m.frame_pool i).virtual_page
      if ¬ pt_in_bounds pid vp then none else
      free_loop pid
        { m with
          page_tables := set_pte m.page_tables pid vp
            { m.page_tables pid vp with valid := 0, frame_number := -1 },
          frame_pool := set_frame m.frame_pool i
            { m.frame_pool i with pid := -1, virtual_page := -1 } }
        (i + 1) fuel
    else free_loop pid m (i + 1) fuel

/-- Model of `memory_free_process(pid)`. -/
def memory_free_process (pid : Int) (m : MemState) (w : SystemState) :
    Option (MemState × SystemState) :=
  match free_loop pid m 0 m.total_frames.toNat with
  | none => none
  | some m1 => some (m1, { w with frames_used := count_used m1 })

/-- The inductive strengthening of frame/page-table consistency that holds in pools of at
least one frame. The pool is the first `total_frames` slots of `frame_pool` and lies
inside the array; every occupied frame of the pool has its owner inside the page tables
and is referenced by the page-table entry of its `(pid, virtual_page)`; every valid entry
references a frame of the pool that holds its `(pid, virtual_page)`; an entry that is not
valid has `frame_number = -1`. It implies `frame_table_consistency`, the invariant in the
words of the specification. -/
def consistent (m : MemState) : Prop :=
  m.total_frames ≤ MAX_FRAMES ∧
  (∀ f : Int, 0 ≤ f → f < m.total_frames → 0 ≤ (m.frame_pool f).pid →
    pt_in_bounds (m.frame_pool f).pid (m.frame_pool f).virtual_page ∧
    (m.page_tables (m.frame_pool f).pid (m.frame_pool f).virtual_page).valid ≠ 0 ∧
    (m.page_tables (m.frame_pool f).pid (m.frame_pool f).virtual_page).frame_number = f) ∧
  (∀ p v : Int, pt_in_bounds p v → (m.page_tables p v).valid ≠ 0 →
    0 ≤ (m.page_tables p v).frame_number ∧
    (m.page_tables p v).frame_number < m.total_frames ∧
    (m.frame_pool (m.page_tables p v).frame_number).pid = p ∧
    (m.frame_pool (m.page_tables p v).frame_number).virtual_page = v) ∧
  (∀ p v : Int, pt_in_bounds p v → (m.page_tables p v).valid = 0 →
    (m.page_tables p v).frame_number = -1)

/-- The key that the eviction policy minimises: `last_accessed` under LRU,
`load_order` under FIFO. -/
def evict_key (cfg : Config) (fr : Frame) : Int :=
  if cfg.page_algo = PageAlgo.LRU then fr.last_accessed else fr.load_order

/-- Number of frames of the pool whose owner satisfies `q`. -/
def count_frames (m : MemState) (q : Int → Bool) : Nat :=
  ((List.range m.total_frames.toNat).filter
    (fun (i : Nat) => q (m.frame_pool (i : Int)).pid)).length

/-! ## Scheduler (`scheduler.c`) -/

/-- The private state of `scheduler.c`: the `rq_size` live entries of `ready_queue`
and `rr_index`. -/
structure SchedState where
  ready_queue : List PCB
  rr_index : Int
deriving DecidableEq, Repr

/-- The variable `rq_size`. -/
def SchedState.rq_size (s : SchedState) : Int := s.ready_queue.length

/-- The field `ready_queue[i].remaining_time`, read inside the live part of the array
(every read of the heap helpers is guarded by the source to lie there). -/
def rem_time (rq : List PCB) (i : Nat) : Int :=
  match rq[i]? with
  | some p => p.remaining_time
  | none => 0

/-- Model of `swap_pcb(a, b)`. -/
def swap_pcb (rq : List PCB) (a b : Nat) : List PCB :=
  match rq[a]?, rq[b]? with
  | some x, some y => (rq.set a y).set b x
  | _, _ => rq

/-- The "bubble up" loop of `heap_push`, at index `i`. The index strictly decreases,
so `fuel ≥ i` iterations are enough (`bubble_up_fuel`). -/
def bubble_up : List PCB → Nat → Nat → List PCB
  | rq, 0, _ => rq
  | rq, fuel + 1, i =>
    if i > 0 then
      let parent := (i - 1) / 2
      if rem_time rq parent > rem_time rq i then
        bubble_up (swap_pcb rq parent i) fuel parent
      else rq
    else rq

/-- Model of `heap_push(p)`: the store `ready_queue[rq_size] = p` needs
`rq_size < MAX_STUDENTS`. -/
def heap_push (rq : List PCB) (p : PCB) : Option (List PCB) :=
  if (rq.length : Int) < MAX_STUDENTS then
    some (bubble_up (rq ++ [p]) rq.length rq.length)
  else none

/-- The "bubble down" loop of `heap_pop`, at index `i`. The index strictly increases
below `rq_size`, so `fuel ≥ rq_size - i` iterations are enough (`bubble_down_fuel`). -/
def bubble_down : List PCB → Nat → Nat → List PCB
  | rq, 0, _ => rq
  | rq, fuel + 1, i =>
    let left := 2 * i + 1
    let right := 2 * i + 2
    let smallest := i
    let smallest :=
      if left < rq.length ∧ rem_time rq left < rem_time rq smallest then left else smallest
    let smallest :=
      if right < rq.length ∧ rem_time rq right < rem_time rq smallest then right else smallest
    if smallest = i then rq
    else bubble_down (swap_pcb rq i smallest) fuel smallest

/-- Model of `heap_pop()`: returns the popped root and the new queue; `none` on an
empty queue, where the source would read outside the live part. -/
def heap_pop (rq : List PCB) : Option (PCB × List PCB) :=
  match rq[0]?, rq[rq.length - 1]? with
  | some top, some last =>
    let rq1 := (rq.set 0 last).take (rq.length - 1)
    some (top, bubble_down rq1 rq1.length 0)
  | _, _ => none

/-- Model of `scheduler_init`. -/
def scheduler_init : SchedState := { ready_queue := [], rr_index := 0 }

/-- Model of `scheduler_add_process(process)`: the store into
`g_state.processes[process_count]` needs `process_count < MAX_STUDENTS`. -/
def scheduler_add_process (process : PCB) (s : SchedState) (w : SystemState) :
    Option (SchedState × SystemState) :=
  let process := { process with state := ProcessState.READY }
  if ¬ ((w.processes.length : Int) < MAX_STUDENTS) then none else
  let w1 := { w with processes := w.processes ++ [process] }
  match heap_push s.ready_queue process with
  | none => none
  | some rq => some ({ s with ready_queue := rq }, w1)

/-- The loop of `scheduler_terminate_process` over the PCB table: the first entry
whose pid matches is marked TERMINATED; `none` when no entry matches. -/
def terminate_first (pid : Int) : List PCB → Option (List PCB)
  | [] => none
  | p :: ps =>
    if p.pid = pid then some ({ p with state := ProcessState.TERMINATED } :: ps)
    else match terminate_first pid ps with
      | some ps1 => some (p :: ps1)
      | none => none

/-- Model of `scheduler_terminate_process(pid)`. -/
def scheduler_terminate_process (pid : Int) (w : SystemState) : SystemState :=
  match terminate_first pid w.processes with
  | some ps =>
    { w with processes := ps, completed_processes := w.completed_processes + 1 }
  | none => w

/-- Model of `run_round_robin()`. `%` is C remainder (`Int.tmod`); `none` when the
index `rr_index % rq_size` is negative. -/
def run_round_robin (cfg : Config) (s : SchedState) (w : SystemState) :
    Option (SchedState × SystemState) :=
  if s.ready_queue.length = 0 then some (s, { w with running_pid := -1 }) else
  let idx := s.rr_index.tmod (s.ready_queue.length : Int)
  if idx < 0 then none else
  match s.ready_queue[idx.toNat]? with
  | none => none
  | some current =>
    let w1 := { w with running_pid := current.pid,
                       context_switches := w.context_switches + 1 }
    let ticked := { current with
      remaining_time := current.remaining_time - cfg.time_quantum }
    let rq := s.ready_queue.set idx.toNat ticked
    if ticked.remaining_time ≤ 0 then
      match rq[rq.length - 1]? with
      | none => none
      | some last =>
        some ({ s with ready_queue := (rq.set idx.toNat last).take (rq.length - 1) },
              scheduler_terminate_process ticked.pid w1)
    else
      some ({ ready_queue := rq,
              rr_index := (s.rr_index + 1).tmod (s.ready_queue.length : Int) }, w1)

/-- Model of `run_priority()`. -/
def run_priority (cfg : Config) (s : SchedState) (w : SystemState) :
    Option (SchedState × SystemState) :=
  if s.ready_queue.length = 0 then some (s, { w with running_pid := -1 }) else
  match heap_pop s.ready_queue with
  | none => none
  | some (current, rq) =>
    let w1 := { w with running_pid := current.pid,
                       context_switches := w.context_switches + 1 }
    let current := { current with
      remaining_time := current.remaining_time - cfg.time_quantum }
    if current.remaining_time ≤ 0 then
      some ({ s with ready_queue := rq }, scheduler_terminate_process current.pid w1)
    else
      match heap_push rq current with
      | none => none
      | some rq1 => some ({ s with ready_queue := rq1 }, w1)

/-- The min-heap property of the ready queue, keyed by `remaining_time`. -/
def is_min_heap (rq : List PCB) : Prop :=
  ∀ i : Nat, 1 ≤ i → i < rq.length → rem_time rq ((i - 1) / 2) ≤ rem_time rq i

/-! ## I/O buffer (`io_buffer.c`): the producer -/

/-- The global `g_io_buffer`: the ring `buffer[BUFFER_CAPACITY]`, its indices and the
values of the two counting semaphores. -/
structure IOBuffer where
  buffer : Int → Submission
  head : Int
  tail : Int
  count : Int
  empty_slots : Nat
  filled_slots : Nat

/-- Zero-initialised static storage of `g_io_buffer`. -/
def io_static : IOBuffer :=
  { buffer := fun _ => ⟨0, 0, "", 0, 0⟩, head := 0, tail := 0, count := 0,
    empty_slots := 0, filled_slots := 0 }

/-- Model of `io_buffer_init`. -/
def io_buffer_init (b : IOBuffer) : IOBuffer :=
  { b with head := 0, tail := 0, count := 0,
           empty_slots := BUFFER_CAPACITY.toNat, filled_slots := 0 }

/-- Array store `buffer[i] = x`. -/
def set_submission (a : Int → Submission) (i : Int) (x : Submission) : Int → Submission :=
  fun j => if j = i then x else a j

/-- Model of `io_buffer_submit(pid, question_id, answer, is_partial)`; `answer = none`
is the null pointer, `now` the reading of `now_ms()`. `strncpy` keeps the first 127
characters. The result is the returned `int` with the new buffer and world state. -/
def io_buffer_submit (now : Int) (pid question_id : Int) (answer : Option String)
    ( is_partial : Int) (b : IOBuffer) (w : SystemState) :
    Option (Int × IOBuffer × SystemState) :=
  match b.empty_slots with
  | 0 => some (-1, b, { w with dropped_submissions := w.dropped_submissions + 1 })
  | slots + 1 =>
    if ¬ (0 ≤ b.tail ∧ b.tail < BUFFER_CAPACITY) then none else
    let sub : Submission :=
      { pid := pid, question_id := question_id,
        answer := ((match answer with | some a => a | none => "EMPTY").take 127),
        timestamp := now, is_partial := is_partial }
    let b1 : IOBuffer :=
      { buffer := set_submission b.buffer b.tail sub,
        head := b.head,
        tail := (b.tail + 1).tmod BUFFER_CAPACITY,
        count := b.count + 1,
        empty_slots := slots,
        filled_slots := b.filled_slots + 1 }
    some (0, b1, { w with buffer_count := b1.count,
                          total_submissions := w.total_submissions + 1 })

/-! ## Interrupt subsystem (`interrupt.c`) -/

def MAX_INTERRUPTS : Int := 8
def INT_EXAM_TIMEOUT : Int := 0
def INT_OVERLOAD : Int := 1
def INT_PAGE_FAULT : Int := 2
def INT_SUBMIT_COMPLETE : Int := 3

/-- The capacity of `int_queue`. -/
def INT_QUEUE_CAPACITY : Int := 64

structure PendingInterrupt where
  interrupt_id : Int
  pid : Int
  timestamp : Int
deriving DecidableEq, Repr

/-- The four handler functions an IVT entry can point to. -/
inductive Handler where
  | handle_exam_timeout | handle_overload | handle_page_fault | handle_submit_complete
deriving DecidableEq, Repr

structure IVTEntry where
  interrupt_id : Int
  name : String
  handler : Handler
deriving DecidableEq, Repr

/-- The private state of `interrupt.c`: the `ivt_size` entries of `ivt`, the ring
`int_queue[64]` with its indices, and the value of the semaphore `int_ready`. -/
structure IntState where
  ivt : List IVTEntry
  int_queue : Int → PendingInterrupt
  int_q_head : Int
  int_q_tail : Int
  int_q_count : Int
  int_ready : Nat

/-- Zero-initialised static storage of `interrupt.c`. -/
def int_static : IntState :=
  { ivt := [], int_queue := fun _ => ⟨0, 0, 0⟩, int_q_head := 0, int_q_tail := 0,
    int_q_count := 0, int_ready := 0 }

/-- Model of `ivt_register(id, name, handler)`. -/
def ivt_register (id : Int) (name : String) (handler : Handler) (q : IntState) : IntState :=
  if (q.ivt.length : Int) < MAX_INTERRUPTS then
    { q with ivt := q.ivt ++ [⟨id, name.take 31, handler⟩] }
  else q

/-- Model of `interrupt_init`. -/
def interrupt_init (q : IntState) : IntState :=
  ivt_register INT_SUBMIT_COMPLETE "SUBMIT_COMPLETE" Handler.handle_submit_complete
    (ivt_register INT_PAGE_FAULT "PAGE_FAULT" Handler.handle_page_fault
      (ivt_register INT_OVERLOAD "OVERLOAD" Handler.handle_overload
        (ivt_register INT_EXAM_TIMEOUT "EXAM_TIMEOUT" Handler.handle_exam_timeout
          { q with int_ready := 0 })))

/-- Array store `int_queue[i] = x`. -/
def set_pending (a : Int → PendingInterrupt) (i : Int) (x : PendingInterrupt) :
    Int → PendingInterrupt :=
  fun j => if j = i then x else a j

/-- Model of `interrupt_raise(interrupt_id, pid)`; `now` is the reading of `now_ms()`. -/
def interrupt_raise (now : Int) (interrupt_id pid : Int) (q : IntState) : Option IntState :=
  if q.int_q_count < INT_QUEUE_CAPACITY then
    if ¬ (0 ≤ q.int_q_tail ∧ q.int_q_tail < INT_QUEUE_CAPACITY) then none else
    some { q with
      int_queue := set_pending q.int_queue q.int_q_tail ⟨interrupt_id, pid, now⟩,
      int_q_tail := (q.int_q_tail + 1).tmod INT_QUEUE_CAPACITY,
      int_q_count := q.int_q_count + 1,
      int_ready := q.int_ready + 1 }
  else some q

/-- The loop of `check_timeouts` over the PCB table, at table index `i`; `now i` is the
clock reading of the raise for entry `i`. -/
def check_timeouts_loop (now : Nat → Int) :
    List PCB → Nat → IntState → Option (List PCB × IntState)
  | [], _, q => some ([], q)
  | p :: ps, i, q =>
    if p.state = ProcessState.RUNNING ∨ p.state = ProcessState.READY then
      let p1 : PCB := { p with remaining_time := p.remaining_time - 1 }
      if p1.remaining_time ≤ 0 then
        let p2 : PCB := { p1 with state := ProcessState.TERMINATED }
        match interrupt_raise (now i) INT_EXAM_TIMEOUT p2.pid q with
        | none => none
        | some q1 =>
          match check_timeouts_loop now ps (i + 1) q1 with
          | none => none
          | some (ps1, q2) => some (p2 :: ps1, q2)
      else
        match check_timeouts_loop now ps (i + 1) q with
        | none => none
        | some (ps1, q2) => some (p1 :: ps1, q2)
    else
      match check_timeouts_loop now ps (i + 1) q with
      | none => none
      | some (ps1, q2) => some (p :: ps1, q2)

/-- Model of `check_timeouts()`. -/
def check_timeouts (now : Nat → Int) (w : SystemState) (q : IntState) :
    Option (SystemState × IntState) :=
  match check_timeouts_loop now w.processes 0 q with
  | none => none
  | some (ps, q1) => some ({ w with processes := ps }, q1)

/-! ## The whole machine -/

/-- All global state of the simulator. -/
structure Machine where
  cfg : Config
  world : SystemState
  sched : SchedState
  mem : MemState
  io : IOBuffer
  intr : IntState

/-- The machine after the initialisation sequence of `main`: `state_init`,
`scheduler_init`, `memory_init`, `io_buffer_init`, `interrupt_init`. -/
def machine_init (cfg : Config) : Machine :=
  { cfg := cfg, world := state_init, sched := scheduler_init,
    mem := memory_init cfg mem_static, io := io_buffer_init io_static,
    intr := interrupt_init int_static }

/-- Model of `handle_exam_timeout(pid, &g_state)`; `now` is the clock reading of the
submission. `snprintf` into `char answer[64]` keeps the first 63 characters. -/
def handle_exam_timeout (now : Int) (pid : Int) (mc : Machine) : Option Machine :=
  match io_buffer_submit now pid 0 (some (("PARTIAL_PID" ++ toString pid).take 63)) 1
      mc.io mc.world with
  | none => none
  | some (_, io1, w1) =>
    match memory_free_process (pid - 1) mc.mem w1 with
    | none => none
    | some (mem1, w2) =>
      let w3 := scheduler_terminate_process pid w2
      some { mc with io := io1, mem := mem1,
                     world := { w3 with timeouts_fired := w3.timeouts_fired + 1 } }

/-- Model of `handle_overload(pid, &g_state)`. -/
def handle_overload (mc : Machine) : Machine :=
  { mc with world := { mc.world with overload_signals := mc.world.overload_signals + 1 } }

/-- The lookup loop of `dispatch`: the first IVT entry with the given id. -/
def ivt_lookup (id : Int) : List IVTEntry → Option Handler
  | [] => none
  | e :: es => if e.interrupt_id = id then some e.handler else ivt_lookup id es

/-- Model of `dispatch(pi)`; an unknown id is only logged. -/
def dispatch (now : Int) (pi : PendingInterrupt) (mc : Machine) : Option Machine :=
  match ivt_lookup pi.interrupt_id mc.intr.ivt with
  | some Handler.handle_exam_timeout => handle_exam_timeout now pi.pid mc
  | some Handler.handle_overload => some (handle_overload mc)
  | some Handler.handle_page_fault => some mc
  | some Handler.handle_submit_complete => some mc
  | none => some mc

/-- The queue part of one iteration of the dispatch loop of `interrupt_thread`:
`sem_trywait(&int_ready)`, then, under the queue lock, the pop of the head. The result is
`(none, q)` when the loop breaks (the semaphore is 0, or the queue is empty) and
`(some pi, q)` when `pi` was popped. -/
def interrupt_take (q : IntState) : Option (Option PendingInterrupt × IntState) :=
  match q.int_ready with
  | 0 => some (none, q)
  | ready + 1 =>
    let q := { q with int_ready := ready }
    if q.int_q_count = 0 then some (none, q) else
    if ¬ (0 ≤ q.int_q_head ∧ q.int_q_head < INT_QUEUE_CAPACITY) then none else
    let pi := q.int_queue q.int_q_head
    some (some pi,
      { q with int_q_head := (q.int_q_head + 1).tmod INT_QUEUE_CAPACITY,
               int_q_count := q.int_q_count - 1 })

/-- The dispatch loop of `interrupt_thread`: while `sem_trywait(&int_ready)` succeeds and
the queue is not empty, pop the head and dispatch it. Every iteration takes one unit of
the semaphore and no handler raises an interrupt, so `fuel = int_ready` iterations are
enough. `k` counts the dispatches done so far and `now k` is the clock reading of
dispatch number `k`. -/
def drain_loop (now : Nat → Int) : Nat → Nat → Machine → Option Machine
  | 0, _, mc => some mc
  | fuel + 1, k, mc =>
    match interrupt_take mc.intr with
    | none => none
    | some (none, q) => some { mc with intr := q }
    | some (some pi, q1) =>
      match dispatch (now k) pi { mc with intr := q1 } with
      | none => none
      | some mc1 => drain_loop now fuel (k + 1) mc1

/-- One run of the dispatch loop of `interrupt_thread`. -/
def drain_interrupts (now : Nat → Int) (mc : Machine) : Option Machine :=
  drain_loop now mc.intr.int_ready 0 mc

/-- The admission loop of `scheduler_thread`: `batch` PCBs from number `i` on, with pid
`added + i + 1`; `rnd i` is the value of `rand() % 10` drawn for PCB `i`. -/
def admission_loop (cfg : Config) (rnd : Nat → Int) (added : Int) :
    Nat → Nat → SchedState → SystemState → Option (SchedState × SystemState)
  | _, 0, s, w => some (s, w)
  | i, batch + 1, s, w =>
    let p : PCB :=
      { pid := added + (i : Int) + 1, state := ProcessState.NEW, priority := 1,
        total_time := cfg.exam_duration,
        remaining_time := cfg.exam_duration - rnd i,
        waiting_time := 0, turnaround_time := 0, pages_used := 0 }
    match scheduler_add_process p s w with
    | none => none
    | some (s1, w1) => admission_loop cfg rnd added (i + 1) batch s1 w1

/-- The admission block of `scheduler_thread` (run when `tick % 10 == 0`). -/
def admission_batch (cfg : Config) (rnd : Nat → Int) (s : SchedState) (w : SystemState) :
    Option (SchedState × SystemState) :=
  let added := w.process_count
  if added < cfg.num_students then
    let batch := if cfg.num_students - added < 5 then cfg.num_students - added else 5
    admission_loop cfg rnd added 0 batch.toNat s w
  else some (s, w)

/-- One scheduling decision of `scheduler_thread`. -/
def schedule_step (cfg : Config) (s : SchedState) (w : SystemState) :
    Option (SchedState × SystemState) :=
  if cfg.sched_algo = SchedAlgo.ROUND_ROBIN then run_round_robin cfg s w
  else run_priority cfg s w

/-- The steps of the machine that change PCBs: an admission block, a scheduling
decision, a pass of the timeout detector, a run of the dispatch loop. -/
inductive Step where
  | admission (rnd : Nat → Int)
  | schedule
  | detect (now : Nat → Int)
  | drain (now : Nat → Int)

/-- The effect of one step on the machine. -/
def Machine.step (mc : Machine) : Step → Option Machine
  | Step.admission rnd =>
    match admission_batch mc.cfg rnd mc.sched mc.world with
    | none => none
    | some (s, w) => some { mc with sched := s, world := w }
  | Step.schedule =>
    match schedule_step mc.cfg mc.sched mc.world with
    | none => none
    | some (s, w) => some { mc with sched := s, world := w }
  | Step.detect now =>
    match check_timeouts now mc.world mc.intr with
    | none => none
    | some (w, q) => some { mc with world := w, intr := q }
  | Step.drain now => drain_interrupts now mc

/-- The effect of a sequence of steps. -/
def Machine.run (mc : Machine) : List Step → Option Machine
  | [] => some mc
  | st :: rest =>
    match mc.step st with
    | none => none
    | some mc1 => mc1.run rest

/-- Number of PCBs of the table whose state is not TERMINATED. -/
def active_count (w : SystemState) : Int :=
  ((w.processes.filter (fun p => decide (p.state ≠ ProcessState.TERMINATED))).length : Int)

/-! ## I/O buffer (`io_buffer.c`): the consumer and traces of calls -/

/-- The `count` elements of a ring `a` of capacity `cap` from index `head` on, oldest
first. -/
def ring_list {α : Type} (a : Int → α) (head count cap : Int) : List α :=
  (List.range count.toNat).map (fun (k : Nat) => a ((head + (k : Int)) % cap))

/-- The submissions held in the buffer, oldest first. -/
def io_contents (b : IOBuffer) : List Submission :=
  ring_list b.buffer b.head b.count BUFFER_CAPACITY

/-- The drain loop of `flush_buffer` with `fuel = count - flushed` iterations left; `out`
collects the records written to the submissions file by `fprintf`, in write order. -/
def flush_loop :
    Nat → IOBuffer → SystemState → List Submission →
      Option (IOBuffer × SystemState × List Submission)
  | 0, b, w, out => some (b, w, out)
  | fuel + 1, b, w, out =>
    match b.filled_slots with
    | 0 => some (b, w, out)
    | filled + 1 =>
      if ¬ (0 ≤ b.head ∧ b.head < BUFFER_CAPACITY) then none else
      let s := b.buffer b.head
      let b1 : IOBuffer :=
        { buffer := b.buffer,
          head := (b.head + 1).tmod BUFFER_CAPACITY,
          tail := b.tail,
          count := b.count - 1,
          empty_slots := b.empty_slots + 1,
          filled_slots := filled }
      flush_loop fuel b1 { w with buffer_count := b1.count } (out ++ [s])

/-- Model of `flush_buffer()`: the returned number of flushed submissions, the new buffer
and world state, and the records written to the submissions file. -/
def flush_buffer (b : IOBuffer) (w : SystemState) :
    Option (Int × IOBuffer × SystemState × List Submission) :=
  if b.count = 0 then some (0, b, w, []) else
  match flush_loop b.count.toNat b w [] with
  | none => none
  | some (b1, w1, out) =>
    some ((out.length : Int), b1,
      (if (out.length : Int) > 0 then { w1 with flush_count := w1.flush_count + 1 } else w1),
      out)

/-- A call on the I/O buffer. -/
inductive IOOp where
  | submit (now pid question_id : Int) (answer : Option String) ( is_partial : Int)
  | flush

/-- The buffer and world state after a sequence of calls, with three logs: the values
returned by the `io_buffer_submit` calls, the records accepted by the calls that returned
0 (as stored: the first 127 characters of the answer, "EMPTY" for a null pointer), and
the records written to the submissions file. -/
structure IOTrace where
  io : IOBuffer
  world : SystemState
  returns : List Int
  accepted : List Submission
  disk : List Submission

/-- The trace right after `io_buffer_init`, in world state `w`. -/
def IOTrace.init (w : SystemState) : IOTrace :=
  { io := io_buffer_init io_static, world := w, returns := [], accepted := [], disk := [] }

/-- The effect of one call. -/
def IOTrace.step (t : IOTrace) : IOOp → Option IOTrace
  | IOOp.submit now pid question_id answer is_partial =>
    match io_buffer_submit now pid question_id answer is_partial t.io t.world with
    | none => none
    | some (ret, b, w) =>
      some { io := b, world := w, returns := t.returns ++ [ret],
             accepted :=
               if ret = 0 then
                 t.accepted ++ [⟨pid, question_id,
                   (match answer with | some a => a | none => "EMPTY").take 127,
                   now, is_partial⟩]
               else t.accepted,
             disk := t.disk }
  | IOOp.flush =>
    match flush_buffer t.io t.world with
    | none => none
    | some (_, b, w, out) =>
      some { io := b, world := w, returns := t.returns, accepted := t.accepted,
             disk := t.disk ++ out }

/-- The effect of a sequence of calls. -/
def IOTrace.run (t : IOTrace) : List IOOp → Option IOTrace
  | [] => some t
  | op :: rest =>
    match t.step op with
    | none => none
    | some t1 => t1.run rest

/-- Number of `io_buffer_submit` calls in a sequence of calls. -/
def num_submits : List IOOp → Nat
  | [] => 0
  | IOOp.submit _ _ _ _ _ :: rest => num_submits rest + 1
  | IOOp.flush :: rest => num_submits rest

/-- The invariant of the I/O buffer: the count and both indices are in range, the tail
is `count` places after the head, and the semaphores agree with the count. -/
def io_buffer_inv (b : IOBuffer) : Prop :=
  0 ≤ b.count ∧ b.count ≤ BUFFER_CAPACITY ∧
  0 ≤ b.head ∧ b.head < BUFFER_CAPACITY ∧
  0 ≤ b.tail ∧ b.tail < BUFFER_CAPACITY ∧
  b.tail = (b.head + b.count) % BUFFER_CAPACITY ∧
  (b.empty_slots : Int) + b.count = BUFFER_CAPACITY ∧
  b.count ≤ (b.filled_slots : Int)

/-! ## Interrupt subsystem: detectors, queue traces and the dispatcher tick -/

/-- The pending interrupts held in the queue, oldest first. -/
def pending (q : IntState) : List PendingInterrupt :=
  ring_list q.int_queue q.int_q_head q.int_q_count INT_QUEUE_CAPACITY

/-- The invariant of the pending queue: the count and both indices are in range, the
tail is `int_q_count` places after the head, and the semaphore `int_ready` equals the
count. -/
def int_queue_inv (q : IntState) : Prop :=
  0 ≤ q.int_q_count ∧ q.int_q_count ≤ INT_QUEUE_CAPACITY ∧
  0 ≤ q.int_q_head ∧ q.int_q_head < INT_QUEUE_CAPACITY ∧
  0 ≤ q.int_q_tail ∧ q.int_q_tail < INT_QUEUE_CAPACITY ∧
  q.int_q_tail = (q.int_q_head + q.int_q_count) % INT_QUEUE_CAPACITY ∧
  (q.int_ready : Int) = q.int_q_count

/-- The value of the `float` literal `0.95f`: the binary32 number nearest to 0.95, which
is `15938355 / 2^24`. -/
def FLOAT_0_95 : Rat := 15938355 / 16777216

/-- Model of `check_overload()`. The quotient `(float)count / BUFFER_CAPACITY` is exact
in binary32 for every count of magnitude below `2^24` (an integer divided by a power of
two), so it is the rational `count / 256`; it is compared with the value of `0.95f`. -/
def check_overload (now : Int) (b : IOBuffer) (q : IntState) : Option IntState :=
  let fill : Rat := (b.count : Rat) / (BUFFER_CAPACITY : Rat)
  if fill ≥ FLOAT_0_95 then interrupt_raise now INT_OVERLOAD (-1) q else some q

/-- A call on the pending queue: a raise, or the queue part of one iteration of the
dispatch loop. -/
inductive IntOp where
  | raise (now interrupt_id pid : Int)
  | take

/-- The pending queue after a sequence of calls, with two logs: the interrupts entered in
the queue by the raises, in raise order, and the interrupts popped for dispatch, in pop
order. -/
structure IntTrace where
  q : IntState
  raised : List PendingInterrupt
  dispatched : List PendingInterrupt

/-- The effect of one call. -/
def IntTrace.step (t : IntTrace) : IntOp → Option IntTrace
  | IntOp.raise now interrupt_id pid =>
    match interrupt_raise now interrupt_id pid t.q with
    | none => none
    | some q1 =>
      some { q := q1,
             raised := if t.q.int_q_count < INT_QUEUE_CAPACITY
               then t.raised ++ [⟨interrupt_id, pid, now⟩] else t.raised,
             dispatched := t.dispatched }
  | IntOp.take =>
    match interrupt_take t.q with
    | none => none
    | some (none, q1) => some { t with q := q1 }
    | some (some pi, q1) =>
      some { q := q1, raised := t.raised, dispatched := t.dispatched ++ [pi] }

/-- The effect of a sequence of calls. -/
def IntTrace.run (t : IntTrace) : List IntOp → Option IntTrace
  | [] => some t
  | op :: rest =>
    match t.step op with
    | none => none
    | some t1 => t1.run rest

/-- The effect of one pass of the timeout detector on one PCB. -/
def tick_pcb (p : PCB) : PCB :=
  if p.state = ProcessState.RUNNING ∨ p.state = ProcessState.READY then
    if p.remaining_time - 1 ≤ 0 then
      { p with remaining_time := p.remaining_time - 1, state := ProcessState.TERMINATED }
    else { p with remaining_time := p.remaining_time - 1 }
  else p

/-- The EXAM_TIMEOUT interrupts that one pass of the timeout detector raises for a PCB
table, in table order; `i` is the table index of the first PCB of the list. -/
def timeout_raises (now : Nat → Int) : List PCB → Nat → List PendingInterrupt
  | [], _ => []
  | p :: ps, i =>
    if (p.state = ProcessState.RUNNING ∨ p.state = ProcessState.READY)
        ∧ p.remaining_time - 1 ≤ 0 then
      ⟨INT_EXAM_TIMEOUT, p.pid, now i⟩ :: timeout_raises now ps (i + 1)
    else timeout_raises now ps (i + 1)

/-- Consecutive passes of the timeout detector, one per clock of the list. -/
def detector_passes : List (Nat → Int) → SystemState → IntState →
    Option (SystemState × IntState)
  | [], w, q => some (w, q)
  | now :: rest, w, q =>
    match check_timeouts now w q with
    | none => none
    | some (w1, q1) => detector_passes rest w1 q1

/-- A call on the scheduler: `scheduler_add_process(p)`, or one scheduling decision of
`scheduler_thread`. -/
inductive SchedOp where
  | add (p : PCB)
  | step

/-- The scheduler and the world state after a sequence of calls, with two logs: the value
of `running_pid` after every scheduling decision, and the pid that ran in every decision
that took a PCB out of the ready queue (the decisions that end with
`scheduler_terminate_process`). -/
structure SchedTrace where
  sched : SchedState
  world : SystemState
  running : List Int
  completed : List Int

/-- The effect of one call. -/
def SchedTrace.step (cfg : Config) (t : SchedTrace) : SchedOp → Option SchedTrace
  | SchedOp.add p =>
    match scheduler_add_process p t.sched t.world with
    | none => none
    | some (s, w) => some { t with sched := s, world := w }
  | SchedOp.step =>
    match schedule_step cfg t.sched t.world with
    | none => none
    | some (s, w) =>
      some { sched := s, world := w,
             running := t.running ++ [w.running_pid],
             completed :=
               if s.ready_queue.length < t.sched.ready_queue.length
               then t.completed ++ [w.running_pid] else t.completed }

/-- The effect of a sequence of calls. -/
def SchedTrace.run (cfg : Config) (t : SchedTrace) : List SchedOp → Option SchedTrace
  | [] => some t
  | op :: rest =>
    match t.step cfg op with
    | none => none
    | some t1 => t1.run cfg rest

/-- The progress of a PRIORITY run over the PCBs `q0` with time quantum `quantum`, seen
in a state with ready queue `rq` and completion log `completed`. The PCBs of `q0` split
into the completed ones `D`, in completion order, and the others `R`; `D` is in
non-decreasing order of (initial) `remaining_time`, no PCB of `D` is above a PCB of `R`,
and the log holds the pids of `D`. The queue holds the PCBs of `R`, either all as they
were, or all but one `c`, which has run `k ≥ 1` quanta, is still alive and is not above
any other PCB of `R`. -/
def priority_progress (quantum : Int) (q0 rq : List PCB) (completed : List Int) : Prop :=
  ∃ D R : List PCB, q0.Perm (D ++ R) ∧
    D.Pairwise (fun a b => a.remaining_time ≤ b.remaining_time) ∧
    (∀ d ∈ D, ∀ x ∈ R, d.remaining_time ≤ x.remaining_time) ∧
    completed = D.map (fun p => p.pid) ∧
    (rq.Perm R ∨
     ∃ (c : PCB) (R1 : List PCB) (k : Nat), R.Perm (c :: R1) ∧
       (∀ x ∈ R1, c.remaining_time ≤ x.remaining_time) ∧ 1 ≤ k ∧
       0 < c.remaining_time - (k : Int) * quantum ∧
       rq.Perm ({ c with remaining_time := c.remaining_time - (k : Int) * quantum } :: R1))

/-! ## Scheduler: erasure of the `priority` field -/

/-- A PCB with the field `priority` overwritten by 0. Two PCBs differ only in `priority`
exactly when their erasures are equal. -/
def erase_priority (p : PCB) : PCB := { p with priority := 0 }

/-- The scheduler state with the `priority` of every queued PCB erased. -/
def erase_sched (s : SchedState) : SchedState :=
  { s with ready_queue := s.ready_queue.map erase_priority }

/-- The world state with the `priority` of every PCB of the table erased. -/
def erase_world (w : SystemState) : SystemState :=
  { w with processes := w.processes.map erase_priority }

/-- A scheduler call with the `priority` of the added PCB erased. -/
def erase_op : SchedOp → SchedOp
  | SchedOp.add p => SchedOp.add (erase_priority p)
  | SchedOp.step => SchedOp.step

/-- A scheduler trace with every `priority` erased; the logs hold pids only. -/
def erase_trace (t : SchedTrace) : SchedTrace :=
  { t with sched := erase_sched t.sched, world := erase_world t.world }

/-! ## Memory manager: sequences of calls -/

/-- A call on the memory manager: `memory_access(pid, virtual_page)` with its two clock
readings, or `memory_free_process(pid)`. -/
inductive MemOp where
  | access (t1 t2 pid virtual_page : Int)
  | free (pid : Int)

/-- The effect of one call on the memory and world state. -/
def mem_step (cfg : Config) (m : MemState) (w : SystemState) :
    MemOp → Option (MemState × SystemState)
  | MemOp.access t1 t2 pid virtual_page =>
    match memory_access cfg t1 t2 pid virtual_page m w with
    | none => none
    | some (_, m1, w1) => some (m1, w1)
  | MemOp.free pid => memory_free_process pid m w

/-- The effect of a sequence of calls. -/
def mem_run (cfg : Config) : List MemOp → MemState → SystemState →
    Option (MemState × SystemState)
  | [], m, w => some (m, w)
  | op :: rest, m, w =>
    match mem_step cfg m w op with
    | none => none
    | some (m1, w1) => mem_run cfg rest m1 w1

/-- No entry of `page_tables[MAX_STUDENTS][MAX_PAGES]` is dirty. -/
def no_dirty (m : MemState) : Prop :=
  ∀ p v : Int, pt_in_bounds p v → (m.page_tables p v).dirty = 0

/-! ## I/O buffer (`io_buffer.c`): the demo storm -/

/-- The loop of `trigger_submission_storm`, at submission `i` with `fuel` iterations left.
`rnd k` is the value returned by call number `k` of `rand()` (two calls per submission:
one in `snprintf`, then one in the arguments of `io_buffer_submit`), `now i` the clock
reading of submission `i`; `%` is C remainder and `snprintf` into `char answer[64]` keeps
the first 63 characters. -/
def storm_loop (now : Nat → Int) (rnd : Nat → Int) :
    Nat → Nat → IOBuffer → SystemState → Option (IOBuffer × SystemState)
  | _, 0, b, w => some (b, w)
  | i, fuel + 1, b, w =>
    let answer :=
      ("ANS_" ++ toString (i : Int) ++ "_" ++ toString ((rnd (2 * i)).tmod 100)).take 63
    match io_buffer_submit (now i) ((i : Int) + 1) ((rnd (2 * i + 1)).tmod 10 + 1)
        (some answer) 0 b w with
    | none => none
    | some (_, b1, w1) => storm_loop now rnd (i + 1) fuel b1 w1

/-- Model of `trigger_submission_storm()`. -/
def trigger_submission_storm (now : Nat → Int) (rnd : Nat → Int) (b : IOBuffer)
    (w : SystemState) : Option (IOBuffer × SystemState) :=
  let count := w.process_count
  let storms := if count < 30 then count else 30
  storm_loop now rnd 0 storms.toNat b w

/-- The demo block of one iteration of `io_buffer_thread`: the storm fires when
`g_config.demo_mode && tick >= 30 && !storm_triggered && count >= 10`. The result holds
the new value of the local variable `storm_triggered`. -/
def storm_block (cfg : Config) (now : Nat → Int) (rnd : Nat → Int) (storm_triggered : Int)
    (b : IOBuffer) (w : SystemState) : Option (IOBuffer × SystemState × Int) :=
  if cfg.demo_mode ≠ 0 ∧ w.current_tick ≥ 30 ∧ storm_triggered = 0
      ∧ w.process_count ≥ 10 then
    match trigger_submission_storm now rnd b w with
    | none => none
    | some (b1, w1) => some (b1, w1, 1)
  else some (b, w, storm_triggered)

/-! ## Memory manager: access traces of one process -/

/-- The calls `memory_access(pid, page)` of one process; a call is given as its two
clock readings and its page. -/
def access_trace (pid : Int) (l : List (Int × Int × Int)) : List MemOp :=
  l.map (fun x => MemOp.access x.1 x.2.1 pid x.2.2)

/-- The clock readings of an access trace, in program order. -/
def clock_readings : List (Int × Int × Int) → List Int
  | [] => []
  | (t1, t2, _) :: rest => t1 :: t2 :: clock_readings rest

/-- The state of an 8-frame pool while one process touches pages `1..7` after page 0:
frame 0 holds page 0, loaded with order `c0` and last touched at `a0`; the pages of `L`
(distinct, in `1..7`) sit in the frames `1, 2, ...` in the order of their loading, each
loaded after page 0 and touched no earlier than `a0`; the other frames are free. -/
def frames_filled (pid a0 c0 : Int) (L : List Int) (m : MemState) : Prop :=
  consistent m ∧ m.total_frames = 8 ∧
  (m.frame_pool 0).pid = pid ∧ (m.frame_pool 0).virtual_page = 0 ∧
  (m.frame_pool 0).load_order = c0 ∧ (m.frame_pool 0).last_accessed = a0 ∧
  c0 < m.fifo_counter ∧ L.Nodup ∧ (∀ v ∈ L, 1 ≤ v ∧ v ≤ 7) ∧
  (∀ (i : Nat) (v : Int), L[i]? = some v →
    (m.frame_pool ((i : Int) + 1)).pid = pid ∧
    (m.frame_pool ((i : Int) + 1)).virtual_page = v ∧
    c0 < (m.frame_pool ((i : Int) + 1)).load_order ∧
    a0 ≤ (m.frame_pool ((i : Int) + 1)).last_accessed) ∧
  (∀ f : Int, (L.length : Int) < f → f < 8 → (m.frame_pool f).pid = -1)

/-! ## Memory manager: consistency in the words of the specification -/

/-- Frame/page-table consistency as the specification words it: for each frame of the
pool with owner `pid ≥ 0`, the entry `page_tables[pid][virtual_page]` is valid and has
`frame_number` equal to that frame; for each valid page-table entry, `frame_number ≥ 0`
and the referenced frame holds the `(pid, virtual_page)` of that entry. -/
def frame_table_consistency (m : MemState) : Prop :=
  (∀ f : Int, 0 ≤ f → f < m.total_frames → 0 ≤ (m.frame_pool f).pid →
    (m.page_tables (m.frame_pool f).pid (m.frame_pool f).virtual_page).valid ≠ 0 ∧
    (m.page_tables (m.frame_pool f).pid (m.frame_pool f).virtual_page).frame_number = f) ∧
  (∀ p v : Int, pt_in_bounds p v → (m.page_tables p v).valid ≠ 0 →
    0 ≤ (m.page_tables p v).frame_number ∧
    (m.frame_pool (m.page_tables p v).frame_number).pid = p ∧
    (m.frame_pool (m.page_tables p v).frame_number).virtual_page = v)

/-- The states of an empty pool (`total_frames ≤ 0`, that is `memory_frames ≤ 0`): every
valid page-table entry references slot 0 of `frame_pool`, which holds its
`(pid, virtual_page)`, and the page recorded in slot 0 lies inside the page tables. -/
def empty_pool_inv (m : MemState) : Prop :=
  m.total_frames ≤ 0 ∧
  (∀ p v : Int, pt_in_bounds p v → (m.page_tables p v).valid ≠ 0 →
    (m.page_tables p v).frame_number = 0 ∧
    (m.frame_pool 0).pid = p ∧ (m.frame_pool 0).virtual_page = v) ∧
  (0 ≤ (m.frame_pool 0).pid → (m.frame_pool 0).pid < MAX_STUDENTS →
    0 ≤ (m.frame_pool 0).virtual_page → (m.frame_pool 0).virtual_page < MAX_PAGES)

/-! # Theorems -/

/-! ### Lemmas on the frame scans -/

theorem find_free_loop_spec (m : MemState) :
    ∀ (fuel i : Nat),
      (find_free_loop m i fuel = -1 ∧
        ∀ j : Nat, i ≤ j → j < i + fuel → (m.frame_pool (j : Int)).pid ≠ -1) ∨
      (∃ k : Nat, find_free_loop m i fuel = (k : Int) ∧ i ≤ k ∧ k < i + fuel ∧
        (m.frame_pool (k : Int)).pid = -1 ∧
        ∀ j : Nat, i ≤ j → j < k → (m.frame_pool (j : Int)).pid ≠ -1) := by
  intro fuel
  induction fuel with
  | zero =>
    intro i
    left
    refine ⟨rfl, ?_⟩
    intro j h1 h2
    omega
  | succ fuel ih =>
    intro i
    by_cases hfree : (m.frame_pool (i : Int)).pid = -1
    · right
      refine ⟨i, ?_, le_refl i, by omega, hfree, ?_⟩
      · simp [find_free_loop, hfree]
      · intro j h1 h2
        omega
    · have hstep : find_free_loop m i (fuel + 1) = find_free_loop m (i + 1) fuel := by
        simp [find_free_loop, hfree]
      rcases ih (i + 1) with ⟨h1, h2⟩ | ⟨k, h1, h2, h3, h4, h5⟩
      · left
        refine ⟨by rw [hstep, h1], ?_⟩
        intro j hj1 hj2
        by_cases hji : j = i
        · subst hji; exact hfree
        · exact h2 j (by omega) (by omega)
      · right
        refine ⟨k, by rw [hstep, h1], by omega, by omega, h4, ?_⟩
        intro j hj1 hj2
        by_cases hji : j = i
        · subst hji; exact hfree
        · exact h5 j (by omega) hj2

theorem evict_fifo_loop_spec (m : MemState) :
    ∀ (fuel i b : Nat), b < i →
      (∀ j : Nat, j < i → (m.frame_pool (b : Int)).load_order ≤ (m.frame_pool (j : Int)).load_order) →
      (∀ j : Nat, j < b → (m.frame_pool (b : Int)).load_order < (m.frame_pool (j : Int)).load_order) →
      ∃ r : Nat, evict_fifo_loop m i fuel (b : Int) (m.frame_pool (b : Int)).load_order = (r : Int) ∧
        r < i + fuel ∧
        (∀ j : Nat, j < i + fuel →
          (m.frame_pool (r : Int)).load_order ≤ (m.frame_pool (j : Int)).load_order) ∧
        (∀ j : Nat, j < r →
          (m.frame_pool (r : Int)).load_order < (m.frame_pool (j : Int)).load_order) := by
  intro fuel
  induction fuel with
  | zero =>
    intro i b hb hmin hfirst
    exact ⟨b, rfl, by omega, fun j hj => hmin j (by omega), hfirst⟩
  | succ fuel ih =>
    intro i b hb hmin hfirst
    by_cases hlt : (m.frame_pool (i : Int)).load_order < (m.frame_pool (b : Int)).load_order
    · have hstep : evict_fifo_loop m i (fuel + 1) (b : Int) (m.frame_pool (b : Int)).load_order
          = evict_fifo_loop m (i + 1) fuel (i : Int) (m.frame_pool (i : Int)).load_order := by
        simp [evict_fifo_loop, hlt]
      obtain ⟨r, h1, h2, h3, h4⟩ := ih (i + 1) i (by omega)
        (by
          intro j hj
          by_cases hji : j = i
          · subst hji; exact le_refl _
          · have := hmin j (by omega); omega)
        (by
          intro j hj
          have := hmin j hj; omega)
      exact ⟨r, by rw [hstep, h1], by omega, fun j hj => h3 j (by omega), h4⟩
    · have hstep : evict_fifo_loop m i (fuel + 1) (b : Int) (m.frame_pool (b : Int)).load_order
          = evict_fifo_loop m (i + 1) fuel (b : Int) (m.frame_pool (b : Int)).load_order := by
        simp [evict_fifo_loop, hlt]
      obtain ⟨r, h1, h2, h3, h4⟩ := ih (i + 1) b (by omega)
        (by
          intro j hj
          by_cases hji : j = i
          · subst hji; omega
          · exact hmin j (by omega))
        hfirst
      exact ⟨r, by rw [hstep, h1], by omega, fun j hj => h3 j (by omega), h4⟩

theorem evict_fifo_spec (m : MemState) (h : 1 ≤ m.total_frames) :
    ∃ r : Nat, evict_fifo m = (r : Int) ∧ (r : Int) < m.total_frames ∧
      (∀ j : Nat, (j : Int) < m.total_frames →
        (m.frame_pool (r : Int)).load_order ≤ (m.frame_pool (j : Int)).load_order) ∧
      (∀ j : Nat, j < r →
        (m.frame_pool (r : Int)).load_order < (m.frame_pool (j : Int)).load_order) := by
  obtain ⟨r, h1, h2, h3, h4⟩ := evict_fifo_loop_spec m (m.total_frames.toNat - 1) 1 0 (by omega)
    (by
      intro j hj
      have hj0 : j = 0 := by omega
      subst hj0; exact le_refl _)
    (by intro j hj; omega)
  refine ⟨r, ?_, by omega, ?_, h4⟩
  · simpa [evict_fifo] using h1
  · intro j hj
    exact h3 j (by omega)

theorem evict_lru_loop_spec (m : MemState) :
    ∀ (fuel i b : Nat), b < i →
      (∀ j : Nat, j < i → (m.frame_pool (b : Int)).last_accessed ≤ (m.frame_pool (j : Int)).last_accessed) →
      (∀ j : Nat, j < b → (m.frame_pool (b : Int)).last_accessed < (m.frame_pool (j : Int)).last_accessed) →
      ∃ r : Nat, evict_lru_loop m i fuel (b : Int) (m.frame_pool (b : Int)).last_accessed = (r : Int) ∧
        r < i + fuel ∧
        (∀ j : Nat, j < i + fuel →
          (m.frame_pool (r : Int)).last_accessed ≤ (m.frame_pool (j : Int)).last_accessed) ∧
        (∀ j : Nat, j < r →
          (m.frame_pool (r : Int)).last_accessed < (m.frame_pool (j : Int)).last_accessed) := by
  intro fuel
  induction fuel with
  | zero =>
    intro i b hb hmin hfirst
    exact ⟨b, rfl, by omega, fun j hj => hmin j (by omega), hfirst⟩
  | succ fuel ih =>
    intro i b hb hmin hfirst
    by_cases hlt : (m.frame_pool (i : Int)).last_accessed < (m.frame_pool (b : Int)).last_accessed
    · have hstep : evict_lru_loop m i (fuel + 1) (b : Int) (m.frame_pool (b : Int)).last_accessed
          = evict_lru_loop m (i + 1) fuel (i : Int) (m.frame_pool (i : Int)).last_accessed := by
        simp [evict_lru_loop, hlt]
      obtain ⟨r, h1, h2, h3, h4⟩ := ih (i + 1) i (by omega)
        (by
          intro j hj
          by_cases hji : j = i
          · subst hji; exact le_refl _
          · have := hmin j (by omega); omega)
        (by
          intro j hj
          have := hmin j hj; omega)
      exact ⟨r, by rw [hstep, h1], by omega, fun j hj => h3 j (by omega), h4⟩
    · have hstep : evict_lru_loop m i (fuel + 1) (b : Int) (m.frame_pool (b : Int)).last_accessed
          = evict_lru_loop m (i + 1) fuel (b : Int) (m.frame_pool (b : Int)).last_accessed := by
        simp [evict_lru_loop, hlt]
      obtain ⟨r, h1, h2, h3, h4⟩ := ih (i + 1) b (by omega)
        (by
          intro j hj
          by_cases hji : j = i
          · subst hji; omega
          · exact hmin j (by omega))
        hfirst
      exact ⟨r, by rw [hstep, h1], by omega, fun j hj => h3 j (by omega), h4⟩

theorem evict_lru_spec (m : MemState) (h : 1 ≤ m.total_frames) :
    ∃ r : Nat, evict_lru m = (r : Int) ∧ (r : Int) < m.total_frames ∧
      (∀ j : Nat, (j : Int) < m.total_frames →
        (m.frame_pool (r : Int)).last_accessed ≤ (m.frame_pool (j : Int)).last_accessed) ∧
      (∀ j : Nat, j < r →
        (m.frame_pool (r : Int)).last_accessed < (m.frame_pool (j : Int)).last_accessed) := by
  obtain ⟨r, h1, h2, h3, h4⟩ := evict_lru_loop_spec m (m.total_frames.toNat - 1) 1 0 (by omega)
    (by
      intro j hj
      have hj0 : j = 0 := by omega
      subst hj0; exact le_refl _)
    (by intro j hj; omega)
  refine ⟨r, ?_, by omega, ?_, h4⟩
  · simpa [evict_lru] using h1
  · intro j hj
    exact h3 j (by omega)

theorem find_free_frame_spec (m : MemState) :
    (find_free_frame m = -1 ∧
      ∀ j : Int, 0 ≤ j → j < m.total_frames → (m.frame_pool j).pid ≠ -1) ∨
    (0 ≤ find_free_frame m ∧ find_free_frame m < m.total_frames ∧
      (m.frame_pool (find_free_frame m)).pid = -1 ∧
      ∀ j : Int, 0 ≤ j → j < find_free_frame m → (m.frame_pool j).pid ≠ -1) := by
  rcases find_free_loop_spec m m.total_frames.toNat 0 with ⟨h1, h2⟩ | ⟨k, h1, h2, h3, h4, h5⟩
  · left
    refine ⟨h1, ?_⟩
    intro j hj0 hj1
    have := h2 j.toNat (by omega) (by omega)
    rwa [Int.toNat_of_nonneg hj0] at this
  · right
    have hk : find_free_frame m = (k : Int) := h1
    rw [hk]
    refine ⟨by omega, by omega, h4, ?_⟩
    intro j hj0 hj1
    have := h5 j.toNat (by omega) (by omega)
    rwa [Int.toNat_of_nonneg hj0] at this

theorem evict_key_min (cfg : Config) (m : MemState) (h : 1 ≤ m.total_frames) :
    0 ≤ (if cfg.page_algo = PageAlgo.LRU then evict_lru m else evict_fifo m) ∧
    (if cfg.page_algo = PageAlgo.LRU then evict_lru m else evict_fifo m) < m.total_frames ∧
    (∀ j : Int, 0 ≤ j → j < m.total_frames →
      evict_key cfg (m.frame_pool
        (if cfg.page_algo = PageAlgo.LRU then evict_lru m else evict_fifo m))
        ≤ evict_key cfg (m.frame_pool j)) ∧
    (∀ j : Int, 0 ≤ j →
      j < (if cfg.page_algo = PageAlgo.LRU then evict_lru m else evict_fifo m) →
      evict_key cfg (m.frame_pool
        (if cfg.page_algo = PageAlgo.LRU then evict_lru m else evict_fifo m))
        < evict_key cfg (m.frame_pool j)) := by
  by_cases halgo : cfg.page_algo = PageAlgo.LRU
  · obtain ⟨r, h1, h2, h3, h4⟩ := evict_lru_spec m h
    simp only [halgo, if_true, evict_key, h1]
    refine ⟨by omega, h2, ?_, ?_⟩
    · intro j hj0 hj1
      have := h3 j.toNat (by omega)
      rwa [Int.toNat_of_nonneg hj0] at this
    · intro j hj0 hj1
      have := h4 j.toNat (by omega)
      rwa [Int.toNat_of_nonneg hj0] at this
  · obtain ⟨r, h1, h2, h3, h4⟩ := evict_fifo_spec m h
    simp only [halgo, if_false, evict_key, h1]
    refine ⟨by omega, h2, ?_, ?_⟩
    · intro j hj0 hj1
      have := h3 j.toNat (by omega)
      rwa [Int.toNat_of_nonneg hj0] at this
    · intro j hj0 hj1
      have := h4 j.toNat (by omega)
      rwa [Int.toNat_of_nonneg hj0] at this

theorem choose_frame_spec (cfg : Config) (m : MemState) (h : 1 ≤ m.total_frames) :
    0 ≤ choose_frame cfg m ∧ choose_frame cfg m < m.total_frames ∧
    ((∃ i : Int, 0 ≤ i ∧ i < m.total_frames ∧ (m.frame_pool i).pid = -1) →
      (m.frame_pool (choose_frame cfg m)).pid = -1 ∧
      ∀ j : Int, 0 ≤ j → j < choose_frame cfg m → (m.frame_pool j).pid ≠ -1) ∧
    ((∀ i : Int, 0 ≤ i → i < m.total_frames → (m.frame_pool i).pid ≠ -1) →
      (∀ j : Int, 0 ≤ j → j < m.total_frames →
        evict_key cfg (m.frame_pool (choose_frame cfg m)) ≤ evict_key cfg (m.frame_pool j)) ∧
      (∀ j : Int, 0 ≤ j → j < choose_frame cfg m →
        evict_key cfg (m.frame_pool (choose_frame cfg m)) < evict_key cfg (m.frame_pool j))) := by
  rcases find_free_frame_spec m with ⟨h1, h2⟩ | ⟨h1, h2, h3, h4⟩
  · have hc : choose_frame cfg m
        = (if cfg.page_algo = PageAlgo.LRU then evict_lru m else evict_fifo m) := by
      simp [choose_frame, h1]
    rw [hc]
    obtain ⟨e1, e2, e3, e4⟩ := evict_key_min cfg m h
    refine ⟨e1, e2, ?_, fun _ => ⟨e3, e4⟩⟩
    rintro ⟨i, hi0, hi1, hi2⟩
    exact absurd hi2 (h2 i hi0 hi1)
  · have hc : choose_frame cfg m = find_free_frame m := by
      have hne : find_free_frame m ≠ -1 := by omega
      simp [choose_frame, hne]
    rw [hc]
    refine ⟨h1, h2, fun _ => ⟨h3, h4⟩, ?_⟩
    intro hall
    exact absurd h3 (hall _ h1 h2)

/-! ### Lemmas on `load_page` -/

theorem load_page_some (m : MemState) (t1 t2 pid vp f : Int) (hc : consistent m)
    (hb : pt_in_bounds pid vp) (hf0 : 0 ≤ f) (hf1 : f < m.total_frames) :
    ∃ m1, load_page m t1 t2 pid vp f = some m1 ∧
      m1.total_frames = m.total_frames ∧
      m1.fifo_counter = m.fifo_counter + 1 ∧
      m1.frame_pool = set_frame m.frame_pool f ⟨pid, vp, m.fifo_counter, t1⟩ ∧
      (m1.page_tables pid vp).valid = 1 ∧
      (m1.page_tables pid vp).frame_number = f ∧
      (∀ p v : Int, ¬ (p = pid ∧ v = vp) →
        m1.page_tables p v =
          if 0 ≤ (m.frame_pool f).pid ∧ p = (m.frame_pool f).pid
              ∧ v = (m.frame_pool f).virtual_page then
            { m.page_tables p v with
              valid := 0, frame_number := -1,
              dirty := if (m.page_tables p v).dirty ≠ 0 then 0 else (m.page_tables p v).dirty }
          else m.page_tables p v) := by
  obtain ⟨hc0, hc1, hc2, hc3⟩ := hc
  have hfb : frame_in_bounds f := ⟨hf0, by omega⟩
  by_cases hprev : 0 ≤ (m.frame_pool f).pid
  · obtain ⟨hpb, _, _⟩ := hc1 f hf0 hf1 hprev
    have hcond : (m.frame_pool f).pid ≥ 0 ∧ (m.frame_pool f).pid < MAX_STUDENTS
        ∧ (m.frame_pool f).virtual_page ≥ 0 := ⟨hprev, hpb.2.1, hpb.2.2.1⟩
    cases hl : load_page m t1 t2 pid vp f with
    | none =>
      simp only [load_page, hfb, hcond, hpb, hb, not_true_eq_false, if_false, if_true,
        and_self] at hl
      exact absurd hl (by simp)
    | some m1 =>
    simp only [load_page, hfb, hcond, hpb, hb, not_true_eq_false, if_false, if_true,
      and_self, Option.some.injEq] at hl
    subst hl
    refine ⟨_, rfl, rfl, rfl, rfl, ?_, ?_, ?_⟩
    · simp [set_pte]
    · simp [set_pte]
    · intro p v hne
      simp only [set_pte, hne, if_false, hprev, true_and]
      by_cases hpv : p = (m.frame_pool f).pid ∧ v = (m.frame_pool f).virtual_page
      · obtain ⟨rfl, rfl⟩ := hpv
        simp
      · simp [hpv]
  · have hcond : ¬ ((m.frame_pool f).pid ≥ 0 ∧ (m.frame_pool f).pid < MAX_STUDENTS
        ∧ (m.frame_pool f).virtual_page ≥ 0) := fun h => hprev h.1
    cases hl : load_page m t1 t2 pid vp f with
    | none =>
      simp only [load_page, hfb, hcond, hb, not_true_eq_false, if_false, if_true] at hl
      exact absurd hl (by simp)
    | some m1 =>
    simp only [load_page, hfb, hcond, hb, not_true_eq_false, if_false, if_true,
      Option.some.injEq] at hl
    subst hl
    refine ⟨_, rfl, rfl, rfl, rfl, ?_, ?_, ?_⟩
    · simp [set_pte]
    · simp [set_pte]
    · intro p v hne
      simp [set_pte, hne, hprev]

theorem load_page_consistent (m : MemState) (t1 t2 pid vp f : Int) (hc : consistent m)
    (hb : pt_in_bounds pid vp) (hinv : (m.page_tables pid vp).valid = 0)
    (hf0 : 0 ≤ f) (hf1 : f < m.total_frames) (m1 : MemState)
    (hl : load_page m t1 t2 pid vp f = some m1) : consistent m1 := by
  obtain ⟨m2, h, htot, _, hfp, hv, hfn, hpt⟩ := load_page_some m t1 t2 pid vp f hc hb hf0 hf1
  rw [hl] at h
  simp only [Option.some.injEq] at h
  subst h
  obtain ⟨hc0, hc1, hc2, hc3⟩ := hc
  refine ⟨by rw [htot]; exact hc0, ?_, ?_, ?_⟩
  · intro g hg0 hg1
    rw [htot] at hg1
    rw [hfp]
    by_cases hgf : g = f
    · subst hgf
      simp only [set_frame, if_true]
      intro _
      exact ⟨hb, by rw [hv]; decide, hfn⟩
    · simp only [set_frame, hgf, if_false]
      intro hgp
      obtain ⟨k1, k2, k3⟩ := hc1 g hg0 hg1 hgp
      have hne : ¬ ((m.frame_pool g).pid = pid ∧ (m.frame_pool g).virtual_page = vp) := by
        rintro ⟨e1, e2⟩
        rw [e1, e2] at k2
        exact k2 hinv
      have hne2 : ¬ (0 ≤ (m.frame_pool f).pid ∧ (m.frame_pool g).pid = (m.frame_pool f).pid
          ∧ (m.frame_pool g).virtual_page = (m.frame_pool f).virtual_page) := by
        rintro ⟨e0, e1, e2⟩
        obtain ⟨_, _, k6⟩ := hc1 f hf0 hf1 e0
        rw [e1, e2] at k3
        exact hgf (by rw [← k3, k6])
      rw [hpt _ _ hne]
      simp only [hne2, if_false]
      exact ⟨k1, k2, k3⟩
  · intro p v hpv hval
    by_cases hpe : p = pid ∧ v = vp
    · obtain ⟨rfl, rfl⟩ := hpe
      rw [hfn, htot, hfp]
      simp only [set_frame, if_true]
      exact ⟨hf0, hf1, trivial, trivial⟩
    · rw [hpt p v hpe] at hval ⊢
      by_cases hcond : 0 ≤ (m.frame_pool f).pid ∧ p = (m.frame_pool f).pid
          ∧ v = (m.frame_pool f).virtual_page
      · simp only [hcond, and_self, if_true] at hval
        exact absurd rfl hval
      · simp only [hcond, if_false] at hval ⊢
        obtain ⟨k1, k2, k3, k4⟩ := hc2 p v hpv hval
        have hnf : (m.page_tables p v).frame_number ≠ f := by
          intro e
          rw [e] at k3 k4
          exact hcond ⟨by rw [k3]; exact hpv.1, k3.symm, k4.symm⟩
        rw [htot, hfp]
        simp only [set_frame, hnf, if_false]
        exact ⟨k1, k2, k3, k4⟩
  · intro p v hpv hval
    by_cases hpe : p = pid ∧ v = vp
    · obtain ⟨rfl, rfl⟩ := hpe
      rw [hv] at hval
      exact absurd hval (by decide)
    · rw [hpt p v hpe] at hval ⊢
      by_cases hcond : 0 ≤ (m.frame_pool f).pid ∧ p = (m.frame_pool f).pid
          ∧ v = (m.frame_pool f).virtual_page
      · simp only [hcond, and_self, if_true]
      · simp only [hcond, if_false] at hval ⊢
        exact hc3 p v hpv hval

/-! ### Lemmas on consistency -/

theorem consistent_congr (m m1 : MemState) (hc : consistent m)
    (htot : m1.total_frames = m.total_frames)
    (hfp : ∀ g : Int, (m1.frame_pool g).pid = (m.frame_pool g).pid ∧
      (m1.frame_pool g).virtual_page = (m.frame_pool g).virtual_page)
    (hpt : ∀ p v : Int, (m1.page_tables p v).valid = (m.page_tables p v).valid ∧
      (m1.page_tables p v).frame_number = (m.page_tables p v).frame_number) :
    consistent m1 := by
  obtain ⟨hc0, hc1, hc2, hc3⟩ := hc
  refine ⟨by rw [htot]; exact hc0, ?_, ?_, ?_⟩
  · intro g hg0 hg1
    rw [htot] at hg1
    rw [(hfp g).1, (hfp g).2, (hpt _ _).1, (hpt _ _).2]
    exact hc1 g hg0 hg1
  · intro p v hpv
    rw [(hpt p v).1, (hpt p v).2, (hfp _).1, (hfp _).2, htot]
    exact hc2 p v hpv
  · intro p v hpv
    rw [(hpt p v).1, (hpt p v).2]
    exact hc3 p v hpv

theorem memory_init_consistent (cfg : Config) (m0 : MemState) :
    consistent (memory_init cfg m0) := by
  refine ⟨?_, ?_, ?_, ?_⟩
  · simp only [memory_init]
    split_ifs with h
    · exact le_refl _
    · omega
  · intro f hf0 hf1 hpid
    simp only [memory_init] at hf1 hpid
    rw [if_pos ⟨hf0, hf1⟩] at hpid
    exact absurd hpid (by decide)
  · intro p v hpv hval
    simp only [memory_init, hpv, if_true] at hval
    exact absurd rfl hval
  · intro p v hpv _
    simp only [memory_init, hpv, if_true]

theorem memory_access_hit (cfg : Config) (t1 t2 pid vp : Int) (m : MemState)
    (w : SystemState) (hc : consistent m) (hb : pt_in_bounds pid vp)
    (hval : (m.page_tables pid vp).valid ≠ 0) :
    memory_access cfg t1 t2 pid vp m w =
      some ((m.page_tables pid vp).frame_number,
        { m with
          page_tables := set_pte m.page_tables pid vp
            { m.page_tables pid vp with last_accessed := t1 },
          frame_pool := set_frame m.frame_pool (m.page_tables pid vp).frame_number
            { m.frame_pool (m.page_tables pid vp).frame_number with last_accessed := t2 } },
        { w with page_hits := w.page_hits + 1 }) := by
  obtain ⟨hc0, _, hc2, _⟩ := hc
  obtain ⟨k1, k2, _, _⟩ := hc2 pid vp hb hval
  have hfb : frame_in_bounds (m.page_tables pid vp).frame_number := ⟨k1, by omega⟩
  have h1 : ¬ (pid < 0 ∨ pid ≥ MAX_STUDENTS) := by
    have := hb.1; have := hb.2.1; omega
  have h2 : ¬ (vp < 0 ∨ vp ≥ MAX_PAGES) := by
    have := hb.2.2.1; have := hb.2.2.2; omega
  simp only [memory_access, h1, h2, hval, hfb, if_false, if_true, not_true_eq_false,
    ne_eq, not_false_eq_true]

theorem memory_access_hit_consistent (t1 t2 pid vp : Int) (m : MemState)
    (hc : consistent m) :
    consistent
      { m with
        page_tables := set_pte m.page_tables pid vp
          { m.page_tables pid vp with last_accessed := t1 },
        frame_pool := set_frame m.frame_pool (m.page_tables pid vp).frame_number
          { m.frame_pool (m.page_tables pid vp).frame_number with last_accessed := t2 } } := by
  refine consistent_congr m _ hc rfl ?_ ?_
  · intro g
    simp only [set_frame]
    split_ifs with h
    · subst h; exact ⟨rfl, rfl⟩
    · exact ⟨rfl, rfl⟩
  · intro p v
    simp only [set_pte]
    split_ifs with h
    · obtain ⟨rfl, rfl⟩ := h; exact ⟨rfl, rfl⟩
    · exact ⟨rfl, rfl⟩

theorem memory_access_fault (cfg : Config) (t1 t2 pid vp : Int) (m : MemState)
    (w : SystemState) (hb : pt_in_bounds pid vp)
    (hval : (m.page_tables pid vp).valid = 0) (m1 : MemState)
    (hl : load_page m t1 t2 pid vp (choose_frame cfg m) = some m1) :
    memory_access cfg t1 t2 pid vp m w =
      some (choose_frame cfg m, m1,
        { w with page_faults := w.page_faults + 1, frames_used := count_used m1 }) := by
  have h1 : ¬ (pid < 0 ∨ pid ≥ MAX_STUDENTS) := by
    have := hb.1; have := hb.2.1; omega
  have h2 : ¬ (vp < 0 ∨ vp ≥ MAX_PAGES) := by
    have := hb.2.2.1; have := hb.2.2.2; omega
  simp only [memory_access, h1, h2, hval, hl, if_false, ne_eq, not_true_eq_false]

/-! ### Memory manager: frame selection, access and invalid input -/

/-- C1. On a page fault of `memory_access` in a consistent state with at least one
frame, the page is loaded into a frame `f` of the pool. If some frame of the pool is
free (`pid = -1`), `f` is the lowest-index free frame and no resident page is evicted:
every other frame and every other page-table entry is unchanged. If every frame of the
pool is occupied, `f` has the minimal key over all frames of the pool and is the lowest
index with that key, the key being `last_accessed` under LRU and `load_order` under
FIFO. -/
theorem memory_access_frame_selection (cfg : Config) (t1 t2 pid vp : Int) (m : MemState)
    (w : SystemState) (hc : consistent m) (htot : 1 ≤ m.total_frames)
    (hb : pt_in_bounds pid vp) (hfault : (m.page_tables pid vp).valid = 0) :
    ∃ f m1 w1, memory_access cfg t1 t2 pid vp m w = some (f, m1, w1) ∧
      0 ≤ f ∧ f < m.total_frames ∧
      (m1.frame_pool f).pid = pid ∧ (m1.frame_pool f).virtual_page = vp ∧
      ((∃ i : Int, 0 ≤ i ∧ i < m.total_frames ∧ (m.frame_pool i).pid = -1) →
        (m.frame_pool f).pid = -1 ∧
        (∀ j : Int, 0 ≤ j → j < f → (m.frame_pool j).pid ≠ -1) ∧
        (∀ g : Int, g ≠ f → m1.frame_pool g = m.frame_pool g) ∧
        (∀ p v : Int, ¬ (p = pid ∧ v = vp) → m1.page_tables p v = m.page_tables p v)) ∧
      ((∀ i : Int, 0 ≤ i → i < m.total_frames → (m.frame_pool i).pid ≠ -1) →
        (∀ j : Int, 0 ≤ j → j < m.total_frames →
          evict_key cfg (m.frame_pool f) ≤ evict_key cfg (m.frame_pool j)) ∧
        (∀ j : Int, 0 ≤ j → j < f →
          evict_key cfg (m.frame_pool f) < evict_key cfg (m.frame_pool j))) := by
  obtain ⟨s0, s1, s2, s3⟩ := choose_frame_spec cfg m htot
  obtain ⟨m1, hl, _, _, hfp, _, _, hpt⟩ :=
    load_page_some m t1 t2 pid vp (choose_frame cfg m) hc hb s0 s1
  refine ⟨choose_frame cfg m, m1, _, memory_access_fault cfg t1 t2 pid vp m w hb hfault m1 hl,
    s0, s1, ?_, ?_, ?_, s3⟩
  · rw [hfp]; simp [set_frame]
  · rw [hfp]; simp [set_frame]
  · intro hfree
    obtain ⟨f1, f2⟩ := s2 hfree
    refine ⟨f1, f2, ?_, ?_⟩
    · intro g hg
      rw [hfp]
      simp [set_frame, hg]
    · intro p v hne
      rw [hpt p v hne, f1]
      simp

/-- C3. For an in-range `(pid, vp)`, in a consistent state with at least one frame,
`memory_access` returns a frame index `f` of the pool; afterwards frame `f` is owned by
`(pid, vp)` and the entry of `(pid, vp)` is valid with `frame_number = f`. If the entry
was valid before the call, `page_hits` grows by one and `page_faults` is unchanged;
otherwise `page_faults` grows by one and `page_hits` is unchanged. -/
theorem memory_access_returns_frame (cfg : Config) (t1 t2 pid vp : Int) (m : MemState)
    (w : SystemState) (hc : consistent m) (htot : 1 ≤ m.total_frames)
    (hb : pt_in_bounds pid vp) :
    ∃ f m1 w1, memory_access cfg t1 t2 pid vp m w = some (f, m1, w1) ∧
      0 ≤ f ∧ f < m.total_frames ∧ m1.total_frames = m.total_frames ∧
      (m1.frame_pool f).pid = pid ∧ (m1.frame_pool f).virtual_page = vp ∧
      (m1.page_tables pid vp).valid ≠ 0 ∧ (m1.page_tables pid vp).frame_number = f ∧
      ((m.page_tables pid vp).valid ≠ 0 →
        w1.page_hits = w.page_hits + 1 ∧ w1.page_faults = w.page_faults) ∧
      ((m.page_tables pid vp).valid = 0 →
        w1.page_faults = w.page_faults + 1 ∧ w1.page_hits = w.page_hits) := by
  by_cases hval : (m.page_tables pid vp).valid = 0
  · obtain ⟨s0, s1, _, _⟩ := choose_frame_spec cfg m htot
    obtain ⟨m1, hl, ht, _, hfp, hv, hfn, _⟩ :=
      load_page_some m t1 t2 pid vp (choose_frame cfg m) hc hb s0 s1
    refine ⟨choose_frame cfg m, m1, _,
      memory_access_fault cfg t1 t2 pid vp m w hb hval m1 hl, s0, s1, ht, ?_, ?_, ?_, hfn,
      fun h => absurd hval h, fun _ => ⟨rfl, rfl⟩⟩
    · rw [hfp]; simp [set_frame]
    · rw [hfp]; simp [set_frame]
    · rw [hv]; decide
  · obtain ⟨k1, k2, k3, k4⟩ := hc.2.2.1 pid vp hb hval
    refine ⟨_, _, _, memory_access_hit cfg t1 t2 pid vp m w hc hb hval, k1, k2, rfl, ?_, ?_,
      ?_, ?_, fun _ => ⟨rfl, rfl⟩, fun h => absurd h hval⟩
    · simp [set_frame, k3]
    · simp [set_frame, k4]
    · simpa [set_pte] using hval
    · simp [set_pte]

/-- C4. For a `pid` outside `[0, MAX_STUDENTS)` or a page outside `[0, MAX_PAGES)`,
`memory_access` returns the sentinel `-1` and leaves the memory state (frame pool,
FIFO counter, page tables) and the world state (`page_hits`, `page_faults`,
`frames_used`) unchanged. -/
theorem memory_access_invalid_input (cfg : Config) (t1 t2 pid vp : Int) (m : MemState)
    (w : SystemState)
    (h : pid < 0 ∨ MAX_STUDENTS ≤ pid ∨ vp < 0 ∨ MAX_PAGES ≤ vp) :
    memory_access cfg t1 t2 pid vp m w = some (-1, m, w) := by
  by_cases h1 : pid < 0 ∨ pid ≥ MAX_STUDENTS
  · simp only [memory_access, h1, if_true]
  · have h2 : vp < 0 ∨ vp ≥ MAX_PAGES := by
      rcases h with h | h | h | h
      · exact absurd (Or.inl h) h1
      · exact absurd (Or.inr h) h1
      · exact Or.inl h
      · exact Or.inr h
    simp only [memory_access, h1, h2, if_true, if_false]

/-- Witness of C1: after `memory_init` under the default configuration every frame is
free, and the first access loads page `(0, 0)` into frame 0. -/
theorem memory_access_frame_selection_witness :
    ∃ m1 w1, memory_access config_load_defaults 5 6 0 0
      (memory_init config_load_defaults mem_static) state_init = some (0, m1, w1) := by
  obtain ⟨f, m1, w1, h, hf0, _, _, _, hfree, _⟩ :=
    memory_access_frame_selection config_load_defaults 5 6 0 0
      (memory_init config_load_defaults mem_static) state_init
      (memory_init_consistent _ _) (by decide) (by decide) rfl
  obtain ⟨_, hmin, _⟩ := hfree ⟨0, by decide, by decide, rfl⟩
  have hf : f = 0 := by
    by_contra hne
    exact hmin 0 (le_refl 0) (by omega) rfl
  subst hf
  exact ⟨m1, w1, h⟩

/-- Witness of C3: the first access after `memory_init` under the default configuration
is a page fault. -/
theorem memory_access_returns_frame_witness :
    ∃ f m1 w1, memory_access config_load_defaults 5 6 3 7
      (memory_init config_load_defaults mem_static) state_init = some (f, m1, w1) ∧
      w1.page_faults = 1 ∧ w1.page_hits = 0 := by
  obtain ⟨f, m1, w1, h, _, _, _, _, _, _, _, _, hfault⟩ :=
    memory_access_returns_frame config_load_defaults 5 6 3 7
      (memory_init config_load_defaults mem_static) state_init
      (memory_init_consistent _ _) (by decide) (by decide)
  exact ⟨f, m1, w1, h, hfault rfl⟩

/-- Witness of C4: `pid = -1` is rejected. -/
theorem memory_access_invalid_input_witness :
    memory_access config_load_defaults 5 6 (-1) 0 mem_static state_init
      = some (-1, mem_static, state_init) :=
  memory_access_invalid_input config_load_defaults 5 6 (-1) 0 mem_static state_init
    (Or.inl (by decide))

/-! ### Lemmas on `memory_free_process` -/

theorem free_step_consistent (pid : Int) (hpid : 0 ≤ pid) (m : MemState) (i : Int)
    (hc : consistent m) (hi0 : 0 ≤ i) (hi1 : i < m.total_frames)
    (hown : (m.frame_pool i).pid = pid) :
    pt_in_bounds pid (m.frame_pool i).virtual_page ∧
    consistent
      { m with
        page_tables := set_pte m.page_tables pid (m.frame_pool i).virtual_page
          { m.page_tables pid (m.frame_pool i).virtual_page with
            valid := 0, frame_number := -1 },
        frame_pool := set_frame m.frame_pool i
          { m.frame_pool i with pid := -1, virtual_page := -1 } } := by
  obtain ⟨hc0, hc1, hc2, hc3⟩ := hc
  obtain ⟨b1, b2, b3⟩ := hc1 i hi0 hi1 (by rw [hown]; exact hpid)
  rw [hown] at b1 b2 b3
  refine ⟨b1, hc0, ?_, ?_, ?_⟩
  · intro g hg0 hg1
    by_cases hgi : g = i
    · subst hgi
      simp only [set_frame, if_true]
      intro hneg
      exact absurd hneg (by decide)
    · simp only [set_frame, hgi, if_false]
      intro hgp
      obtain ⟨k1, k2, k3⟩ := hc1 g hg0 hg1 hgp
      have hne : ¬ ((m.frame_pool g).pid = pid
          ∧ (m.frame_pool g).virtual_page = (m.frame_pool i).virtual_page) := by
        rintro ⟨e1, e2⟩
        rw [e1, e2] at k3
        exact hgi (by rw [← k3, b3])
      simp only [set_pte, hne, if_false]
      exact ⟨k1, k2, k3⟩
  · intro p v hpv
    by_cases hpe : p = pid ∧ v = (m.frame_pool i).virtual_page
    · simp only [set_pte, hpe, and_self, if_true]
      intro hval
      exact absurd rfl hval
    · simp only [set_pte, hpe, if_false]
      intro hval
      obtain ⟨k1, k2, k3, k4⟩ := hc2 p v hpv hval
      have hnf : (m.page_tables p v).frame_number ≠ i := by
        intro e
        rw [e] at k3 k4
        exact hpe ⟨by rw [← k3, hown], k4.symm⟩
      simp only [set_frame, hnf, if_false]
      exact ⟨k1, k2, k3, k4⟩
  · intro p v hpv
    by_cases hpe : p = pid ∧ v = (m.frame_pool i).virtual_page
    · simp only [set_pte, hpe, and_self, if_true]
      intro _
      trivial
    · simp only [set_pte, hpe, if_false]
      exact hc3 p v hpv

theorem free_loop_spec (pid : Int) (hpid : 0 ≤ pid) :
    ∀ (fuel i : Nat) (m : MemState), consistent m →
      (i : Int) + (fuel : Int) ≤ m.total_frames →
      ∃ m1, free_loop pid m i fuel = some m1 ∧ consistent m1 ∧
        m1.total_frames = m.total_frames ∧ m1.fifo_counter = m.fifo_counter ∧
        (∀ g : Int, m1.frame_pool g =
          if (i : Int) ≤ g ∧ g < (i : Int) + (fuel : Int) ∧ (m.frame_pool g).pid = pid then
            { m.frame_pool g with pid := -1, virtual_page := -1 }
          else m.frame_pool g) ∧
        (∀ p v : Int, p ≠ pid → m1.page_tables p v = m.page_tables p v) := by
  intro fuel
  induction fuel with
  | zero =>
    intro i m hc _
    refine ⟨m, rfl, hc, rfl, rfl, ?_, fun _ _ _ => rfl⟩
    intro g
    have : ¬ ((i : Int) ≤ g ∧ g < (i : Int) + ((0 : Nat) : Int) ∧ (m.frame_pool g).pid = pid) := by
      rintro ⟨h1, h2, _⟩
      omega
    simp only [this, if_false]
  | succ fuel ih =>
    intro i m hc hle
    by_cases hown : (m.frame_pool (i : Int)).pid = pid
    · obtain ⟨hb, hc1⟩ := free_step_consistent pid hpid m i hc (by omega) (by omega) hown
      obtain ⟨m1, e1, e2, e3, e4, e5, e6⟩ := ih (i + 1) _ hc1 (by simp only; push_cast; omega)
      refine ⟨m1, ?_, e2, e3, e4, ?_, ?_⟩
      · simp only [free_loop, hown, hb, not_true_eq_false, if_true, if_false]
        exact e1
      · intro g
        rw [e5 g]
        by_cases hgi : g = (i : Int)
        · subst hgi
          have hn : ¬ (((i + 1 : Nat) : Int) ≤ (i : Int) ∧
              (i : Int) < ((i + 1 : Nat) : Int) + (fuel : Int) ∧
              (set_frame m.frame_pool (i : Int)
                { m.frame_pool (i : Int) with pid := -1, virtual_page := -1 } (i : Int)).pid
                = pid) := by
            rintro ⟨h1, _, _⟩
            push_cast at h1
            omega
          have hy : (i : Int) ≤ (i : Int) ∧ (i : Int) < (i : Int) + ((fuel + 1 : Nat) : Int)
              ∧ (m.frame_pool (i : Int)).pid = pid := ⟨le_refl _, by push_cast; omega, hown⟩
          simp only [hn, hy, if_false, if_true, and_self]
          simp [set_frame]
        · have hfr : set_frame m.frame_pool (i : Int)
              { m.frame_pool (i : Int) with pid := -1, virtual_page := -1 } g
              = m.frame_pool g := by
            simp [set_frame, hgi]
          simp only [hfr]
          have hiff : (((i + 1 : Nat) : Int) ≤ g ∧ g < ((i + 1 : Nat) : Int) + (fuel : Int)
              ∧ (m.frame_pool g).pid = pid) ↔
              ((i : Int) ≤ g ∧ g < (i : Int) + ((fuel + 1 : Nat) : Int)
              ∧ (m.frame_pool g).pid = pid) := by
            push_cast
            constructor
            · rintro ⟨h1, h2, h3⟩
              exact ⟨by omega, by omega, h3⟩
            · rintro ⟨h1, h2, h3⟩
              exact ⟨by omega, by omega, h3⟩
          simp only [hiff]
      · intro p v hp
        rw [e6 p v hp]
        have hne : ¬ (p = pid ∧ v = (m.frame_pool (i : Int)).virtual_page) := fun h => hp h.1
        simp only [set_pte, hne, if_false]
    · obtain ⟨m1, e1, e2, e3, e4, e5, e6⟩ := ih (i + 1) m hc (by push_cast; omega)
      refine ⟨m1, ?_, e2, e3, e4, ?_, e6⟩
      · simp only [free_loop, hown, if_false]
        exact e1
      · intro g
        rw [e5 g]
        by_cases hgi : g = (i : Int)
        · subst hgi
          have hn1 : ¬ (((i + 1 : Nat) : Int) ≤ (i : Int) ∧
              (i : Int) < ((i + 1 : Nat) : Int) + (fuel : Int) ∧
              (m.frame_pool (i : Int)).pid = pid) := fun h => hown h.2.2
          have hn2 : ¬ ((i : Int) ≤ (i : Int) ∧ (i : Int) < (i : Int) + ((fuel + 1 : Nat) : Int)
              ∧ (m.frame_pool (i : Int)).pid = pid) := fun h => hown h.2.2
          simp only [hn1, hn2, if_false]
        · have hiff : (((i + 1 : Nat) : Int) ≤ g ∧ g < ((i + 1 : Nat) : Int) + (fuel : Int)
              ∧ (m.frame_pool g).pid = pid) ↔
              ((i : Int) ≤ g ∧ g < (i : Int) + ((fuel + 1 : Nat) : Int)
              ∧ (m.frame_pool g).pid = pid) := by
            push_cast
            constructor
            · rintro ⟨h1, h2, h3⟩
              exact ⟨by omega, by omega, h3⟩
            · rintro ⟨h1, h2, h3⟩
              exact ⟨by omega, by omega, h3⟩
          simp only [hiff]

theorem count_used_loop_eq (m : MemState) :
    ∀ (fuel i : Nat) (used : Int),
      count_used_loop m i fuel used = used +
        (((List.range' i fuel).filter
          (fun (g : Nat) => decide ((m.frame_pool (g : Int)).pid ≠ -1))).length : Int) := by
  intro fuel
  induction fuel with
  | zero =>
    intro i used
    simp [count_used_loop]
  | succ fuel ih =>
    intro i used
    simp only [count_used_loop, List.range'_succ]
    rw [ih]
    by_cases h : (m.frame_pool (i : Int)).pid = -1
    · simp [h, List.filter_cons]
    · simp [h, List.filter_cons]
      omega

theorem count_used_eq (m : MemState) :
    count_used m = (count_frames m (fun o => decide (o ≠ -1)) : Int) := by
  simp [count_used, count_frames, count_used_loop_eq, List.range_eq_range']

theorem filter_length_split (l : List Nat) (a a1 b : Nat → Bool)
    (h1 : ∀ x ∈ l, a1 x = (a x && !b x)) (h2 : ∀ x ∈ l, b x = true → a x = true) :
    (l.filter a1).length + (l.filter b).length = (l.filter a).length := by
  induction l with
  | nil => rfl
  | cons x xs ih =>
    have hx := h1 x (List.mem_cons_self x xs)
    have hx2 := h2 x (List.mem_cons_self x xs)
    have ih1 := ih (fun y hy => h1 y (List.mem_cons_of_mem x hy))
      (fun y hy => h2 y (List.mem_cons_of_mem x hy))
    simp only [List.filter_cons, hx]
    cases ha : a x <;> cases hb : b x
    · simpa using ih1
    · rw [hx2 hb] at ha
      exact absurd ha (by decide)
    · simp only [Bool.not_false, Bool.and_self, if_true, List.length_cons]
      simp only [Bool.false_eq_true, if_false]
      omega
    · simp only [Bool.not_true, Bool.and_false, Bool.false_eq_true, if_false, if_true,
        List.length_cons]
      omega

theorem memory_free_process_spec (pid : Int) (hpid : 0 ≤ pid) (m : MemState)
    (w : SystemState) (hc : consistent m) :
    ∃ m1, memory_free_process pid m w
        = some (m1, { w with frames_used := count_used m1 }) ∧
      consistent m1 ∧ m1.total_frames = m.total_frames ∧
      m1.fifo_counter = m.fifo_counter ∧
      (∀ g : Int, m1.frame_pool g =
        if 0 ≤ g ∧ g < m.total_frames ∧ (m.frame_pool g).pid = pid then
          { m.frame_pool g with pid := -1, virtual_page := -1 }
        else m.frame_pool g) ∧
      (∀ p v : Int, p ≠ pid → m1.page_tables p v = m.page_tables p v) := by
  by_cases hn : 0 ≤ m.total_frames
  · obtain ⟨m1, e1, e2, e3, e4, e5, e6⟩ :=
      free_loop_spec pid hpid m.total_frames.toNat 0 m hc (by simp [Int.toNat_of_nonneg hn])
    refine ⟨m1, ?_, e2, e3, e4, ?_, e6⟩
    · simp only [memory_free_process, e1]
    · intro g
      rw [e5 g]
      simp [Int.toNat_of_nonneg hn]
  · have hz : m.total_frames.toNat = 0 := by omega
    refine ⟨m, ?_, hc, rfl, rfl, ?_, fun _ _ _ => rfl⟩
    · simp only [memory_free_process, hz, free_loop]
    · intro g
      have : ¬ (0 ≤ g ∧ g < m.total_frames ∧ (m.frame_pool g).pid = pid) := by
        rintro ⟨h1, h2, _⟩
        omega
      simp only [this, if_false]

/-! ### Memory manager: consistency invariant and frame reclamation -/

/-- In pools of at least one frame `consistent` is inductive: it holds after
`memory_init`, every `memory_access(pid, vp)` with `pid`, `vp` in range returns and
preserves it, and so does every `memory_free_process(pid)` with `0 ≤ pid`. Both calls keep
`total_frames`. -/
theorem consistent_preserved :
    (∀ (cfg : Config) (m0 : MemState), consistent (memory_init cfg m0) ∧
      (1 ≤ cfg.memory_frames → 1 ≤ (memory_init cfg m0).total_frames)) ∧
    (∀ (cfg : Config) (t1 t2 pid vp : Int) (m : MemState) (w : SystemState),
      consistent m → 1 ≤ m.total_frames →
      0 ≤ pid → pid < MAX_STUDENTS → 0 ≤ vp → vp < MAX_PAGES →
      ∃ f m1 w1, memory_access cfg t1 t2 pid vp m w = some (f, m1, w1) ∧
        consistent m1 ∧ m1.total_frames = m.total_frames) ∧
    (∀ (pid : Int) (m : MemState) (w : SystemState),
      consistent m → 0 ≤ pid → pid < MAX_STUDENTS →
      ∃ m1 w1, memory_free_process pid m w = some (m1, w1) ∧
        consistent m1 ∧ m1.total_frames = m.total_frames) := by
  refine ⟨?_, ?_, ?_⟩
  · intro cfg m0
    refine ⟨memory_init_consistent cfg m0, ?_⟩
    intro h
    simp only [memory_init]
    split_ifs
    · decide
    · exact h
  · intro cfg t1 t2 pid vp m w hc htot hp0 hp1 hv0 hv1
    have hb : pt_in_bounds pid vp := ⟨hp0, hp1, hv0, hv1⟩
    by_cases hval : (m.page_tables pid vp).valid = 0
    · obtain ⟨s0, s1, _, _⟩ := choose_frame_spec cfg m htot
      obtain ⟨m1, hl, ht, _⟩ := load_page_some m t1 t2 pid vp (choose_frame cfg m) hc hb s0 s1
      exact ⟨_, m1, _, memory_access_fault cfg t1 t2 pid vp m w hb hval m1 hl,
        load_page_consistent m t1 t2 pid vp _ hc hb hval s0 s1 m1 hl, ht⟩
    · exact ⟨_, _, _, memory_access_hit cfg t1 t2 pid vp m w hc hb hval,
        memory_access_hit_consistent t1 t2 pid vp m hc, rfl⟩
  · intro pid m w hc hp0 _
    obtain ⟨m1, e1, e2, e3, _⟩ := memory_free_process_spec pid hp0 m w hc
    exact ⟨m1, _, e1, e2, e3⟩

/-- Release in a pool that satisfies `consistent` (every reachable state of a pool of at
least one frame): for `0 ≤ pid`, `memory_free_process(pid)` returns; after it no frame of
the pool is owned by `pid`, every page-table entry of `pid` is invalid with
`frame_number = -1`, every frame not owned by `pid` and every page-table entry of another
pid is unchanged, and `frames_used` is the number of frames of the pool whose owner is not
`-1`, which is the previous such number minus the number of frames `pid` owned. The other
fields of the world state are unchanged. -/
theorem memory_free_process_releases (pid : Int) (m : MemState) (w : SystemState)
    (hpid : 0 ≤ pid) (hc : consistent m) :
    ∃ m1 w1, memory_free_process pid m w = some (m1, w1) ∧
      m1.total_frames = m.total_frames ∧
      (∀ g : Int, 0 ≤ g → g < m.total_frames → (m1.frame_pool g).pid ≠ pid) ∧
      (∀ v : Int, pt_in_bounds pid v →
        (m1.page_tables pid v).valid = 0 ∧ (m1.page_tables pid v).frame_number = -1) ∧
      (∀ g : Int, (m.frame_pool g).pid ≠ pid → m1.frame_pool g = m.frame_pool g) ∧
      (∀ p v : Int, p ≠ pid → m1.page_tables p v = m.page_tables p v) ∧
      w1.frames_used = (count_frames m1 (fun o => decide (o ≠ -1)) : Int) ∧
      count_frames m1 (fun o => decide (o ≠ -1)) + count_frames m (fun o => decide (o = pid))
        = count_frames m (fun o => decide (o ≠ -1)) ∧
      w1 = { w with frames_used := w1.frames_used } := by
  obtain ⟨m1, e1, e2, e3, _, e5, e6⟩ := memory_free_process_spec pid hpid m w hc
  have hno : ∀ g : Int, 0 ≤ g → g < m.total_frames → (m1.frame_pool g).pid ≠ pid := by
    intro g hg0 hg1
    rw [e5 g]
    by_cases hown : (m.frame_pool g).pid = pid
    · simp only [hg0, hg1, hown, and_self, if_true]
      omega
    · simp only [hown, and_false, if_false]
      exact hown
  refine ⟨m1, _, e1, e3, hno, ?_, ?_, e6, count_used_eq m1, ?_, rfl⟩
  · intro v hv
    have hinv : (m1.page_tables pid v).valid = 0 := by
      by_contra hval
      obtain ⟨k1, k2, k3, _⟩ := e2.2.2.1 pid v hv hval
      rw [e3] at k2
      exact hno _ k1 k2 k3
    exact ⟨hinv, e2.2.2.2 pid v hv hinv⟩
  · intro g hown
    rw [e5 g]
    simp only [hown, and_false, if_false]
  · simp only [count_frames, e3]
    apply filter_length_split
    · intro x hx
      have hx1 : (x : Int) < m.total_frames := by
        have := List.mem_range.mp hx
        omega
      rw [e5 x]
      by_cases hown : (m.frame_pool (x : Int)).pid = pid
      · simp [hx1, hown]
      · simp [hown]
    · intro x _ hx
      simp only [decide_eq_true_eq] at hx ⊢
      omega

/-- C6, the failing input. Right after `memory_init` every frame is free, that is, has
owner `-1`; `memory_free_process(-1)` takes frame 0 for a frame of the process, reads
its `virtual_page = -1` and writes `page_tables[-1][-1]`, outside the array. -/
theorem memory_free_process_minus_one_out_of_bounds :
    (memory_init config_load_defaults mem_static).frame_pool 0 = ⟨-1, -1, 0, 0⟩ ∧
    ¬ pt_in_bounds (-1) (-1) ∧
    memory_free_process (-1) (memory_init config_load_defaults mem_static) state_init
      = none := by
  refine ⟨rfl, by decide, rfl⟩

/-! ### Lemmas on the heap helpers -/

theorem swap_pcb_length (rq : List PCB) (a b : Nat) :
    (swap_pcb rq a b).length = rq.length := by
  unfold swap_pcb
  split <;> simp

theorem swap_pcb_perm (rq : List PCB) (a b : Nat) : (swap_pcb rq a b).Perm rq := by
  unfold swap_pcb
  split
  · rename_i x y hx hy
    obtain ⟨ha, hxa⟩ := List.getElem?_eq_some_iff.mp hx
    obtain ⟨hb, hyb⟩ := List.getElem?_eq_some_iff.mp hy
    rw [List.perm_iff_count]
    intro c
    have hb1 : b < (rq.set a y).length := by simpa using hb
    rw [List.count_set _ _ _ _ hb1, List.count_set _ _ _ _ ha]
    have hle : (if rq[a] == c then 1 else 0) ≤ rq.count c := by
      have := List.boole_getElem_le_countP (fun z => z == c) rq a ha
      simpa [List.count_eq_countP] using this
    by_cases hab : a = b
    · subst hab
      simp only [List.getElem_set_self]
      rw [hxa] at hle ⊢
      have hxy : x = y := by rw [← hxa, ← hyb]
      subst hxy
      omega
    · rw [List.getElem_set_ne hab, hyb, hxa]
      rw [hxa] at hle
      omega
  · exact List.Perm.refl _

theorem bubble_up_perm : ∀ (fuel : Nat) (rq : List PCB) (i : Nat),
    (bubble_up rq fuel i).Perm rq := by
  intro fuel
  induction fuel with
  | zero => intro rq i; exact List.Perm.refl _
  | succ fuel ih =>
    intro rq i
    simp only [bubble_up]
    split_ifs
    · exact (ih _ _).trans (swap_pcb_perm rq _ _)
    · exact List.Perm.refl _
    · exact List.Perm.refl _

theorem bubble_down_perm : ∀ (fuel : Nat) (rq : List PCB) (i : Nat),
    (bubble_down rq fuel i).Perm rq := by
  intro fuel
  induction fuel with
  | zero => intro rq i; exact List.Perm.refl _
  | succ fuel ih =>
    intro rq i
    simp only [bubble_down]
    split_ifs
    all_goals first
      | exact List.Perm.refl _
      | exact (ih _ _).trans (swap_pcb_perm rq _ _)

/-- Enough fuel: once `fuel ≥ i`, more fuel does not change the result of the
"bubble up" loop, so the loop of the model ends by its own exit condition. -/
theorem bubble_up_fuel : ∀ (fuel : Nat) (rq : List PCB) (i : Nat), i ≤ fuel →
    bubble_up rq (fuel + 1) i = bubble_up rq fuel i := by
  intro fuel
  induction fuel with
  | zero =>
    intro rq i hi
    have hi0 : i = 0 := by omega
    subst hi0
    simp [bubble_up]
  | succ fuel ih =>
    intro rq i hi
    rw [bubble_up]
    conv_rhs => rw [bubble_up]
    by_cases h0 : i > 0
    · simp only [h0, if_true]
      split_ifs
      · exact ih _ _ (by omega)
      · rfl
    · simp only [h0, if_false]

/-- Enough fuel: once `fuel ≥ rq_size - i`, more fuel does not change the result of the
"bubble down" loop, so the loop of the model ends by its own exit condition. -/
theorem bubble_down_fuel : ∀ (fuel : Nat) (rq : List PCB) (i : Nat),
    rq.length - i ≤ fuel →
    bubble_down rq (fuel + 1) i = bubble_down rq fuel i := by
  intro fuel
  induction fuel with
  | zero =>
    intro rq i hi
    have h1 : ¬ (2 * i + 1 < rq.length) := by omega
    have h2 : ¬ (2 * i + 2 < rq.length) := by omega
    simp [bubble_down, h1, h2]
  | succ fuel ih =>
    intro rq i hi
    rw [bubble_down]
    conv_rhs => rw [bubble_down]
    split_ifs with c1 c2 c3 c4 c5 c6
    all_goals first
      | rfl
      | (apply ih; rw [swap_pcb_length]; omega)

theorem heap_push_perm (rq rq1 : List PCB) (p : PCB) (h : heap_push rq p = some rq1) :
    rq1.Perm (p :: rq) := by
  unfold heap_push at h
  split_ifs at h
  simp only [Option.some.injEq] at h
  subst h
  exact (bubble_up_perm _ _ _).trans (List.perm_append_singleton p rq)

theorem heap_push_some (rq : List PCB) (p : PCB) (h : (rq.length : Int) < MAX_STUDENTS) :
    ∃ rq1, heap_push rq p = some rq1 := by
  simp [heap_push, h]

theorem heap_pop_spec (rq : List PCB) (hne : rq ≠ []) :
    ∃ top rq1, heap_pop rq = some (top, rq1) ∧ rq[0]? = some top ∧
      rq.Perm (top :: rq1) := by
  cases rq with
  | nil => exact absurd rfl hne
  | cons top tl =>
    by_cases htl : tl = []
    · subst htl
      exact ⟨top, [], by simp [heap_pop, bubble_down], rfl, List.Perm.refl _⟩
    · have hlast : (top :: tl)[(top :: tl).length - 1]? = some (tl.getLast htl) := by
        have hlen : 0 < tl.length := List.length_pos.mpr htl
        have e : (top :: tl).length - 1 = (tl.length - 1) + 1 := by simp; omega
        rw [e, List.getElem?_cons_succ, ← List.getLast?_eq_getElem?,
          List.getLast?_eq_getLast _ htl]
      have hpop : heap_pop (top :: tl) = some (top,
          bubble_down (((top :: tl).set 0 (tl.getLast htl)).take ((top :: tl).length - 1))
            (((top :: tl).set 0 (tl.getLast htl)).take ((top :: tl).length - 1)).length 0) := by
        simp only [heap_pop, List.getElem?_cons_zero, hlast]
      refine ⟨top, _, hpop, List.getElem?_cons_zero, ?_⟩
      refine List.Perm.symm ((List.Perm.cons top (bubble_down_perm _ _ _)).trans ?_)
      refine List.Perm.cons top ?_
      simp only [List.set_cons_zero, List.length_cons, Nat.add_sub_cancel]
      obtain ⟨x, xs, rfl⟩ := List.exists_cons_of_ne_nil htl
      simp only [List.length_cons, List.take_succ_cons]
      have hd : (x :: xs).take xs.length = (x :: xs).dropLast := by
        rw [List.dropLast_eq_take]; simp
      rw [hd]
      have := List.dropLast_append_getLast htl
      exact (List.perm_append_singleton _ _).symm.trans (by rw [this])

theorem rem_time_of_getElem? (rq : List PCB) (i : Nat) (p : PCB) (h : rq[i]? = some p) :
    rem_time rq i = p.remaining_time := by
  simp [rem_time, h]

theorem root_min (rq : List PCB) (hh : is_min_heap rq) :
    ∀ i : Nat, i < rq.length → rem_time rq 0 ≤ rem_time rq i := by
  intro i
  induction i using Nat.strong_induction_on with
  | _ i ih =>
    intro hi
    by_cases h0 : i = 0
    · subst h0; exact le_refl _
    · have hp : (i - 1) / 2 < i := by omega
      exact le_trans (ih _ hp (by omega)) (hh i (by omega) hi)

theorem terminate_running_pid (pid : Int) (w : SystemState) :
    (scheduler_terminate_process pid w).running_pid = w.running_pid := by
  unfold scheduler_terminate_process
  split <;> rfl

/-! ### Scheduler: one step of either policy -/

/-- C7. A PRIORITY step on a non-empty ready queue (inside the array) that satisfies the
min-heap property returns; it selects a queued PCB `c` whose `remaining_time` is at most
that of every queued PCB and sets `running_pid = c.pid`. If
`c.remaining_time - time_quantum ≤ 0` the new queue holds exactly the other PCBs (as a
multiset) and the world state is that after `scheduler_terminate_process(c.pid)`;
otherwise the new queue holds the other PCBs plus `c` with `remaining_time` reduced by
`time_quantum`, and no process is terminated. -/
theorem run_priority_step (cfg : Config) (s : SchedState) (w : SystemState)
    (hne : s.ready_queue ≠ []) (hcap : (s.ready_queue.length : Int) ≤ MAX_STUDENTS)
    (hheap : is_min_heap s.ready_queue) :
    ∃ c s1 w1, run_priority cfg s w = some (s1, w1) ∧ c ∈ s.ready_queue ∧
      (∀ p ∈ s.ready_queue, c.remaining_time ≤ p.remaining_time) ∧
      w1.running_pid = c.pid ∧
      (c.remaining_time - cfg.time_quantum ≤ 0 →
        s.ready_queue.Perm (c :: s1.ready_queue) ∧
        w1 = scheduler_terminate_process c.pid
          { w with running_pid := c.pid, context_switches := w.context_switches + 1 }) ∧
      (0 < c.remaining_time - cfg.time_quantum →
        ∃ rest, s.ready_queue.Perm (c :: rest) ∧
          s1.ready_queue.Perm
            ({ c with remaining_time := c.remaining_time - cfg.time_quantum } :: rest) ∧
          w1 = { w with running_pid := c.pid,
                        context_switches := w.context_switches + 1 }) := by
  obtain ⟨c, rq1, hpop, hc0, hperm⟩ := heap_pop_spec s.ready_queue hne
  have hlen0 : s.ready_queue.length ≠ 0 := fun h => hne (List.length_eq_zero.mp h)
  have hmem : c ∈ s.ready_queue := List.mem_iff_getElem?.mpr ⟨0, hc0⟩
  have hmin : ∀ p ∈ s.ready_queue, c.remaining_time ≤ p.remaining_time := by
    intro p hp
    obtain ⟨i, hi, hpi⟩ := List.getElem_of_mem hp
    have h1 := root_min s.ready_queue hheap i hi
    rw [rem_time_of_getElem? _ 0 c hc0,
      rem_time_of_getElem? _ i p (by rw [List.getElem?_eq_getElem hi, hpi])] at h1
    exact h1
  have hlen1 : (rq1.length : Int) < MAX_STUDENTS := by
    have := hperm.length_eq
    simp only [List.length_cons] at this
    omega
  by_cases hdone : c.remaining_time - cfg.time_quantum ≤ 0
  · refine ⟨c, { s with ready_queue := rq1 },
      scheduler_terminate_process c.pid
        { w with running_pid := c.pid, context_switches := w.context_switches + 1 },
      ?_, hmem, hmin, ?_, ?_, ?_⟩
    · simp only [run_priority, hlen0, if_false, hpop, hdone, if_true]
    · rw [terminate_running_pid]
    · intro _
      exact ⟨hperm, rfl⟩
    · intro h
      omega
  · obtain ⟨rq2, hpush⟩ := heap_push_some rq1
      { c with remaining_time := c.remaining_time - cfg.time_quantum } hlen1
    refine ⟨c, { s with ready_queue := rq2 },
      { w with running_pid := c.pid, context_switches := w.context_switches + 1 },
      ?_, hmem, hmin, rfl, ?_, ?_⟩
    · simp only [run_priority, hlen0, if_false, hpop, hdone, hpush]
    · intro h
      exact absurd h hdone
    · intro _
      exact ⟨rq1, hperm, heap_push_perm _ _ _ hpush, rfl⟩

/-- Witness of C7: a heap of three PCBs under the default configuration
(`time_quantum = 5`). -/
theorem run_priority_step_witness :
    ∃ (c : PCB) (s1 : SchedState) (w1 : SystemState), run_priority config_load_defaults
        { ready_queue := [⟨1, ProcessState.READY, 1, 100, 3, 0, 0, 0⟩,
                          ⟨2, ProcessState.READY, 1, 100, 9, 0, 0, 0⟩,
                          ⟨3, ProcessState.READY, 1, 100, 7, 0, 0, 0⟩],
          rr_index := 0 } state_init = some (s1, w1) ∧
      c.remaining_time = 3 ∧ w1.running_pid = c.pid := by
  obtain ⟨c, s1, w1, h, hmem, hmin, hrun, _⟩ :=
    run_priority_step config_load_defaults
      { ready_queue := [⟨1, ProcessState.READY, 1, 100, 3, 0, 0, 0⟩,
                        ⟨2, ProcessState.READY, 1, 100, 9, 0, 0, 0⟩,
                        ⟨3, ProcessState.READY, 1, 100, 7, 0, 0, 0⟩],
        rr_index := 0 } state_init (by simp) (by decide)
      (by
        intro i h1 h2
        simp only [List.length_cons, List.length_nil] at h2
        have hi : i = 1 ∨ i = 2 := by omega
        rcases hi with rfl | rfl <;> decide)
  refine ⟨c, s1, w1, h, ?_, hrun⟩
  have h3 := hmin ⟨1, ProcessState.READY, 1, 100, 3, 0, 0, 0⟩ (by simp)
  simp only [List.mem_cons, List.mem_singleton, List.not_mem_nil, or_false] at hmem
  rcases hmem with rfl | rfl | rfl
  · rfl
  · exact absurd h3 (by decide)
  · exact absurd h3 (by decide)

/-- C8. A ROUND_ROBIN step on a ready array of size `n ≥ 1` with `rr_index ≥ 0` returns
and acts on index `i = rr_index mod n`, which is in bounds: it sets `running_pid` to the
pid of that PCB `cur` and reduces its `remaining_time` by `time_quantum`. If the result
is `≤ 0`, the size becomes `n - 1`, slot `i` (when still in the array) holds the former
last element, `rr_index` is unchanged and the world state is that after
`scheduler_terminate_process(cur.pid)`. Otherwise the size stays `n`, slot `i` holds
`cur` with the reduced time and `rr_index` becomes `(rr_index + 1) mod n`. All other
entries of the array are unchanged. -/
theorem run_round_robin_step (cfg : Config) (s : SchedState) (w : SystemState)
    (hn : 1 ≤ s.ready_queue.length) (hrr : 0 ≤ s.rr_index) :
    ∃ (i : Nat) (cur : PCB) (s1 : SchedState) (w1 : SystemState),
      (i : Int) = s.rr_index % (s.ready_queue.length : Int) ∧
      i < s.ready_queue.length ∧ s.ready_queue[i]? = some cur ∧
      run_round_robin cfg s w = some (s1, w1) ∧ w1.running_pid = cur.pid ∧
      (cur.remaining_time - cfg.time_quantum ≤ 0 →
        s1.ready_queue.length = s.ready_queue.length - 1 ∧
        s1.rr_index = s.rr_index ∧
        (i < s.ready_queue.length - 1 →
          s1.ready_queue[i]? = s.ready_queue[s.ready_queue.length - 1]?) ∧
        (∀ j : Nat, j < s.ready_queue.length - 1 → j ≠ i →
          s1.ready_queue[j]? = s.ready_queue[j]?) ∧
        w1 = scheduler_terminate_process cur.pid
          { w with running_pid := cur.pid, context_switches := w.context_switches + 1 }) ∧
      (0 < cur.remaining_time - cfg.time_quantum →
        s1.ready_queue.length = s.ready_queue.length ∧
        s1.rr_index = (s.rr_index + 1) % (s.ready_queue.length : Int) ∧
        s1.ready_queue[i]? =
          some { cur with remaining_time := cur.remaining_time - cfg.time_quantum } ∧
        (∀ j : Nat, j ≠ i → s1.ready_queue[j]? = s.ready_queue[j]?) ∧
        w1 = { w with running_pid := cur.pid,
                      context_switches := w.context_switches + 1 }) := by
  have hnpos : (0 : Int) < (s.ready_queue.length : Int) := by omega
  have hmod : s.rr_index.tmod (s.ready_queue.length : Int)
      = s.rr_index % (s.ready_queue.length : Int) :=
    Int.tmod_eq_emod hrr (by omega)
  have hmod1 : (s.rr_index + 1).tmod (s.ready_queue.length : Int)
      = (s.rr_index + 1) % (s.ready_queue.length : Int) :=
    Int.tmod_eq_emod (by omega) (by omega)
  have hi0 : 0 ≤ s.rr_index % (s.ready_queue.length : Int) :=
    Int.emod_nonneg _ (by omega)
  have hi1 : s.rr_index % (s.ready_queue.length : Int) < (s.ready_queue.length : Int) :=
    Int.emod_lt_of_pos _ hnpos
  obtain ⟨i, hi⟩ : ∃ i : Nat, (i : Int) = s.rr_index % (s.ready_queue.length : Int) :=
    ⟨(s.rr_index % (s.ready_queue.length : Int)).toNat, Int.toNat_of_nonneg hi0⟩
  have hilt : i < s.ready_queue.length := by omega
  have hlen0 : s.ready_queue.length ≠ 0 := by omega
  have hidx : ¬ (s.rr_index.tmod (s.ready_queue.length : Int) < 0) := by
    rw [hmod]; omega
  have hnat : (s.rr_index.tmod (s.ready_queue.length : Int)).toNat = i := by
    rw [hmod, ← hi]; simp
  have hcur : s.ready_queue[i]? = some s.ready_queue[i] := List.getElem?_eq_getElem hilt
  by_cases hdone : s.ready_queue[i].remaining_time - cfg.time_quantum ≤ 0
  · have hlast : ∃ last, (s.ready_queue.set i
          { s.ready_queue[i] with
            remaining_time := s.ready_queue[i].remaining_time - cfg.time_quantum })[
          (s.ready_queue.set i
            { s.ready_queue[i] with
              remaining_time := s.ready_queue[i].remaining_time - cfg.time_quantum }).length
            - 1]? = some last ∧
        (i < s.ready_queue.length - 1 →
          some last = s.ready_queue[s.ready_queue.length - 1]?) := by
      have hl : s.ready_queue.length - 1 < (s.ready_queue.set i
          { s.ready_queue[i] with
            remaining_time := s.ready_queue[i].remaining_time - cfg.time_quantum }).length := by
        simp only [List.length_set]; omega
      refine ⟨_, by simp only [List.length_set]; exact List.getElem?_eq_getElem hl, ?_⟩
      intro hlt
      rw [← List.getElem?_eq_getElem hl, List.getElem?_set_ne (by omega)]
    obtain ⟨last, hl1, hl2⟩ := hlast
    refine ⟨i, s.ready_queue[i],
      { s with ready_queue := ((s.ready_queue.set i
          { s.ready_queue[i] with
            remaining_time := s.ready_queue[i].remaining_time - cfg.time_quantum }).set i
          last).take (s.ready_queue.length - 1) },
      scheduler_terminate_process s.ready_queue[i].pid
        { w with running_pid := s.ready_queue[i].pid,
                 context_switches := w.context_switches + 1 },
      hi, hilt, hcur, ?_, ?_, ?_, ?_⟩
    · simp only [run_round_robin, hlen0, if_false, hidx, hnat, hcur, hdone, if_true, hl1]
      simp only [List.length_set]
    · rw [terminate_running_pid]
    · intro _
      refine ⟨?_, rfl, ?_, ?_, rfl⟩
      · simp only [List.length_take, List.length_set]; omega
      · intro hlt
        simp only [List.getElem?_take, hlt, if_true]
        rw [List.getElem?_set_self (by simp only [List.length_set]; exact hilt)]
        exact hl2 hlt
      · intro j hj hji
        simp only [List.getElem?_take, hj, if_true]
        rw [List.getElem?_set_ne (Ne.symm hji), List.getElem?_set_ne (Ne.symm hji)]
    · intro h
      omega
  · refine ⟨i, s.ready_queue[i],
      { ready_queue := s.ready_queue.set i
          { s.ready_queue[i] with
            remaining_time := s.ready_queue[i].remaining_time - cfg.time_quantum },
        rr_index := (s.rr_index + 1).tmod (s.ready_queue.length : Int) },
      { w with running_pid := s.ready_queue[i].pid,
               context_switches := w.context_switches + 1 },
      hi, hilt, hcur, ?_, rfl, ?_, ?_⟩
    · simp only [run_round_robin, hlen0, if_false, hidx, hnat, hcur, hdone]
    · intro h
      exact absurd h hdone
    · intro _
      refine ⟨by simp only [List.length_set], hmod1, ?_, ?_, rfl⟩
      · exact List.getElem?_set_self hilt
      · intro j hji
        exact List.getElem?_set_ne (Ne.symm hji)

/-- Witness of C8: three PCBs, `rr_index = 4`, default `time_quantum = 5`. -/
theorem run_round_robin_step_witness :
    ∃ (i : Nat) (cur : PCB) (s1 : SchedState) (w1 : SystemState),
      i = 1 ∧ cur.pid = 2 ∧
      run_round_robin config_load_defaults
        { ready_queue := [⟨1, ProcessState.READY, 1, 100, 3, 0, 0, 0⟩,
                          ⟨2, ProcessState.READY, 1, 100, 9, 0, 0, 0⟩,
                          ⟨3, ProcessState.READY, 1, 100, 7, 0, 0, 0⟩],
          rr_index := 4 } state_init = some (s1, w1) ∧
      w1.running_pid = cur.pid := by
  obtain ⟨i, cur, s1, w1, hi, _, hcur, h, hrun, _⟩ :=
    run_round_robin_step config_load_defaults
      { ready_queue := [⟨1, ProcessState.READY, 1, 100, 3, 0, 0, 0⟩,
                        ⟨2, ProcessState.READY, 1, 100, 9, 0, 0, 0⟩,
                        ⟨3, ProcessState.READY, 1, 100, 7, 0, 0, 0⟩],
        rr_index := 4 } state_init (by decide) (by decide)
  have hi1 : i = 1 := by
    simp only [List.length_cons, List.length_nil] at hi
    omega
  subst hi1
  simp only [List.getElem?_cons_succ, List.getElem?_cons_zero, Option.some.injEq] at hcur
  subst hcur
  exact ⟨1, _, s1, w1, rfl, rfl, h, hrun⟩

/-! ### Termination accounting -/

/-- C9, the failing input. On a world whose PCB table holds one READY PCB with pid 1,
one call of `scheduler_terminate_process(1)` gives `completed_processes = 1`, a second
call gives `completed_processes = 2`; the PCB table is the same after one and after
two calls. -/
theorem scheduler_terminate_process_twice :
    (scheduler_terminate_process 1
      { state_init with processes := [⟨1, ProcessState.READY, 1, 100, 3, 0, 0, 0⟩] }
      ).completed_processes = 1 ∧
    (scheduler_terminate_process 1 (scheduler_terminate_process 1
      { state_init with processes := [⟨1, ProcessState.READY, 1, 100, 3, 0, 0, 0⟩] })
      ).completed_processes = 2 ∧
    (scheduler_terminate_process 1 (scheduler_terminate_process 1
      { state_init with processes := [⟨1, ProcessState.READY, 1, 100, 3, 0, 0, 0⟩] })
      ).processes =
    (scheduler_terminate_process 1
      { state_init with processes := [⟨1, ProcessState.READY, 1, 100, 3, 0, 0, 0⟩] }
      ).processes := by
  decide

/-- C10, the failing input. One student, `exam_duration = 1`, PRIORITY policy. After the
admission block (PCB 1 with `remaining_time = 1`), one pass of the timeout detector, one
run of the dispatch loop and one scheduling decision, the machine has
`completed_processes = 2` with a single PCB, TERMINATED, in the table: the timeout
handler and the scheduler, which still held its copy of the PCB in the ready queue, each
called `scheduler_terminate_process(1)`. So
`completed + active + (num_students - process_count) = 2 > 1 = num_students`. -/
theorem completed_exceeds_students :
    ∃ mc, (machine_init { config_load_defaults with num_students := 1, exam_duration := 1 }).run
        [Step.admission (fun _ => 0), Step.detect (fun _ => 7), Step.drain (fun _ => 8),
         Step.schedule] = some mc ∧
      mc.world.completed_processes = 2 ∧ active_count mc.world = 0 ∧
      mc.world.process_count = 1 ∧ mc.cfg.num_students = 1 ∧
      mc.world.timeouts_fired = 1 ∧
      ¬ (mc.world.completed_processes + active_count mc.world
          + (mc.cfg.num_students - mc.world.process_count) ≤ mc.cfg.num_students) := by
  refine ⟨_, rfl, ?_, ?_, ?_, ?_, ?_, ?_⟩ <;> decide

/-! ### Scheduler: table capacity and per-step counters -/

/-- C11, the failing input. With `num_students = 201` (the loader accepts any integer),
forty admission blocks from initialisation fill both tables: `process_count = 200` and
`rq_size = 200`, that is, `MAX_STUDENTS`. The next admission block still finds
`process_count < num_students` and calls `scheduler_add_process`, whose stores
`g_state.processes[200]` and `ready_queue[200]` lie outside the arrays. -/
theorem admission_overflows_tables :
    ((machine_init { config_load_defaults with num_students := 201 }).run
        (List.replicate 40 (Step.admission (fun _ => 0)))).map
      (fun mc => (mc.world.process_count, mc.sched.rq_size,
        (mc.step (Step.admission (fun _ => 0))).isNone))
      = some (200, 200, true) := by
  set_option maxRecDepth 100000 in decide

theorem terminate_context_switches (pid : Int) (w : SystemState) :
    (scheduler_terminate_process pid w).context_switches = w.context_switches := by
  unfold scheduler_terminate_process
  split <;> rfl

theorem run_round_robin_counters (cfg : Config) (s : SchedState) (w : SystemState)
    (hne : s.ready_queue ≠ []) (hrr : 0 ≤ s.rr_index) :
    ∃ sel s1 w1, run_round_robin cfg s w = some (s1, w1) ∧
      s.ready_queue[(s.rr_index % (s.ready_queue.length : Int)).toNat]? = some sel ∧
      w1.running_pid = sel.pid ∧ w1.context_switches = w.context_switches + 1 := by
  have hlen0 : s.ready_queue.length ≠ 0 := fun h => hne (List.length_eq_zero.mp h)
  have hnpos : (0 : Int) < (s.ready_queue.length : Int) := by omega
  have hmod : s.rr_index.tmod (s.ready_queue.length : Int)
      = s.rr_index % (s.ready_queue.length : Int) :=
    Int.tmod_eq_emod hrr (by omega)
  have hi0 : 0 ≤ s.rr_index % (s.ready_queue.length : Int) :=
    Int.emod_nonneg _ (by omega)
  have hi1 : s.rr_index % (s.ready_queue.length : Int) < (s.ready_queue.length : Int) :=
    Int.emod_lt_of_pos _ hnpos
  have hilt : (s.rr_index % (s.ready_queue.length : Int)).toNat < s.ready_queue.length := by
    omega
  have hidx : ¬ (s.rr_index % (s.ready_queue.length : Int) < 0) := by omega
  have hcur := List.getElem?_eq_getElem hilt
  by_cases hdone : s.ready_queue[(s.rr_index % (s.ready_queue.length : Int)).toNat].remaining_time
      - cfg.time_quantum ≤ 0
  · have hl : ((s.ready_queue.set (s.rr_index % (s.ready_queue.length : Int)).toNat
          { s.ready_queue[(s.rr_index % (s.ready_queue.length : Int)).toNat] with
            remaining_time :=
              s.ready_queue[(s.rr_index % (s.ready_queue.length : Int)).toNat].remaining_time
                - cfg.time_quantum }).length - 1) <
        (s.ready_queue.set (s.rr_index % (s.ready_queue.length : Int)).toNat
          { s.ready_queue[(s.rr_index % (s.ready_queue.length : Int)).toNat] with
            remaining_time :=
              s.ready_queue[(s.rr_index % (s.ready_queue.length : Int)).toNat].remaining_time
                - cfg.time_quantum }).length := by
      simp only [List.length_set]; omega
    cases hr : run_round_robin cfg s w with
    | none =>
      simp only [run_round_robin, hlen0, if_false, hmod, hidx, hcur, hdone, if_true,
        List.getElem?_eq_getElem hl] at hr
      exact absurd hr (by simp)
    | some r =>
      simp only [run_round_robin, hlen0, if_false, hmod, hidx, hcur, hdone, if_true,
        List.getElem?_eq_getElem hl, Option.some.injEq] at hr
      subst hr
      exact ⟨_, _, _, rfl, hcur, by rw [terminate_running_pid],
        by rw [terminate_context_switches]⟩
  · cases hr : run_round_robin cfg s w with
    | none =>
      simp only [run_round_robin, hlen0, if_false, hmod, hidx, hcur, hdone] at hr
      exact absurd hr (by simp)
    | some r =>
      simp only [run_round_robin, hlen0, if_false, hmod, hidx, hcur, hdone,
        Option.some.injEq] at hr
      subst hr
      exact ⟨_, _, _, rfl, hcur, rfl, rfl⟩

theorem run_priority_counters (cfg : Config) (s : SchedState) (w : SystemState)
    (hne : s.ready_queue ≠ []) (hcap : (s.ready_queue.length : Int) ≤ MAX_STUDENTS) :
    ∃ sel s1 w1, run_priority cfg s w = some (s1, w1) ∧
      s.ready_queue[0]? = some sel ∧
      w1.running_pid = sel.pid ∧ w1.context_switches = w.context_switches + 1 := by
  obtain ⟨c, rq1, hpop, hc0, hperm⟩ := heap_pop_spec s.ready_queue hne
  have hlen0 : s.ready_queue.length ≠ 0 := fun h => hne (List.length_eq_zero.mp h)
  have hlen1 : (rq1.length : Int) < MAX_STUDENTS := by
    have := hperm.length_eq
    simp only [List.length_cons] at this
    omega
  by_cases hdone : c.remaining_time - cfg.time_quantum ≤ 0
  · refine ⟨c, { s with ready_queue := rq1 },
      scheduler_terminate_process c.pid
        { w with running_pid := c.pid, context_switches := w.context_switches + 1 },
      ?_, hc0, ?_, ?_⟩
    · simp only [run_priority, hlen0, if_false, hpop, hdone, if_true]
    · rw [terminate_running_pid]
    · rw [terminate_context_switches]
  · obtain ⟨rq2, hpush⟩ := heap_push_some rq1
      { c with remaining_time := c.remaining_time - cfg.time_quantum } hlen1
    refine ⟨c, { s with ready_queue := rq2 },
      { w with running_pid := c.pid, context_switches := w.context_switches + 1 },
      ?_, hc0, rfl, rfl⟩
    simp only [run_priority, hlen0, if_false, hpop, hdone, hpush]

/-- C12. For both policies: one scheduling step on an empty ready queue only sets
`running_pid = -1` (so `context_switches`, `completed_processes` and the PCB table are
unchanged); one scheduling step on a non-empty ready queue (with `rr_index ≥ 0` and the
queue inside its array) returns, sets `running_pid` to the pid of the selected PCB, the
entry at `rr_index mod rq_size` under ROUND_ROBIN and the heap root under PRIORITY, and
increases `context_switches` by exactly 1. -/
theorem schedule_step_counters (cfg : Config) (s : SchedState) (w : SystemState) :
    (s.ready_queue = [] →
      schedule_step cfg s w = some (s, { w with running_pid := -1 })) ∧
    (s.ready_queue ≠ [] → 0 ≤ s.rr_index →
      (s.ready_queue.length : Int) ≤ MAX_STUDENTS →
      ∃ sel s1 w1, schedule_step cfg s w = some (s1, w1) ∧
        s.ready_queue[if cfg.sched_algo = SchedAlgo.ROUND_ROBIN
          then (s.rr_index % (s.ready_queue.length : Int)).toNat else 0]? = some sel ∧
        w1.running_pid = sel.pid ∧
        w1.context_switches = w.context_switches + 1) := by
  constructor
  · intro he
    simp only [schedule_step, run_round_robin, run_priority, he, List.length_nil, if_true]
    split_ifs <;> rfl
  · intro hne hrr hcap
    by_cases halgo : cfg.sched_algo = SchedAlgo.ROUND_ROBIN
    · simp only [schedule_step, halgo, if_true]
      exact run_round_robin_counters cfg s w hne hrr
    · simp only [schedule_step, halgo, if_false]
      exact run_priority_counters cfg s w hne hcap

/-- Witness of C12: a queue of two PCBs under the default configuration (PRIORITY). -/
theorem schedule_step_counters_witness :
    ∃ (sel : PCB) (s1 : SchedState) (w1 : SystemState),
      schedule_step config_load_defaults
        { ready_queue := [⟨1, ProcessState.READY, 1, 100, 30, 0, 0, 0⟩,
                          ⟨2, ProcessState.READY, 1, 100, 90, 0, 0, 0⟩],
          rr_index := 0 } state_init = some (s1, w1) ∧
      sel.pid = 1 ∧ w1.running_pid = sel.pid ∧ w1.context_switches = 1 := by
  obtain ⟨sel, s1, w1, h, hsel, hrun, hcs⟩ :=
    (schedule_step_counters config_load_defaults
      { ready_queue := [⟨1, ProcessState.READY, 1, 100, 30, 0, 0, 0⟩,
                        ⟨2, ProcessState.READY, 1, 100, 90, 0, 0, 0⟩],
        rr_index := 0 } state_init).2 (by simp) (by decide) (by decide)
  have hs : sel = ⟨1, ProcessState.READY, 1, 100, 30, 0, 0, 0⟩ := by
    have h0 : (if config_load_defaults.sched_algo = SchedAlgo.ROUND_ROBIN
        then ((0 : Int) % ((2 : Nat) : Int)).toNat else 0) = 0 := by decide
    simp only [List.length_cons, List.length_nil] at hsel
    rw [h0] at hsel
    simpa using hsel.symm
  subst hs
  exact ⟨_, s1, w1, h, rfl, hrun, hcs⟩

/-! ### Lemmas on rings -/

theorem ring_list_nil {α : Type} (a : Int → α) (head count cap : Int) (h : count ≤ 0) :
    ring_list a head count cap = [] := by
  have hz : count.toNat = 0 := by omega
  simp [ring_list, hz]

theorem ring_list_length {α : Type} (a : Int → α) (head count cap : Int) :
    (ring_list a head count cap).length = count.toNat := by
  simp [ring_list]

theorem ring_index_ne (head cap k n : Int) (hk0 : 0 ≤ k) (hkn : k < n) (hn : n < cap) :
    (head + k) % cap ≠ (head + n) % cap := by
  intro h
  have h1 := Int.emod_eq_emod_iff_emod_sub_eq_zero.mp h.symm
  have h2 : head + n - (head + k) = n - k := by ring
  rw [h2, Int.emod_eq_of_lt (by omega) (by omega)] at h1
  omega

theorem ring_list_push {α : Type} (a : Int → α) (head count cap : Int) (x : α)
    (h0 : 0 ≤ count) (h1 : count < cap) :
    ring_list (fun j => if j = (head + count) % cap then x else a j) head (count + 1) cap
      = ring_list a head count cap ++ [x] := by
  have hn : (count + 1).toNat = count.toNat + 1 := by omega
  simp only [ring_list, hn, List.range_succ, List.map_append, List.map_cons, List.map_nil]
  congr 1
  · apply List.map_congr_left
    intro k hk
    have hk1 : k < count.toNat := List.mem_range.mp hk
    have hne := ring_index_ne head cap (k : Int) count (by omega) (by omega) h1
    simp only [hne, if_false]
  · have hc : ((count.toNat : Nat) : Int) = count := Int.toNat_of_nonneg h0
    simp only [hc, if_true]

theorem ring_list_pop {α : Type} (a : Int → α) (head count cap : Int)
    (hc : 1 ≤ count) (hh0 : 0 ≤ head) (hh1 : head < cap) :
    ring_list a head count cap
      = a head :: ring_list a ((head + 1) % cap) (count - 1) cap := by
  have hn : count.toNat = (count - 1).toNat + 1 := by omega
  simp only [ring_list]
  rw [hn, List.range_succ_eq_map, List.map_cons, List.map_map]
  congr 1
  · simp [Int.emod_eq_of_lt hh0 hh1]
  · apply List.map_congr_left
    intro k _
    simp only [Function.comp_apply, Nat.succ_eq_add_one, Nat.cast_add, Nat.cast_one,
      Int.emod_add_emod]
    congr 2
    ring

/-! ### Lemmas on the I/O buffer -/

theorem io_buffer_init_inv (b : IOBuffer) : io_buffer_inv (io_buffer_init b) := by
  simp only [io_buffer_inv, io_buffer_init, BUFFER_CAPACITY]
  decide

theorem io_buffer_submit_full (now pid question_id : Int) (answer : Option String)
    ( is_partial : Int) (b : IOBuffer) (w : SystemState) (hinv : io_buffer_inv b)
    (hfull : b.count = BUFFER_CAPACITY) :
    io_buffer_submit now pid question_id answer is_partial b w
      = some (-1, b, { w with dropped_submissions := w.dropped_submissions + 1 }) := by
  obtain ⟨_, _, _, _, _, _, _, hes, _⟩ := hinv
  have h0 : b.empty_slots = 0 := by omega
  simp only [io_buffer_submit, h0]

theorem io_buffer_submit_ok (now pid question_id : Int) (answer : Option String)
    ( is_partial : Int) (b : IOBuffer) (w : SystemState) (hinv : io_buffer_inv b)
    (hroom : b.count < BUFFER_CAPACITY) :
    ∃ b1, io_buffer_submit now pid question_id answer is_partial b w
        = some (0, b1, { w with buffer_count := b.count + 1,
                                total_submissions := w.total_submissions + 1 }) ∧
      io_buffer_inv b1 ∧ b1.count = b.count + 1 ∧ b1.head = b.head ∧
      b1.tail = (b.tail + 1) % BUFFER_CAPACITY ∧
      io_contents b1 = io_contents b ++
        [⟨pid, question_id, (match answer with | some a => a | none => "EMPTY").take 127,
          now, is_partial⟩] := by
  obtain ⟨hc0, hc1, hh0, hh1, ht0, ht1, htl, hes, hfs⟩ := hinv
  obtain ⟨slots, hslots⟩ : ∃ slots, b.empty_slots = slots + 1 :=
    ⟨b.empty_slots - 1, by omega⟩
  have hmod : (b.tail + 1).tmod BUFFER_CAPACITY = (b.tail + 1) % BUFFER_CAPACITY :=
    Int.tmod_eq_emod (by omega) (by decide)
  have hb : 0 ≤ b.tail ∧ b.tail < BUFFER_CAPACITY := ⟨ht0, ht1⟩
  refine ⟨{ buffer := set_submission b.buffer b.tail
              ⟨pid, question_id, (match answer with | some a => a | none => "EMPTY").take 127,
                now, is_partial⟩,
            head := b.head, tail := (b.tail + 1) % BUFFER_CAPACITY, count := b.count + 1,
            empty_slots := slots, filled_slots := b.filled_slots + 1 }, ?_, ?_, rfl, rfl, rfl, ?_⟩
  · simp only [io_buffer_submit, hslots, hb, and_self, not_true_eq_false, if_false, hmod]
  · simp only [io_buffer_inv, BUFFER_CAPACITY] at *
    refine ⟨by omega, by omega, hh0, hh1, by omega, by omega, by omega, by omega, ?_⟩
    push_cast
    omega
  · simp only [io_contents, set_submission, htl]
    exact ring_list_push b.buffer b.head b.count BUFFER_CAPACITY _ hc0 hroom

theorem flush_loop_spec : ∀ (fuel : Nat) (b : IOBuffer) (w : SystemState)
    (out : List Submission), io_buffer_inv b → (fuel : Int) ≤ b.count →
    ∃ b1, flush_loop fuel b w out
        = some (b1, { w with buffer_count :=
                        if fuel = 0 then w.buffer_count else b.count - (fuel : Int) },
                out ++ (io_contents b).take fuel) ∧
      io_buffer_inv b1 ∧ b1.count = b.count - (fuel : Int) ∧
      io_contents b1 = (io_contents b).drop fuel := by
  intro fuel
  induction fuel with
  | zero =>
    intro b w out hinv _
    exact ⟨b, by simp [flush_loop], hinv, by simp, by simp⟩
  | succ fuel ih =>
    intro b w out hinv hle
    obtain ⟨hc0, hc1, hh0, hh1, ht0, ht1, htl, hes, hfs⟩ := hinv
    obtain ⟨filled, hfilled⟩ : ∃ filled, b.filled_slots = filled + 1 :=
      ⟨b.filled_slots - 1, by omega⟩
    have hmod : (b.head + 1).tmod BUFFER_CAPACITY = (b.head + 1) % BUFFER_CAPACITY :=
      Int.tmod_eq_emod (by omega) (by decide)
    have hb : 0 ≤ b.head ∧ b.head < BUFFER_CAPACITY := ⟨hh0, hh1⟩
    have hinv1 : io_buffer_inv
        { buffer := b.buffer, head := (b.head + 1) % BUFFER_CAPACITY, tail := b.tail,
          count := b.count - 1, empty_slots := b.empty_slots + 1, filled_slots := filled } := by
      simp only [io_buffer_inv, BUFFER_CAPACITY] at *
      refine ⟨by omega, by omega, by omega, by omega, ht0, ht1, by omega, ?_, by omega⟩
      push_cast
      omega
    have hpop : io_contents b = b.buffer b.head :: io_contents
        { buffer := b.buffer, head := (b.head + 1) % BUFFER_CAPACITY, tail := b.tail,
          count := b.count - 1, empty_slots := b.empty_slots + 1, filled_slots := filled } :=
      ring_list_pop b.buffer b.head b.count BUFFER_CAPACITY (by omega) hh0 hh1
    obtain ⟨b1, e1, e2, e3, e4⟩ := ih _ { w with buffer_count := b.count - 1 }
      (out ++ [b.buffer b.head]) hinv1 (by simp only; push_cast at hle; omega)
    refine ⟨b1, ?_, e2, ?_, ?_⟩
    · simp only [flush_loop, hfilled, hb, and_self, not_true_eq_false, if_false, hmod]
      rw [e1, hpop]
      simp only [List.take_succ_cons, List.append_assoc, List.singleton_append,
        Nat.succ_ne_zero, if_false]
      congr 3
      by_cases hf : fuel = 0
      · subst hf
        simp
      · simp only [hf, if_false]
        push_cast
        congr 1
        omega
    · rw [e3]
      push_cast
      omega
    · rw [e4, hpop]
      simp

theorem flush_buffer_spec (b : IOBuffer) (w : SystemState) (hinv : io_buffer_inv b) :
    ∃ b1, flush_buffer b w
        = some (b.count, b1,
            { w with
              buffer_count := if b.count = 0 then w.buffer_count else 0,
              flush_count := if b.count = 0 then w.flush_count else w.flush_count + 1 },
            io_contents b) ∧
      io_buffer_inv b1 ∧ b1.count = 0 ∧ io_contents b1 = [] := by
  by_cases hz : b.count = 0
  · refine ⟨b, ?_, hinv, hz, ring_list_nil _ _ _ _ (by omega)⟩
    have hnil : io_contents b = [] := ring_list_nil _ _ _ _ (by omega)
    simp [flush_buffer, hz, hnil]
  · have hc0 := hinv.1
    have hcast : ((b.count.toNat : Nat) : Int) = b.count := Int.toNat_of_nonneg hc0
    obtain ⟨b1, e1, e2, e3, e4⟩ := flush_loop_spec b.count.toNat b w [] hinv (by omega)
    have hlen : (io_contents b).length = b.count.toNat := ring_list_length _ _ _ _
    have htake : (io_contents b).take b.count.toNat = io_contents b := by
      rw [← hlen]; exact List.take_length _
    have hnz : b.count.toNat ≠ 0 := by omega
    rw [htake, hcast] at e1
    simp only [hnz, if_false, List.nil_append, sub_self] at e1
    have hpos : ((io_contents b).length : Int) > 0 := by rw [hlen]; omega
    refine ⟨b1, ?_, e2, by rw [e3]; omega, ?_⟩
    · have hpos2 : b.count > 0 := by omega
      simp only [flush_buffer, hz, if_false, e1, hlen, hcast, hpos2, if_true]
    · rw [e4, ← hlen]
      exact List.drop_length _

/-- The invariant of a trace of calls on the I/O buffer. -/
theorem io_trace_step (t : IOTrace) (op : IOOp)
    (hinv : io_buffer_inv t.io)
    (hacc : t.accepted = t.disk ++ io_contents t.io) :
    ∃ t1, t.step op = some t1 ∧ io_buffer_inv t1.io ∧
      (t.world.buffer_count = t.io.count → t1.world.buffer_count = t1.io.count) ∧
      t1.accepted = t1.disk ++ io_contents t1.io ∧
      (op = IOOp.flush → t1.returns = t.returns ∧
        t1.world.total_submissions = t.world.total_submissions ∧
        t1.world.dropped_submissions = t.world.dropped_submissions ∧
        t1.disk = t.disk ++ io_contents t.io ∧ t1.io.count = 0 ∧
        t1.accepted = t.accepted) ∧
      (op ≠ IOOp.flush → t1.disk = t.disk ∧
        ((t.io.count < BUFFER_CAPACITY ∧ t1.returns = t.returns ++ [0] ∧
          t1.world.total_submissions = t.world.total_submissions + 1 ∧
          t1.world.dropped_submissions = t.world.dropped_submissions) ∨
         (t.io.count = BUFFER_CAPACITY ∧ t1.returns = t.returns ++ [-1] ∧
          t1.world.total_submissions = t.world.total_submissions ∧
          t1.world.dropped_submissions = t.world.dropped_submissions + 1 ∧
          t1.io = t.io ∧ t1.accepted = t.accepted ∧
          t1.world = { t.world with
            dropped_submissions := t.world.dropped_submissions + 1 }))) := by
  cases op with
  | submit now pid question_id answer is_partial =>
    by_cases hroom : t.io.count < BUFFER_CAPACITY
    · obtain ⟨b1, e1, e2, e3, _, _, e6⟩ :=
        io_buffer_submit_ok now pid question_id answer is_partial t.io t.world hinv hroom
      cases hs : t.step (IOOp.submit now pid question_id answer is_partial) with
      | none =>
        simp only [IOTrace.step, e1] at hs
        exact absurd hs (by simp)
      | some t1 =>
        simp only [IOTrace.step, e1, if_true, Option.some.injEq] at hs
        subst hs
        refine ⟨_, rfl, e2, fun _ => e3.symm, ?_, ?_, ?_⟩
        · simp only [e6, hacc, List.append_assoc]
        · intro h; exact absurd h (by simp)
        · intro _
          exact ⟨rfl, Or.inl ⟨hroom, rfl, rfl, rfl⟩⟩
    · have hfull : t.io.count = BUFFER_CAPACITY := by
        have := hinv.2.1; omega
      have e1 := io_buffer_submit_full now pid question_id answer is_partial t.io t.world
        hinv hfull
      have hne : ¬ ((-1 : Int) = 0) := by decide
      cases hs : t.step (IOOp.submit now pid question_id answer is_partial) with
      | none =>
        simp only [IOTrace.step, e1] at hs
        exact absurd hs (by simp)
      | some t1 =>
        simp only [IOTrace.step, e1, hne, if_false, Option.some.injEq] at hs
        subst hs
        refine ⟨_, rfl, hinv, fun hbc => hbc, hacc, ?_, ?_⟩
        · intro h; exact absurd h (by simp)
        · intro _
          exact ⟨rfl, Or.inr ⟨hfull, rfl, rfl, rfl, rfl, rfl, rfl⟩⟩
  | flush =>
    obtain ⟨b1, e1, e2, e3, e4⟩ := flush_buffer_spec t.io t.world hinv
    cases hs : t.step IOOp.flush with
    | none =>
      simp only [IOTrace.step, e1] at hs
      exact absurd hs (by simp)
    | some t1 =>
      simp only [IOTrace.step, e1, Option.some.injEq] at hs
      subst hs
      refine ⟨_, rfl, e2, ?_, ?_, ?_, ?_⟩
      · intro hbc
        simp only [e3]
        split_ifs with h
        · rw [hbc, h]
        · rfl
      · simp only [e4, List.append_nil, hacc]
      · intro _
        exact ⟨rfl, rfl, rfl, rfl, e3, rfl⟩
      · intro h; exact absurd rfl h

theorem io_trace_run : ∀ (ops : List IOOp) (t : IOTrace),
    io_buffer_inv t.io →
    t.accepted = t.disk ++ io_contents t.io →
    ∃ t1, t.run ops = some t1 ∧ io_buffer_inv t1.io ∧
      (t.world.buffer_count = t.io.count → t1.world.buffer_count = t1.io.count) ∧
      t1.accepted = t1.disk ++ io_contents t1.io ∧
      t1.returns.length = t.returns.length + num_submits ops ∧
      t1.world.total_submissions + t1.world.dropped_submissions
        = t.world.total_submissions + t.world.dropped_submissions + (num_submits ops : Int) ∧
      t1.world.total_submissions + (t.returns.count 0 : Int)
        = t.world.total_submissions + (t1.returns.count 0 : Int) := by
  intro ops
  induction ops with
  | nil =>
    intro t hinv hacc
    exact ⟨t, rfl, hinv, fun h => h, hacc, by simp [num_submits], by simp [num_submits],
      rfl⟩
  | cons op rest ih =>
    intro t hinv hacc
    obtain ⟨t1, s1, s2, s3, s4, s5, s6⟩ := io_trace_step t op hinv hacc
    obtain ⟨t2, r1, r2, r3, r4, r5, r6, r7⟩ := ih t1 s2 s4
    refine ⟨t2, by simp only [IOTrace.run, s1, r1], r2, fun h => r3 (s3 h), r4, ?_, ?_, ?_⟩
    · cases op with
      | flush =>
        obtain ⟨f1, _⟩ := s5 rfl
        rw [r5, f1]; simp [num_submits]
      | submit now pid question_id answer is_partial =>
        obtain ⟨_, hs⟩ := s6 (by simp)
        rcases hs with ⟨_, h, _⟩ | ⟨_, h, _⟩ <;>
          (rw [r5, h]; simp [num_submits]; omega)
    · cases op with
      | flush =>
        obtain ⟨_, f2, f3, _⟩ := s5 rfl
        rw [r6, f2, f3]; simp [num_submits]
      | submit now pid question_id answer is_partial =>
        obtain ⟨_, hs⟩ := s6 (by simp)
        rcases hs with ⟨_, _, h2, h3⟩ | ⟨_, _, h2, h3, _⟩ <;>
          (rw [r6, h2, h3]; simp only [num_submits]; push_cast; omega)
    · cases op with
      | flush =>
        obtain ⟨f1, f2, _⟩ := s5 rfl
        rw [← f1, ← f2]; exact r7
      | submit now pid question_id answer is_partial =>
        obtain ⟨_, hs⟩ := s6 (by simp)
        rcases hs with ⟨_, h1, h2, _⟩ | ⟨_, h1, h2, _⟩
        · rw [h1, h2] at r7
          simp only [List.count_append, List.count_singleton_self] at r7
          push_cast at r7
          omega
        · rw [h1, h2] at r7
          have hc : List.count (0 : Int) [-1] = 0 := by decide
          simp only [List.count_append, hc, Nat.add_zero] at r7
          exact r7

theorem io_run_full : ∀ (ops : List IOOp) (b : IOBuffer) (w : SystemState)
    (rets : List Int) (acc disk : List Submission),
    io_buffer_inv b → b.count = BUFFER_CAPACITY → (∀ op ∈ ops, op ≠ IOOp.flush) →
    (IOTrace.mk b w rets acc disk).run ops
      = some ⟨b, { w with dropped_submissions := w.dropped_submissions + (ops.length : Int) },
          rets ++ List.replicate ops.length (-1), acc, disk⟩ := by
  intro ops
  induction ops with
  | nil =>
    intro b w rets acc disk _ _ _
    simp [IOTrace.run]
  | cons op rest ih =>
    intro b w rets acc disk hinv hfull hops
    cases op with
    | flush => exact absurd rfl (hops IOOp.flush (List.mem_cons_self _ _))
    | submit now pid question_id answer is_partial =>
      have e1 := io_buffer_submit_full now pid question_id answer is_partial b w hinv hfull
      have hne : ¬ ((-1 : Int) = 0) := by decide
      simp only [IOTrace.run, IOTrace.step, e1, hne, if_false]
      rw [ih b _ _ acc disk hinv hfull (fun op h => hops op (List.mem_cons_of_mem _ h))]
      simp only [List.length_cons, List.replicate_succ, List.append_assoc,
        List.singleton_append]
      congr 3
      push_cast
      omega

/-! ### I/O buffer: drop on full, accounting, FIFO order and invariant -/

/-- C13. In a buffer that satisfies the buffer invariant: when it holds
`BUFFER_CAPACITY` submissions, `io_buffer_submit` returns `-1`, leaves the buffer
(contents, head, tail, count) unchanged and changes nothing in the world state but
`dropped_submissions`, which grows by 1; so any `k` consecutive submits on the full
buffer all return `-1`, leave the buffer unchanged and raise `dropped_submissions` by
exactly `k`. When it holds fewer than `BUFFER_CAPACITY` submissions, `io_buffer_submit`
returns 0. -/
theorem io_buffer_submit_drop_on_full (b : IOBuffer) (w : SystemState)
    (hinv : io_buffer_inv b) :
    (b.count = BUFFER_CAPACITY →
      (∀ (now pid question_id : Int) (answer : Option String) ( is_partial : Int),
        io_buffer_submit now pid question_id answer is_partial b w
          = some (-1, b, { w with dropped_submissions := w.dropped_submissions + 1 })) ∧
      (∀ ops : List IOOp, (∀ op ∈ ops, op ≠ IOOp.flush) →
        (IOTrace.mk b w [] [] []).run ops
          = some ⟨b, { w with dropped_submissions :=
                        w.dropped_submissions + (ops.length : Int) },
              List.replicate ops.length (-1), [], []⟩)) ∧
    (b.count < BUFFER_CAPACITY →
      ∀ (now pid question_id : Int) (answer : Option String) ( is_partial : Int),
        ∃ b1 w1, io_buffer_submit now pid question_id answer is_partial b w
          = some (0, b1, w1)) := by
  refine ⟨fun hfull => ⟨?_, ?_⟩, ?_⟩
  · intro now pid question_id answer is_partial
    exact io_buffer_submit_full now pid question_id answer is_partial b w hinv hfull
  · intro ops hops
    have := io_run_full ops b w [] [] [] hinv hfull hops
    simpa using this
  · intro hroom now pid question_id answer is_partial
    obtain ⟨b1, e1, _⟩ :=
      io_buffer_submit_ok now pid question_id answer is_partial b w hinv hroom
    exact ⟨b1, _, e1⟩

/-- Witness of C13: ten submits on a full buffer. -/
theorem io_buffer_submit_drop_on_full_witness :
    (IOTrace.mk { io_static with count := 256, empty_slots := 0, filled_slots := 256 }
        state_init [] [] []).run
      (List.replicate 10 (IOOp.submit 5 1 1 (some "A") 0))
      = some ⟨{ io_static with count := 256, empty_slots := 0, filled_slots := 256 },
          { state_init with dropped_submissions := 0 + ((10 : Nat) : Int) },
          List.replicate 10 (-1), [], []⟩ :=
  ((io_buffer_submit_drop_on_full
      { io_static with count := 256, empty_slots := 0, filled_slots := 256 } state_init
      (by simp only [io_buffer_inv, io_static, BUFFER_CAPACITY]; decide)).1
    (by decide)).2 (List.replicate 10 (IOOp.submit 5 1 1 (some "A") 0))
    (by
      intro op hop
      rw [List.eq_of_mem_replicate hop]
      simp)

/-- C14. For every sequence of `io_buffer_submit` and `flush_buffer` calls from
`io_buffer_init` with `total_submissions = dropped_submissions = 0`, every call returns,
`total_submissions + dropped_submissions` is the number of `io_buffer_submit` calls made
and `total_submissions` is the number of those calls that returned 0. -/
theorem drop_accounting (ops : List IOOp) (w0 : SystemState)
    (h1 : w0.total_submissions = 0) (h2 : w0.dropped_submissions = 0) :
    ∃ t, (IOTrace.init w0).run ops = some t ∧
      t.returns.length = num_submits ops ∧
      t.world.total_submissions + t.world.dropped_submissions = (num_submits ops : Int) ∧
      t.world.total_submissions = (t.returns.count 0 : Int) := by
  obtain ⟨t, r1, _, _, _, r5, r6, r7⟩ := io_trace_run ops (IOTrace.init w0)
    (io_buffer_init_inv _) (by
      have : io_contents (io_buffer_init io_static) = [] :=
        ring_list_nil _ _ _ _ (by decide)
      simp [IOTrace.init, this])
  refine ⟨t, r1, by simpa [IOTrace.init] using r5, ?_, ?_⟩
  · simp only [IOTrace.init, h1, h2] at r6
    omega
  · simp only [IOTrace.init, h1, List.count_nil] at r7
    push_cast at r7
    omega

/-- Witness of C14: two submits and a flush from the initial state. -/
theorem drop_accounting_witness :
    ∃ t, (IOTrace.init state_init).run
        [IOOp.submit 5 1 1 (some "A") 0, IOOp.flush, IOOp.submit 6 2 1 none 0] = some t ∧
      t.returns.length = 2 ∧
      t.world.total_submissions + t.world.dropped_submissions = 2 ∧
      t.world.total_submissions = (t.returns.count 0 : Int) :=
  drop_accounting [IOOp.submit 5 1 1 (some "A") 0, IOOp.flush, IOOp.submit 6 2 1 none 0]
    state_init rfl rfl

/-- C15. For every sequence of `io_buffer_submit` and `flush_buffer` calls from
`io_buffer_init`, every call returns; the records written to the submissions file, in
write order, are a prefix of the accepted submissions in the order their calls succeeded,
the rest being the contents of the buffer, oldest first. A `flush_buffer` call at that
point writes every submission held and leaves `count = 0`, after which the written
records are exactly the accepted ones. -/
theorem fifo_draining (ops : List IOOp) (w0 : SystemState) :
    ∃ t, (IOTrace.init w0).run ops = some t ∧
      t.disk <+: t.accepted ∧ t.accepted = t.disk ++ io_contents t.io ∧
      ∃ t1, t.step IOOp.flush = some t1 ∧ t1.disk = t.disk ++ io_contents t.io ∧
        t1.io.count = 0 ∧ t1.disk = t1.accepted := by
  obtain ⟨t, r1, r2, _, r4, _⟩ := io_trace_run ops (IOTrace.init w0)
    (io_buffer_init_inv _) (by
      have : io_contents (io_buffer_init io_static) = [] :=
        ring_list_nil _ _ _ _ (by decide)
      simp [IOTrace.init, this])
  obtain ⟨t1, s1, _, _, _, s5, _⟩ := io_trace_step t IOOp.flush r2 r4
  obtain ⟨_, _, _, f4, f5, f6⟩ := s5 rfl
  exact ⟨t, r1, ⟨_, r4.symm⟩, r4, t1, s1, f4, f5, by rw [f4, f6, r4]⟩

/-- C16. In every state reachable from `io_buffer_init` (with world `buffer_count = 0`)
by `io_buffer_submit` and `flush_buffer` calls, every call returns and
`0 ≤ count ≤ BUFFER_CAPACITY`, the world `buffer_count` equals `count`,
`0 ≤ head, tail < BUFFER_CAPACITY` and `tail = (head + count) mod BUFFER_CAPACITY`. -/
theorem io_buffer_invariant (ops : List IOOp) (w0 : SystemState)
    (h : w0.buffer_count = 0) :
    ∃ t, (IOTrace.init w0).run ops = some t ∧
      0 ≤ t.io.count ∧ t.io.count ≤ BUFFER_CAPACITY ∧
      t.world.buffer_count = t.io.count ∧
      0 ≤ t.io.head ∧ t.io.head < BUFFER_CAPACITY ∧
      0 ≤ t.io.tail ∧ t.io.tail < BUFFER_CAPACITY ∧
      t.io.tail = (t.io.head + t.io.count) % BUFFER_CAPACITY := by
  obtain ⟨t, r1, r2, r3, _⟩ := io_trace_run ops (IOTrace.init w0)
    (io_buffer_init_inv _) (by
      have : io_contents (io_buffer_init io_static) = [] :=
        ring_list_nil _ _ _ _ (by decide)
      simp [IOTrace.init, this])
  obtain ⟨i1, i2, i3, i4, i5, i6, i7, _, _⟩ := r2
  exact ⟨t, r1, i1, i2, r3 (by simp [IOTrace.init, h, io_buffer_init]), i3, i4, i5, i6, i7⟩

/-- Witness of C16: two submits and a flush from the initial state. -/
theorem io_buffer_invariant_witness :
    ∃ t, (IOTrace.init state_init).run
        [IOOp.submit 5 1 1 (some "A") 0, IOOp.submit 6 2 1 none 0, IOOp.flush] = some t ∧
      0 ≤ t.io.count ∧ t.io.count ≤ BUFFER_CAPACITY ∧
      t.world.buffer_count = t.io.count ∧
      0 ≤ t.io.head ∧ t.io.head < BUFFER_CAPACITY ∧
      0 ≤ t.io.tail ∧ t.io.tail < BUFFER_CAPACITY ∧
      t.io.tail = (t.io.head + t.io.count) % BUFFER_CAPACITY :=
  io_buffer_invariant [IOOp.submit 5 1 1 (some "A") 0, IOOp.submit 6 2 1 none 0, IOOp.flush]
    state_init rfl

/-! ### Lemmas on the pending-interrupt queue -/

theorem interrupt_init_inv : int_queue_inv (interrupt_init int_static) := by
  simp only [int_queue_inv, interrupt_init, ivt_register, int_static, INT_QUEUE_CAPACITY,
    MAX_INTERRUPTS]
  decide

theorem interrupt_raise_full (now interrupt_id pid : Int) (q : IntState)
    (hfull : INT_QUEUE_CAPACITY ≤ q.int_q_count) :
    interrupt_raise now interrupt_id pid q = some q := by
  have h : ¬ (q.int_q_count < INT_QUEUE_CAPACITY) := by omega
  simp only [interrupt_raise, h, if_false]

theorem interrupt_raise_ok (now interrupt_id pid : Int) (q : IntState)
    (hinv : int_queue_inv q) (hroom : q.int_q_count < INT_QUEUE_CAPACITY) :
    ∃ q1, interrupt_raise now interrupt_id pid q = some q1 ∧ int_queue_inv q1 ∧
      pending q1 = pending q ++ [⟨interrupt_id, pid, now⟩] ∧
      q1.int_q_count = q.int_q_count + 1 ∧
      q1.int_q_tail = (q.int_q_tail + 1) % INT_QUEUE_CAPACITY ∧
      q1.int_q_head = q.int_q_head ∧ q1.ivt = q.ivt := by
  obtain ⟨hc0, hc1, hh0, hh1, ht0, ht1, htl, hrd⟩ := hinv
  have hmod : (q.int_q_tail + 1).tmod INT_QUEUE_CAPACITY
      = (q.int_q_tail + 1) % INT_QUEUE_CAPACITY :=
    Int.tmod_eq_emod (by omega) (by decide)
  have hb : 0 ≤ q.int_q_tail ∧ q.int_q_tail < INT_QUEUE_CAPACITY := ⟨ht0, ht1⟩
  refine ⟨{ q with
      int_queue := set_pending q.int_queue q.int_q_tail ⟨interrupt_id, pid, now⟩,
      int_q_tail := (q.int_q_tail + 1) % INT_QUEUE_CAPACITY,
      int_q_count := q.int_q_count + 1,
      int_ready := q.int_ready + 1 }, ?_, ?_, ?_, rfl, rfl, rfl, rfl⟩
  · simp only [interrupt_raise, hroom, if_true, hb, and_self, not_true_eq_false, if_false,
      hmod]
  · simp only [int_queue_inv, INT_QUEUE_CAPACITY] at *
    refine ⟨by omega, by omega, hh0, hh1, by omega, by omega, by omega, ?_⟩
    push_cast
    omega
  · simp only [pending, set_pending, htl]
    exact ring_list_push q.int_queue q.int_q_head q.int_q_count INT_QUEUE_CAPACITY _ hc0
      hroom

theorem interrupt_take_empty (q : IntState) (hinv : int_queue_inv q)
    (hz : q.int_q_count = 0) : interrupt_take q = some (none, q) := by
  have h0 : q.int_ready = 0 := by
    have := hinv.2.2.2.2.2.2.2
    omega
  simp only [interrupt_take, h0]

theorem interrupt_take_some (q : IntState) (hinv : int_queue_inv q)
    (hne : 1 ≤ q.int_q_count) :
    ∃ q1, interrupt_take q = some (some (q.int_queue q.int_q_head), q1) ∧
      int_queue_inv q1 ∧ pending q = q.int_queue q.int_q_head :: pending q1 ∧
      q1.int_q_count = q.int_q_count - 1 ∧
      q1.int_q_head = (q.int_q_head + 1) % INT_QUEUE_CAPACITY ∧
      q1.int_q_tail = q.int_q_tail ∧ q1.int_queue = q.int_queue ∧ q1.ivt = q.ivt := by
  obtain ⟨hc0, hc1, hh0, hh1, ht0, ht1, htl, hrd⟩ := hinv
  obtain ⟨ready, hready⟩ : ∃ ready, q.int_ready = ready + 1 :=
    ⟨q.int_ready - 1, by omega⟩
  have hmod : (q.int_q_head + 1).tmod INT_QUEUE_CAPACITY
      = (q.int_q_head + 1) % INT_QUEUE_CAPACITY :=
    Int.tmod_eq_emod (by omega) (by decide)
  have hb : 0 ≤ q.int_q_head ∧ q.int_q_head < INT_QUEUE_CAPACITY := ⟨hh0, hh1⟩
  have hcz : ¬ (q.int_q_count = 0) := by omega
  refine ⟨{ q with int_ready := ready,
                   int_q_head := (q.int_q_head + 1) % INT_QUEUE_CAPACITY,
                   int_q_count := q.int_q_count - 1 }, ?_, ?_, ?_, rfl, rfl, rfl, rfl, rfl⟩
  · simp only [interrupt_take, hready, hcz, if_false, hb, and_self, not_true_eq_false, hmod]
  · simp only [int_queue_inv, INT_QUEUE_CAPACITY] at *
    refine ⟨by omega, by omega, by omega, by omega, ht0, ht1, by omega, ?_⟩
    rw [hready] at hrd
    push_cast at hrd
    omega
  · exact ring_list_pop q.int_queue q.int_q_head q.int_q_count INT_QUEUE_CAPACITY hne hh0
      hh1

theorem int_trace_step (t : IntTrace) (op : IntOp) (hinv : int_queue_inv t.q)
    (hfifo : t.raised = t.dispatched ++ pending t.q) :
    ∃ t1, t.step op = some t1 ∧ int_queue_inv t1.q ∧
      t1.raised = t1.dispatched ++ pending t1.q := by
  cases op with
  | raise now interrupt_id pid =>
    by_cases hroom : t.q.int_q_count < INT_QUEUE_CAPACITY
    · obtain ⟨q1, e1, e2, e3, _⟩ := interrupt_raise_ok now interrupt_id pid t.q hinv hroom
      cases hs : t.step (IntOp.raise now interrupt_id pid) with
      | none =>
        simp only [IntTrace.step, e1] at hs
        exact absurd hs (by simp)
      | some t1 =>
        simp only [IntTrace.step, e1, hroom, if_true, Option.some.injEq] at hs
        subst hs
        exact ⟨_, rfl, e2, by simp only [e3, hfifo, List.append_assoc]⟩
    · have e1 := interrupt_raise_full now interrupt_id pid t.q (by omega)
      cases hs : t.step (IntOp.raise now interrupt_id pid) with
      | none =>
        simp only [IntTrace.step, e1] at hs
        exact absurd hs (by simp)
      | some t1 =>
        simp only [IntTrace.step, e1, hroom, if_false, Option.some.injEq] at hs
        subst hs
        exact ⟨_, rfl, hinv, hfifo⟩
  | take =>
    by_cases hz : t.q.int_q_count = 0
    · have e1 := interrupt_take_empty t.q hinv hz
      cases hs : t.step IntOp.take with
      | none =>
        simp only [IntTrace.step, e1] at hs
        exact absurd hs (by simp)
      | some t1 =>
        simp only [IntTrace.step, e1, Option.some.injEq] at hs
        subst hs
        exact ⟨_, rfl, hinv, hfifo⟩
    · obtain ⟨q1, e1, e2, e3, _⟩ := interrupt_take_some t.q hinv (by have := hinv.1; omega)
      cases hs : t.step IntOp.take with
      | none =>
        simp only [IntTrace.step, e1] at hs
        exact absurd hs (by simp)
      | some t1 =>
        simp only [IntTrace.step, e1, Option.some.injEq] at hs
        subst hs
        exact ⟨_, rfl, e2, by simp only [hfifo, e3, List.append_assoc, List.singleton_append]⟩

theorem int_trace_run : ∀ (ops : List IntOp) (t : IntTrace), int_queue_inv t.q →
    t.raised = t.dispatched ++ pending t.q →
    ∃ t1, t.run ops = some t1 ∧ int_queue_inv t1.q ∧
      t1.raised = t1.dispatched ++ pending t1.q := by
  intro ops
  induction ops with
  | nil =>
    intro t hinv hfifo
    exact ⟨t, rfl, hinv, hfifo⟩
  | cons op rest ih =>
    intro t hinv hfifo
    obtain ⟨t1, s1, s2, s3⟩ := int_trace_step t op hinv hfifo
    obtain ⟨t2, r1, r2, r3⟩ := ih t1 s2 s3
    exact ⟨t2, by simp only [IntTrace.run, s1, r1], r2, r3⟩

/-! ### Interrupt subsystem: the pending queue -/

/-- C17. On a pending queue that satisfies the queue invariant, `interrupt_raise(id, pid)`
with fewer than 64 entries returns, appends `(id, pid)` as the newest entry (the earlier
entries keep their order in front of it), adds 1 to the count, advances the tail modulo
64 and keeps the head; with 64 entries it leaves the queue entirely unchanged. In every
state reachable from `interrupt_init` by raises and by iterations of the dispatch loop
every call returns, `0 ≤ int_q_count ≤ 64`, and the interrupts popped for dispatch, in
pop order, followed by the pending ones are exactly the interrupts entered by the raises,
in raise order. -/
theorem interrupt_raise_fifo :
    (∀ (q : IntState) (now interrupt_id pid : Int), int_queue_inv q →
      (q.int_q_count < INT_QUEUE_CAPACITY →
        ∃ q1, interrupt_raise now interrupt_id pid q = some q1 ∧
          pending q1 = pending q ++ [⟨interrupt_id, pid, now⟩] ∧
          q1.int_q_count = q.int_q_count + 1 ∧
          q1.int_q_tail = (q.int_q_tail + 1) % INT_QUEUE_CAPACITY ∧
          q1.int_q_head = q.int_q_head) ∧
      (q.int_q_count = INT_QUEUE_CAPACITY →
        interrupt_raise now interrupt_id pid q = some q)) ∧
    (∀ ops : List IntOp,
      ∃ t, (IntTrace.mk (interrupt_init int_static) [] []).run ops = some t ∧
        0 ≤ t.q.int_q_count ∧ t.q.int_q_count ≤ INT_QUEUE_CAPACITY ∧
        t.raised = t.dispatched ++ pending t.q) := by
  constructor
  · intro q now interrupt_id pid hinv
    constructor
    · intro hroom
      obtain ⟨q1, e1, _, e3, e4, e5, e6, _⟩ :=
        interrupt_raise_ok now interrupt_id pid q hinv hroom
      exact ⟨q1, e1, e3, e4, e5, e6⟩
    · intro hfull
      exact interrupt_raise_full now interrupt_id pid q (by omega)
  · intro ops
    obtain ⟨t, r1, r2, r3⟩ := int_trace_run ops (IntTrace.mk (interrupt_init int_static) [] [])
      interrupt_init_inv (by
        have : pending (interrupt_init int_static) = [] := ring_list_nil _ _ _ _ (by decide)
        simp [this])
    exact ⟨t, r1, r2.1, r2.2.1, r3⟩

/-- Witness of C17: a raise on the queue right after `interrupt_init`. -/
theorem interrupt_raise_fifo_witness :
    ∃ q1, interrupt_raise 9 INT_EXAM_TIMEOUT 3 (interrupt_init int_static) = some q1 ∧
      pending q1 = pending (interrupt_init int_static) ++ [⟨INT_EXAM_TIMEOUT, 3, 9⟩] ∧
      q1.int_q_count = (interrupt_init int_static).int_q_count + 1 ∧
      q1.int_q_tail = ((interrupt_init int_static).int_q_tail + 1) % INT_QUEUE_CAPACITY ∧
      q1.int_q_head = (interrupt_init int_static).int_q_head :=
  (interrupt_raise_fifo.1 (interrupt_init int_static) 9 INT_EXAM_TIMEOUT 3
    interrupt_init_inv).1 (by decide)

/-! ### Interrupt subsystem: the overload detector -/

theorem overload_threshold (c : Int) :
    ((c : Rat) / (BUFFER_CAPACITY : Rat) ≥ FLOAT_0_95 ↔ 244 ≤ c) ∧
    ((c : Rat) / (BUFFER_CAPACITY : Rat) ≥ 95 / 100 ↔ 244 ≤ c) := by
  have hcap : ((BUFFER_CAPACITY : Int) : Rat) = 256 := by
    simp [BUFFER_CAPACITY]
  rw [hcap]
  constructor
  · rw [FLOAT_0_95, ge_iff_le, le_div_iff₀ (by norm_num), div_mul_eq_mul_div,
      div_le_iff₀ (by norm_num)]
    constructor
    · intro h
      have h1 : ((15938355 * 256 : Int) : Rat) ≤ ((c * 16777216 : Int) : Rat) := by
        push_cast; norm_num at h ⊢; exact h
      have h2 := Int.cast_le.mp h1
      omega
    · intro h
      have h2 : (15938355 * 256 : Int) ≤ c * 16777216 := by omega
      have h1 := (Int.cast_le (R := Rat)).mpr h2
      push_cast at h1
      norm_num at h1 ⊢
      exact h1
  · rw [ge_iff_le, le_div_iff₀ (by norm_num), div_mul_eq_mul_div, div_le_iff₀ (by norm_num)]
    constructor
    · intro h
      have h1 : ((95 * 256 : Int) : Rat) ≤ ((c * 100 : Int) : Rat) := by
        push_cast; norm_num at h ⊢; exact h
      have h2 := Int.cast_le.mp h1
      omega
    · intro h
      have h2 : (95 * 256 : Int) ≤ c * 100 := by omega
      have h1 := (Int.cast_le (R := Rat)).mpr h2
      push_cast at h1
      norm_num at h1 ⊢
      exact h1

/-- C20. For every buffer count `c` in `[0, 256]`: the fill fraction `c / BUFFER_CAPACITY`
is at least 0.95 (and at least the value of `0.95f` that the code compares with) if and
only if `c ≥ 244`; for `c ≤ 243` `check_overload` leaves the pending queue unchanged; for
`c ≥ 244` it makes the call `interrupt_raise(INT_OVERLOAD, -1)`, which in a queue with
room enters exactly one OVERLOAD interrupt with pid `-1` as the newest entry. -/
theorem check_overload_at_95_percent (now : Int) (b : IOBuffer) (q : IntState)
    (h0 : 0 ≤ b.count) (h1 : b.count ≤ 256) :
    ((b.count : Rat) / (BUFFER_CAPACITY : Rat) ≥ 95 / 100 ↔ 244 ≤ b.count) ∧
    ((b.count : Rat) / (BUFFER_CAPACITY : Rat) ≥ FLOAT_0_95 ↔ 244 ≤ b.count) ∧
    (b.count ≤ 243 → check_overload now b q = some q) ∧
    (244 ≤ b.count →
      check_overload now b q = interrupt_raise now INT_OVERLOAD (-1) q ∧
      (int_queue_inv q → q.int_q_count < INT_QUEUE_CAPACITY →
        ∃ q1, check_overload now b q = some q1 ∧
          pending q1 = pending q ++ [⟨INT_OVERLOAD, -1, now⟩] ∧
          q1.int_q_count = q.int_q_count + 1)) := by
  obtain ⟨t1, t2⟩ := overload_threshold b.count
  refine ⟨t2, t1, ?_, ?_⟩
  · intro hle
    have hn : ¬ ((b.count : Rat) / (BUFFER_CAPACITY : Rat) ≥ FLOAT_0_95) := by
      rw [t1]; omega
    simp only [check_overload, hn, if_false]
  · intro hge
    have hy : (b.count : Rat) / (BUFFER_CAPACITY : Rat) ≥ FLOAT_0_95 := t1.mpr hge
    have hco : check_overload now b q = interrupt_raise now INT_OVERLOAD (-1) q := by
      simp only [check_overload, hy, if_true]
    refine ⟨hco, ?_⟩
    intro hinv hroom
    obtain ⟨q1, e1, _, e3, e4, _⟩ := interrupt_raise_ok now INT_OVERLOAD (-1) q hinv hroom
    exact ⟨q1, by rw [hco, e1], e3, e4⟩

/-- Witness of C20: a buffer holding 244 submissions and the queue right after
`interrupt_init`. -/
theorem check_overload_at_95_percent_witness :
    ∃ q1, check_overload 9 { io_static with count := 244 } (interrupt_init int_static)
        = some q1 ∧
      pending q1 = pending (interrupt_init int_static) ++ [⟨INT_OVERLOAD, -1, 9⟩] ∧
      q1.int_q_count = (interrupt_init int_static).int_q_count + 1 :=
  ((check_overload_at_95_percent 9 { io_static with count := 244 }
      (interrupt_init int_static) (by decide) (by decide)).2.2.2 (by decide)).2
    interrupt_init_inv (by decide)

theorem raises_fill_queue (now interrupt_id pid : Int) : ∀ (n : Nat) (t : IntTrace),
    int_queue_inv t.q → t.q.int_q_count + (n : Int) ≤ INT_QUEUE_CAPACITY →
    ∃ t1, t.run (List.replicate n (IntOp.raise now interrupt_id pid)) = some t1 ∧
      int_queue_inv t1.q ∧ t1.q.int_q_count = t.q.int_q_count + (n : Int) := by
  intro n
  induction n with
  | zero => intro t hinv _; exact ⟨t, rfl, hinv, by simp⟩
  | succ n ih =>
    intro t hinv hroom
    obtain ⟨q1, e1, e2, _, e4, _⟩ := interrupt_raise_ok now interrupt_id pid t.q hinv
      (by push_cast at hroom; omega)
    obtain ⟨t1, g1, g2, g3⟩ := ih
      { q := q1,
        raised := if t.q.int_q_count < INT_QUEUE_CAPACITY
          then t.raised ++ [⟨interrupt_id, pid, now⟩] else t.raised,
        dispatched := t.dispatched }
      e2 (by show q1.int_q_count + (n : Int) ≤ _; push_cast at hroom; omega)
    refine ⟨t1, ?_, g2, ?_⟩
    · simp only [List.replicate_succ, IntTrace.run, IntTrace.step, e1, g1]
    · rw [g3]
      show q1.int_q_count + (n : Int) = _
      push_cast
      omega

/-- Counterexample to C20 as stated: after 64 raises with no dispatch in between the
pending queue holds 64 entries; `check_overload` on a buffer that holds 250 submissions
(fill above 0.95) then leaves the queue exactly as it is, so no OVERLOAD interrupt is
enqueued. -/
theorem check_overload_dropped_on_full_queue :
    ∃ t, (IntTrace.mk (interrupt_init int_static) [] []).run
        (List.replicate 64 (IntOp.raise 9 INT_EXAM_TIMEOUT 1)) = some t ∧
      t.q.int_q_count = 64 ∧
      check_overload 9 { io_static with count := 250 } t.q = some t.q := by
  obtain ⟨t, h1, _, h3⟩ := raises_fill_queue 9 INT_EXAM_TIMEOUT 1 64
    (IntTrace.mk (interrupt_init int_static) [] []) interrupt_init_inv (by decide)
  have hc : t.q.int_q_count = 64 := by
    rw [h3]
    decide
  refine ⟨t, h1, hc, ?_⟩
  have hf : ((250 : Int) : Rat) / (BUFFER_CAPACITY : Rat) ≥ FLOAT_0_95 :=
    (overload_threshold 250).1.mpr (by decide)
  simp only [check_overload, hf, if_true]
  exact interrupt_raise_full 9 INT_OVERLOAD (-1) t.q (by rw [hc]; decide)

/-! ### Lemmas on the timeout detector -/

theorem check_timeouts_loop_spec (now : Nat → Int) : ∀ (ps : List PCB) (i : Nat)
    (q : IntState), int_queue_inv q →
    q.int_q_count + ((timeout_raises now ps i).length : Int) ≤ INT_QUEUE_CAPACITY →
    ∃ q1, check_timeouts_loop now ps i q = some (ps.map tick_pcb, q1) ∧
      int_queue_inv q1 ∧ pending q1 = pending q ++ timeout_raises now ps i ∧
      q1.int_q_count = q.int_q_count + ((timeout_raises now ps i).length : Int) ∧
      q1.ivt = q.ivt := by
  intro ps
  induction ps with
  | nil =>
    intro i q hinv _
    exact ⟨q, rfl, hinv, by simp [timeout_raises], by simp [timeout_raises], rfl⟩
  | cons p ps ih =>
    intro i q hinv hroom
    by_cases hst : p.state = ProcessState.RUNNING ∨ p.state = ProcessState.READY
    · by_cases hexp : p.remaining_time - 1 ≤ 0
      · have hr : timeout_raises now (p :: ps) i
            = ⟨INT_EXAM_TIMEOUT, p.pid, now i⟩ :: timeout_raises now ps (i + 1) := by
          simp only [timeout_raises, hst, hexp, and_self, if_true]
        rw [hr] at hroom ⊢
        simp only [List.length_cons] at hroom ⊢
        push_cast at hroom ⊢
        obtain ⟨q1, e1, e2, e3, e4, _, _, e7⟩ :=
          interrupt_raise_ok (now i) INT_EXAM_TIMEOUT p.pid q hinv (by have := hinv.1; omega)
        obtain ⟨q2, f1, f2, f3, f4, f5⟩ := ih (i + 1) q1 e2 (by rw [e4]; omega)
        refine ⟨q2, ?_, f2, ?_, ?_, by rw [f5, e7]⟩
        · simp only [check_timeouts_loop, hst, hexp, if_true, e1, f1, List.map_cons, tick_pcb]
        · rw [f3, e3]; simp
        · rw [f4, e4]; omega
      · have hr : timeout_raises now (p :: ps) i = timeout_raises now ps (i + 1) := by
          simp only [timeout_raises, hst, hexp, and_false, if_false]
        rw [hr] at hroom ⊢
        obtain ⟨q2, f1, f2, f3, f4, f5⟩ := ih (i + 1) q hinv hroom
        refine ⟨q2, ?_, f2, f3, f4, f5⟩
        simp only [check_timeouts_loop, hst, hexp, if_true, if_false, f1, List.map_cons,
          tick_pcb]
    · have hr : timeout_raises now (p :: ps) i = timeout_raises now ps (i + 1) := by
        simp only [timeout_raises, hst, false_and, if_false]
      rw [hr] at hroom ⊢
      obtain ⟨q2, f1, f2, f3, f4, f5⟩ := ih (i + 1) q hinv hroom
      refine ⟨q2, ?_, f2, f3, f4, f5⟩
      simp only [check_timeouts_loop, hst, if_false, f1, List.map_cons, tick_pcb]

theorem timeout_raises_facts (now : Nat → Int) : ∀ (ps : List PCB) (i : Nat),
    ((timeout_raises now ps i).map (fun r => r.pid)).Sublist (ps.map (fun p => p.pid)) ∧
    (∀ r ∈ timeout_raises now ps i, r.interrupt_id = INT_EXAM_TIMEOUT ∧
      ∃ p ∈ ps, p.pid = r.pid ∧
        (p.state = ProcessState.RUNNING ∨ p.state = ProcessState.READY) ∧
        (tick_pcb p).state = ProcessState.TERMINATED) ∧
    (((ps.map tick_pcb).filter (fun p => decide
        (p.state = ProcessState.RUNNING ∨ p.state = ProcessState.READY))).length
      + (timeout_raises now ps i).length
      = (ps.filter (fun p => decide
        (p.state = ProcessState.RUNNING ∨ p.state = ProcessState.READY))).length) := by
  intro ps
  induction ps with
  | nil => intro i; simp [timeout_raises]
  | cons p ps ih =>
    intro i
    obtain ⟨h1, h2, h3⟩ := ih (i + 1)
    by_cases hst : p.state = ProcessState.RUNNING ∨ p.state = ProcessState.READY
    · by_cases hexp : p.remaining_time - 1 ≤ 0
      · have hr : timeout_raises now (p :: ps) i
            = ⟨INT_EXAM_TIMEOUT, p.pid, now i⟩ :: timeout_raises now ps (i + 1) := by
          simp only [timeout_raises, hst, hexp, and_self, if_true]
        have htp : tick_pcb p =
            { p with remaining_time := p.remaining_time - 1,
                     state := ProcessState.TERMINATED } := by
          simp only [tick_pcb, hst, hexp, if_true]
        rw [hr]
        refine ⟨?_, ?_, ?_⟩
        · simp only [List.map_cons]
          exact List.Sublist.cons₂ _ h1
        · intro r hr'
          rcases List.mem_cons.mp hr' with rfl | hr'
          · exact ⟨rfl, p, List.mem_cons_self _ _, rfl, hst, by rw [htp]⟩
          · obtain ⟨a, p', b1, b2⟩ := h2 r hr'
            exact ⟨a, p', List.mem_cons_of_mem _ b1, b2⟩
        · have hnot : ¬ ((tick_pcb p).state = ProcessState.RUNNING
              ∨ (tick_pcb p).state = ProcessState.READY) := by
            rw [htp]; simp
          simp only [List.map_cons, List.filter_cons, hnot, hst, decide_True, decide_False,
            if_true, List.length_cons]
          simp only [Bool.false_eq_true, if_false]
          omega
      · have hr : timeout_raises now (p :: ps) i = timeout_raises now ps (i + 1) := by
          simp only [timeout_raises, hst, hexp, and_false, if_false]
        have htp : tick_pcb p = { p with remaining_time := p.remaining_time - 1 } := by
          simp only [tick_pcb, hst, hexp, if_true, if_false]
        rw [hr]
        refine ⟨?_, ?_, ?_⟩
        · simp only [List.map_cons]
          exact List.Sublist.cons _ h1
        · intro r hr'
          obtain ⟨a, p', b1, b2⟩ := h2 r hr'
          exact ⟨a, p', List.mem_cons_of_mem _ b1, b2⟩
        · have hyes : (tick_pcb p).state = ProcessState.RUNNING
              ∨ (tick_pcb p).state = ProcessState.READY := by
            rw [htp]; exact hst
          simp only [List.map_cons, List.filter_cons, hyes, hst, decide_True, if_true,
            List.length_cons]
          omega
    · have hr : timeout_raises now (p :: ps) i = timeout_raises now ps (i + 1) := by
        simp only [timeout_raises, hst, false_and, if_false]
      have htp : tick_pcb p = p := by
        simp only [tick_pcb, hst, if_false]
      rw [hr]
      refine ⟨?_, ?_, ?_⟩
      · simp only [List.map_cons]
        exact List.Sublist.cons _ h1
      · intro r hr'
        obtain ⟨a, p', b1, b2⟩ := h2 r hr'
        exact ⟨a, p', List.mem_cons_of_mem _ b1, b2⟩
      · simp only [List.map_cons, List.filter_cons, htp, hst, decide_False]
        simp only [Bool.false_eq_true, if_false]
        exact h3

theorem tick_pcb_pid (p : PCB) : (tick_pcb p).pid = p.pid := by
  unfold tick_pcb
  split_ifs <;> rfl

theorem tick_pcb_terminated (p : PCB) (h : p.state = ProcessState.TERMINATED) :
    tick_pcb p = p := by
  simp [tick_pcb, h]

theorem check_timeouts_spec (now : Nat → Int) (w : SystemState) (q : IntState)
    (hinv : int_queue_inv q)
    (hroom : q.int_q_count + ((timeout_raises now w.processes 0).length : Int)
      ≤ INT_QUEUE_CAPACITY) :
    ∃ q1, check_timeouts now w q
        = some ({ w with processes := w.processes.map tick_pcb }, q1) ∧
      int_queue_inv q1 ∧ pending q1 = pending q ++ timeout_raises now w.processes 0 ∧
      q1.int_q_count = q.int_q_count + ((timeout_raises now w.processes 0).length : Int) ∧
      q1.ivt = q.ivt := by
  obtain ⟨q1, e1, e2, e3, e4, e5⟩ := check_timeouts_loop_spec now w.processes 0 q hinv hroom
  exact ⟨q1, by simp only [check_timeouts, e1], e2, e3, e4, e5⟩

theorem detector_passes_spec : ∀ (nows : List (Nat → Int)) (w : SystemState)
    (q : IntState) (R0 : List PendingInterrupt),
    int_queue_inv q → (w.processes.map (fun p => p.pid)).Nodup →
    q.int_q_count + ((w.processes.filter (fun p => decide
        (p.state = ProcessState.RUNNING ∨ p.state = ProcessState.READY))).length : Int)
      ≤ INT_QUEUE_CAPACITY →
    (∀ r ∈ R0, ∃ p ∈ w.processes, p.pid = r.pid ∧ p.state = ProcessState.TERMINATED) →
    (R0.map (fun r => r.pid)).Nodup →
    ∃ w2 q2 R, detector_passes nows w q = some (w2, q2) ∧
      pending q2 = pending q ++ R ∧
      ((R0 ++ R).map (fun r => r.pid)).Nodup ∧
      (∀ r ∈ R, r.interrupt_id = INT_EXAM_TIMEOUT) ∧
      w2 = { w with processes := w.processes.map (tick_pcb^[nows.length]) } := by
  intro nows
  induction nows with
  | nil =>
    intro w q R0 _ _ _ _ hnd
    refine ⟨w, q, [], rfl, by simp, by simpa using hnd, by simp, ?_⟩
    simp
  | cons now rest ih =>
    intro w q R0 hinv hpids hroom hR0 hnd
    obtain ⟨f1, f2, f3⟩ := timeout_raises_facts now w.processes 0
    obtain ⟨q1, e1, e2, e3, e4, _⟩ := check_timeouts_spec now w q hinv (by omega)
    have hpids1 : ((w.processes.map tick_pcb).map (fun p => p.pid)).Nodup := by
      rw [List.map_map]
      have : ((fun p : PCB => p.pid) ∘ tick_pcb) = (fun p : PCB => p.pid) := by
        funext p; exact tick_pcb_pid p
      rw [this]; exact hpids
    have hR1 : ∀ r ∈ R0 ++ timeout_raises now w.processes 0,
        ∃ p ∈ w.processes.map tick_pcb, p.pid = r.pid ∧ p.state = ProcessState.TERMINATED := by
      intro r hr
      rcases List.mem_append.mp hr with hr | hr
      · obtain ⟨p, hp, hpid, hst⟩ := hR0 r hr
        refine ⟨p, ?_, hpid, hst⟩
        rw [← tick_pcb_terminated p hst]
        exact List.mem_map_of_mem _ hp
      · obtain ⟨_, p, hp, hpid, _, hst⟩ := f2 r hr
        exact ⟨tick_pcb p, List.mem_map_of_mem _ hp, by rw [tick_pcb_pid, hpid], hst⟩
    have hnd1 : ((R0 ++ timeout_raises now w.processes 0).map (fun r => r.pid)).Nodup := by
      rw [List.map_append, List.nodup_append]
      refine ⟨hnd, f1.nodup hpids, ?_⟩
      intro x hx0 hx1
      obtain ⟨r0, hr0, rfl⟩ := List.mem_map.mp hx0
      obtain ⟨r1, hr1, hpe⟩ := List.mem_map.mp hx1
      obtain ⟨p0, hp0, hpid0, hst0⟩ := hR0 r0 hr0
      obtain ⟨_, p1, hp1, hpid1, hst1, _⟩ := f2 r1 hr1
      have heq : p0 = p1 :=
        List.inj_on_of_nodup_map hpids hp0 hp1 (by rw [hpid0, hpid1, hpe])
      subst heq
      rw [hst0] at hst1
      rcases hst1 with h | h <;> exact absurd h (by decide)
    obtain ⟨w2, q2, R, g1, g2, g3, g4, g5⟩ :=
      ih { w with processes := w.processes.map tick_pcb } q1
        (R0 ++ timeout_raises now w.processes 0) e2 hpids1
        (by simp only; rw [e4]; omega) hR1 hnd1
    refine ⟨w2, q2, timeout_raises now w.processes 0 ++ R, ?_, ?_, ?_, ?_, ?_⟩
    · simp only [detector_passes, e1, g1]
    · rw [g2, e3, List.append_assoc]
    · rw [← List.append_assoc]; exact g3
    · intro r hr
      rcases List.mem_append.mp hr with hr | hr
      · exact (f2 r hr).1
      · exact g4 r hr
    · rw [g5]
      simp only [List.map_map, List.length_cons, Function.iterate_succ]

theorem tick_pcb_iterate_terminated (n : Nat) (p : PCB)
    (h : p.state = ProcessState.TERMINATED) : tick_pcb^[n] p = p := by
  induction n with
  | zero => rfl
  | succ n ih => rw [Function.iterate_succ_apply, tick_pcb_terminated p h, ih]

/-! ### Interrupt subsystem: the timeout detector -/

/-- C18. One pass of `check_timeouts` over a PCB table, on a pending queue that satisfies
the queue invariant and has room for the interrupts of the pass, returns. Every PCB in
state READY or RUNNING has `remaining_time` reduced by exactly 1 and, if the new value is
`≤ 0`, state TERMINATED; every PCB in state NEW, WAITING or TERMINATED is unchanged. The
pending queue gains, after its earlier entries, exactly the interrupts
`timeout_raises`: one EXAM_TIMEOUT with the pid of each READY or RUNNING PCB whose new
`remaining_time` is `≤ 0`, in table order. Over any number of passes (pids of the table
distinct, room for one interrupt per READY or RUNNING PCB) a TERMINATED PCB stays as it
is and the interrupts entered are EXAM_TIMEOUTs with pairwise distinct pids. -/
theorem check_timeouts_pass (w : SystemState) (q : IntState) (hinv : int_queue_inv q) :
    (∀ now : Nat → Int,
      q.int_q_count + ((timeout_raises now w.processes 0).length : Int)
        ≤ INT_QUEUE_CAPACITY →
      ∃ w1 q1, check_timeouts now w q = some (w1, q1) ∧
        w1 = { w with processes := w1.processes } ∧
        w1.processes.length = w.processes.length ∧
        (∀ (i : Nat) (p : PCB), w.processes[i]? = some p →
          ((p.state = ProcessState.READY ∨ p.state = ProcessState.RUNNING) →
            w1.processes[i]? = some
              { p with remaining_time := p.remaining_time - 1,
                       state := if p.remaining_time - 1 ≤ 0
                         then ProcessState.TERMINATED else p.state }) ∧
          ((p.state = ProcessState.NEW ∨ p.state = ProcessState.WAITING
              ∨ p.state = ProcessState.TERMINATED) →
            w1.processes[i]? = some p)) ∧
        pending q1 = pending q ++ timeout_raises now w.processes 0) ∧
    (∀ nows : List (Nat → Int),
      (w.processes.map (fun p => p.pid)).Nodup →
      q.int_q_count + ((w.processes.filter (fun p => decide
          (p.state = ProcessState.RUNNING ∨ p.state = ProcessState.READY))).length : Int)
        ≤ INT_QUEUE_CAPACITY →
      ∃ w2 q2 R, detector_passes nows w q = some (w2, q2) ∧
        pending q2 = pending q ++ R ∧
        (R.map (fun r => r.pid)).Nodup ∧
        (∀ r ∈ R, r.interrupt_id = INT_EXAM_TIMEOUT) ∧
        (∀ (i : Nat) (p : PCB), w.processes[i]? = some p →
          p.state = ProcessState.TERMINATED → w2.processes[i]? = some p)) := by
  constructor
  · intro now hroom
    obtain ⟨q1, e1, _, e3, _⟩ := check_timeouts_spec now w q hinv hroom
    refine ⟨_, q1, e1, rfl, by simp, ?_, e3⟩
    intro i p hp
    constructor
    · intro hst
      have hst' : p.state = ProcessState.RUNNING ∨ p.state = ProcessState.READY := hst.symm
      simp only [List.getElem?_map, hp, Option.map_some', tick_pcb, hst', if_true]
      split_ifs <;> rfl
    · intro hst
      have hst' : ¬ (p.state = ProcessState.RUNNING ∨ p.state = ProcessState.READY) := by
        rcases hst with h | h | h <;> rw [h] <;> decide
      simp only [List.getElem?_map, hp, Option.map_some', tick_pcb, hst', if_false]
  · intro nows hpids hroom
    obtain ⟨w2, q2, R, g1, g2, g3, g4, g5⟩ :=
      detector_passes_spec nows w q [] hinv hpids hroom (by simp) (by simp)
    refine ⟨w2, q2, R, g1, g2, by simpa using g3, g4, ?_⟩
    intro i p hp hst
    rw [g5]
    simp only [List.getElem?_map, hp, Option.map_some',
      tick_pcb_iterate_terminated nows.length p hst]

/-- Witness of C18: a table of three PCBs and the queue right after `interrupt_init`;
PCB 1 expires in the pass, PCB 2 does not, PCB 3 is already TERMINATED. -/
theorem check_timeouts_pass_witness :
    ∃ w1 q1, check_timeouts (fun _ => 9)
        { state_init with processes :=
            [⟨1, ProcessState.READY, 1, 100, 1, 0, 0, 0⟩,
             ⟨2, ProcessState.RUNNING, 1, 100, 5, 0, 0, 0⟩,
             ⟨3, ProcessState.TERMINATED, 1, 100, 0, 0, 0, 0⟩] }
        (interrupt_init int_static) = some (w1, q1) ∧
      pending q1 = pending (interrupt_init int_static) ++ [⟨INT_EXAM_TIMEOUT, 1, 9⟩] := by
  obtain ⟨w1, q1, h, _, _, _, hp⟩ :=
    (check_timeouts_pass
      { state_init with processes :=
          [⟨1, ProcessState.READY, 1, 100, 1, 0, 0, 0⟩,
           ⟨2, ProcessState.RUNNING, 1, 100, 5, 0, 0, 0⟩,
           ⟨3, ProcessState.TERMINATED, 1, 100, 0, 0, 0, 0⟩] }
      (interrupt_init int_static) interrupt_init_inv).1 (fun _ => 9) (by decide)
  exact ⟨w1, q1, h, hp⟩

/-! ### Lemmas on the dispatch loop -/

theorem interrupt_init_ivt :
    (interrupt_init int_static).ivt
      = [⟨INT_EXAM_TIMEOUT, "EXAM_TIMEOUT".take 31, Handler.handle_exam_timeout⟩,
         ⟨INT_OVERLOAD, "OVERLOAD".take 31, Handler.handle_overload⟩,
         ⟨INT_PAGE_FAULT, "PAGE_FAULT".take 31, Handler.handle_page_fault⟩,
         ⟨INT_SUBMIT_COMPLETE, "SUBMIT_COMPLETE".take 31, Handler.handle_submit_complete⟩] := by
  simp [interrupt_init, ivt_register, int_static, MAX_INTERRUPTS]

theorem rem_time_swap (rq : List PCB) (a b j : Nat) (ha : a < rq.length)
    (hb : b < rq.length) :
    rem_time (swap_pcb rq a b) j
      = if j = b then rem_time rq a else if j = a then rem_time rq b else rem_time rq j := by
  have e1 : rq[a]? = some rq[a] := List.getElem?_eq_getElem ha
  have e2 : rq[b]? = some rq[b] := List.getElem?_eq_getElem hb
  simp only [swap_pcb, e1, e2, rem_time]
  by_cases hjb : j = b
  · subst hjb
    simp [List.getElem?_set, ha, hb]
  · by_cases hja : j = a
    · subst hja
      have hbj : ¬ b = j := fun h => hjb h.symm
      simp [List.getElem?_set, hjb, hbj, ha, e2]
    · have hbj : ¬ b = j := fun h => hjb h.symm
      have haj : ¬ a = j := fun h => hja h.symm
      simp [List.getElem?_set, hjb, hja, hbj, haj]

/-- One iteration of "bubble up" on the keys: the order holds everywhere except at `i`,
and the children of `i` are not below the parent of `i`; after the swap of `i` with its
parent the same is true at the parent. -/
theorem up_step (k k1 : Nat → Int) (n i : Nat) (hi0 : 0 < i)
    (hk1 : ∀ x, k1 x = if x = i then k ((i - 1) / 2)
      else if x = (i - 1) / 2 then k i else k x)
    (hgt : k ((i - 1) / 2) > k i)
    (inv1 : ∀ j, 1 ≤ j → j < n → j ≠ i → k ((j - 1) / 2) ≤ k j)
    (inv2 : ∀ j, 1 ≤ j → j < n → (j - 1) / 2 = i → 1 ≤ i → k ((i - 1) / 2) ≤ k j)
    (hin : i < n) :
    (∀ j, 1 ≤ j → j < n → j ≠ (i - 1) / 2 → k1 ((j - 1) / 2) ≤ k1 j) ∧
    (∀ j, 1 ≤ j → j < n → (j - 1) / 2 = (i - 1) / 2 → 1 ≤ (i - 1) / 2 →
      k1 (((i - 1) / 2 - 1) / 2) ≤ k1 j) := by
  have hpi : (i - 1) / 2 < i := by omega
  constructor
  · intro j hj1 hjn hjp
    by_cases hji : j = i
    · subst hji
      rw [hk1 j, hk1 ((j - 1) / 2), if_pos rfl, if_neg (by omega), if_pos rfl]
      omega
    · have ej : k1 j = k j := by rw [hk1 j, if_neg hji, if_neg hjp]
      rw [ej]
      by_cases h1 : (j - 1) / 2 = i
      · rw [hk1, if_pos h1]
        exact inv2 j hj1 hjn h1 (by omega)
      · by_cases h2 : (j - 1) / 2 = (i - 1) / 2
        · rw [hk1, if_neg h1, if_pos h2]
          have := inv1 j hj1 hjn hji
          rw [h2] at this
          omega
        · rw [hk1, if_neg h1, if_neg h2]
          exact inv1 j hj1 hjn hji
  · intro j hj1 hjn hjp hp1
    have eg : k1 (((i - 1) / 2 - 1) / 2) = k (((i - 1) / 2 - 1) / 2) := by
      rw [hk1, if_neg (by omega), if_neg (by omega)]
    have hg := inv1 ((i - 1) / 2) hp1 (by omega) (by omega)
    rw [eg]
    by_cases hji : j = i
    · subst hji
      rw [hk1, if_pos rfl]
      exact hg
    · rw [hk1, if_neg hji, if_neg (by omega)]
      have := inv1 j hj1 hjn hji
      rw [hjp] at this
      omega

theorem bubble_up_heap : ∀ (fuel : Nat) (rq : List PCB) (i : Nat), i ≤ fuel →
    i < rq.length →
    (∀ j, 1 ≤ j → j < rq.length → j ≠ i → rem_time rq ((j - 1) / 2) ≤ rem_time rq j) →
    (∀ j, 1 ≤ j → j < rq.length → (j - 1) / 2 = i → 1 ≤ i →
      rem_time rq ((i - 1) / 2) ≤ rem_time rq j) →
    is_min_heap (bubble_up rq fuel i) := by
  intro fuel
  induction fuel with
  | zero =>
    intro rq i hi _ inv1 _ j hj1 hjn
    exact inv1 j hj1 hjn (by omega)
  | succ fuel ih =>
    intro rq i hi hin inv1 inv2
    rw [bubble_up]
    by_cases h0 : i > 0
    · simp only [h0, if_true]
      by_cases hgt : rem_time rq ((i - 1) / 2) > rem_time rq i
      · simp only [hgt, if_true]
        have hpn : (i - 1) / 2 < rq.length := by omega
        obtain ⟨s1, s2⟩ := up_step (rem_time rq)
          (rem_time (swap_pcb rq ((i - 1) / 2) i)) rq.length i h0
          (fun x => rem_time_swap rq _ _ x hpn hin) hgt inv1 inv2 hin
        apply ih _ _ (by omega) (by rw [swap_pcb_length]; exact hpn)
        · rw [swap_pcb_length]; exact s1
        · rw [swap_pcb_length]; exact s2
      · simp only [hgt, if_false]
        intro j hj1 hjn
        by_cases hji : j = i
        · subst hji; omega
        · exact inv1 j hj1 hjn hji
    · simp only [h0, if_false]
      intro j hj1 hjn
      exact inv1 j hj1 hjn (by omega)

theorem rem_time_append_left (rq : List PCB) (p : PCB) (j : Nat) (h : j < rq.length) :
    rem_time (rq ++ [p]) j = rem_time rq j := by
  simp [rem_time, List.getElem?_append_left h]

/-- The heap order survives `heap_push`. -/
theorem heap_push_heap (rq rq1 : List PCB) (p : PCB) (hh : is_min_heap rq)
    (h : heap_push rq p = some rq1) : is_min_heap rq1 := by
  unfold heap_push at h
  split_ifs at h
  simp only [Option.some.injEq] at h
  subst h
  apply bubble_up_heap _ _ _ (le_refl _) (by simp)
  · intro j hj1 hjn hji
    simp only [List.length_append, List.length_singleton] at hjn
    have hj : j < rq.length := by omega
    rw [rem_time_append_left rq p j hj, rem_time_append_left rq p _ (by omega)]
    exact hh j hj1 hj
  · intro j _ hjn hji _
    simp only [List.length_append, List.length_singleton] at hjn
    omega

/-- One iteration of "bubble down" on the keys: the order holds everywhere except below
`i`, and the children of `i` are not below the parent of `i`; after the swap of `i` with
its smallest child `c` the same is true at `c`. -/
theorem down_step (k k1 : Nat → Int) (n i c : Nat) (hc : c = 2 * i + 1 ∨ c = 2 * i + 2)
    (hcn : c < n)
    (hk1 : ∀ x, k1 x = if x = c then k i else if x = i then k c else k x)
    (hlt : k c < k i)
    (hsib : ∀ j, 1 ≤ j → j < n → (j - 1) / 2 = i → k c ≤ k j)
    (inv1 : ∀ j, 1 ≤ j → j < n → (j - 1) / 2 ≠ i → k ((j - 1) / 2) ≤ k j)
    (inv2 : ∀ j, 1 ≤ j → j < n → (j - 1) / 2 = i → 1 ≤ i → k ((i - 1) / 2) ≤ k j) :
    (∀ j, 1 ≤ j → j < n → (j - 1) / 2 ≠ c → k1 ((j - 1) / 2) ≤ k1 j) ∧
    (∀ j, 1 ≤ j → j < n → (j - 1) / 2 = c → 1 ≤ c → k1 ((c - 1) / 2) ≤ k1 j) := by
  have hpc : (c - 1) / 2 = i := by omega
  constructor
  · intro j hj1 hjn hjp
    by_cases hjc : j = c
    · subst hjc
      rw [hk1 j, if_pos rfl, hpc, hk1 i, if_neg (by omega), if_pos rfl]
      omega
    · by_cases hji : j = i
      · subst hji
        rw [hk1 j, if_neg hjc, if_pos rfl, hk1, if_neg hjp, if_neg (by omega)]
        exact inv2 c (by omega) hcn hpc hj1
      · rw [hk1 j, if_neg hjc, if_neg hji]
        by_cases h1 : (j - 1) / 2 = i
        · rw [h1, hk1, if_neg (by omega), if_pos rfl]
          exact hsib j hj1 hjn h1
        · rw [hk1, if_neg hjp, if_neg h1]
          exact inv1 j hj1 hjn h1
  · intro j hj1 hjn hjp _
    rw [hpc, hk1 i, if_neg (by omega), if_pos rfl, hk1 j, if_neg (by omega),
      if_neg (by omega)]
    have := inv1 j hj1 hjn (by omega)
    rw [hjp] at this
    exact this

theorem bubble_down_heap : ∀ (fuel : Nat) (rq : List PCB) (i : Nat),
    rq.length - i ≤ fuel →
    (∀ j, 1 ≤ j → j < rq.length → (j - 1) / 2 ≠ i →
      rem_time rq ((j - 1) / 2) ≤ rem_time rq j) →
    (∀ j, 1 ≤ j → j < rq.length → (j - 1) / 2 = i → 1 ≤ i →
      rem_time rq ((i - 1) / 2) ≤ rem_time rq j) →
    is_min_heap (bubble_down rq fuel i) := by
  intro fuel
  induction fuel with
  | zero =>
    intro rq i hi inv1 _
    show is_min_heap rq
    intro j hj1 hjn
    exact inv1 j hj1 hjn (by omega)
  | succ fuel ih =>
    intro rq i hi inv1 inv2
    have hstep : ∀ c, (c = 2 * i + 1 ∨ c = 2 * i + 2) → c < rq.length →
        rem_time rq c < rem_time rq i →
        (∀ j, 1 ≤ j → j < rq.length → (j - 1) / 2 = i → rem_time rq c ≤ rem_time rq j) →
        is_min_heap (bubble_down (swap_pcb rq i c) fuel c) := by
      intro c hc hcn hlt hsib
      obtain ⟨s1, s2⟩ := down_step (rem_time rq) (rem_time (swap_pcb rq i c)) rq.length i c
        hc hcn (fun x => rem_time_swap rq i c x (by omega) hcn) hlt hsib inv1 inv2
      apply ih _ _ (by rw [swap_pcb_length]; omega)
      · rw [swap_pcb_length]; exact s1
      · rw [swap_pcb_length]; exact s2
    have hchild : ∀ j, 1 ≤ j → (j - 1) / 2 = i → j = 2 * i + 1 ∨ j = 2 * i + 2 := by
      intro j h1 h2; omega
    rw [bubble_down]
    by_cases hl : 2 * i + 1 < rq.length ∧ rem_time rq (2 * i + 1) < rem_time rq i
    · by_cases hr : 2 * i + 2 < rq.length ∧ rem_time rq (2 * i + 2) < rem_time rq (2 * i + 1)
      · have hne : ¬ (2 * i + 2 = i) := by omega
        simp only [hl, hr, and_self, if_true, hne, if_false]
        apply hstep _ (Or.inr rfl) hr.1 (by omega)
        intro j hj1 hjn hjp
        rcases hchild j hj1 hjp with rfl | rfl
        · omega
        · exact le_refl _
      · have hne : ¬ (2 * i + 1 = i) := by omega
        simp only [hl, hr, and_self, if_true, hne, if_false]
        apply hstep _ (Or.inl rfl) hl.1 hl.2
        intro j hj1 hjn hjp
        rcases hchild j hj1 hjp with rfl | rfl
        · exact le_refl _
        · have : ¬ (rem_time rq (2 * i + 2) < rem_time rq (2 * i + 1)) :=
            fun h => hr ⟨hjn, h⟩
          omega
    · by_cases hr : 2 * i + 2 < rq.length ∧ rem_time rq (2 * i + 2) < rem_time rq i
      · have hne : ¬ (2 * i + 2 = i) := by omega
        simp only [hl, hr, and_self, if_true, hne, if_false]
        apply hstep _ (Or.inr rfl) hr.1 hr.2
        intro j hj1 hjn hjp
        rcases hchild j hj1 hjp with rfl | rfl
        · have : ¬ (rem_time rq (2 * i + 1) < rem_time rq i) := fun h => hl ⟨hjn, h⟩
          omega
        · exact le_refl _
      · simp only [hl, hr, if_false, if_true]
        intro j hj1 hjn
        by_cases hjp : (j - 1) / 2 = i
        · rw [hjp]
          rcases hchild j hj1 hjp with rfl | rfl
          · have : ¬ (rem_time rq (2 * i + 1) < rem_time rq i) := fun h => hl ⟨hjn, h⟩
            omega
          · have : ¬ (rem_time rq (2 * i + 2) < rem_time rq i) := fun h => hr ⟨hjn, h⟩
            omega
        · exact inv1 j hj1 hjn hjp

/-- The heap order survives `heap_pop`. -/
theorem heap_pop_heap (rq rq1 : List PCB) (top : PCB) (hh : is_min_heap rq)
    (h : heap_pop rq = some (top, rq1)) : is_min_heap rq1 := by
  unfold heap_pop at h
  split at h
  · rename_i t last h0 hlast
    simp only [Option.some.injEq, Prod.mk.injEq] at h
    obtain ⟨_, rfl⟩ := h
    have hkey : ∀ x, 1 ≤ x → x < rq.length - 1 →
        rem_time ((rq.set 0 last).take (rq.length - 1)) x = rem_time rq x := by
      intro x hx1 hxn
      have hx0 : ¬ (0 = x) := by omega
      have hx : x < rq.length := by omega
      have e : rq[x]? = some rq[x] := List.getElem?_eq_getElem hx
      simp [rem_time, List.getElem?_take, hxn, List.getElem?_set, hx0, e]
    have hlen : ((rq.set 0 last).take (rq.length - 1)).length = rq.length - 1 := by
      simp
    apply bubble_down_heap _ _ _ (by omega)
    · intro j hj1 hjn hjp
      rw [hlen] at hjn
      rw [hkey j hj1 hjn, hkey _ (by omega) (by omega)]
      exact hh j hj1 (by omega)
    · intro j _ _ _ h1
      omega
  · exact absurd h (by simp)

/-! ### Scheduler: the ready queue as a min-heap -/

/-- C27. The min-heap property keyed by `remaining_time` (for every index `i ≥ 1` below
`rq_size`, `ready_queue[(i-1)/2].remaining_time ≤ ready_queue[i].remaining_time`) holds
after `scheduler_init`; `heap_push` with `rq_size < MAX_STUDENTS` returns, keeps the
property and adds exactly the pushed PCB to the multiset of queued PCBs; `heap_pop` with
`rq_size ≥ 1` returns the root, keeps the property and removes exactly the returned PCB
from the multiset. -/
theorem min_heap_invariant :
    is_min_heap scheduler_init.ready_queue ∧
    (∀ (rq : List PCB) (p : PCB), is_min_heap rq → (rq.length : Int) < MAX_STUDENTS →
      ∃ rq1, heap_push rq p = some rq1 ∧ is_min_heap rq1 ∧ rq1.Perm (p :: rq)) ∧
    (∀ rq : List PCB, is_min_heap rq → 1 ≤ rq.length →
      ∃ top rq1, heap_pop rq = some (top, rq1) ∧ rq[0]? = some top ∧
        is_min_heap rq1 ∧ rq.Perm (top :: rq1)) := by
  refine ⟨?_, ?_, ?_⟩
  · intro i _ hi
    simp only [scheduler_init, List.length_nil] at hi
    omega
  · intro rq p hh hlen
    obtain ⟨rq1, h⟩ := heap_push_some rq p hlen
    exact ⟨rq1, h, heap_push_heap rq rq1 p hh h, heap_push_perm rq rq1 p h⟩
  · intro rq hh hlen
    obtain ⟨top, rq1, h, h0, hperm⟩ := heap_pop_spec rq (by
      intro he
      rw [he] at hlen
      simp at hlen)
    exact ⟨top, rq1, h, h0, heap_pop_heap rq rq1 top hh h, hperm⟩

/-- Witness of C27: a push of a PCB with the smallest key on a heap of three PCBs, and a
pop from the same heap. -/
theorem min_heap_invariant_witness :
    (∃ rq1, heap_push [⟨1, ProcessState.READY, 1, 100, 3, 0, 0, 0⟩,
                       ⟨2, ProcessState.READY, 1, 100, 9, 0, 0, 0⟩,
                       ⟨3, ProcessState.READY, 1, 100, 7, 0, 0, 0⟩]
        ⟨4, ProcessState.READY, 1, 100, 2, 0, 0, 0⟩ = some rq1 ∧ is_min_heap rq1 ∧
      rq1.Perm [⟨4, ProcessState.READY, 1, 100, 2, 0, 0, 0⟩,
                ⟨1, ProcessState.READY, 1, 100, 3, 0, 0, 0⟩,
                ⟨2, ProcessState.READY, 1, 100, 9, 0, 0, 0⟩,
                ⟨3, ProcessState.READY, 1, 100, 7, 0, 0, 0⟩]) ∧
    (∃ top rq1, heap_pop [⟨1, ProcessState.READY, 1, 100, 3, 0, 0, 0⟩,
                          ⟨2, ProcessState.READY, 1, 100, 9, 0, 0, 0⟩,
                          ⟨3, ProcessState.READY, 1, 100, 7, 0, 0, 0⟩] = some (top, rq1) ∧
      top.remaining_time = 3 ∧ is_min_heap rq1) := by
  have hheap : is_min_heap [⟨1, ProcessState.READY, 1, 100, 3, 0, 0, 0⟩,
      ⟨2, ProcessState.READY, 1, 100, 9, 0, 0, 0⟩,
      ⟨3, ProcessState.READY, 1, 100, 7, 0, 0, 0⟩] := by
    intro i h1 h2
    simp only [List.length_cons, List.length_nil] at h2
    have hi : i = 1 ∨ i = 2 := by omega
    rcases hi with rfl | rfl <;> decide
  refine ⟨min_heap_invariant.2.1 _ _ hheap (by decide), ?_⟩
  obtain ⟨top, rq1, h, h0, hh, _⟩ := min_heap_invariant.2.2 _ hheap (by decide)
  refine ⟨top, rq1, h, ?_, hh⟩
  simp only [List.getElem?_cons_zero, Option.some.injEq] at h0
  rw [← h0]

/-! ### Lemmas on PRIORITY runs -/

theorem sched_run_append (cfg : Config) : ∀ (l1 l2 : List SchedOp) (t : SchedTrace),
    t.run cfg (l1 ++ l2)
      = match t.run cfg l1 with
        | none => none
        | some t1 => t1.run cfg l2 := by
  intro l1
  induction l1 with
  | nil => intro l2 t; rfl
  | cons op rest ih =>
    intro l2 t
    simp only [List.cons_append, SchedTrace.run]
    cases t.step cfg op with
    | none => rfl
    | some t1 => exact ih l2 t1

theorem sched_run_snoc (cfg : Config) (n : Nat) (t t1 : SchedTrace)
    (h : t.run cfg (List.replicate n SchedOp.step) = some t1) :
    t.run cfg (List.replicate (n + 1) SchedOp.step) = t1.step cfg SchedOp.step := by
  have e : List.replicate (n + 1) SchedOp.step
      = List.replicate n SchedOp.step ++ [SchedOp.step] := by
    rw [List.replicate_succ']
  rw [e, sched_run_append, h]
  simp only [SchedTrace.run]
  cases t1.step cfg SchedOp.step with
  | none => rfl
  | some t2 => rfl

theorem heap_root_mem (rq : List PCB) (hh : is_min_heap rq) (c : PCB)
    (h0 : rq[0]? = some c) : c ∈ rq ∧ ∀ x ∈ rq, c.remaining_time ≤ x.remaining_time := by
  refine ⟨List.mem_iff_getElem?.mpr ⟨0, h0⟩, ?_⟩
  intro x hx
  obtain ⟨i, hi, hxi⟩ := List.getElem_of_mem hx
  have h1 := root_min rq hh i hi
  rw [rem_time_of_getElem? _ 0 c h0,
    rem_time_of_getElem? _ i x (by rw [List.getElem?_eq_getElem hi, hxi])] at h1
  exact h1

/-- A PCB whose key is strictly below every key of a heap is the root after
`heap_push`. -/
theorem heap_push_root (rq rq1 : List PCB) (p : PCB) (hh : is_min_heap rq)
    (hlt : ∀ x ∈ rq, p.remaining_time < x.remaining_time)
    (h : heap_push rq p = some rq1) : rq1[0]? = some p := by
  have hheap := heap_push_heap rq rq1 p hh h
  have hperm := heap_push_perm rq rq1 p h
  have hlen : 0 < rq1.length := by
    rw [hperm.length_eq]; simp
  have h0 : rq1[0]? = some rq1[0] := List.getElem?_eq_getElem hlen
  obtain ⟨hr, hmin⟩ := heap_root_mem rq1 hheap rq1[0] h0
  have hp : p ∈ rq1 := hperm.symm.subset (List.mem_cons_self _ _)
  have hle := hmin p hp
  rcases List.mem_cons.mp (hperm.subset hr) with e | e
  · rw [h0, e]
  · have := hlt _ e
    omega

/-- A PRIORITY step on a non-empty heap inside the array. -/
theorem run_priority_heap_step (cfg : Config) (s : SchedState) (w : SystemState)
    (hne : s.ready_queue ≠ []) (hcap : (s.ready_queue.length : Int) ≤ MAX_STUDENTS)
    (hheap : is_min_heap s.ready_queue) :
    ∃ c rq1, s.ready_queue[0]? = some c ∧ s.ready_queue.Perm (c :: rq1) ∧
      is_min_heap rq1 ∧ (∀ x ∈ s.ready_queue, c.remaining_time ≤ x.remaining_time) ∧
      (c.remaining_time - cfg.time_quantum ≤ 0 →
        run_priority cfg s w = some ({ s with ready_queue := rq1 },
          scheduler_terminate_process c.pid
            { w with running_pid := c.pid,
                     context_switches := w.context_switches + 1 })) ∧
      (0 < c.remaining_time - cfg.time_quantum →
        ∃ rq2, run_priority cfg s w = some ({ s with ready_queue := rq2 },
            { w with running_pid := c.pid,
                     context_switches := w.context_switches + 1 }) ∧
          is_min_heap rq2 ∧
          rq2.Perm ({ c with remaining_time := c.remaining_time - cfg.time_quantum }
            :: rq1) ∧
          (1 ≤ cfg.time_quantum → rq2[0]?
            = some { c with remaining_time := c.remaining_time - cfg.time_quantum })) := by
  obtain ⟨c, rq1, hpop, hc0, hperm⟩ := heap_pop_spec s.ready_queue hne
  have hlen0 : s.ready_queue.length ≠ 0 := fun h => hne (List.length_eq_zero.mp h)
  have hh1 := heap_pop_heap s.ready_queue rq1 c hheap hpop
  obtain ⟨_, hmin⟩ := heap_root_mem s.ready_queue hheap c hc0
  have hlen1 : (rq1.length : Int) < MAX_STUDENTS := by
    have := hperm.length_eq
    simp only [List.length_cons] at this
    omega
  refine ⟨c, rq1, hc0, hperm, hh1, hmin, ?_, ?_⟩
  · intro hdone
    simp only [run_priority, hlen0, if_false, hpop, hdone, if_true]
  · intro hpos
    have hdone : ¬ (c.remaining_time - cfg.time_quantum ≤ 0) := by omega
    obtain ⟨rq2, hpush⟩ := heap_push_some rq1
      { c with remaining_time := c.remaining_time - cfg.time_quantum } hlen1
    refine ⟨rq2, ?_, heap_push_heap _ _ _ hh1 hpush, heap_push_perm _ _ _ hpush, ?_⟩
    · simp only [run_priority, hlen0, if_false, hpop, hdone, hpush]
    · intro hq
      apply heap_push_root rq1 rq2 _ hh1 _ hpush
      intro x hx
      have := hmin x (hperm.symm.subset (List.mem_cons_of_mem _ hx))
      show c.remaining_time - cfg.time_quantum < x.remaining_time
      omega

theorem sched_trace_step_eq (cfg : Config) (t : SchedTrace) :
    t.step cfg SchedOp.step
      = match schedule_step cfg t.sched t.world with
        | none => none
        | some (s, w) =>
          some { sched := s, world := w,
                 running := t.running ++ [w.running_pid],
                 completed :=
                   if s.ready_queue.length < t.sched.ready_queue.length
                   then t.completed ++ [w.running_pid] else t.completed } := rfl

theorem priority_trace_step (cfg : Config) (t : SchedTrace)
    (halgo : cfg.sched_algo = SchedAlgo.PRIORITY)
    (hcap : (t.sched.ready_queue.length : Int) ≤ MAX_STUDENTS)
    (hheap : is_min_heap t.sched.ready_queue) :
    (t.sched.ready_queue = [] →
      t.step cfg SchedOp.step = some
        { sched := t.sched, world := { t.world with running_pid := -1 },
          running := t.running ++ [-1], completed := t.completed }) ∧
    (t.sched.ready_queue ≠ [] →
      ∃ c rq1, t.sched.ready_queue[0]? = some c ∧ t.sched.ready_queue.Perm (c :: rq1) ∧
        is_min_heap rq1 ∧
        (∀ x ∈ t.sched.ready_queue, c.remaining_time ≤ x.remaining_time) ∧
        (c.remaining_time - cfg.time_quantum ≤ 0 →
          t.step cfg SchedOp.step = some
            { sched := { t.sched with ready_queue := rq1 },
              world := scheduler_terminate_process c.pid
                { t.world with running_pid := c.pid,
                               context_switches := t.world.context_switches + 1 },
              running := t.running ++ [c.pid], completed := t.completed ++ [c.pid] }) ∧
        (0 < c.remaining_time - cfg.time_quantum →
          ∃ rq2, t.step cfg SchedOp.step = some
              { sched := { t.sched with ready_queue := rq2 },
                world :=
                  { t.world with running_pid := c.pid,
                                 context_switches := t.world.context_switches + 1 },
                running := t.running ++ [c.pid], completed := t.completed } ∧
            is_min_heap rq2 ∧
            rq2.Perm ({ c with remaining_time := c.remaining_time - cfg.time_quantum }
              :: rq1) ∧
            (1 ≤ cfg.time_quantum → rq2[0]?
              = some { c with remaining_time := c.remaining_time - cfg.time_quantum }))) := by
  have hrr : ¬ cfg.sched_algo = SchedAlgo.ROUND_ROBIN := by rw [halgo]; decide
  constructor
  · intro he
    have e : run_priority cfg t.sched t.world
        = some (t.sched, { t.world with running_pid := -1 }) := by
      simp only [run_priority, he, List.length_nil, if_true]
    rw [sched_trace_step_eq, schedule_step, if_neg hrr, e]
    simp only [lt_self_iff_false, if_false]
  · intro hne
    obtain ⟨c, rq1, h0, hperm, hh1, hmin, hdone, hpos⟩ :=
      run_priority_heap_step cfg t.sched t.world hne hcap hheap
    refine ⟨c, rq1, h0, hperm, hh1, hmin, ?_, ?_⟩
    · intro hd
      have hlen : rq1.length < t.sched.ready_queue.length := by
        rw [hperm.length_eq]; simp
      rw [sched_trace_step_eq, schedule_step, if_neg hrr, hdone hd]
      simp only [hlen, if_true, terminate_running_pid]
    · intro hp
      obtain ⟨rq2, e1, e2, e3, e4⟩ := hpos hp
      refine ⟨rq2, ?_, e2, e3, e4⟩
      have hlen : ¬ (rq2.length < t.sched.ready_queue.length) := by
        rw [hperm.length_eq, e3.length_eq]; simp
      rw [sched_trace_step_eq, schedule_step, if_neg hrr, e1]
      simp only [hlen, if_false]

/-- One PRIORITY step keeps the heap order, the array bound and the progress
invariant. -/
theorem priority_progress_step (cfg : Config) (q0 : List PCB) (t : SchedTrace)
    (halgo : cfg.sched_algo = SchedAlgo.PRIORITY) (hq : 1 ≤ cfg.time_quantum)
    (hcap : (t.sched.ready_queue.length : Int) ≤ MAX_STUDENTS)
    (hheap : is_min_heap t.sched.ready_queue)
    (hinv : priority_progress cfg.time_quantum q0 t.sched.ready_queue t.completed) :
    ∃ t1, t.step cfg SchedOp.step = some t1 ∧
      (t1.sched.ready_queue.length : Int) ≤ MAX_STUDENTS ∧
      is_min_heap t1.sched.ready_queue ∧
      priority_progress cfg.time_quantum q0 t1.sched.ready_queue t1.completed := by
  obtain ⟨hempty, hstep⟩ := priority_trace_step cfg t halgo hcap hheap
  by_cases hne : t.sched.ready_queue = []
  · exact ⟨_, hempty hne, hcap, hheap, hinv⟩
  · obtain ⟨c, rq1, h0, hperm, hh1, hmin, hdone, hpos⟩ := hstep hne
    have hc_mem : c ∈ t.sched.ready_queue := List.mem_iff_getElem?.mpr ⟨0, h0⟩
    have hlen1 : (rq1.length : Int) + 1 = t.sched.ready_queue.length := by
      have := hperm.length_eq
      simp only [List.length_cons] at this
      omega
    obtain ⟨D, R, hq0, hsorted, hDR, hlog, hcase⟩ := hinv
    rcases hcase with hfresh | ⟨b, R1, k, hR, hbmin, hk1, hkpos, hqueue⟩
    · -- no PCB is partly run
      have hRc : R.Perm (c :: rq1) := hfresh.symm.trans hperm
      have hcR : c ∈ R := hfresh.subset hc_mem
      by_cases hd : c.remaining_time - cfg.time_quantum ≤ 0
      · refine ⟨_, hdone hd, by show (rq1.length : Int) ≤ _; omega, hh1, ?_⟩
        refine ⟨D ++ [c], rq1, ?_, ?_, ?_, ?_, Or.inl (List.Perm.refl _)⟩
        · rw [List.append_assoc]
          exact hq0.trans (List.Perm.append_left D hRc)
        · rw [List.pairwise_append]
          exact ⟨hsorted, List.pairwise_singleton _ _, fun d hd1 x hx => by
            rw [List.mem_singleton] at hx; subst hx; exact hDR d hd1 _ hcR⟩
        · intro d hd1 x hx
          have hxq : x ∈ t.sched.ready_queue :=
            hperm.symm.subset (List.mem_cons_of_mem _ hx)
          rcases List.mem_append.mp hd1 with h | h
          · exact hDR d h x (hfresh.subset hxq)
          · rw [List.mem_singleton] at h; subst h; exact hmin x hxq
        · show t.completed ++ [c.pid] = _
          rw [hlog, List.map_append]; rfl
      · obtain ⟨rq2, e1, e2, e3, _⟩ := hpos (by omega)
        refine ⟨_, e1, ?_, e2, ?_⟩
        · show (rq2.length : Int) ≤ _
          have := e3.length_eq
          simp only [List.length_cons] at this
          omega
        · refine ⟨D, R, hq0, hsorted, hDR, hlog, Or.inr ⟨c, rq1, 1, hRc, ?_, le_refl _, ?_, ?_⟩⟩
          · intro x hx
            exact hmin x (hperm.symm.subset (List.mem_cons_of_mem _ hx))
          · simp only [Nat.cast_one, one_mul]; omega
          · simp only [Nat.cast_one, one_mul]; exact e3
    · -- the PCB `b` is partly run and is the root
      have hroot : c = { b with remaining_time := b.remaining_time - (k : Int) * cfg.time_quantum } := by
        rcases List.mem_cons.mp (hqueue.subset hc_mem) with e | e
        · exact e
        · have h1 := hbmin c e
          have h2 := hmin _ (hqueue.symm.subset (List.mem_cons_self _ _))
          have h3 : (0 : Int) < (k : Int) * cfg.time_quantum :=
            mul_pos (by omega) (by omega)
          simp only at h2
          omega
      have hrq1 : rq1.Perm R1 := by
        have h := hperm.symm.trans hqueue
        rw [hroot] at h
        exact List.Perm.cons_inv h
      have hbR : b ∈ R := hR.symm.subset (List.mem_cons_self _ _)
      have hpid : c.pid = b.pid := by rw [hroot]
      have hrt : c.remaining_time = b.remaining_time - (k : Int) * cfg.time_quantum := by
        rw [hroot]
      by_cases hd : c.remaining_time - cfg.time_quantum ≤ 0
      · refine ⟨_, hdone hd, by show (rq1.length : Int) ≤ _; omega, hh1, ?_⟩
        refine ⟨D ++ [b], R1, ?_, ?_, ?_, ?_, Or.inl hrq1⟩
        · rw [List.append_assoc]
          exact hq0.trans (List.Perm.append_left D hR)
        · rw [List.pairwise_append]
          exact ⟨hsorted, List.pairwise_singleton _ _, fun d hd1 x hx => by
            rw [List.mem_singleton] at hx; subst hx; exact hDR d hd1 _ hbR⟩
        · intro d hd1 x hx
          rcases List.mem_append.mp hd1 with h | h
          · exact hDR d h x (hR.symm.subset (List.mem_cons_of_mem _ hx))
          · rw [List.mem_singleton] at h; subst h; exact hbmin x hx
        · show t.completed ++ [c.pid] = _
          rw [hlog, List.map_append, hpid]; rfl
      · obtain ⟨rq2, e1, e2, e3, _⟩ := hpos (by omega)
        refine ⟨_, e1, ?_, e2, ?_⟩
        · show (rq2.length : Int) ≤ _
          have := e3.length_eq
          simp only [List.length_cons] at this
          omega
        · refine ⟨D, R, hq0, hsorted, hDR, hlog,
            Or.inr ⟨b, R1, k + 1, hR, hbmin, by omega, ?_, ?_⟩⟩
          · push_cast
            rw [hrt] at hd
            linarith
          · have e : ({ c with remaining_time := c.remaining_time - cfg.time_quantum } : PCB)
                = { b with remaining_time :=
                      b.remaining_time - ((k + 1 : Nat) : Int) * cfg.time_quantum } := by
              rw [hroot]
              simp only [PCB.mk.injEq, true_and, and_true]
              push_cast
              ring
            rw [← e]
            exact e3.trans (List.Perm.cons _ hrq1)

/-- The root of a heap is selected by every PRIORITY step as long as it stays alive. -/
theorem priority_root_runs (cfg : Config) (s : SchedState) (w : SystemState) (c : PCB)
    (halgo : cfg.sched_algo = SchedAlgo.PRIORITY) (hq : 1 ≤ cfg.time_quantum)
    (hcap : (s.ready_queue.length : Int) ≤ MAX_STUDENTS)
    (hheap : is_min_heap s.ready_queue) (h0 : s.ready_queue[0]? = some c) :
    ∀ k : Nat, (k = 0 ∨ 0 < c.remaining_time - (k : Int) * cfg.time_quantum) →
      ∃ t, (SchedTrace.mk s w [] []).run cfg (List.replicate k SchedOp.step) = some t ∧
        t.running = List.replicate k c.pid ∧ t.completed = [] ∧
        is_min_heap t.sched.ready_queue ∧
        t.sched.ready_queue.length = s.ready_queue.length ∧
        t.sched.ready_queue[0]?
          = some { c with remaining_time := c.remaining_time - (k : Int) * cfg.time_quantum } := by
  intro k
  induction k with
  | zero =>
    intro _
    refine ⟨SchedTrace.mk s w [] [], rfl, rfl, rfl, hheap, rfl, ?_⟩
    rw [h0]
    simp
  | succ k ih =>
    intro hk
    have hk' : 0 < c.remaining_time - ((k + 1 : Nat) : Int) * cfg.time_quantum := by
      rcases hk with h | h
      · omega
      · exact h
    push_cast at hk'
    have hprev : k = 0 ∨ 0 < c.remaining_time - (k : Int) * cfg.time_quantum := by
      right
      linarith
    obtain ⟨t, r1, r2, r3, r4, r5, r6⟩ := ih hprev
    have hne : t.sched.ready_queue ≠ [] := by
      intro he
      rw [he] at r6
      simp at r6
    obtain ⟨b, rq1, b0, hperm1, _, _, _, hpos⟩ :=
      (priority_trace_step cfg t halgo (by rw [r5]; exact hcap) r4).2 hne
    rw [r6] at b0
    simp only [Option.some.injEq] at b0
    subst b0
    obtain ⟨rq2, e1, e2, e3, e4⟩ := hpos (by show 0 < c.remaining_time - _ - _; linarith)
    refine ⟨_, (sched_run_snoc cfg k _ t r1).trans e1, ?_, r3, e2, ?_, ?_⟩
    · show t.running ++ [c.pid] = _
      rw [r2, List.replicate_succ']
    · show rq2.length = _
      rw [e3.length_eq, ← r5, hperm1.length_eq]
      rfl
    · show rq2[0]? = _
      rw [e4 hq]
      simp only [Option.some.injEq, PCB.mk.injEq, true_and, and_true]
      push_cast
      ring

theorem priority_progress_run (cfg : Config) (s : SchedState) (w : SystemState)
    (halgo : cfg.sched_algo = SchedAlgo.PRIORITY) (hq : 1 ≤ cfg.time_quantum)
    (hcap : (s.ready_queue.length : Int) ≤ MAX_STUDENTS)
    (hheap : is_min_heap s.ready_queue) :
    ∀ n : Nat, ∃ t,
      (SchedTrace.mk s w [] []).run cfg (List.replicate n SchedOp.step) = some t ∧
      (t.sched.ready_queue.length : Int) ≤ MAX_STUDENTS ∧
      is_min_heap t.sched.ready_queue ∧
      priority_progress cfg.time_quantum s.ready_queue t.sched.ready_queue t.completed := by
  intro n
  induction n with
  | zero =>
    refine ⟨SchedTrace.mk s w [] [], rfl, hcap, hheap, [], s.ready_queue, ?_, ?_, ?_, rfl,
      Or.inl (List.Perm.refl _)⟩
    · simp
    · exact List.Pairwise.nil
    · intro d hd
      exact absurd hd (List.not_mem_nil _)
  | succ n ih =>
    obtain ⟨t, r1, r2, r3, r4⟩ := ih
    obtain ⟨t1, e1, e2, e3, e4⟩ := priority_progress_step cfg s.ready_queue t halgo hq r2 r3 r4
    exact ⟨t1, (sched_run_snoc cfg n _ t r1).trans e1, e2, e3, e4⟩

/-! ### Scheduler: run to completion under PRIORITY -/

/-- C28. Under PRIORITY with `time_quantum ≥ 1`, from a heap-ordered ready queue inside
the array and with scheduling steps only. First, for the root `c` of the queue and every
`k` such that `c` is still alive after `k` quanta (`k = 0`, or
`c.remaining_time - k * time_quantum > 0`): the first `k` steps all select `c` and
complete nothing, and the next step selects `c` again; that step completes `c` exactly
when `c.remaining_time - (k + 1) * time_quantum ≤ 0`, and otherwise reinserts it. Second,
every number of steps runs, the queue stays a heap, and the PCBs completed so far, in
completion order, are in non-decreasing order of initial `remaining_time` and not above
any PCB not yet completed, while at most one queued PCB is partly run
(`priority_progress`). -/
theorem run_to_completion (cfg : Config) (s : SchedState) (w : SystemState)
    (halgo : cfg.sched_algo = SchedAlgo.PRIORITY) (hq : 1 ≤ cfg.time_quantum)
    (hcap : (s.ready_queue.length : Int) ≤ MAX_STUDENTS)
    (hheap : is_min_heap s.ready_queue) :
    (∀ c : PCB, s.ready_queue[0]? = some c → ∀ k : Nat,
      (k = 0 ∨ 0 < c.remaining_time - (k : Int) * cfg.time_quantum) →
      ∃ t t1, (SchedTrace.mk s w [] []).run cfg (List.replicate k SchedOp.step) = some t ∧
        t.running = List.replicate k c.pid ∧ t.completed = [] ∧
        t.step cfg SchedOp.step = some t1 ∧
        t1.world.running_pid = c.pid ∧ t1.running = List.replicate (k + 1) c.pid ∧
        (0 < c.remaining_time - ((k : Int) + 1) * cfg.time_quantum →
          t1.completed = [] ∧ t1.sched.ready_queue.length = s.ready_queue.length ∧
          t1.sched.ready_queue[0]? = some
            { c with remaining_time :=
                c.remaining_time - ((k : Int) + 1) * cfg.time_quantum }) ∧
        (c.remaining_time - ((k : Int) + 1) * cfg.time_quantum ≤ 0 →
          t1.completed = [c.pid] ∧
          t1.sched.ready_queue.length + 1 = s.ready_queue.length)) ∧
    (∀ n : Nat, ∃ t,
      (SchedTrace.mk s w [] []).run cfg (List.replicate n SchedOp.step) = some t ∧
      is_min_heap t.sched.ready_queue ∧
      priority_progress cfg.time_quantum s.ready_queue t.sched.ready_queue t.completed) := by
  constructor
  · intro c h0 k hk
    obtain ⟨t, r1, r2, r3, r4, r5, r6⟩ := priority_root_runs cfg s w c halgo hq hcap hheap h0 k hk
    have hne : t.sched.ready_queue ≠ [] := by
      intro he
      rw [he] at r6
      simp at r6
    obtain ⟨b, rq1, b0, hperm1, _, _, hdone, hpos⟩ :=
      (priority_trace_step cfg t halgo (by rw [r5]; exact hcap) r4).2 hne
    rw [r6] at b0
    simp only [Option.some.injEq] at b0
    subst b0
    have hlen1 : rq1.length + 1 = s.ready_queue.length := by
      rw [← r5, hperm1.length_eq]; rfl
    have harith : c.remaining_time - ((k : Int) + 1) * cfg.time_quantum
        = c.remaining_time - (k : Int) * cfg.time_quantum - cfg.time_quantum := by ring
    by_cases hd : c.remaining_time - ((k : Int) + 1) * cfg.time_quantum ≤ 0
    · refine ⟨t, _, r1, r2, r3, hdone (by show _ - _ - _ ≤ 0; linarith), ?_, ?_, ?_, ?_⟩
      · show (scheduler_terminate_process _ _).running_pid = _
        rw [terminate_running_pid]
      · show t.running ++ [c.pid] = _
        rw [r2, List.replicate_succ']
      · intro h
        omega
      · intro _
        refine ⟨?_, hlen1⟩
        show t.completed ++ [c.pid] = _
        rw [r3]; rfl
    · obtain ⟨rq2, e1, _, e3, e4⟩ := hpos (by show 0 < _ - _ - _; linarith)
      refine ⟨t, _, r1, r2, r3, e1, rfl, ?_, ?_, ?_⟩
      · show t.running ++ [c.pid] = _
        rw [r2, List.replicate_succ']
      · intro _
        refine ⟨r3, ?_, ?_⟩
        · show rq2.length = _
          rw [e3.length_eq, ← hlen1]; rfl
        · show rq2[0]? = _
          rw [e4 hq]
          simp only [Option.some.injEq, PCB.mk.injEq, true_and, and_true]
          ring
      · intro h
        exact absurd h hd
  · intro n
    obtain ⟨t, r1, _, r3, r4⟩ := priority_progress_run cfg s w halgo hq hcap hheap n
    exact ⟨t, r1, r3, r4⟩

/-- Witness of C28: the default configuration (PRIORITY, `time_quantum = 5`) and a heap
of three PCBs with 12, 30 and 20 ticks left; the root needs three steps. -/
theorem run_to_completion_witness :
    (∃ t t1, (SchedTrace.mk
          { ready_queue := [⟨1, ProcessState.READY, 1, 100, 12, 0, 0, 0⟩,
                            ⟨2, ProcessState.READY, 1, 100, 30, 0, 0, 0⟩,
                            ⟨3, ProcessState.READY, 1, 100, 20, 0, 0, 0⟩],
            rr_index := 0 } state_init [] []).run config_load_defaults
          (List.replicate 2 SchedOp.step) = some t ∧
        t.running = [1, 1] ∧ t.completed = [] ∧
        t.step config_load_defaults SchedOp.step = some t1 ∧
        t1.running = [1, 1, 1] ∧ t1.completed = [1]) ∧
    (∃ t, (SchedTrace.mk
          { ready_queue := [⟨1, ProcessState.READY, 1, 100, 12, 0, 0, 0⟩,
                            ⟨2, ProcessState.READY, 1, 100, 30, 0, 0, 0⟩,
                            ⟨3, ProcessState.READY, 1, 100, 20, 0, 0, 0⟩],
            rr_index := 0 } state_init [] []).run config_load_defaults
          (List.replicate 9 SchedOp.step) = some t ∧
        priority_progress 5
          [⟨1, ProcessState.READY, 1, 100, 12, 0, 0, 0⟩,
           ⟨2, ProcessState.READY, 1, 100, 30, 0, 0, 0⟩,
           ⟨3, ProcessState.READY, 1, 100, 20, 0, 0, 0⟩]
          t.sched.ready_queue t.completed) := by
  have hheap : is_min_heap [⟨1, ProcessState.READY, 1, 100, 12, 0, 0, 0⟩,
      ⟨2, ProcessState.READY, 1, 100, 30, 0, 0, 0⟩,
      ⟨3, ProcessState.READY, 1, 100, 20, 0, 0, 0⟩] := by
    intro i h1 h2
    simp only [List.length_cons, List.length_nil] at h2
    have hi : i = 1 ∨ i = 2 := by omega
    rcases hi with rfl | rfl <;> decide
  have h := run_to_completion config_load_defaults
    { ready_queue := [⟨1, ProcessState.READY, 1, 100, 12, 0, 0, 0⟩,
                      ⟨2, ProcessState.READY, 1, 100, 30, 0, 0, 0⟩,
                      ⟨3, ProcessState.READY, 1, 100, 20, 0, 0, 0⟩],
      rr_index := 0 } state_init rfl (by decide) (by decide) hheap
  constructor
  · obtain ⟨t, t1, a1, a2, a3, a4, _, a6, _, a8⟩ := h.1 _ rfl 2 (Or.inr (by decide))
    exact ⟨t, t1, a1, a2, a3, a4, a6, (a8 (by decide)).1⟩
  · obtain ⟨t, b1, _, b3⟩ := h.2 9
    exact ⟨t, b1, b3⟩

/-! ### Lemmas on the world PCB table under scheduling -/

theorem run_round_robin_world (cfg : Config) (s s1 : SchedState) (w w1 : SystemState)
    (h : run_round_robin cfg s w = some (s1, w1)) :
    (s.ready_queue = [] ∧ s1 = s ∧ w1 = { w with running_pid := -1 }) ∨
    ∃ c ∈ s.ready_queue,
      (0 < c.remaining_time - cfg.time_quantum ∧
        w1 = { w with running_pid := c.pid,
                      context_switches := w.context_switches + 1 } ∧
        { c with remaining_time := c.remaining_time - cfg.time_quantum } ∈ s1.ready_queue ∧
        s1.ready_queue.length = s.ready_queue.length) ∨
      (c.remaining_time - cfg.time_quantum ≤ 0 ∧
        w1 = scheduler_terminate_process c.pid
          { w with running_pid := c.pid,
                   context_switches := w.context_switches + 1 } ∧
        s1.ready_queue.length + 1 = s.ready_queue.length) := by
  unfold run_round_robin at h
  by_cases h0 : s.ready_queue.length = 0
  · left
    simp only [h0, if_true, Option.some.injEq, Prod.mk.injEq] at h
    exact ⟨List.length_eq_zero.mp h0, h.1.symm, h.2.symm⟩
  · right
    simp only [h0, if_false] at h
    split_ifs at h with hneg
    split at h
    · exact absurd h (by simp)
    · rename_i c hc
      have hmem : c ∈ s.ready_queue := List.mem_iff_getElem?.mpr ⟨_, hc⟩
      have hlt := (List.getElem?_eq_some_iff.mp hc).1
      refine ⟨c, hmem, ?_⟩
      split_ifs at h with hdone
      · right
        split at h
        · exact absurd h (by simp)
        · simp only [Option.some.injEq, Prod.mk.injEq] at h
          obtain ⟨rfl, rfl⟩ := h
          refine ⟨hdone, rfl, ?_⟩
          simp only [List.length_take, List.length_set]
          omega
      · left
        simp only [Option.some.injEq, Prod.mk.injEq] at h
        obtain ⟨rfl, rfl⟩ := h
        refine ⟨by omega, rfl, ?_, by simp⟩
        exact List.mem_iff_getElem?.mpr ⟨_, by
          rw [List.getElem?_set_self (by exact hlt)]⟩

theorem run_priority_world (cfg : Config) (s s1 : SchedState) (w w1 : SystemState)
    (h : run_priority cfg s w = some (s1, w1)) :
    (s.ready_queue = [] ∧ s1 = s ∧ w1 = { w with running_pid := -1 }) ∨
    ∃ c ∈ s.ready_queue,
      (0 < c.remaining_time - cfg.time_quantum ∧
        w1 = { w with running_pid := c.pid,
                      context_switches := w.context_switches + 1 } ∧
        { c with remaining_time := c.remaining_time - cfg.time_quantum } ∈ s1.ready_queue ∧
        s1.ready_queue.length = s.ready_queue.length) ∨
      (c.remaining_time - cfg.time_quantum ≤ 0 ∧
        w1 = scheduler_terminate_process c.pid
          { w with running_pid := c.pid,
                   context_switches := w.context_switches + 1 } ∧
        s1.ready_queue.length + 1 = s.ready_queue.length) := by
  by_cases hne : s.ready_queue = []
  · left
    simp only [run_priority, hne, List.length_nil, if_true, Option.some.injEq,
      Prod.mk.injEq] at h
    exact ⟨hne, h.1.symm, h.2.symm⟩
  · right
    obtain ⟨c, rq1, hpop, hc0, hperm⟩ := heap_pop_spec s.ready_queue hne
    have hlen0 : s.ready_queue.length ≠ 0 := fun h => hne (List.length_eq_zero.mp h)
    have hmem : c ∈ s.ready_queue := List.mem_iff_getElem?.mpr ⟨0, hc0⟩
    have hl := hperm.length_eq
    simp only [List.length_cons] at hl
    refine ⟨c, hmem, ?_⟩
    simp only [run_priority, hlen0, if_false, hpop] at h
    split_ifs at h with hdone
    · right
      simp only [Option.some.injEq, Prod.mk.injEq] at h
      obtain ⟨rfl, rfl⟩ := h
      exact ⟨hdone, rfl, by show rq1.length + 1 = _; omega⟩
    · left
      split at h
      · exact absurd h (by simp)
      · rename_i rq2 hpush
        simp only [Option.some.injEq, Prod.mk.injEq] at h
        obtain ⟨rfl, rfl⟩ := h
        have hp := heap_push_perm _ _ _ hpush
        refine ⟨by omega, rfl, hp.symm.subset (List.mem_cons_self _ _), ?_⟩
        show rq2.length = _
        rw [hp.length_eq, List.length_cons]
        omega

theorem schedule_step_world (cfg : Config) (s s1 : SchedState) (w w1 : SystemState)
    (h : schedule_step cfg s w = some (s1, w1)) :
    (s.ready_queue = [] ∧ s1 = s ∧ w1 = { w with running_pid := -1 }) ∨
    ∃ c ∈ s.ready_queue,
      (0 < c.remaining_time - cfg.time_quantum ∧
        w1 = { w with running_pid := c.pid,
                      context_switches := w.context_switches + 1 } ∧
        { c with remaining_time := c.remaining_time - cfg.time_quantum } ∈ s1.ready_queue ∧
        s1.ready_queue.length = s.ready_queue.length) ∨
      (c.remaining_time - cfg.time_quantum ≤ 0 ∧
        w1 = scheduler_terminate_process c.pid
          { w with running_pid := c.pid,
                   context_switches := w.context_switches + 1 } ∧
        s1.ready_queue.length + 1 = s.ready_queue.length) := by
  unfold schedule_step at h
  split_ifs at h
  · exact run_round_robin_world cfg s s1 w w1 h
  · exact run_priority_world cfg s s1 w w1 h

/-- The loop of `scheduler_terminate_process` changes nothing but the state of one entry,
which becomes TERMINATED. -/
theorem terminate_first_entries (pid : Int) : ∀ (ps ps1 : List PCB),
    terminate_first pid ps = some ps1 →
    ps1.length = ps.length ∧
    ∀ (i : Nat) (p : PCB), ps[i]? = some p →
      ps1[i]? = some p ∨ ps1[i]? = some { p with state := ProcessState.TERMINATED } := by
  intro ps
  induction ps with
  | nil => intro ps1 h; simp [terminate_first] at h
  | cons a tl ih =>
    intro ps1 h
    simp only [terminate_first] at h
    split_ifs at h with hp
    · simp only [Option.some.injEq] at h
      subst h
      refine ⟨rfl, ?_⟩
      intro i p hi
      cases i with
      | zero =>
        simp only [List.getElem?_cons_zero, Option.some.injEq] at hi
        subst hi
        right
        exact List.getElem?_cons_zero
      | succ i => left; simpa using hi
    · split at h
      · rename_i tl1 htl
        simp only [Option.some.injEq] at h
        subst h
        obtain ⟨hl, hent⟩ := ih tl1 htl
        refine ⟨by simp [hl], ?_⟩
        intro i p hi
        cases i with
        | zero => left; simpa using hi
        | succ i => simpa using hent i p (by simpa using hi)
      · exact absurd h (by simp)

theorem terminate_process_entries (pid : Int) (w : SystemState) :
    (scheduler_terminate_process pid w).processes.length = w.processes.length ∧
    ∀ (i : Nat) (p : PCB), w.processes[i]? = some p →
      (scheduler_terminate_process pid w).processes[i]? = some p ∨
      (scheduler_terminate_process pid w).processes[i]?
        = some { p with state := ProcessState.TERMINATED } := by
  unfold scheduler_terminate_process
  split
  · rename_i ps1 h
    exact terminate_first_entries pid _ ps1 h
  · exact ⟨rfl, fun i p hi => Or.inl hi⟩

/-- A scheduling step changes nothing in the world PCB table but, at most, the state of
one entry, which becomes TERMINATED. -/
theorem schedule_step_entries (cfg : Config) (s s1 : SchedState) (w w1 : SystemState)
    (h : schedule_step cfg s w = some (s1, w1)) :
    w1.processes.length = w.processes.length ∧
    ∀ (i : Nat) (p : PCB), w.processes[i]? = some p →
      w1.processes[i]? = some p ∨
      w1.processes[i]? = some { p with state := ProcessState.TERMINATED } := by
  rcases schedule_step_world cfg s s1 w w1 h with ⟨_, _, rfl⟩ | ⟨c, _, ⟨_, rfl, _⟩ | ⟨_, rfl, _⟩⟩
  · exact ⟨rfl, fun i p hi => Or.inl hi⟩
  · exact ⟨rfl, fun i p hi => Or.inl hi⟩
  · exact terminate_process_entries c.pid _

theorem timeout_raises_length (now : Nat → Int) (ps : List PCB) (i : Nat) :
    (timeout_raises now ps i).length ≤ ps.length := by
  have h := (timeout_raises_facts now ps i).1.length_le
  simpa using h

/-! ### Scheduler and timeout detector: two copies of `remaining_time` -/

/-- One pass of the detector loop over a PCB table returns for every pending queue that
satisfies the queue invariant, full or not, and maps `tick_pcb` over the table: a raise on
a full queue is dropped and the loop goes on. -/
theorem check_timeouts_loop_table (now : Nat → Int) : ∀ (ps : List PCB) (i : Nat)
    (q : IntState), int_queue_inv q →
    ∃ q1, check_timeouts_loop now ps i q = some (ps.map tick_pcb, q1) ∧
      int_queue_inv q1 := by
  intro ps
  induction ps with
  | nil => intro i q hinv; exact ⟨q, rfl, hinv⟩
  | cons p ps ih =>
    intro i q hinv
    by_cases hst : p.state = ProcessState.RUNNING ∨ p.state = ProcessState.READY
    · by_cases hexp : p.remaining_time - 1 ≤ 0
      · have hraise : ∃ q1, interrupt_raise (now i) INT_EXAM_TIMEOUT p.pid q = some q1 ∧
            int_queue_inv q1 := by
          by_cases hroom : q.int_q_count < INT_QUEUE_CAPACITY
          · obtain ⟨q1, e1, e2, _⟩ :=
              interrupt_raise_ok (now i) INT_EXAM_TIMEOUT p.pid q hinv hroom
            exact ⟨q1, e1, e2⟩
          · exact ⟨q, interrupt_raise_full (now i) INT_EXAM_TIMEOUT p.pid q (by omega), hinv⟩
        obtain ⟨q1, e1, e2⟩ := hraise
        obtain ⟨q2, f1, f2⟩ := ih (i + 1) q1 e2
        refine ⟨q2, ?_, f2⟩
        simp only [check_timeouts_loop, hst, hexp, if_true, e1, f1, List.map_cons, tick_pcb]
      · obtain ⟨q2, f1, f2⟩ := ih (i + 1) q hinv
        refine ⟨q2, ?_, f2⟩
        simp only [check_timeouts_loop, hst, hexp, if_true, if_false, f1, List.map_cons,
          tick_pcb]
    · obtain ⟨q2, f1, f2⟩ := ih (i + 1) q hinv
      refine ⟨q2, ?_, f2⟩
      simp only [check_timeouts_loop, hst, if_false, f1, List.map_cons, tick_pcb]

/-- C24 as amended. For either policy, one scheduling step on a non-empty ready queue
(inside the array, `rr_index ≥ 0`) returns and selects a queued PCB `c`
(`running_pid = c.pid`); if `c` is not completed its entry in the ready queue has
`remaining_time` reduced by `time_quantum`. The step leaves the `remaining_time` of every
entry of the world PCB table unchanged. A detector pass after the step (any pending queue
that satisfies the queue invariant, full or not, and a table of any length) returns and
reduces the world `remaining_time` of an entry by exactly 1 when its state is READY or
RUNNING and by 0 otherwise: after the step and the pass it has dropped by 1 or 0, not by
`time_quantum + 1`. -/
theorem scheduler_decrement_private (cfg : Config) (s : SchedState) (w : SystemState)
    (q : IntState) (now : Nat → Int)
    (hne : s.ready_queue ≠ []) (hrr : 0 ≤ s.rr_index)
    (hcap : (s.ready_queue.length : Int) ≤ MAX_STUDENTS)
    (hinv : int_queue_inv q) :
    ∃ c s1 w1 w2 q2, schedule_step cfg s w = some (s1, w1) ∧
      c ∈ s.ready_queue ∧ w1.running_pid = c.pid ∧
      (0 < c.remaining_time - cfg.time_quantum →
        { c with remaining_time := c.remaining_time - cfg.time_quantum } ∈ s1.ready_queue) ∧
      check_timeouts now w1 q = some (w2, q2) ∧
      ∀ (i : Nat) (p : PCB), w.processes[i]? = some p →
        ∃ p1 p2, w1.processes[i]? = some p1 ∧ w2.processes[i]? = some p2 ∧
          p1.remaining_time = p.remaining_time ∧
          p2.remaining_time = p.remaining_time
            - (if p1.state = ProcessState.READY ∨ p1.state = ProcessState.RUNNING
                then 1 else 0) := by
  obtain ⟨s1, w1, hstep⟩ : ∃ s1 w1, schedule_step cfg s w = some (s1, w1) := by
    by_cases halgo : cfg.sched_algo = SchedAlgo.ROUND_ROBIN
    · obtain ⟨_, s1, w1, h, _⟩ := run_round_robin_counters cfg s w hne hrr
      exact ⟨s1, w1, by simp only [schedule_step, halgo, if_true, h]⟩
    · obtain ⟨_, s1, w1, h, _⟩ := run_priority_counters cfg s w hne hcap
      exact ⟨s1, w1, by simp only [schedule_step, halgo, if_false, h]⟩
  obtain ⟨hlen, hent⟩ := schedule_step_entries cfg s s1 w w1 hstep
  obtain ⟨q2, hct⟩ : ∃ q2, check_timeouts now w1 q
      = some ({ w1 with processes := w1.processes.map tick_pcb }, q2) := by
    obtain ⟨q2, e1, _⟩ := check_timeouts_loop_table now w1.processes 0 q hinv
    exact ⟨q2, by simp only [check_timeouts, e1]⟩
  have hsel : ∃ c ∈ s.ready_queue, w1.running_pid = c.pid ∧
      (0 < c.remaining_time - cfg.time_quantum →
        { c with remaining_time := c.remaining_time - cfg.time_quantum }
          ∈ s1.ready_queue) := by
    rcases schedule_step_world cfg s s1 w w1 hstep with
      ⟨he, _, _⟩ | ⟨c, hc, ⟨_, rfl, hin, _⟩ | ⟨hd, rfl, _⟩⟩
    · exact absurd he hne
    · exact ⟨c, hc, rfl, fun _ => hin⟩
    · exact ⟨c, hc, by rw [terminate_running_pid], fun h => by omega⟩
  obtain ⟨c, hc, hrun, hq⟩ := hsel
  refine ⟨c, s1, w1, _, q2, hstep, hc, hrun, hq, hct, ?_⟩
  intro i p hi
  have htick : ∀ p1 : PCB, (tick_pcb p1).remaining_time = p1.remaining_time
      - (if p1.state = ProcessState.READY ∨ p1.state = ProcessState.RUNNING
          then 1 else 0) := by
    intro p1
    unfold tick_pcb
    by_cases hst : p1.state = ProcessState.RUNNING ∨ p1.state = ProcessState.READY
    · have hst2 : p1.state = ProcessState.READY ∨ p1.state = ProcessState.RUNNING :=
        hst.symm
      simp only [hst, hst2, if_true]
      split_ifs <;> rfl
    · have hst2 : ¬ (p1.state = ProcessState.READY ∨ p1.state = ProcessState.RUNNING) :=
        fun h => hst h.symm
      simp only [hst, hst2, if_false, sub_zero]
  rcases hent i p hi with h1 | h1
  · refine ⟨p, tick_pcb p, h1, ?_, rfl, htick p⟩
    show (w1.processes.map tick_pcb)[i]? = _
    rw [List.getElem?_map, h1]; rfl
  · refine ⟨_, tick_pcb { p with state := ProcessState.TERMINATED }, h1, ?_, rfl, ?_⟩
    · show (w1.processes.map tick_pcb)[i]? = _
      rw [List.getElem?_map, h1]; rfl
    · exact htick _

/-- Witness of C24 as amended: the default configuration (PRIORITY, `time_quantum = 5`),
one PCB with 30 ticks left in the queue and in the table. -/
theorem scheduler_decrement_private_witness :
    ∃ c s1 w1 w2 q2, schedule_step config_load_defaults
        { ready_queue := [⟨1, ProcessState.READY, 1, 100, 30, 0, 0, 0⟩], rr_index := 0 }
        { state_init with processes := [⟨1, ProcessState.READY, 1, 100, 30, 0, 0, 0⟩] }
        = some (s1, w1) ∧
      c ∈ [(⟨1, ProcessState.READY, 1, 100, 30, 0, 0, 0⟩ : PCB)] ∧
      check_timeouts (fun _ => 0) w1 (interrupt_init int_static) = some (w2, q2) ∧
      ∃ p1 p2, w1.processes[0]? = some p1 ∧ w2.processes[0]? = some p2 ∧
        p1.remaining_time = 30 ∧
        p2.remaining_time = 30
          - (if p1.state = ProcessState.READY ∨ p1.state = ProcessState.RUNNING
              then 1 else 0) := by
  obtain ⟨c, s1, w1, w2, q2, h1, h2, _, _, h5, h6⟩ := scheduler_decrement_private
    config_load_defaults
    { ready_queue := [⟨1, ProcessState.READY, 1, 100, 30, 0, 0, 0⟩], rr_index := 0 }
    { state_init with processes := [⟨1, ProcessState.READY, 1, 100, 30, 0, 0, 0⟩] }
    (interrupt_init int_static) (fun _ => 0) (by simp) (by decide) (by decide)
    interrupt_init_inv
  exact ⟨c, s1, w1, w2, q2, h1, h2, h5, h6 0 _ rfl⟩

/-- Counterexample to C24 as stated: under either policy with `time_quantum = 5`, one PCB
with 30 ticks left is added and selected by one scheduling step (`running_pid = 1`); its
entry in the ready queue has 25 ticks left, its entry in the world PCB table still has
30, and 29 after one pass of the timeout detector, not `30 - (5 + 1) = 24`. -/
theorem scheduler_step_leaves_world_remaining_time :
    (((SchedTrace.mk scheduler_init state_init [] []).run config_load_defaults
        [SchedOp.add ⟨1, ProcessState.NEW, 1, 100, 30, 0, 0, 0⟩, SchedOp.step]).bind
      (fun t => (check_timeouts (fun _ => 0) t.world (interrupt_init int_static)).map
        (fun r => (t.world.running_pid,
          t.sched.ready_queue.map (fun p => p.remaining_time),
          t.world.processes.map (fun p => p.remaining_time),
          r.1.processes.map (fun p => p.remaining_time)))))
      = some (1, [25], [30], [29]) ∧
    (((SchedTrace.mk scheduler_init state_init [] []).run
        { config_load_defaults with sched_algo := SchedAlgo.ROUND_ROBIN }
        [SchedOp.add ⟨1, ProcessState.NEW, 1, 100, 30, 0, 0, 0⟩, SchedOp.step]).bind
      (fun t => (check_timeouts (fun _ => 0) t.world (interrupt_init int_static)).map
        (fun r => (t.world.running_pid,
          t.sched.ready_queue.map (fun p => p.remaining_time),
          t.world.processes.map (fun p => p.remaining_time),
          r.1.processes.map (fun p => p.remaining_time)))))
      = some (1, [25], [30], [29]) := by
  constructor <;> decide

theorem scheduler_add_process_some (p : PCB) (s : SchedState) (w : SystemState)
    (hw : (w.processes.length : Int) < MAX_STUDENTS)
    (hs : (s.ready_queue.length : Int) < MAX_STUDENTS) :
    ∃ rq, heap_push s.ready_queue { p with state := ProcessState.READY } = some rq ∧
      scheduler_add_process p s w = some ({ s with ready_queue := rq },
        { w with processes := w.processes ++ [{ p with state := ProcessState.READY }] }) := by
  obtain ⟨rq, hpush⟩ := heap_push_some s.ready_queue
    { p with state := ProcessState.READY } hs
  refine ⟨rq, hpush, ?_⟩
  unfold scheduler_add_process
  rw [if_neg (not_not.mpr hw)]
  simp only [hpush]

/-! ### Scheduler: the state of a PCB in the world table -/

/-- C25 as amended. `scheduler_add_process(p)` with room in the PCB table and in the ready
queue returns and appends `p` with state READY to the world PCB table. For either policy,
one scheduling step on a non-empty ready queue (inside the array, `rr_index ≥ 0`) returns
and selects a queued PCB `c` (`running_pid = c.pid`); when `c` is not completed the world
PCB table is unchanged, so the state of its entry is what it was (READY after
admission), and no step makes an entry RUNNING: an entry that is RUNNING after the step
was the same entry before. -/
theorem pcb_life_cycle :
    (∀ (p : PCB) (s : SchedState) (w : SystemState),
      (w.processes.length : Int) < MAX_STUDENTS →
      (s.ready_queue.length : Int) < MAX_STUDENTS →
      ∃ s1 w1, scheduler_add_process p s w = some (s1, w1) ∧
        w1.processes = w.processes ++ [{ p with state := ProcessState.READY }]) ∧
    (∀ (cfg : Config) (s : SchedState) (w : SystemState),
      s.ready_queue ≠ [] → 0 ≤ s.rr_index →
      (s.ready_queue.length : Int) ≤ MAX_STUDENTS →
      ∃ c s1 w1, schedule_step cfg s w = some (s1, w1) ∧
        c ∈ s.ready_queue ∧ w1.running_pid = c.pid ∧
        (0 < c.remaining_time - cfg.time_quantum → w1.processes = w.processes) ∧
        (∀ (i : Nat) (p1 : PCB), w1.processes[i]? = some p1 →
          p1.state = ProcessState.RUNNING → w.processes[i]? = some p1)) := by
  constructor
  · intro p s w hw hs
    obtain ⟨rq, _, h⟩ := scheduler_add_process_some p s w hw hs
    exact ⟨_, _, h, rfl⟩
  · intro cfg s w hne hrr hcap
    obtain ⟨s1, w1, hstep⟩ : ∃ s1 w1, schedule_step cfg s w = some (s1, w1) := by
      by_cases halgo : cfg.sched_algo = SchedAlgo.ROUND_ROBIN
      · obtain ⟨_, s1, w1, h, _⟩ := run_round_robin_counters cfg s w hne hrr
        exact ⟨s1, w1, by simp only [schedule_step, halgo, if_true, h]⟩
      · obtain ⟨_, s1, w1, h, _⟩ := run_priority_counters cfg s w hne hcap
        exact ⟨s1, w1, by simp only [schedule_step, halgo, if_false, h]⟩
    obtain ⟨hlen, hent⟩ := schedule_step_entries cfg s s1 w w1 hstep
    have hrun : ∀ (i : Nat) (p1 : PCB), w1.processes[i]? = some p1 →
        p1.state = ProcessState.RUNNING → w.processes[i]? = some p1 := by
      intro i p1 h1 hst
      have hi : i < w.processes.length := by
        rw [← hlen]; exact (List.getElem?_eq_some_iff.mp h1).1
      rcases hent i _ (List.getElem?_eq_getElem hi) with h2 | h2
      · rw [h1] at h2
        rw [List.getElem?_eq_getElem hi, h2]
      · rw [h1] at h2
        simp only [Option.some.injEq] at h2
        rw [h2] at hst
        exact absurd hst (by simp)
    rcases schedule_step_world cfg s s1 w w1 hstep with
      ⟨he, _, _⟩ | ⟨c, hc, ⟨_, rfl, _, _⟩ | ⟨hd, rfl, _⟩⟩
    · exact absurd he hne
    · exact ⟨c, s1, _, hstep, hc, rfl, fun _ => rfl, hrun⟩
    · exact ⟨c, s1, _, hstep, hc, by rw [terminate_running_pid], fun h => by omega, hrun⟩

/-- Witness of C25 as amended: one admission into the empty scheduler, and one step of
the default configuration on a queue of one PCB that is READY in the table. -/
theorem pcb_life_cycle_witness :
    (∃ s1 w1, scheduler_add_process ⟨1, ProcessState.NEW, 1, 100, 30, 0, 0, 0⟩
        scheduler_init state_init = some (s1, w1) ∧
      w1.processes = [⟨1, ProcessState.READY, 1, 100, 30, 0, 0, 0⟩]) ∧
    (∃ c s1 w1, schedule_step config_load_defaults
        { ready_queue := [⟨1, ProcessState.READY, 1, 100, 30, 0, 0, 0⟩], rr_index := 0 }
        { state_init with processes := [⟨1, ProcessState.READY, 1, 100, 30, 0, 0, 0⟩] }
        = some (s1, w1) ∧
      c ∈ [(⟨1, ProcessState.READY, 1, 100, 30, 0, 0, 0⟩ : PCB)] ∧
      w1.running_pid = c.pid) := by
  constructor
  · exact pcb_life_cycle.1 ⟨1, ProcessState.NEW, 1, 100, 30, 0, 0, 0⟩ scheduler_init
      state_init (by decide) (by decide)
  · obtain ⟨c, s1, w1, h1, h2, h3, _⟩ := pcb_life_cycle.2 config_load_defaults
      { ready_queue := [⟨1, ProcessState.READY, 1, 100, 30, 0, 0, 0⟩], rr_index := 0 }
      { state_init with processes := [⟨1, ProcessState.READY, 1, 100, 30, 0, 0, 0⟩] }
      (by simp) (by decide) (by decide)
    exact ⟨c, s1, w1, h1, h2, h3⟩

/-- Counterexample to C25 as stated: under either policy with `time_quantum = 5`, a PCB
with 30 ticks left is added and then selected by a scheduling step without being
completed (`running_pid = 1`, 25 ticks left in the queue); its state in the world PCB
table is READY after the step, not RUNNING. -/
theorem selected_pcb_stays_ready :
    ((SchedTrace.mk scheduler_init state_init [] []).run config_load_defaults
        [SchedOp.add ⟨1, ProcessState.NEW, 1, 100, 30, 0, 0, 0⟩, SchedOp.step]).map
      (fun t => (t.world.running_pid, t.sched.ready_queue.map (fun p => p.remaining_time),
        t.world.processes.map (fun p => p.state)))
      = some (1, [25], [ProcessState.READY]) ∧
    ((SchedTrace.mk scheduler_init state_init [] []).run
        { config_load_defaults with sched_algo := SchedAlgo.ROUND_ROBIN }
        [SchedOp.add ⟨1, ProcessState.NEW, 1, 100, 30, 0, 0, 0⟩, SchedOp.step]).map
      (fun t => (t.world.running_pid, t.sched.ready_queue.map (fun p => p.remaining_time),
        t.world.processes.map (fun p => p.state)))
      = some (1, [25], [ProcessState.READY]) := by
  constructor <;> decide

/-! ### Lemmas on the erasure of `priority` -/

theorem rem_time_erase (rq : List PCB) (i : Nat) :
    rem_time (rq.map erase_priority) i = rem_time rq i := by
  simp only [rem_time, List.getElem?_map]
  cases rq[i]? <;> rfl

theorem swap_pcb_erase (rq : List PCB) (a b : Nat) :
    swap_pcb (rq.map erase_priority) a b = (swap_pcb rq a b).map erase_priority := by
  simp only [swap_pcb, List.getElem?_map]
  cases rq[a]? with
  | none => rfl
  | some x =>
    cases rq[b]? with
    | none => rfl
    | some y => simp only [Option.map_some', List.map_set]

theorem bubble_up_erase : ∀ (fuel : Nat) (rq : List PCB) (i : Nat),
    bubble_up (rq.map erase_priority) fuel i = (bubble_up rq fuel i).map erase_priority := by
  intro fuel
  induction fuel with
  | zero => intro rq i; rfl
  | succ fuel ih =>
    intro rq i
    simp only [bubble_up, rem_time_erase]
    split_ifs
    · rw [swap_pcb_erase, ih]
    · rfl
    · rfl

theorem bubble_down_erase : ∀ (fuel : Nat) (rq : List PCB) (i : Nat),
    bubble_down (rq.map erase_priority) fuel i
      = (bubble_down rq fuel i).map erase_priority := by
  intro fuel
  induction fuel with
  | zero => intro rq i; rfl
  | succ fuel ih =>
    intro rq i
    simp only [bubble_down, rem_time_erase, List.length_map]
    split_ifs
    all_goals first
      | rfl
      | rw [swap_pcb_erase, ih]

theorem heap_push_erase (rq : List PCB) (p : PCB) :
    heap_push (rq.map erase_priority) (erase_priority p)
      = (heap_push rq p).map (List.map erase_priority) := by
  simp only [heap_push, List.length_map]
  split_ifs
  · have e : rq.map erase_priority ++ [erase_priority p]
        = (rq ++ [p]).map erase_priority := by simp
    rw [e, bubble_up_erase]
    rfl
  · rfl

theorem heap_pop_erase (rq : List PCB) :
    heap_pop (rq.map erase_priority)
      = (heap_pop rq).map (fun r => (erase_priority r.1, r.2.map erase_priority)) := by
  simp only [heap_pop, List.getElem?_map, List.length_map]
  cases rq[0]? with
  | none => rfl
  | some top =>
    cases rq[rq.length - 1]? with
    | none => rfl
    | some last =>
      simp only [Option.map_some']
      have e : ((rq.map erase_priority).set 0 (erase_priority last)).take (rq.length - 1)
          = ((rq.set 0 last).take (rq.length - 1)).map erase_priority := by
        rw [List.map_take, List.map_set]
      rw [e, bubble_down_erase, List.length_map]

theorem terminate_first_erase (pid : Int) : ∀ ps : List PCB,
    terminate_first pid (ps.map erase_priority)
      = (terminate_first pid ps).map (List.map erase_priority) := by
  intro ps
  induction ps with
  | nil => rfl
  | cons a tl ih =>
    simp only [List.map_cons, terminate_first, ih]
    have hp : (erase_priority a).pid = a.pid := rfl
    rw [hp]
    split_ifs
    · rfl
    · cases terminate_first pid tl <;> rfl

theorem terminate_process_erase (pid : Int) (w : SystemState) :
    scheduler_terminate_process pid (erase_world w)
      = erase_world (scheduler_terminate_process pid w) := by
  simp only [scheduler_terminate_process, erase_world, terminate_first_erase]
  cases terminate_first pid w.processes <;> rfl

theorem run_priority_erase (cfg : Config) (s : SchedState) (w : SystemState) :
    run_priority cfg (erase_sched s) (erase_world w)
      = (run_priority cfg s w).map (fun r => (erase_sched r.1, erase_world r.2)) := by
  unfold run_priority
  have hl : (erase_sched s).ready_queue.length = s.ready_queue.length := by
    simp [erase_sched]
  rw [hl]
  by_cases h0 : s.ready_queue.length = 0
  · simp only [h0, if_true]
    rfl
  · simp only [h0, if_false]
    have hq : (erase_sched s).ready_queue = s.ready_queue.map erase_priority := rfl
    rw [hq, heap_pop_erase]
    cases heap_pop s.ready_queue with
    | none => rfl
    | some r =>
      obtain ⟨cur, rq⟩ := r
      set_option maxRecDepth 10000 in
      show (if cur.remaining_time - cfg.time_quantum ≤ 0 then
            some (({ ready_queue := rq.map erase_priority, rr_index := s.rr_index }
                    : SchedState),
              scheduler_terminate_process cur.pid
                (erase_world { w with running_pid := cur.pid,
                                      context_switches := w.context_switches + 1 }))
          else
            match heap_push (rq.map erase_priority) (erase_priority
                { cur with remaining_time := cur.remaining_time - cfg.time_quantum }) with
            | none => none
            | some rq1 =>
              some (({ ready_queue := rq1, rr_index := s.rr_index } : SchedState),
                erase_world { w with running_pid := cur.pid,
                                     context_switches := w.context_switches + 1 }))
        = Option.map (fun r => (erase_sched r.1, erase_world r.2))
          (if cur.remaining_time - cfg.time_quantum ≤ 0 then
            some ({ s with ready_queue := rq },
              scheduler_terminate_process cur.pid
                { w with running_pid := cur.pid,
                         context_switches := w.context_switches + 1 })
          else
            match heap_push rq
                { cur with remaining_time := cur.remaining_time - cfg.time_quantum } with
            | none => none
            | some rq1 =>
              some ({ s with ready_queue := rq1 },
                { w with running_pid := cur.pid,
                         context_switches := w.context_switches + 1 }))
      rw [terminate_process_erase, heap_push_erase]
      split_ifs
      · rfl
      · cases heap_push rq
          { cur with remaining_time := cur.remaining_time - cfg.time_quantum } with
        | none => rfl
        | some rq1 => rfl

theorem run_round_robin_erase (cfg : Config) (s : SchedState) (w : SystemState) :
    run_round_robin cfg (erase_sched s) (erase_world w)
      = (run_round_robin cfg s w).map (fun r => (erase_sched r.1, erase_world r.2)) := by
  unfold run_round_robin
  have hl : (erase_sched s).ready_queue.length = s.ready_queue.length := by
    simp [erase_sched]
  have hi : (erase_sched s).rr_index = s.rr_index := rfl
  have hq : (erase_sched s).ready_queue = s.ready_queue.map erase_priority := rfl
  rw [hl, hi]
  by_cases h0 : s.ready_queue.length = 0
  · simp only [h0, if_true]
    rfl
  · simp only [h0, if_false]
    by_cases hneg : s.rr_index.tmod (s.ready_queue.length : Int) < 0
    · simp only [hneg, if_true]
      rfl
    · simp only [hneg, if_false]
      rw [hq, List.getElem?_map]
      cases s.ready_queue[(s.rr_index.tmod (s.ready_queue.length : Int)).toNat]? with
      | none => rfl
      | some cur =>
        have hset : ∀ x : PCB,
            (s.ready_queue.map erase_priority).set
              (s.rr_index.tmod (s.ready_queue.length : Int)).toNat (erase_priority x)
            = (s.ready_queue.set
                (s.rr_index.tmod (s.ready_queue.length : Int)).toNat x).map erase_priority := by
          intro x
          rw [List.map_set]
        show (if cur.remaining_time - cfg.time_quantum ≤ 0 then
              match ((s.ready_queue.map erase_priority).set
                  (s.rr_index.tmod (s.ready_queue.length : Int)).toNat
                  (erase_priority
                    { cur with remaining_time := cur.remaining_time - cfg.time_quantum }))[
                  ((s.ready_queue.map erase_priority).set
                  (s.rr_index.tmod (s.ready_queue.length : Int)).toNat
                  (erase_priority
                    { cur with remaining_time := cur.remaining_time - cfg.time_quantum })).length
                    - 1]? with
              | none => none
              | some last =>
                some (({ ready_queue :=
                          ((((s.ready_queue.map erase_priority).set
                            (s.rr_index.tmod (s.ready_queue.length : Int)).toNat
                            (erase_priority
                              { cur with remaining_time :=
                                  cur.remaining_time - cfg.time_quantum })).set
                            (s.rr_index.tmod (s.ready_queue.length : Int)).toNat last).take
                            (((s.ready_queue.map erase_priority).set
                              (s.rr_index.tmod (s.ready_queue.length : Int)).toNat
                              (erase_priority
                                { cur with remaining_time :=
                                    cur.remaining_time - cfg.time_quantum })).length - 1)),
                         rr_index := s.rr_index } : SchedState),
                  scheduler_terminate_process cur.pid
                    (erase_world { w with running_pid := cur.pid,
                                          context_switches := w.context_switches + 1 }))
            else
              some (({ ready_queue := (s.ready_queue.map erase_priority).set
                        (s.rr_index.tmod (s.ready_queue.length : Int)).toNat
                        (erase_priority
                          { cur with remaining_time :=
                              cur.remaining_time - cfg.time_quantum }),
                       rr_index := (s.rr_index + 1).tmod (s.ready_queue.length : Int) }
                      : SchedState),
                erase_world { w with running_pid := cur.pid,
                                     context_switches := w.context_switches + 1 }))
          = Option.map (fun r => (erase_sched r.1, erase_world r.2))
            (if cur.remaining_time - cfg.time_quantum ≤ 0 then
              match (s.ready_queue.set
                  (s.rr_index.tmod (s.ready_queue.length : Int)).toNat
                  { cur with remaining_time := cur.remaining_time - cfg.time_quantum })[
                  (s.ready_queue.set
                  (s.rr_index.tmod (s.ready_queue.length : Int)).toNat
                  { cur with remaining_time := cur.remaining_time - cfg.time_quantum }).length
                    - 1]? with
              | none => none
              | some last =>
                some ({ s with ready_queue :=
                          (((s.ready_queue.set
                            (s.rr_index.tmod (s.ready_queue.length : Int)).toNat
                            { cur with remaining_time :=
                                cur.remaining_time - cfg.time_quantum }).set
                            (s.rr_index.tmod (s.ready_queue.length : Int)).toNat last).take
                            ((s.ready_queue.set
                              (s.rr_index.tmod (s.ready_queue.length : Int)).toNat
                              { cur with remaining_time :=
                                  cur.remaining_time - cfg.time_quantum }).length - 1)) },
                  scheduler_terminate_process cur.pid
                    { w with running_pid := cur.pid,
                             context_switches := w.context_switches + 1 })
            else
              some ({ ready_queue := s.ready_queue.set
                        (s.rr_index.tmod (s.ready_queue.length : Int)).toNat
                        { cur with remaining_time := cur.remaining_time - cfg.time_quantum },
                      rr_index := (s.rr_index + 1).tmod (s.ready_queue.length : Int) },
                { w with running_pid := cur.pid,
                         context_switches := w.context_switches + 1 }))
        rw [terminate_process_erase, hset, List.getElem?_map, List.length_map]
        split_ifs
        · cases (s.ready_queue.set (s.rr_index.tmod (s.ready_queue.length : Int)).toNat
              { cur with remaining_time := cur.remaining_time - cfg.time_quantum })[
              (s.ready_queue.set (s.rr_index.tmod (s.ready_queue.length : Int)).toNat
              { cur with remaining_time := cur.remaining_time - cfg.time_quantum }).length
                - 1]? with
          | none => rfl
          | some last =>
            simp only [Option.map_some', erase_sched, List.map_take, List.map_set]
        · rfl

theorem schedule_step_erase (cfg : Config) (s : SchedState) (w : SystemState) :
    schedule_step cfg (erase_sched s) (erase_world w)
      = (schedule_step cfg s w).map (fun r => (erase_sched r.1, erase_world r.2)) := by
  unfold schedule_step
  split_ifs
  · exact run_round_robin_erase cfg s w
  · exact run_priority_erase cfg s w

theorem scheduler_add_process_erase (p : PCB) (s : SchedState) (w : SystemState) :
    scheduler_add_process (erase_priority p) (erase_sched s) (erase_world w)
      = (scheduler_add_process p s w).map (fun r => (erase_sched r.1, erase_world r.2)) := by
  unfold scheduler_add_process
  have hl : (erase_world w).processes.length = w.processes.length := by
    simp [erase_world]
  rw [hl]
  by_cases hw : (w.processes.length : Int) < MAX_STUDENTS
  · rw [if_neg (not_not.mpr hw), if_neg (not_not.mpr hw)]
    have e : ({ erase_priority p with state := ProcessState.READY } : PCB)
        = erase_priority { p with state := ProcessState.READY } := rfl
    have hq : (erase_sched s).ready_queue = s.ready_queue.map erase_priority := rfl
    rw [e, hq, heap_push_erase]
    cases heap_push s.ready_queue { p with state := ProcessState.READY } with
    | none => rfl
    | some rq =>
      simp only [Option.map_some', erase_world, erase_sched, List.map_append, List.map_cons,
        List.map_nil]
  · rw [if_pos hw, if_pos hw]
    rfl

theorem sched_trace_add_eq (cfg : Config) (t : SchedTrace) (p : PCB) :
    t.step cfg (SchedOp.add p)
      = match scheduler_add_process p t.sched t.world with
        | none => none
        | some (s, w) => some { t with sched := s, world := w } := by
  set_option maxRecDepth 10000 in
  rfl

theorem erase_trace_step (cfg : Config) (t : SchedTrace) (op : SchedOp) :
    (erase_trace t).step cfg (erase_op op) = (t.step cfg op).map erase_trace := by
  cases op with
  | add p =>
    show (erase_trace t).step cfg (SchedOp.add (erase_priority p)) = _
    rw [sched_trace_add_eq, sched_trace_add_eq]
    have h1 : (erase_trace t).sched = erase_sched t.sched := rfl
    have h2 : (erase_trace t).world = erase_world t.world := rfl
    rw [h1, h2, scheduler_add_process_erase]
    cases scheduler_add_process p t.sched t.world with
    | none => rfl
    | some r => rfl
  | step =>
    show (erase_trace t).step cfg SchedOp.step = _
    rw [sched_trace_step_eq, sched_trace_step_eq]
    have h1 : (erase_trace t).sched = erase_sched t.sched := rfl
    have h2 : (erase_trace t).world = erase_world t.world := rfl
    rw [h1, h2, schedule_step_erase]
    cases schedule_step cfg t.sched t.world with
    | none => rfl
    | some r =>
      obtain ⟨s1, w1⟩ := r
      simp only [Option.map_some', erase_trace, erase_sched, erase_world, List.length_map]

theorem erase_trace_run (cfg : Config) : ∀ (ops : List SchedOp) (t : SchedTrace),
    (erase_trace t).run cfg (ops.map erase_op) = (t.run cfg ops).map erase_trace := by
  intro ops
  induction ops with
  | nil => intro t; rfl
  | cons op rest ih =>
    intro t
    simp only [List.map_cons, SchedTrace.run, erase_trace_step]
    cases t.step cfg op with
    | none => rfl
    | some t1 => exact ih t1

/-! ### Scheduler: the `priority` field is never consulted -/

/-- C26. Two runs of the scheduler, under either policy, from states that differ only in
the `priority` fields of their PCBs (equal after erasure) and fed call sequences that
differ only in the `priority` fields of the added PCBs: the results are equal after
erasure, in particular one run returns exactly when the other does. For results `r`,
`r1` the logs of `running_pid` values and of completions are the same, and so are the
pids, states and `remaining_time` values of the queued PCBs and of the PCB table, in
order, together with `rr_index`, `running_pid`, `context_switches` and
`completed_processes`. -/
theorem priority_never_consulted (cfg : Config) (t t1 : SchedTrace)
    (ops ops1 : List SchedOp) (ht : erase_trace t = erase_trace t1)
    (hops : ops.map erase_op = ops1.map erase_op) :
    (t.run cfg ops).map erase_trace = (t1.run cfg ops1).map erase_trace ∧
    ∀ r, t.run cfg ops = some r →
      ∃ r1, t1.run cfg ops1 = some r1 ∧
        r1.running = r.running ∧ r1.completed = r.completed ∧
        r1.sched.ready_queue.map (fun p => (p.pid, p.state, p.remaining_time))
          = r.sched.ready_queue.map (fun p => (p.pid, p.state, p.remaining_time)) ∧
        r1.sched.rr_index = r.sched.rr_index ∧
        r1.world.processes.map (fun p => (p.pid, p.state, p.remaining_time))
          = r.world.processes.map (fun p => (p.pid, p.state, p.remaining_time)) ∧
        r1.world.running_pid = r.world.running_pid ∧
        r1.world.context_switches = r.world.context_switches ∧
        r1.world.completed_processes = r.world.completed_processes := by
  have hmain : (t.run cfg ops).map erase_trace = (t1.run cfg ops1).map erase_trace := by
    rw [← erase_trace_run, ← erase_trace_run, ht, hops]
  refine ⟨hmain, ?_⟩
  intro r hr
  rw [hr] at hmain
  cases h1 : t1.run cfg ops1 with
  | none =>
    rw [h1] at hmain
    exact absurd hmain (by simp)
  | some r1 =>
    rw [h1] at hmain
    simp only [Option.map_some', Option.some.injEq] at hmain
    have hkey : ∀ l l1 : List PCB, l1.map erase_priority = l.map erase_priority →
        l1.map (fun p => (p.pid, p.state, p.remaining_time))
          = l.map (fun p => (p.pid, p.state, p.remaining_time)) := by
      intro l l1 h
      have h2 := congrArg (List.map (fun p : PCB => (p.pid, p.state, p.remaining_time))) h
      simp only [List.map_map] at h2
      exact h2
    have hs : erase_sched r1.sched = erase_sched r.sched :=
      (congrArg SchedTrace.sched hmain).symm
    have hw : erase_world r1.world = erase_world r.world :=
      (congrArg SchedTrace.world hmain).symm
    have k1 := congrArg SchedState.rr_index hs
    have k2 := congrArg SystemState.running_pid hw
    have k3 := congrArg SystemState.context_switches hw
    have k4 := congrArg SystemState.completed_processes hw
    exact ⟨r1, rfl, (congrArg SchedTrace.running hmain).symm,
      (congrArg SchedTrace.completed hmain).symm,
      hkey _ _ (congrArg SchedState.ready_queue hs), k1,
      hkey _ _ (congrArg SystemState.processes hw), k2, k3, k4⟩

/-- Witness of C26: three PCBs added with priorities 1, 1, 1 in one run and 7, 3, 9 in
the other, followed by four scheduling steps of the default configuration. -/
theorem priority_never_consulted_witness :
    ((SchedTrace.mk scheduler_init state_init [] []).run config_load_defaults
        [SchedOp.add ⟨1, ProcessState.NEW, 1, 100, 12, 0, 0, 0⟩,
         SchedOp.add ⟨2, ProcessState.NEW, 1, 100, 30, 0, 0, 0⟩,
         SchedOp.add ⟨3, ProcessState.NEW, 1, 100, 20, 0, 0, 0⟩,
         SchedOp.step, SchedOp.step, SchedOp.step, SchedOp.step]).map erase_trace
      = ((SchedTrace.mk scheduler_init state_init [] []).run config_load_defaults
        [SchedOp.add ⟨1, ProcessState.NEW, 7, 100, 12, 0, 0, 0⟩,
         SchedOp.add ⟨2, ProcessState.NEW, 3, 100, 30, 0, 0, 0⟩,
         SchedOp.add ⟨3, ProcessState.NEW, 9, 100, 20, 0, 0, 0⟩,
         SchedOp.step, SchedOp.step, SchedOp.step, SchedOp.step]).map erase_trace :=
  (priority_never_consulted config_load_defaults
    (SchedTrace.mk scheduler_init state_init [] [])
    (SchedTrace.mk scheduler_init state_init [] [])
    [SchedOp.add ⟨1, ProcessState.NEW, 1, 100, 12, 0, 0, 0⟩,
     SchedOp.add ⟨2, ProcessState.NEW, 1, 100, 30, 0, 0, 0⟩,
     SchedOp.add ⟨3, ProcessState.NEW, 1, 100, 20, 0, 0, 0⟩,
     SchedOp.step, SchedOp.step, SchedOp.step, SchedOp.step]
    [SchedOp.add ⟨1, ProcessState.NEW, 7, 100, 12, 0, 0, 0⟩,
     SchedOp.add ⟨2, ProcessState.NEW, 3, 100, 30, 0, 0, 0⟩,
     SchedOp.add ⟨3, ProcessState.NEW, 9, 100, 20, 0, 0, 0⟩,
     SchedOp.step, SchedOp.step, SchedOp.step, SchedOp.step] rfl rfl).1

/-! ### Lemmas on the dirty flag -/

theorem memory_init_no_dirty (cfg : Config) (m0 : MemState) :
    no_dirty (memory_init cfg m0) := by
  intro p v hb
  simp only [memory_init, hb, if_true]

theorem load_page_no_dirty (m m1 : MemState) (t1 t2 pid vp f : Int) (hd : no_dirty m)
    (h : load_page m t1 t2 pid vp f = some m1) : no_dirty m1 := by
  by_cases hf : frame_in_bounds f
  · by_cases hb : pt_in_bounds pid vp
    · by_cases hprev : (m.frame_pool f).pid ≥ 0 ∧ (m.frame_pool f).pid < MAX_STUDENTS
          ∧ (m.frame_pool f).virtual_page ≥ 0
      · by_cases hpb : pt_in_bounds (m.frame_pool f).pid (m.frame_pool f).virtual_page
        · simp only [load_page, hf, hb, hprev, hpb, and_self, not_true_eq_false, if_false,
            if_true, Option.some.injEq] at h
          subst h
          intro p v hpv
          simp only [set_pte]
          split_ifs
          all_goals first
            | rfl
            | exact hd _ _ hb
            | exact hd _ _ hpb
            | exact hd p v hpv
        · simp only [load_page, hf, hprev, hpb, and_self, not_true_eq_false, if_false,
            if_true, not_false_eq_true] at h
          exact absurd h (by simp)
      · simp only [load_page, hf, hb, hprev, not_true_eq_false, if_false,
          Option.some.injEq] at h
        subst h
        intro p v hpv
        simp only [set_pte]
        split_ifs
        · exact hd _ _ hb
        · exact hd p v hpv
    · by_cases hprev : (m.frame_pool f).pid ≥ 0 ∧ (m.frame_pool f).pid < MAX_STUDENTS
          ∧ (m.frame_pool f).virtual_page ≥ 0
      · by_cases hpb : pt_in_bounds (m.frame_pool f).pid (m.frame_pool f).virtual_page
        · simp only [load_page, hf, hb, hprev, hpb, and_self, not_true_eq_false, if_false,
            if_true, not_false_eq_true] at h
          exact absurd h (by simp)
        · simp only [load_page, hf, hprev, hpb, and_self, not_true_eq_false, if_false,
            if_true, not_false_eq_true] at h
          exact absurd h (by simp)
      · simp only [load_page, hf, hb, hprev, not_true_eq_false, if_false, if_true,
          not_false_eq_true] at h
        exact absurd h (by simp)
  · simp only [load_page, hf, not_false_eq_true, if_true] at h
    exact absurd h (by simp)

theorem memory_access_no_dirty (cfg : Config) (t1 t2 pid vp f : Int) (m m1 : MemState)
    (w w1 : SystemState) (hd : no_dirty m)
    (h : memory_access cfg t1 t2 pid vp m w = some (f, m1, w1)) : no_dirty m1 := by
  by_cases h1 : pid < 0 ∨ pid ≥ MAX_STUDENTS
  · simp only [memory_access, h1, if_true, Option.some.injEq, Prod.mk.injEq] at h
    rw [← h.2.1]; exact hd
  · by_cases h2 : vp < 0 ∨ vp ≥ MAX_PAGES
    · simp only [memory_access, h1, h2, if_true, if_false, Option.some.injEq,
        Prod.mk.injEq] at h
      rw [← h.2.1]; exact hd
    · by_cases hv : (m.page_tables pid vp).valid = 0
      · simp only [memory_access, h1, h2, hv, ne_eq, not_true_eq_false, if_false] at h
        split at h
        · exact absurd h (by simp)
        · rename_i m2 hl
          simp only [Option.some.injEq, Prod.mk.injEq] at h
          rw [← h.2.1]
          exact load_page_no_dirty m m2 t1 t2 pid vp _ hd hl
      · by_cases hfb : frame_in_bounds (m.page_tables pid vp).frame_number
        · simp only [memory_access, h1, h2, hv, hfb, ne_eq, if_true, if_false,
            not_true_eq_false, not_false_eq_true, Option.some.injEq, Prod.mk.injEq] at h
          rw [← h.2.1]
          intro p v hb
          simp only [set_pte]
          split_ifs with hpv
          · exact hd pid vp (by rw [← hpv.1, ← hpv.2]; exact hb)
          · exact hd p v hb
        · simp only [memory_access, h1, h2, hv, hfb, ne_eq, if_true, if_false,
            not_false_eq_true] at h
          exact absurd h (by simp)

theorem free_loop_no_dirty (pid : Int) : ∀ (fuel i : Nat) (m m1 : MemState),
    no_dirty m → free_loop pid m i fuel = some m1 → no_dirty m1 := by
  intro fuel
  induction fuel with
  | zero =>
    intro i m m1 hd h
    simp only [free_loop, Option.some.injEq] at h
    rw [← h]; exact hd
  | succ fuel ih =>
    intro i m m1 hd h
    simp only [free_loop] at h
    split_ifs at h with h1 h2
    · refine ih _ _ _ ?_ h
      intro p v hb
      simp only [set_pte]
      split_ifs with hpv
      · exact hd _ _ (by rw [← hpv.1, ← hpv.2]; exact hb)
      · exact hd p v hb
    · exact ih _ _ _ hd h

theorem memory_free_process_no_dirty (pid : Int) (m m1 : MemState) (w w1 : SystemState)
    (hd : no_dirty m) (h : memory_free_process pid m w = some (m1, w1)) : no_dirty m1 := by
  unfold memory_free_process at h
  split at h
  · exact absurd h (by simp)
  · rename_i m2 hl
    simp only [Option.some.injEq, Prod.mk.injEq] at h
    rw [← h.1]
    exact free_loop_no_dirty pid _ _ m m2 hd hl

theorem mem_step_no_dirty (cfg : Config) (op : MemOp) (m m1 : MemState)
    (w w1 : SystemState) (hd : no_dirty m) (h : mem_step cfg m w op = some (m1, w1)) :
    no_dirty m1 := by
  cases op with
  | access t1 t2 pid vp =>
    simp only [mem_step] at h
    split at h
    · exact absurd h (by simp)
    · rename_i f m2 w2 ha
      simp only [Option.some.injEq, Prod.mk.injEq] at h
      rw [← h.1]
      exact memory_access_no_dirty cfg t1 t2 pid vp f m m2 w w2 hd ha
  | free pid =>
    exact memory_free_process_no_dirty pid m m1 w w1 hd h

theorem mem_run_no_dirty (cfg : Config) : ∀ (ops : List MemOp) (m m1 : MemState)
    (w w1 : SystemState), no_dirty m → mem_run cfg ops m w = some (m1, w1) →
    no_dirty m1 := by
  intro ops
  induction ops with
  | nil =>
    intro m m1 w w1 hd h
    simp only [mem_run, Option.some.injEq, Prod.mk.injEq] at h
    rw [← h.1]; exact hd
  | cons op rest ih =>
    intro m m1 w w1 hd h
    simp only [mem_run] at h
    split at h
    · exact absurd h (by simp)
    · rename_i m2 w2 hs
      exact ih m2 m1 w2 w1 (mem_step_no_dirty cfg op m m2 w w2 hd hs) h

theorem mem_step_total (cfg : Config) (op : MemOp) (m : MemState) (w : SystemState)
    (hc : consistent m) (ht : 1 ≤ m.total_frames)
    (hok : ∀ pid, op = MemOp.free pid → 0 ≤ pid) :
    ∃ m1 w1, mem_step cfg m w op = some (m1, w1) ∧ consistent m1 ∧
      m1.total_frames = m.total_frames := by
  cases op with
  | access t1 t2 pid vp =>
    by_cases hb : pt_in_bounds pid vp
    · by_cases hval : (m.page_tables pid vp).valid = 0
      · obtain ⟨s0, s1, _, _⟩ := choose_frame_spec cfg m ht
        obtain ⟨m1, hl, htot, _⟩ :=
          load_page_some m t1 t2 pid vp (choose_frame cfg m) hc hb s0 s1
        have ha := memory_access_fault cfg t1 t2 pid vp m w hb hval m1 hl
        refine ⟨m1, { w with page_faults := w.page_faults + 1, frames_used := count_used m1 },
          ?_, load_page_consistent m t1 t2 pid vp _ hc hb hval s0 s1 m1 hl, htot⟩
        simp only [mem_step, ha]
      · have ha := memory_access_hit cfg t1 t2 pid vp m w hc hb hval
        refine ⟨_, { w with page_hits := w.page_hits + 1 }, ?_,
          memory_access_hit_consistent t1 t2 pid vp m hc, rfl⟩
        simp only [mem_step, ha]
    · refine ⟨m, w, ?_, hc, rfl⟩
      have hcase : (pid < 0 ∨ pid ≥ MAX_STUDENTS) ∨ (vp < 0 ∨ vp ≥ MAX_PAGES) := by
        by_contra hn
        apply hb
        unfold pt_in_bounds
        simp only [MAX_STUDENTS, MAX_PAGES] at hn ⊢
        omega
      rcases hcase with h1 | h2
      · simp only [mem_step, memory_access, h1, if_true]
      · by_cases h1 : pid < 0 ∨ pid ≥ MAX_STUDENTS
        · simp only [mem_step, memory_access, h1, if_true]
        · simp only [mem_step, memory_access, h1, h2, if_true, if_false]
  | free pid =>
    obtain ⟨m1, e1, e2, e3, _⟩ := memory_free_process_spec pid (hok pid rfl) m w hc
    exact ⟨m1, _, e1, e2, e3⟩

theorem mem_run_total (cfg : Config) : ∀ (ops : List MemOp) (m : MemState)
    (w : SystemState), consistent m → 1 ≤ m.total_frames →
    (∀ pid, MemOp.free pid ∈ ops → 0 ≤ pid) →
    ∃ m1 w1, mem_run cfg ops m w = some (m1, w1) ∧ consistent m1 ∧
      m1.total_frames = m.total_frames := by
  intro ops
  induction ops with
  | nil => intro m w hc _ _; exact ⟨m, w, rfl, hc, rfl⟩
  | cons op rest ih =>
    intro m w hc ht hok
    obtain ⟨m1, w1, e1, e2, e3⟩ := mem_step_total cfg op m w hc ht
      (fun pid h => hok pid (by rw [h]; exact List.mem_cons_self _ _))
    obtain ⟨m2, w2, g1, g2, g3⟩ := ih m1 w1 e2 (by rw [e3]; exact ht)
      (fun pid h => hok pid (List.mem_cons_of_mem _ h))
    exact ⟨m2, w2, by simp only [mem_run, e1, g1], g2, by rw [g3, e3]⟩

/-! ### Memory manager: no page is ever dirty -/

/-- C29. In every state reached from `memory_init` by `memory_access` and
`memory_free_process` calls, every entry of the page tables has `dirty = 0`; so for every
frame the test `page_tables[prev_pid][prev_page].dirty` of `load_page` is false and the
dirty-eviction branch is not taken. With a pool of at least one frame and no negative pid
passed to `memory_free_process` every such sequence of calls returns. -/
theorem no_page_dirty (cfg : Config) (m0 : MemState) (w0 : SystemState)
    (ops : List MemOp) :
    (∀ m1 w1, mem_run cfg ops (memory_init cfg m0) w0 = some (m1, w1) →
      no_dirty m1 ∧
      ∀ f : Int, pt_in_bounds (m1.frame_pool f).pid (m1.frame_pool f).virtual_page →
        ¬ (m1.page_tables (m1.frame_pool f).pid (m1.frame_pool f).virtual_page).dirty ≠ 0) ∧
    (1 ≤ cfg.memory_frames → (∀ pid, MemOp.free pid ∈ ops → 0 ≤ pid) →
      ∃ m1 w1, mem_run cfg ops (memory_init cfg m0) w0 = some (m1, w1) ∧ no_dirty m1) := by
  constructor
  · intro m1 w1 h
    have hd := mem_run_no_dirty cfg ops _ m1 w0 w1 (memory_init_no_dirty cfg m0) h
    exact ⟨hd, fun f hb => not_not.mpr (hd _ _ hb)⟩
  · intro hfr hok
    have ht : 1 ≤ (memory_init cfg m0).total_frames := by
      simp only [memory_init]
      split_ifs
      · decide
      · exact hfr
    obtain ⟨m1, w1, h, _, _⟩ := mem_run_total cfg ops _ w0
      (memory_init_consistent cfg m0) ht hok
    exact ⟨m1, w1, h,
      mem_run_no_dirty cfg ops _ m1 w0 w1 (memory_init_no_dirty cfg m0) h⟩

/-- Witness of C29: the default configuration with three accesses and one release. -/
theorem no_page_dirty_witness :
    ∃ m1 w1, mem_run config_load_defaults
        [MemOp.access 1 2 0 3, MemOp.access 3 4 0 3, MemOp.access 5 6 1 0, MemOp.free 0]
        (memory_init config_load_defaults mem_static) state_init = some (m1, w1) ∧
      no_dirty m1 :=
  (no_page_dirty config_load_defaults mem_static state_init
    [MemOp.access 1 2 0 3, MemOp.access 3 4 0 3, MemOp.access 5 6 1 0, MemOp.free 0]).2
    (by decide) (by
      intro pid h
      simp only [List.mem_cons, List.mem_singleton, List.not_mem_nil, or_false,
        MemOp.free.injEq] at h
      rcases h with h | h | h | h
      · exact absurd h (by simp)
      · exact absurd h (by simp)
      · exact absurd h (by simp)
      · rw [h])

/-! ### Lemmas on the demo storm -/

theorem storm_loop_spec (now : Nat → Int) (rnd : Nat → Int) : ∀ (fuel i : Nat)
    (b : IOBuffer) (w : SystemState), io_buffer_inv b →
    ∃ b1 w1, storm_loop now rnd i fuel b w = some (b1, w1) ∧ io_buffer_inv b1 ∧
      b1.count = min (b.count + (fuel : Int)) BUFFER_CAPACITY ∧
      w1.total_submissions = w.total_submissions + (b1.count - b.count) ∧
      w1.dropped_submissions
        = w.dropped_submissions + ((fuel : Int) - (b1.count - b.count)) ∧
      w1.processes = w.processes ∧ w1.overload_signals = w.overload_signals := by
  intro fuel
  induction fuel with
  | zero =>
    intro i b w hinv
    have h1 := hinv.2.1
    refine ⟨b, w, rfl, hinv, ?_, ?_, ?_, rfl, rfl⟩
    · simp only [Nat.cast_zero, add_zero]
      omega
    · omega
    · simp
  | succ fuel ih =>
    intro i b w hinv
    have hle := hinv.2.1
    by_cases hroom : b.count < BUFFER_CAPACITY
    · obtain ⟨b1, s1, s2, s3, _⟩ := io_buffer_submit_ok (now i) ((i : Int) + 1)
        ((rnd (2 * i + 1)).tmod 10 + 1)
        (some (("ANS_" ++ toString (i : Int) ++ "_"
          ++ toString ((rnd (2 * i)).tmod 100)).take 63)) 0 b w hinv hroom
      obtain ⟨b2, w2, e1, e2, e3, e4, e5, e6, e7⟩ := ih (i + 1) b1
        { w with buffer_count := b.count + 1,
                 total_submissions := w.total_submissions + 1 } s2
      refine ⟨b2, w2, ?_, e2, ?_, ?_, ?_, e6, e7⟩
      · simp only [storm_loop, s1, e1]
      · rw [e3, s3]; push_cast; omega
      · rw [e4]; show w.total_submissions + 1 + _ = _; rw [s3]; omega
      · rw [e5]; show w.dropped_submissions + _ = _; rw [s3]; push_cast; omega
    · have hfull : b.count = BUFFER_CAPACITY := by omega
      have s1 := io_buffer_submit_full (now i) ((i : Int) + 1)
        ((rnd (2 * i + 1)).tmod 10 + 1)
        (some (("ANS_" ++ toString (i : Int) ++ "_"
          ++ toString ((rnd (2 * i)).tmod 100)).take 63)) 0 b w hinv hfull
      obtain ⟨b2, w2, e1, e2, e3, e4, e5, e6, e7⟩ := ih (i + 1) b
        { w with dropped_submissions := w.dropped_submissions + 1 } hinv
      refine ⟨b2, w2, ?_, e2, ?_, ?_, ?_, e6, e7⟩
      · simp only [storm_loop, s1, e1]
      · rw [e3]; push_cast; omega
      · rw [e4]
      · rw [e5]; show w.dropped_submissions + 1 + _ = _; push_cast; omega

theorem trigger_submission_storm_spec (now : Nat → Int) (rnd : Nat → Int) (b : IOBuffer)
    (w : SystemState) (hinv : io_buffer_inv b) :
    ∃ b1 w1, trigger_submission_storm now rnd b w = some (b1, w1) ∧ io_buffer_inv b1 ∧
      b1.count = min (b.count + min w.process_count 30) BUFFER_CAPACITY ∧
      w1.total_submissions = w.total_submissions + (b1.count - b.count) ∧
      w1.processes = w.processes ∧ w1.overload_signals = w.overload_signals := by
  have hpc : 0 ≤ w.process_count := by
    simp only [SystemState.process_count]; omega
  obtain ⟨b1, w1, e1, e2, e3, e4, _, e6, e7⟩ := storm_loop_spec now rnd
    (if w.process_count < 30 then w.process_count else 30).toNat 0 b w hinv
  have hst : (((if w.process_count < 30 then w.process_count else 30).toNat : Nat) : Int)
      = min w.process_count 30 := by
    split_ifs with h
    · rw [Int.toNat_of_nonneg hpc, min_eq_left (le_of_lt h)]
    · rw [min_eq_right (by omega)]
      rfl
  refine ⟨b1, w1, e1, e2, ?_, e4, e6, e7⟩
  rw [e3, hst]

theorem dispatch_overload (now pid ts : Int) (mc : Machine)
    (hivt : mc.intr.ivt = (interrupt_init int_static).ivt) :
    dispatch now ⟨INT_OVERLOAD, pid, ts⟩ mc = some (handle_overload mc) := by
  have h0 : ¬ (INT_EXAM_TIMEOUT = INT_OVERLOAD) := by decide
  simp only [dispatch, hivt, interrupt_init_ivt, ivt_lookup, h0, if_false, if_true]

/-! ### I/O buffer: the demo storm and the overload detector -/

/-- C23 as amended. In every state in which the storm fires (`demo_mode` set,
`tick ≥ 30`, `process_count ≥ 10`, not yet fired) and the buffer satisfies its invariant,
the demo block returns with `storm_triggered = 1`; `trigger_submission_storm` makes
`min(process_count, 30)` submissions, so the buffer count afterwards is
`min(count + min(process_count, 30), BUFFER_CAPACITY)` and `overload_signals` is
unchanged. When `count + min(process_count, 30) < 244` the next overload check leaves the
pending queue unchanged. When `count + min(process_count, 30) ≥ 244` the count is at
least 244, the next overload check raises OVERLOAD (entered in a queue with room), and
the dispatch of an OVERLOAD interrupt adds 1 to `overload_signals`. -/
theorem storm_overload (cfg : Config) (now : Nat → Int) (rnd : Nat → Int) (b : IOBuffer)
    (w : SystemState) (hdemo : cfg.demo_mode ≠ 0) (htick : w.current_tick ≥ 30)
    (hcount : w.process_count ≥ 10) (hinv : io_buffer_inv b) :
    ∃ b1 w1, storm_block cfg now rnd 0 b w = some (b1, w1, 1) ∧ io_buffer_inv b1 ∧
      b1.count = min (b.count + min w.process_count 30) BUFFER_CAPACITY ∧
      w1.overload_signals = w.overload_signals ∧
      (b.count + min w.process_count 30 < 244 →
        ∀ (t : Int) (q : IntState), check_overload t b1 q = some q) ∧
      (244 ≤ b.count + min w.process_count 30 →
        244 ≤ b1.count ∧
        (∀ (t : Int) (q : IntState),
          check_overload t b1 q = interrupt_raise t INT_OVERLOAD (-1) q ∧
          (int_queue_inv q → q.int_q_count < INT_QUEUE_CAPACITY →
            ∃ q1, check_overload t b1 q = some q1 ∧
              pending q1 = pending q ++ [⟨INT_OVERLOAD, -1, t⟩])) ∧
        (∀ (t ts : Int) (mc : Machine), mc.intr.ivt = (interrupt_init int_static).ivt →
          ∃ mc1, dispatch t ⟨INT_OVERLOAD, -1, ts⟩ mc = some mc1 ∧
            mc1.world.overload_signals = mc.world.overload_signals + 1)) := by
  obtain ⟨b1, w1, e1, e2, e3, _, _, e6⟩ := trigger_submission_storm_spec now rnd b w hinv
  have hguard : cfg.demo_mode ≠ 0 ∧ w.current_tick ≥ 30 ∧ (0 : Int) = 0
      ∧ w.process_count ≥ 10 := ⟨hdemo, htick, rfl, hcount⟩
  have hblock : storm_block cfg now rnd 0 b w = some (b1, w1, 1) := by
    unfold storm_block
    rw [if_pos hguard, e1]
  refine ⟨b1, w1, hblock, e2, e3, e6, ?_, ?_⟩
  · intro hlt t q
    have hc : ¬ (244 ≤ b1.count) := by
      rw [e3]
      simp only [BUFFER_CAPACITY]
      omega
    have hf : ¬ ((b1.count : Rat) / (BUFFER_CAPACITY : Rat) ≥ FLOAT_0_95) :=
      fun h => hc ((overload_threshold b1.count).1.mp h)
    simp only [check_overload, hf, if_false]
  · intro hge
    have hc : 244 ≤ b1.count := by
      rw [e3]
      simp only [BUFFER_CAPACITY]
      omega
    have hf : (b1.count : Rat) / (BUFFER_CAPACITY : Rat) ≥ FLOAT_0_95 :=
      (overload_threshold b1.count).1.mpr hc
    refine ⟨hc, ?_, ?_⟩
    · intro t q
      have hco : check_overload t b1 q = interrupt_raise t INT_OVERLOAD (-1) q := by
        simp only [check_overload, hf, if_true]
      refine ⟨hco, ?_⟩
      intro hq hroom
      obtain ⟨q1, r1, _, r3, _⟩ := interrupt_raise_ok t INT_OVERLOAD (-1) q hq hroom
      exact ⟨q1, by rw [hco, r1], r3⟩
    · intro t ts mc hivt
      exact ⟨handle_overload mc, dispatch_overload t (-1) ts mc hivt, rfl⟩

/-- Witness of C23 as amended: a buffer that holds 220 submissions and a table of 40
PCBs at tick 30 in demo mode; the storm fills the buffer to 250. -/
theorem storm_overload_witness :
    ∃ b1 w1, storm_block { config_load_defaults with demo_mode := 1 } (fun _ => 0)
        (fun _ => 0) 0
        { io_static with count := 220, tail := 220, empty_slots := 36, filled_slots := 220 }
        { state_init with
          current_tick := 30,
          processes := List.replicate 40 ⟨1, ProcessState.READY, 1, 100, 100, 0, 0, 0⟩ }
        = some (b1, w1, 1) ∧
      b1.count = 250 := by
  obtain ⟨b1, w1, h1, _, h3, _⟩ := storm_overload
    { config_load_defaults with demo_mode := 1 } (fun _ => 0) (fun _ => 0)
    { io_static with count := 220, tail := 220, empty_slots := 36, filled_slots := 220 }
    { state_init with
      current_tick := 30,
      processes := List.replicate 40 ⟨1, ProcessState.READY, 1, 100, 100, 0, 0, 0⟩ }
    (by decide) (by decide) (by decide)
    (by simp only [io_buffer_inv, io_static, BUFFER_CAPACITY]; decide)
  refine ⟨b1, w1, h1, ?_⟩
  rw [h3]
  decide

/-- Counterexample to C23 as stated: the scenario of the spec (`--students 50 --demo`) at
tick 30, with the 20 PCBs of the admission blocks of ticks 0, 10, 20 and 30 in the table
and the buffer as `io_buffer_init` leaves it. The storm fires and makes 20 submissions;
the buffer count is 20, below 244, and the next overload check leaves the pending queue
as it is, so no OVERLOAD is raised. -/
theorem storm_below_overload_threshold :
    ∃ b1 w1, storm_block { config_load_defaults with demo_mode := 1 } (fun _ => 0)
        (fun _ => 0) 0 (io_buffer_init io_static)
        { state_init with
          current_tick := 30,
          processes := (List.range 20).map
            (fun (i : Nat) => ⟨(i : Int) + 1, ProcessState.READY, 1, 100, 100, 0, 0, 0⟩) }
        = some (b1, w1, 1) ∧
      b1.count = 20 ∧ w1.total_submissions = 20 ∧ ¬ (244 ≤ b1.count) ∧
      check_overload 0 b1 (interrupt_init int_static) = some (interrupt_init int_static) := by
  obtain ⟨b1, w1, e1, _, e3, e4, _, _⟩ := trigger_submission_storm_spec (fun _ => 0)
    (fun _ => 0) (io_buffer_init io_static)
    { state_init with
      current_tick := 30,
      processes := (List.range 20).map
        (fun (i : Nat) => ⟨(i : Int) + 1, ProcessState.READY, 1, 100, 100, 0, 0, 0⟩) }
    (io_buffer_init_inv io_static)
  have hc : b1.count = 20 := by
    rw [e3]
    decide
  have hblock : storm_block { config_load_defaults with demo_mode := 1 } (fun _ => 0)
      (fun _ => 0) 0 (io_buffer_init io_static)
      { state_init with
        current_tick := 30,
        processes := (List.range 20).map
          (fun (i : Nat) => ⟨(i : Int) + 1, ProcessState.READY, 1, 100, 100, 0, 0, 0⟩) }
      = some (b1, w1, 1) := by
    unfold storm_block
    rw [if_pos (by decide), e1]
  have hf : ¬ ((b1.count : Rat) / (BUFFER_CAPACITY : Rat) ≥ FLOAT_0_95) := by
    intro h
    have := (overload_threshold b1.count).1.mp h
    omega
  refine ⟨b1, w1, hblock, hc, ?_, by omega, ?_⟩
  · rw [e4, hc]
    decide
  · simp only [check_overload, hf, if_false]

/-! ### Lemmas on ROUND_ROBIN runs -/

/-- The two outcomes of a ROUND_ROBIN step at index `i` of the ready array. -/
theorem run_round_robin_at (cfg : Config) (s : SchedState) (w : SystemState) (i : Nat)
    (c : PCB) (hrr : s.rr_index = (i : Int)) (hc : s.ready_queue[i]? = some c) :
    (0 < c.remaining_time - cfg.time_quantum →
      run_round_robin cfg s w = some
        ({ ready_queue := s.ready_queue.set i
             { c with remaining_time := c.remaining_time - cfg.time_quantum },
           rr_index := ((i : Int) + 1).tmod (s.ready_queue.length : Int) },
         { w with running_pid := c.pid,
                  context_switches := w.context_switches + 1 })) ∧
    (c.remaining_time - cfg.time_quantum ≤ 0 →
      ∃ last, (s.ready_queue.set i
          { c with remaining_time := c.remaining_time - cfg.time_quantum })[
          s.ready_queue.length - 1]? = some last ∧
        run_round_robin cfg s w = some
          ({ s with ready_queue :=
               ((s.ready_queue.set i
                 { c with remaining_time := c.remaining_time - cfg.time_quantum }).set i
                 last).take (s.ready_queue.length - 1) },
           scheduler_terminate_process c.pid
             { w with running_pid := c.pid,
                      context_switches := w.context_switches + 1 })) := by
  have hi : i < s.ready_queue.length := (List.getElem?_eq_some_iff.mp hc).1
  have hlen0 : s.ready_queue.length ≠ 0 := by omega
  have hmod : (i : Int).tmod (s.ready_queue.length : Int) = (i : Int) := by
    rw [Int.tmod_eq_emod (by omega) (by omega)]
    exact Int.emod_eq_of_lt (by omega) (by omega)
  have hneg : ¬ ((i : Int) < 0) := by omega
  constructor
  · intro hpos
    have hd : ¬ (c.remaining_time - cfg.time_quantum ≤ 0) := by omega
    simp only [run_round_robin, hlen0, if_false, hmod, hneg, Int.toNat_ofNat, hc, hd, hrr]
  · intro hd
    have hl : s.ready_queue.length - 1 < (s.ready_queue.set i
        { c with remaining_time := c.remaining_time - cfg.time_quantum }).length := by
      simp only [List.length_set]; omega
    refine ⟨_, List.getElem?_eq_getElem hl, ?_⟩
    simp only [run_round_robin, hlen0, if_false, hrr, hmod, hneg, Int.toNat_ofNat, hc, hd,
      if_true, List.length_set, List.getElem?_eq_getElem hl]

/-- In a queue whose keys are all equal to the key of the pushed PCB, `heap_push` appends
the PCB and swaps nothing. -/
theorem heap_push_equal_keys (rq : List PCB) (p : PCB) (rho : Int)
    (hall : ∀ x ∈ rq, x.remaining_time = rho) (hp : p.remaining_time = rho)
    (hlen : (rq.length : Int) < MAX_STUDENTS) :
    heap_push rq p = some (rq ++ [p]) := by
  simp only [heap_push, hlen, if_true, Option.some.injEq]
  cases hn : rq.length with
  | zero => rfl
  | succ n =>
    have hkey : ∀ j, j ≤ n + 1 → rem_time (rq ++ [p]) j = rho := by
      intro j hj
      by_cases hjn : j < rq.length
      · rw [rem_time_append_left rq p j hjn]
        have e : rq[j]? = some rq[j] := List.getElem?_eq_getElem hjn
        rw [rem_time_of_getElem? rq j _ e]
        exact hall _ (List.getElem_mem _)
      · have hj2 : j = rq.length := by omega
        subst hj2
        simp [rem_time, hp]
    rw [bubble_up]
    have h1 := hkey ((n + 1 - 1) / 2) (by omega)
    have h2 := hkey (n + 1) (le_refl _)
    have hng : ¬ (rem_time (rq ++ [p]) ((n + 1 - 1) / 2) > rem_time (rq ++ [p]) (n + 1)) := by
      rw [h1, h2]; omega
    simp only [Nat.succ_pos, gt_iff_lt, if_true]
    rw [if_neg (by simpa using hng)]

theorem sched_add_all (cfg : Config) (rho : Int) : ∀ (ps : List PCB) (t : SchedTrace),
    (∀ p ∈ t.sched.ready_queue, p.remaining_time = rho) →
    (∀ p ∈ ps, p.remaining_time = rho) →
    ((t.sched.ready_queue.length + ps.length : Nat) : Int) ≤ MAX_STUDENTS →
    ((t.world.processes.length + ps.length : Nat) : Int) ≤ MAX_STUDENTS →
    ∃ t1, t.run cfg (ps.map SchedOp.add) = some t1 ∧
      t1.sched.ready_queue = t.sched.ready_queue
        ++ ps.map (fun p => { p with state := ProcessState.READY }) ∧
      t1.sched.rr_index = t.sched.rr_index ∧
      t1.running = t.running ∧ t1.completed = t.completed ∧
      t1.world.context_switches = t.world.context_switches ∧
      t1.world.processes = t.world.processes
        ++ ps.map (fun p => { p with state := ProcessState.READY }) := by
  intro ps
  induction ps with
  | nil =>
    intro t _ _ _ _
    exact ⟨t, rfl, by simp, rfl, rfl, rfl, rfl, by simp⟩
  | cons p rest ih =>
    intro t hq hps hc1 hc2
    simp only [List.length_cons] at hc1 hc2
    obtain ⟨rq, hpush, hadd⟩ := scheduler_add_process_some p t.sched t.world
      (by push_cast at hc2 ⊢; omega) (by push_cast at hc1 ⊢; omega)
    have hrq : rq = t.sched.ready_queue ++ [{ p with state := ProcessState.READY }] := by
      have h := heap_push_equal_keys t.sched.ready_queue
        { p with state := ProcessState.READY } rho hq
        (hps p (List.mem_cons_self _ _)) (by push_cast at hc1 ⊢; omega)
      rw [h] at hpush
      exact (Option.some.inj hpush).symm
    subst hrq
    obtain ⟨t1, e1, e2, e3, e4, e5, e6, e7⟩ := ih
      { t with
        sched := { t.sched with ready_queue :=
          t.sched.ready_queue ++ [{ p with state := ProcessState.READY }] },
        world := { t.world with processes :=
          t.world.processes ++ [{ p with state := ProcessState.READY }] } }
      (by
        intro x hx
        rcases List.mem_append.mp hx with h | h
        · exact hq x h
        · rw [List.mem_singleton] at h
          rw [h]
          exact hps p (List.mem_cons_self _ _))
      (fun x hx => hps x (List.mem_cons_of_mem _ hx))
      (by simp only [List.length_append, List.length_singleton]; push_cast at hc1 ⊢; omega)
      (by simp only [List.length_append, List.length_singleton]; push_cast at hc2 ⊢; omega)
    refine ⟨t1, ?_, ?_, e3, e4, e5, e6, ?_⟩
    · simp only [List.map_cons, SchedTrace.run]
      rw [sched_trace_add_eq, hadd]
      exact e1
    · rw [e2]; simp
    · rw [e7]; simp

theorem terminate_process_fields (pid : Int) (w : SystemState) :
    (scheduler_terminate_process pid w).context_switches = w.context_switches ∧
    (scheduler_terminate_process pid w).running_pid = w.running_pid := by
  unfold scheduler_terminate_process
  split
  · exact ⟨rfl, rfl⟩
  · exact ⟨rfl, rfl⟩

theorem take_succ_map {α β : Type} (f : α → β) (Q : List α) (i : Nat) (h : i < Q.length) :
    (Q.take (i + 1)).map f = (Q.take i).map f ++ [f Q[i]] := by
  rw [List.take_succ, List.getElem?_eq_getElem h]
  simp only [List.map_append, Option.toList, List.map_cons, List.map_nil]

/-- The first `i` decisions of a ROUND_ROBIN round over a queue `Q` none of whose PCBs
finishes in this round: the first `i` PCBs have run once each, in array order. -/
theorem rr_round_prefix (cfg : Config) (halgo : cfg.sched_algo = SchedAlgo.ROUND_ROBIN)
    (Q : List PCB) (rho : Int) (hall : ∀ p ∈ Q, p.remaining_time = rho)
    (hrho : 0 < rho - cfg.time_quantum) (t : SchedTrace)
    (hs : t.sched = { ready_queue := Q, rr_index := 0 }) :
    ∀ i : Nat, i ≤ Q.length →
    ∃ t1, t.run cfg (List.replicate i SchedOp.step) = some t1 ∧
      t1.sched.ready_queue
        = (Q.take i).map
            (fun p => { p with remaining_time := p.remaining_time - cfg.time_quantum })
          ++ Q.drop i ∧
      t1.sched.rr_index = ((i % Q.length : Nat) : Int) ∧
      t1.running = t.running ++ (Q.take i).map (fun p => p.pid) ∧
      t1.completed = t.completed ∧
      t1.world.context_switches = t.world.context_switches + (i : Int) := by
  intro i
  induction i with
  | zero =>
    intro _
    refine ⟨t, rfl, ?_, ?_, ?_, rfl, ?_⟩
    · rw [hs]; simp
    · rw [hs]; simp
    · simp
    · simp
  | succ i ih =>
    intro hi
    obtain ⟨t1, e1, e2, e3, e4, e5, e6⟩ := ih (by omega)
    have hiQ : i < Q.length := by omega
    have hmodi : i % Q.length = i := Nat.mod_eq_of_lt hiQ
    rw [hmodi] at e3
    have hlen1 : t1.sched.ready_queue.length = Q.length := by
      rw [e2]
      simp only [List.length_append, List.length_map, List.length_take, List.length_drop]
      omega
    have hget : t1.sched.ready_queue[i]? = some Q[i] := by
      rw [e2, List.getElem?_append_right (by simp)]
      simp only [List.length_map, List.length_take, Nat.min_eq_left (le_of_lt hiQ),
        Nat.sub_self, List.getElem?_drop, Nat.add_zero]
      exact List.getElem?_eq_getElem hiQ
    have hrt : Q[i].remaining_time = rho := hall _ (List.getElem_mem _)
    have hstep := (run_round_robin_at cfg t1.sched t1.world i Q[i] e3 hget).1
      (by rw [hrt]; exact hrho)
    have hsched : schedule_step cfg t1.sched t1.world
        = run_round_robin cfg t1.sched t1.world := by
      unfold schedule_step
      rw [if_pos halgo]
    refine ⟨
      { sched :=
          { ready_queue := t1.sched.ready_queue.set i
              { Q[i] with remaining_time := Q[i].remaining_time - cfg.time_quantum },
            rr_index := ((i : Int) + 1).tmod (t1.sched.ready_queue.length : Int) },
        world :=
          { t1.world with running_pid := Q[i].pid,
                          context_switches := t1.world.context_switches + 1 },
        running := t1.running ++ [Q[i].pid],
        completed := t1.completed }, ?_, ?_, ?_, ?_, ?_, ?_⟩
    · rw [sched_run_snoc cfg i t t1 e1, sched_trace_step_eq, hsched, hstep]
      simp only [List.length_set, lt_irrefl, if_false]
    · show t1.sched.ready_queue.set i _ = _
      rw [e2, List.set_append]
      simp only [List.length_map, List.length_take, Nat.min_eq_left (le_of_lt hiQ),
        lt_irrefl, if_false, Nat.sub_self]
      rw [List.drop_eq_getElem_cons hiQ, List.set_cons_zero, take_succ_map _ _ _ hiQ,
        List.append_assoc]
      rfl
    · show ((i : Int) + 1).tmod (t1.sched.ready_queue.length : Int) = _
      rw [hlen1, Int.tmod_eq_emod (by omega) (by omega)]
      push_cast
      rfl
    · show t1.running ++ [Q[i].pid] = _
      rw [e4, take_succ_map _ _ _ hiQ, List.append_assoc]
    · exact e5
    · show t1.world.context_switches + 1 = _
      rw [e6]; push_cast; ring

/-- With quantum 1, `k` full ROUND_ROBIN rounds over a queue whose PCBs all have more than
`k` ticks left run every PCB `k` times and leave the queue in its order. -/
theorem rr_rounds (cfg : Config) (halgo : cfg.sched_algo = SchedAlgo.ROUND_ROBIN)
    (hq : cfg.time_quantum = 1) (Q : List PCB) (rho : Int)
    (hall : ∀ p ∈ Q, p.remaining_time = rho) (t : SchedTrace)
    (hs : t.sched = { ready_queue := Q, rr_index := 0 }) :
    ∀ k : Nat, (k : Int) < rho →
    ∃ t1, t.run cfg (List.replicate (k * Q.length) SchedOp.step) = some t1 ∧
      t1.sched = { ready_queue :=
                     Q.map (fun p => { p with remaining_time := p.remaining_time - (k : Int) }),
                   rr_index := 0 } ∧
      (∀ x : Int, t1.running.count x = t.running.count x
        + k * (Q.map (fun p => p.pid)).count x) ∧
      t1.completed = t.completed ∧
      t1.world.context_switches = t.world.context_switches + ((k * Q.length : Nat) : Int) := by
  intro k
  induction k with
  | zero =>
    intro _
    refine ⟨t, by simp [SchedTrace.run], ?_, ?_, rfl, by simp⟩
    · rw [hs]
      congr 1
      simp
    · intro x; simp
  | succ k ih =>
    intro hk
    obtain ⟨t1, e1, e2, e3, e4, e5⟩ := ih (by push_cast at hk; omega)
    have hall1 : ∀ p ∈ Q.map
        (fun p : PCB => { p with remaining_time := p.remaining_time - (k : Int) }),
        p.remaining_time = rho - (k : Int) := by
      intro p hp
      obtain ⟨p0, hp0, rfl⟩ := List.mem_map.mp hp
      show p0.remaining_time - (k : Int) = _
      rw [hall p0 hp0]
    obtain ⟨t2, f1, f2, f3, f4, f5, f6⟩ := rr_round_prefix cfg halgo _ (rho - (k : Int))
      hall1 (by rw [hq]; push_cast at hk; omega) t1 e2 Q.length (by simp)
    simp only [List.length_map] at f2 f3 f4
    rw [List.take_of_length_le (by simp), List.drop_of_length_le (by simp)] at f2
    rw [List.take_of_length_le (by simp)] at f4
    rw [Nat.mod_self] at f3
    refine ⟨t2, ?_, ?_, ?_, ?_, ?_⟩
    · have e : List.replicate ((k + 1) * Q.length) SchedOp.step
          = List.replicate (k * Q.length) SchedOp.step
            ++ List.replicate Q.length SchedOp.step := by
        rw [← List.replicate_add]; congr 1; ring
      rw [e, sched_run_append, e1]
      simpa using f1
    · have e : t2.sched = { ready_queue := t2.sched.ready_queue,
                            rr_index := t2.sched.rr_index } := rfl
      rw [e, f2, f3]
      simp only [List.append_nil, List.map_map, Nat.cast_zero]
      congr 1
      apply List.map_congr_left
      intro p _
      show ({ p with remaining_time := p.remaining_time - (k : Int) - cfg.time_quantum } : PCB)
        = { p with remaining_time := p.remaining_time - ((k + 1 : Nat) : Int) }
      rw [hq]
      congr 1
      push_cast
      ring
    · intro x
      rw [f4, List.count_append, e3 x]
      simp only [List.map_map]
      have e : ((fun p : PCB => p.pid)
          ∘ fun p : PCB => { p with remaining_time := p.remaining_time - (k : Int) })
          = fun p : PCB => p.pid := rfl
      rw [e]
      ring
    · rw [f5, e4]
    · rw [f6, e5]
      push_cast
      ring

theorem rr_remove_perm (c c1 last : PCB) (tl : List PCB)
    (hlast : ((c :: tl).set 0 c1)[(c :: tl).length - 1]? = some last) :
    ((((c :: tl).set 0 c1).set 0 last).take ((c :: tl).length - 1)).Perm tl := by
  simp only [List.set_cons_zero, List.length_cons, Nat.add_sub_cancel] at hlast ⊢
  by_cases htl : tl = []
  · subst htl; exact List.Perm.refl _
  · obtain ⟨x, xs, rfl⟩ := List.exists_cons_of_ne_nil htl
    simp only [List.length_cons, List.take_succ_cons, List.getElem?_cons_succ] at hlast ⊢
    have hl : last = (x :: xs).getLast htl := by
      have e : xs.length = (x :: xs).length - 1 := by simp
      rw [e, ← List.getLast?_eq_getElem?, List.getLast?_eq_getLast _ htl] at hlast
      exact (Option.some.inj hlast).symm
    have hd : (x :: xs).take xs.length = (x :: xs).dropLast := by
      rw [List.dropLast_eq_take]; simp
    rw [hd, hl]
    have := List.dropLast_append_getLast htl
    exact (List.perm_append_singleton _ _).symm.trans (by rw [this])

/-- A ROUND_ROBIN decision at index 0 whose PCB finishes removes that PCB from the queue. -/
theorem rr_final_step (cfg : Config) (halgo : cfg.sched_algo = SchedAlgo.ROUND_ROBIN)
    (t : SchedTrace) (c : PCB) (tl : List PCB) (hQ : t.sched.ready_queue = c :: tl)
    (hrr : t.sched.rr_index = 0) (hc : c.remaining_time - cfg.time_quantum ≤ 0) :
    ∃ t1, t.step cfg SchedOp.step = some t1 ∧ t1.sched.ready_queue.Perm tl ∧
      t1.sched.rr_index = 0 ∧ t1.running = t.running ++ [c.pid] ∧
      t1.completed = t.completed ++ [c.pid] ∧
      t1.world.context_switches = t.world.context_switches + 1 := by
  obtain ⟨last, hlast, hrun⟩ := (run_round_robin_at cfg t.sched t.world 0 c
    (by rw [hrr]; rfl) (by rw [hQ]; exact List.getElem?_cons_zero)).2 hc
  have hsched : schedule_step cfg t.sched t.world = run_round_robin cfg t.sched t.world := by
    unfold schedule_step
    rw [if_pos halgo]
  have hperm := rr_remove_perm c
    { c with remaining_time := c.remaining_time - cfg.time_quantum } last tl
    (by rw [← hQ]; exact hlast)
  rw [← hQ] at hperm
  have hlt : (((t.sched.ready_queue.set 0
      { c with remaining_time := c.remaining_time - cfg.time_quantum }).set 0 last).take
      (t.sched.ready_queue.length - 1)).length < t.sched.ready_queue.length := by
    rw [hperm.length_eq, hQ]; simp
  have hf := terminate_process_fields c.pid
    { t.world with running_pid := c.pid,
                   context_switches := t.world.context_switches + 1 }
  rw [sched_trace_step_eq, hsched, hrun]
  refine ⟨_, rfl, hperm, hrr, ?_, ?_, hf.1⟩
  · show t.running ++ [(scheduler_terminate_process c.pid _).running_pid] = _
    rw [hf.2]
  · show (if _ then t.completed ++ [(scheduler_terminate_process c.pid _).running_pid]
      else t.completed) = _
    rw [if_pos hlt, hf.2]

/-- The last ROUND_ROBIN round with quantum 1: every PCB has one tick left, the index
stays 0 and every decision removes the PCB it runs. -/
theorem rr_final_round (cfg : Config) (halgo : cfg.sched_algo = SchedAlgo.ROUND_ROBIN)
    (hq : cfg.time_quantum = 1) : ∀ (m : Nat) (t : SchedTrace),
    (∀ p ∈ t.sched.ready_queue, p.remaining_time = 1) → t.sched.rr_index = 0 →
    m ≤ t.sched.ready_queue.length →
    ∃ (t1 : SchedTrace) (removed : List PCB),
      t.run cfg (List.replicate m SchedOp.step) = some t1 ∧
      t.sched.ready_queue.Perm (removed ++ t1.sched.ready_queue) ∧
      removed.length = m ∧ t1.sched.rr_index = 0 ∧
      t1.running = t.running ++ removed.map (fun p => p.pid) ∧
      t1.completed = t.completed ++ removed.map (fun p => p.pid) ∧
      t1.world.context_switches = t.world.context_switches + (m : Int) := by
  intro m
  induction m with
  | zero =>
    intro t _ hrr _
    exact ⟨t, [], rfl, List.Perm.refl _, rfl, hrr, by simp, by simp, by simp⟩
  | succ m ih =>
    intro t hall hrr hm
    cases hQ : t.sched.ready_queue with
    | nil => rw [hQ] at hm; simp at hm
    | cons c tl =>
      have hc1 : c.remaining_time = 1 := hall c (by rw [hQ]; exact List.mem_cons_self _ _)
      obtain ⟨t1, e1, e2, e3, e4, e5, e6⟩ := rr_final_step cfg halgo t c tl hQ hrr
        (by rw [hc1, hq]; decide)
      obtain ⟨t2, removed, f1, f2, f3, f4, f5, f6, f7⟩ := ih t1
        (fun p hp => hall p (by rw [hQ]; exact List.mem_cons_of_mem _ (e2.subset hp)))
        e3 (by rw [e2.length_eq]; rw [hQ] at hm; simpa using hm)
      refine ⟨t2, c :: removed, ?_, ?_, ?_, f4, ?_, ?_, ?_⟩
      · simp only [List.replicate_succ, SchedTrace.run]
        rw [e1]
        exact f1
      · exact (List.Perm.cons c (e2.symm.trans f2))
      · simp [f3]
      · rw [f5, e4]; simp
      · rw [f6, e5]; simp
      · rw [f7, e6]; push_cast; ring

theorem sched_run_steps_length (cfg : Config) : ∀ (k : Nat) (t t1 : SchedTrace),
    t.run cfg (List.replicate k SchedOp.step) = some t1 →
    t1.running.length = t.running.length + k := by
  intro k
  induction k with
  | zero =>
    intro t t1 h
    simp only [List.replicate_zero, SchedTrace.run, Option.some.injEq] at h
    rw [← h]; rfl
  | succ k ih =>
    intro t t1 h
    simp only [List.replicate_succ, SchedTrace.run] at h
    rw [sched_trace_step_eq] at h
    cases hstep : schedule_step cfg t.sched t.world with
    | none => rw [hstep] at h; exact absurd h (by simp)
    | some sw =>
      obtain ⟨s, w⟩ := sw
      rw [hstep] at h
      have h2 := ih _ t1 h
      rw [h2]
      simp only [List.length_append, List.length_singleton]
      omega

/-- C21. Round-robin fairness: under ROUND_ROBIN with `time_quantum = 1`, starting from
`scheduler_init`, after `n` PCBs with distinct pids and `remaining_time = r ≥ 1` each
have been added (within the capacity of the tables), the next `n * r` scheduling
decisions all succeed, every PCB is the `running_pid` of exactly `r` of them,
`context_switches` grows by exactly `n * r`, and the ready queue is empty at the end. -/
theorem round_robin_fairness (cfg : Config) (halgo : cfg.sched_algo = SchedAlgo.ROUND_ROBIN)
    (hq : cfg.time_quantum = 1) (ps : List PCB) (r : Nat) (hr : 1 ≤ r)
    (hall : ∀ p ∈ ps, p.remaining_time = (r : Int))
    (hpids : (ps.map (fun p => p.pid)).Nodup)
    (hn : (ps.length : Int) ≤ MAX_STUDENTS) (w0 : SystemState)
    (hw0 : ((w0.processes.length + ps.length : Nat) : Int) ≤ MAX_STUDENTS) :
    ∃ t0 t, (SchedTrace.mk scheduler_init w0 [] []).run cfg (ps.map SchedOp.add) = some t0 ∧
      t0.running = [] ∧ t0.world.context_switches = w0.context_switches ∧
      t0.run cfg (List.replicate (ps.length * r) SchedOp.step) = some t ∧
      t.running.length = ps.length * r ∧
      (∀ p ∈ ps, t.running.count p.pid = r) ∧
      t.world.context_switches = w0.context_switches + ((ps.length * r : Nat) : Int) ∧
      t.sched.ready_queue = [] := by
  obtain ⟨t0, a1, a2, a3, a4, _, a6, _⟩ := sched_add_all cfg (r : Int) ps
    (SchedTrace.mk scheduler_init w0 [] [])
    (by intro p hp; simp [scheduler_init] at hp) hall
    (by simpa [scheduler_init] using hn) hw0
  simp only [scheduler_init, List.nil_append] at a2 a3 a4 a6
  have hs : t0.sched = { ready_queue := ps.map (fun p => { p with state := ProcessState.READY }),
                         rr_index := 0 } := by
    have e : t0.sched = { ready_queue := t0.sched.ready_queue,
                          rr_index := t0.sched.rr_index } := rfl
    rw [e, a2, a3]
  have hallQ : ∀ p ∈ ps.map (fun p : PCB => { p with state := ProcessState.READY }),
      p.remaining_time = (r : Int) := by
    intro p hp
    obtain ⟨p0, hp0, rfl⟩ := List.mem_map.mp hp
    exact hall p0 hp0
  obtain ⟨t1, b1, b2, b3, _, b5⟩ := rr_rounds cfg halgo hq _ (r : Int) hallQ t0 hs (r - 1)
    (by omega)
  simp only [List.length_map, List.map_map] at b1 b2 b3 b5
  have hpidQ : ((fun p : PCB => p.pid)
      ∘ fun p : PCB => { p with state := ProcessState.READY }) = fun p : PCB => p.pid := rfl
  rw [hpidQ] at b3
  have hq1 : t1.sched.ready_queue.length = ps.length := by rw [b2]; simp
  obtain ⟨t2, removed, c1, c2, c3, _, c5, _, c7⟩ := rr_final_round cfg halgo hq ps.length t1
    (by
      intro p hp
      rw [b2] at hp
      obtain ⟨p0, hp0, rfl⟩ := List.mem_map.mp hp
      show p0.remaining_time - ((r - 1 : Nat) : Int) = 1
      rw [hall p0 hp0]
      omega)
    (by rw [b2]) (by rw [hq1])
  have hempty : t2.sched.ready_queue = [] := by
    have h := c2.length_eq
    rw [List.length_append, c3, hq1] at h
    exact List.length_eq_zero.mp (by omega)
  rw [hempty, List.append_nil] at c2
  have hrem : (removed.map (fun p => p.pid)).Perm (ps.map (fun p => p.pid)) := by
    have h := (c2.symm.map (fun p : PCB => p.pid))
    rw [b2] at h
    simp only [List.map_map] at h
    exact h
  have hrun : t0.run cfg (List.replicate (ps.length * r) SchedOp.step) = some t2 := by
    have e : List.replicate (ps.length * r) SchedOp.step
        = List.replicate ((r - 1) * ps.length) SchedOp.step
          ++ List.replicate ps.length SchedOp.step := by
      rw [← List.replicate_add]
      congr 1
      have : r = (r - 1) + 1 := by omega
      nth_rewrite 1 [this]
      ring
    rw [e, sched_run_append, b1]
    exact c1
  have hcount : ∀ x : Int, t2.running.count x = r * (ps.map (fun p => p.pid)).count x := by
    intro x
    rw [c5, List.count_append, b3 x, a4, hrem.count_eq]
    simp only [List.count_nil, Nat.zero_add]
    rw [← Nat.succ_mul, Nat.succ_eq_add_one, Nat.sub_add_cancel hr]
  refine ⟨t0, t2, a1, a4, a6, hrun, ?_, ?_, ?_, hempty⟩
  · rw [sched_run_steps_length cfg _ t0 t2 hrun, a4]
    simp
  · intro p hp
    rw [hcount, List.count_eq_one_of_mem hpids (List.mem_map_of_mem _ hp), Nat.mul_one]
  · rw [c7, b5, a6]
    have : r = (r - 1) + 1 := by omega
    nth_rewrite 2 [this]
    push_cast
    ring

/-- Witness of C21: the scenario of the specification, `--algo RR --quantum 1` with four
PCBs of 8 ticks each, over 32 scheduling decisions. -/
theorem round_robin_fairness_witness :
    ∃ t0 t, (SchedTrace.mk scheduler_init state_init [] []).run
        { config_load_defaults with sched_algo := SchedAlgo.ROUND_ROBIN, time_quantum := 1 }
        ([⟨1, ProcessState.NEW, 1, 8, 8, 0, 0, 0⟩, ⟨2, ProcessState.NEW, 1, 8, 8, 0, 0, 0⟩,
          ⟨3, ProcessState.NEW, 1, 8, 8, 0, 0, 0⟩,
          ⟨4, ProcessState.NEW, 1, 8, 8, 0, 0, 0⟩].map SchedOp.add) = some t0 ∧
      t0.running = [] ∧ t0.world.context_switches = 0 ∧
      t0.run { config_load_defaults with sched_algo := SchedAlgo.ROUND_ROBIN,
                                         time_quantum := 1 }
        (List.replicate 32 SchedOp.step) = some t ∧
      t.running.length = 32 ∧
      (∀ p ∈ ([⟨1, ProcessState.NEW, 1, 8, 8, 0, 0, 0⟩, ⟨2, ProcessState.NEW, 1, 8, 8, 0, 0, 0⟩,
          ⟨3, ProcessState.NEW, 1, 8, 8, 0, 0, 0⟩,
          ⟨4, ProcessState.NEW, 1, 8, 8, 0, 0, 0⟩] : List PCB), t.running.count p.pid = 8) ∧
      t.world.context_switches = 0 + 32 ∧
      t.sched.ready_queue = [] :=
  round_robin_fairness
    { config_load_defaults with sched_algo := SchedAlgo.ROUND_ROBIN, time_quantum := 1 }
    rfl rfl
    [⟨1, ProcessState.NEW, 1, 8, 8, 0, 0, 0⟩, ⟨2, ProcessState.NEW, 1, 8, 8, 0, 0, 0⟩,
     ⟨3, ProcessState.NEW, 1, 8, 8, 0, 0, 0⟩, ⟨4, ProcessState.NEW, 1, 8, 8, 0, 0, 0⟩]
    8 (by decide) (by decide) (by decide) (by decide) state_init (by decide)

/-! ### Lemmas on the FIFO / LRU access trace -/

theorem pages_length_le (L : List Int) (hnd : L.Nodup) (hr : ∀ v ∈ L, 1 ≤ v ∧ v ≤ 7) :
    L.length ≤ 7 := by
  have hsub : L.toFinset ⊆ Finset.Icc (1 : Int) 7 := by
    intro v hv
    rw [List.mem_toFinset] at hv
    rw [Finset.mem_Icc]
    exact hr v hv
  have h := Finset.card_le_card hsub
  rw [List.toFinset_card_of_nodup hnd, Int.card_Icc] at h
  simpa using h

theorem pages_length_ge (L : List Int) (hall : ∀ v : Int, 1 ≤ v → v ≤ 7 → v ∈ L) :
    7 ≤ L.length := by
  have hsub : Finset.Icc (1 : Int) 7 ⊆ L.toFinset := by
    intro v hv
    rw [Finset.mem_Icc] at hv
    rw [List.mem_toFinset]
    exact hall v hv.1 hv.2
  have h := Finset.card_le_card hsub
  rw [Int.card_Icc] at h
  have h2 := List.toFinset_card_le L
  have h3 : (7 + 1 - 1 : Int).toNat = 7 := by decide
  omega

/-- In a filled pool the valid pages of the process are page 0 and the pages of `L`. -/
theorem frames_filled_valid (pid a0 c0 : Int) (L : List Int) (m : MemState)
    (h : frames_filled pid a0 c0 L m) (hp0 : 0 ≤ pid) (hp1 : pid < MAX_STUDENTS)
    (v : Int) (hv0 : 0 ≤ v) (hv1 : v < MAX_PAGES) :
    (m.page_tables pid v).valid ≠ 0 ↔ (v = 0 ∨ v ∈ L) := by
  obtain ⟨hc, htot, f0p, f0v, _, _, _, hnd, hr, hfr, hfree⟩ := h
  have hlen := pages_length_le L hnd hr
  have hb : pt_in_bounds pid v := ⟨hp0, hp1, hv0, hv1⟩
  constructor
  · intro hval
    obtain ⟨g0, g1, g2, g3⟩ := hc.2.2.1 pid v hb hval
    rw [htot] at g1
    by_cases hz : (m.page_tables pid v).frame_number = 0
    · rw [hz, f0v] at g3
      exact Or.inl g3.symm
    · by_cases hl : (m.page_tables pid v).frame_number ≤ (L.length : Int)
      · have hi : ((m.page_tables pid v).frame_number - 1).toNat < L.length := by omega
        have e := hfr _ _ (List.getElem?_eq_getElem hi)
        have e2 : ((((m.page_tables pid v).frame_number - 1).toNat : Nat) : Int) + 1
            = (m.page_tables pid v).frame_number := by omega
        rw [e2] at e
        right
        rw [← g3, e.2.1]
        exact List.getElem_mem _
      · have := hfree _ (by omega) g1
        rw [g2] at this
        omega
  · rintro (rfl | hvL)
    · have := hc.2.1 0 (by omega) (by omega) (by rw [f0p]; exact hp0)
      rw [f0p, f0v] at this
      exact this.2.1
    · obtain ⟨i, hi, rfl⟩ := List.getElem_of_mem hvL
      have e := hfr i _ (List.getElem?_eq_getElem hi)
      have := hc.2.1 ((i : Int) + 1) (by omega) (by omega) (by rw [e.1]; exact hp0)
      rw [e.1, e.2.1] at this
      exact this.2.1

/-- A hit on a page of `L` keeps the pool filled in the same way. -/
theorem frames_filled_hit (cfg : Config) (pid a0 c0 : Int) (L : List Int) (m : MemState)
    (h : frames_filled pid a0 c0 L m) (hp0 : 0 ≤ pid) (hp1 : pid < MAX_STUDENTS)
    (w : SystemState) (t1 t2 v : Int) (hvL : v ∈ L) (ht2 : a0 ≤ t2) :
    ∃ m1, mem_step cfg m w (MemOp.access t1 t2 pid v)
        = some (m1, { w with page_hits := w.page_hits + 1 }) ∧
      frames_filled pid a0 c0 L m1 := by
  have hval := (frames_filled_valid pid a0 c0 L m h hp0 hp1 v
    (by have := h.2.2.2.2.2.2.2.2.1 v hvL; omega)
    (by have := h.2.2.2.2.2.2.2.2.1 v hvL; simp only [MAX_PAGES]; omega)).mpr (Or.inr hvL)
  obtain ⟨hc, htot, f0p, f0v, f0l, f0a, hfifo, hnd, hr, hfr, hfree⟩ := h
  have hv := hr v hvL
  have hb : pt_in_bounds pid v := ⟨hp0, hp1, by omega, by simp only [MAX_PAGES]; omega⟩
  obtain ⟨g0, g1, g2, g3⟩ := hc.2.2.1 pid v hb hval
  have hne : (m.page_tables pid v).frame_number ≠ 0 := by
    intro hz
    rw [hz, f0v] at g3
    omega
  have hacc := memory_access_hit cfg t1 t2 pid v m w hc hb hval
  refine ⟨_, ?_, memory_access_hit_consistent t1 t2 pid v m hc, htot, ?_, ?_, ?_, ?_,
    hfifo, hnd, hr, ?_, ?_⟩
  · simp only [mem_step, hacc]
  · show (set_frame m.frame_pool _ _ 0).pid = pid
    rw [set_frame, if_neg (Ne.symm hne)]; exact f0p
  · show (set_frame m.frame_pool _ _ 0).virtual_page = 0
    rw [set_frame, if_neg (Ne.symm hne)]; exact f0v
  · show (set_frame m.frame_pool _ _ 0).load_order = c0
    rw [set_frame, if_neg (Ne.symm hne)]; exact f0l
  · show (set_frame m.frame_pool _ _ 0).last_accessed = a0
    rw [set_frame, if_neg (Ne.symm hne)]; exact f0a
  · intro i u hi
    have e := hfr i u hi
    show (set_frame m.frame_pool _ _ ((i : Int) + 1)).pid = pid ∧
      (set_frame m.frame_pool _ _ ((i : Int) + 1)).virtual_page = u ∧
      c0 < (set_frame m.frame_pool _ _ ((i : Int) + 1)).load_order ∧
      a0 ≤ (set_frame m.frame_pool _ _ ((i : Int) + 1)).last_accessed
    unfold set_frame
    by_cases hif : (i : Int) + 1 = (m.page_tables pid v).frame_number
    · rw [if_pos hif, ← hif]
      exact ⟨e.1, e.2.1, e.2.2.1, ht2⟩
    · rw [if_neg hif]
      exact e
  · intro f hf0 hf1
    show (set_frame m.frame_pool _ _ f).pid = -1
    unfold set_frame
    by_cases hif : f = (m.page_tables pid v).frame_number
    · rw [if_pos hif, ← hif]
      exact hfree f hf0 hf1
    · rw [if_neg hif]
      exact hfree f hf0 hf1

/-- A fault on a page of `1..7` outside `L` loads it into the first free frame. -/
theorem frames_filled_fault (cfg : Config) (pid a0 c0 : Int) (L : List Int) (m : MemState)
    (h : frames_filled pid a0 c0 L m) (hp0 : 0 ≤ pid) (hp1 : pid < MAX_STUDENTS)
    (w : SystemState) (t1 t2 v : Int) (hv : 1 ≤ v ∧ v ≤ 7) (hvL : v ∉ L) (ht1 : a0 ≤ t1) :
    ∃ m1, mem_step cfg m w (MemOp.access t1 t2 pid v)
        = some (m1, { w with page_faults := w.page_faults + 1,
                             frames_used := count_used m1 }) ∧
      frames_filled pid a0 c0 (L ++ [v]) m1 := by
  have hvalid := frames_filled_valid pid a0 c0 L m h hp0 hp1 v (by omega)
    (by simp only [MAX_PAGES]; omega)
  obtain ⟨hc, htot, f0p, f0v, f0l, f0a, hfifo, hnd, hr, hfr, hfree⟩ := h
  have hb : pt_in_bounds pid v := ⟨hp0, hp1, by omega, by simp only [MAX_PAGES]; omega⟩
  have hval : (m.page_tables pid v).valid = 0 := by
    by_contra hn
    rcases hvalid.mp hn with h0 | hL
    · omega
    · exact hvL hL
  have hnd1 : (L ++ [v]).Nodup := by
    rw [List.nodup_append]
    refine ⟨hnd, List.nodup_singleton v, ?_⟩
    intro a ha hb1
    rw [List.mem_singleton] at hb1
    subst hb1
    exact hvL ha
  have hr1 : ∀ u ∈ L ++ [v], 1 ≤ u ∧ u ≤ 7 := by
    intro u hu
    rcases List.mem_append.mp hu with h1 | h1
    · exact hr u h1
    · rw [List.mem_singleton] at h1; subst h1; exact hv
  have hlen := pages_length_le (L ++ [v]) hnd1 hr1
  simp only [List.length_append, List.length_singleton] at hlen
  have hocc : ∀ j : Int, 0 ≤ j → j ≤ (L.length : Int) → (m.frame_pool j).pid ≠ -1 := by
    intro j hj0 hj1
    by_cases hz : j = 0
    · subst hz; rw [f0p]; omega
    · have hi : (j - 1).toNat < L.length := by omega
      have e := hfr _ _ (List.getElem?_eq_getElem hi)
      have e2 : (((j - 1).toNat : Nat) : Int) + 1 = j := by omega
      rw [e2] at e
      rw [e.1]; omega
  obtain ⟨c1, c2, c3, _⟩ := choose_frame_spec cfg m (by omega)
  rw [htot] at c2
  obtain ⟨c4, c5⟩ := c3 ⟨(L.length : Int) + 1, by omega, by rw [htot]; omega,
    hfree _ (by omega) (by omega)⟩
  have hch : choose_frame cfg m = (L.length : Int) + 1 := by
    by_contra hn
    by_cases hlt : choose_frame cfg m ≤ (L.length : Int)
    · exact hocc _ c1 hlt c4
    · exact c5 ((L.length : Int) + 1) (by omega) (by omega) (hfree _ (by omega) (by omega))
  obtain ⟨m1, l1, l2, l3, l4, l5, l6, l7⟩ := load_page_some m t1 t2 pid v
    (choose_frame cfg m) hc hb c1 (by rw [htot]; exact c2)
  have hcons := load_page_consistent m t1 t2 pid v (choose_frame cfg m) hc hb hval c1
    (by rw [htot]; exact c2) m1 l1
  have hacc := memory_access_fault cfg t1 t2 pid v m w hb hval m1 l1
  rw [hch] at l4
  refine ⟨m1, ?_, hcons, by rw [l2, htot], ?_, ?_, ?_, ?_, by rw [l3]; omega, hnd1, hr1,
    ?_, ?_⟩
  · simp only [mem_step, hacc]
  · rw [l4, set_frame, if_neg (by omega)]; exact f0p
  · rw [l4, set_frame, if_neg (by omega)]; exact f0v
  · rw [l4, set_frame, if_neg (by omega)]; exact f0l
  · rw [l4, set_frame, if_neg (by omega)]; exact f0a
  · intro i u hi
    rw [l4]
    unfold set_frame
    by_cases hiL : i < L.length
    · rw [List.getElem?_append_left hiL] at hi
      rw [if_neg (by omega)]
      exact hfr i u hi
    · have hlt := (List.getElem?_eq_some.mp hi).1
      simp only [List.length_append, List.length_singleton] at hlt
      have hiE : i = L.length := by omega
      subst hiE
      rw [List.getElem?_append_right (le_refl _)] at hi
      simp only [Nat.sub_self, List.getElem?_cons_zero, Option.some.injEq] at hi
      rw [if_pos rfl]
      exact ⟨rfl, hi, hfifo, ht1⟩
  · intro f hf0 hf1
    simp only [List.length_append, List.length_singleton] at hf0
    rw [l4, set_frame, if_neg (by push_cast at hf0; omega)]
    exact hfree f (by push_cast at hf0; omega) hf1

/-- A run of accesses to pages `1..7`, none before `a0`: every call returns, the pool
stays filled, and exactly the pages that were not loaded yet fault. -/
theorem frames_filled_run (cfg : Config) (pid a0 c0 : Int) (hp0 : 0 ≤ pid)
    (hp1 : pid < MAX_STUDENTS) : ∀ (mid : List (Int × Int × Int)) (L : List Int)
    (m : MemState) (w : SystemState), frames_filled pid a0 c0 L m →
    (∀ x ∈ mid, 1 ≤ x.2.2 ∧ x.2.2 ≤ 7 ∧ a0 ≤ x.1 ∧ a0 ≤ x.2.1) →
    ∃ m1 w1 L1, mem_run cfg (access_trace pid mid) m w = some (m1, w1) ∧
      frames_filled pid a0 c0 L1 m1 ∧ (∀ v ∈ L, v ∈ L1) ∧ (∀ x ∈ mid, x.2.2 ∈ L1) ∧
      w1.page_faults + (L.length : Int) = w.page_faults + (L1.length : Int) := by
  intro mid
  induction mid with
  | nil =>
    intro L m w h _
    exact ⟨m, w, L, rfl, h, fun v hv => hv, by simp, rfl⟩
  | cons x rest ih =>
    intro L m w h hmid
    obtain ⟨hx1, hx2, hx3, hx4⟩ := hmid x (List.mem_cons_self _ _)
    have hrest : ∀ y ∈ rest, 1 ≤ y.2.2 ∧ y.2.2 ≤ 7 ∧ a0 ≤ y.1 ∧ a0 ≤ y.2.1 :=
      fun y hy => hmid y (List.mem_cons_of_mem _ hy)
    by_cases hxL : x.2.2 ∈ L
    · obtain ⟨m1, e1, e2⟩ := frames_filled_hit cfg pid a0 c0 L m h hp0 hp1 w x.1 x.2.1
        x.2.2 hxL hx4
      obtain ⟨m2, w2, L2, f1, f2, f3, f4, f5⟩ := ih L m1
        { w with page_hits := w.page_hits + 1 } e2 hrest
      refine ⟨m2, w2, L2, ?_, f2, f3, ?_, f5⟩
      · simp only [access_trace, List.map_cons, mem_run, e1]
        exact f1
      · intro y hy
        rcases List.mem_cons.mp hy with rfl | hy
        · exact f3 _ hxL
        · exact f4 y hy
    · obtain ⟨m1, e1, e2⟩ := frames_filled_fault cfg pid a0 c0 L m h hp0 hp1 w x.1 x.2.1
        x.2.2 ⟨hx1, hx2⟩ hxL hx3
      obtain ⟨m2, w2, L2, f1, f2, f3, f4, f5⟩ := ih (L ++ [x.2.2]) m1
        { w with page_faults := w.page_faults + 1, frames_used := count_used m1 } e2 hrest
      refine ⟨m2, w2, L2, ?_, f2, fun v hv => f3 v (List.mem_append_left _ hv), ?_, ?_⟩
      · simp only [access_trace, List.map_cons, mem_run, e1]
        exact f1
      · intro y hy
        rcases List.mem_cons.mp hy with rfl | hy
        · exact f3 _ (List.mem_append_right _ (List.mem_singleton_self _))
        · exact f4 y hy
      · simp only [List.length_append, List.length_singleton] at f5
        push_cast at f5
        omega

/-- The first access after `memory_init` with 8 frames is a fault that loads the page
into frame 0. -/
theorem first_access_filled (cfg : Config) (hframes : cfg.memory_frames = 8) (pid : Int)
    (hp0 : 0 ≤ pid) (hp1 : pid < MAX_STUDENTS) (m0 : MemState) (w0 : SystemState)
    (a0 b0 : Int) :
    ∃ m1, mem_step cfg (memory_init cfg m0) w0 (MemOp.access a0 b0 pid 0)
        = some (m1, { w0 with page_faults := w0.page_faults + 1,
                              frames_used := count_used m1 }) ∧
      frames_filled pid a0 m0.fifo_counter [] m1 := by
  have hc := memory_init_consistent cfg m0
  have htot : (memory_init cfg m0).total_frames = 8 := by
    simp only [memory_init, hframes, MAX_FRAMES]
    decide
  have hfp : ∀ f : Int, 0 ≤ f → f < 8 → (memory_init cfg m0).frame_pool f = ⟨-1, -1, 0, 0⟩ := by
    intro f hf0 hf1
    have hcond : 0 ≤ f ∧ f < (if cfg.memory_frames > MAX_FRAMES then MAX_FRAMES
        else cfg.memory_frames) := by
      rw [hframes]
      simp only [MAX_FRAMES]
      exact ⟨hf0, by simpa using hf1⟩
    simp only [memory_init]
    rw [if_pos hcond]
  have hb : pt_in_bounds pid 0 := ⟨hp0, hp1, le_refl _, by decide⟩
  have hval : ((memory_init cfg m0).page_tables pid 0).valid = 0 := by
    simp only [memory_init, hb, if_true]
  obtain ⟨c1, c2, c3, _⟩ := choose_frame_spec cfg (memory_init cfg m0) (by omega)
  obtain ⟨_, c5⟩ := c3 ⟨0, le_refl _, by omega, by rw [hfp 0 (by omega) (by omega)]⟩
  have hch : choose_frame cfg (memory_init cfg m0) = 0 := by
    by_contra hn
    exact c5 0 (le_refl _) (by omega) (by rw [hfp 0 (by omega) (by omega)])
  obtain ⟨m1, l1, l2, l3, l4, l5, l6, l7⟩ := load_page_some (memory_init cfg m0) a0 b0 pid 0
    (choose_frame cfg (memory_init cfg m0)) hc hb c1 c2
  have hcons := load_page_consistent (memory_init cfg m0) a0 b0 pid 0 _ hc hb hval c1 c2 m1 l1
  have hacc := memory_access_fault cfg a0 b0 pid 0 (memory_init cfg m0) w0 hb hval m1 l1
  rw [hch] at l4
  have hfifo : (memory_init cfg m0).fifo_counter = m0.fifo_counter := rfl
  refine ⟨m1, ?_, hcons, by rw [l2, htot], ?_, ?_, ?_, ?_, by rw [l3, hfifo]; omega,
    List.nodup_nil, by simp, by simp, ?_⟩
  · simp only [mem_step, hacc]
  · rw [l4, set_frame, if_pos rfl]
  · rw [l4, set_frame, if_pos rfl]
  · rw [l4, set_frame, if_pos rfl]; rfl
  · rw [l4, set_frame, if_pos rfl]
  · intro f hf0 hf1
    simp only [List.length_nil, Nat.cast_zero] at hf0
    rw [l4, set_frame, if_neg (by omega), hfp f (by omega) hf1]

/-- With the pool full (pages `0..7` loaded), a fault evicts frame 0 under FIFO and under
LRU: frame 0 has the smallest `load_order`, and its `last_accessed` is not above any
other, so the strict comparison of the scan keeps index 0. -/
theorem frames_full_evict (cfg : Config) (pid a0 c0 : Int) (L : List Int) (m : MemState)
    (h : frames_filled pid a0 c0 L m) (hp0 : 0 ≤ pid) (hp1 : pid < MAX_STUDENTS)
    (hfull : ∀ v : Int, 1 ≤ v → v ≤ 7 → v ∈ L) (w : SystemState) (t1 t2 : Int) :
    ∃ m1, mem_step cfg m w (MemOp.access t1 t2 pid 8)
        = some (m1, { w with page_faults := w.page_faults + 1,
                             frames_used := count_used m1 }) ∧
      consistent m1 ∧ m1.total_frames = 8 ∧
      m1.frame_pool = set_frame m.frame_pool 0 ⟨pid, 8, m.fifo_counter, t1⟩ ∧
      (m1.page_tables pid 8).valid = 1 ∧ (m1.page_tables pid 8).frame_number = 0 ∧
      (m1.page_tables pid 0).valid = 0 ∧
      (∀ p u : Int, ¬ (p = pid ∧ (u = 0 ∨ u = 8)) → m1.page_tables p u = m.page_tables p u) := by
  have hvalid := frames_filled_valid pid a0 c0 L m h hp0 hp1 8 (by omega)
    (by simp only [MAX_PAGES]; omega)
  obtain ⟨hc, htot, f0p, f0v, f0l, f0a, hfifo, hnd, hr, hfr, hfree⟩ := h
  have hlen : L.length = 7 :=
    le_antisymm (pages_length_le L hnd hr) (pages_length_ge L hfull)
  have hb : pt_in_bounds pid 8 := ⟨hp0, hp1, by omega, by simp only [MAX_PAGES]; omega⟩
  have hval : (m.page_tables pid 8).valid = 0 := by
    by_contra hn
    rcases hvalid.mp hn with h0 | hL
    · omega
    · have := hr 8 hL; omega
  have hframe : ∀ j : Int, 1 ≤ j → j < 8 →
      (m.frame_pool j).pid = pid ∧ c0 < (m.frame_pool j).load_order ∧
      a0 ≤ (m.frame_pool j).last_accessed := by
    intro j hj0 hj1
    have hi : (j - 1).toNat < L.length := by omega
    have e := hfr _ _ (List.getElem?_eq_getElem hi)
    have e2 : (((j - 1).toNat : Nat) : Int) + 1 = j := by omega
    rw [e2] at e
    exact ⟨e.1, e.2.2.1, e.2.2.2⟩
  have hocc : ∀ j : Int, 0 ≤ j → j < m.total_frames → (m.frame_pool j).pid ≠ -1 := by
    intro j hj0 hj1
    rw [htot] at hj1
    by_cases hz : j = 0
    · subst hz; rw [f0p]; omega
    · rw [(hframe j (by omega) hj1).1]; omega
  obtain ⟨c1, c2, _, c4⟩ := choose_frame_spec cfg m (by omega)
  obtain ⟨_, c6⟩ := c4 hocc
  have hch : choose_frame cfg m = 0 := by
    by_contra hn
    have hlt := c6 0 (le_refl _) (by omega)
    have hf := hframe (choose_frame cfg m) (by omega) (by rw [htot] at c2; exact c2)
    unfold evict_key at hlt
    split_ifs at hlt
    · rw [f0a] at hlt; omega
    · rw [f0l] at hlt; omega
  obtain ⟨m1, l1, l2, l3, l4, l5, l6, l7⟩ := load_page_some m t1 t2 pid 8
    (choose_frame cfg m) hc hb c1 c2
  have hcons := load_page_consistent m t1 t2 pid 8 (choose_frame cfg m) hc hb hval c1 c2 m1 l1
  have hacc := memory_access_fault cfg t1 t2 pid 8 m w hb hval m1 l1
  rw [hch] at l4 l6 l7
  rw [f0p, f0v] at l7
  refine ⟨m1, ?_, hcons, by rw [l2, htot], l4, l5, l6, ?_, ?_⟩
  · simp only [mem_step, hacc]
  · rw [l7 pid 0 (by omega), if_pos ⟨hp0, rfl, rfl⟩]
  · intro p u hpu
    rw [l7 p u (by intro hh; exact hpu ⟨hh.1, Or.inr hh.2⟩), if_neg]
    intro hh
    exact hpu ⟨hh.2.1, Or.inl hh.2.2⟩

theorem clock_readings_mem : ∀ (l : List (Int × Int × Int)) (x : Int × Int × Int),
    x ∈ l → x.1 ∈ clock_readings l ∧ x.2.1 ∈ clock_readings l := by
  intro l
  induction l with
  | nil => intro x hx; simp at hx
  | cons y rest ih =>
    intro x hx
    obtain ⟨y1, y2, y3⟩ := y
    simp only [clock_readings, List.mem_cons]
    rcases List.mem_cons.mp hx with rfl | hx
    · exact ⟨Or.inl rfl, Or.inr (Or.inl rfl)⟩
    · exact ⟨Or.inr (Or.inr (ih x hx).1), Or.inr (Or.inr (ih x hx).2)⟩

/-- C22. FIFO vs LRU trace: with 8 frames, one process and a non-decreasing clock, after
the accesses "page 0 once, then pages 1..7 each at least once in any order and any number
of times" every call has returned and pages 0..7 are resident, page 0 in frame 0. Under
either replacement policy the access to page 8 is then a fault that evicts page 0 and no
other page: the entry of page 0 becomes invalid, frame 0 holds page 8, every other frame
and every other page-table entry is unchanged. The following access to page 0 is recorded
as exactly one more page fault and no hit. -/
theorem fifo_lru_trace (cfg : Config) (hframes : cfg.memory_frames = 8) (pid : Int)
    (hp0 : 0 ≤ pid) (hp1 : pid < MAX_STUDENTS) (a0 b0 a8 b8 a9 b9 : Int)
    (mid : List (Int × Int × Int))
    (hmid : ∀ x ∈ mid, 1 ≤ x.2.2 ∧ x.2.2 ≤ 7)
    (hcover : ∀ v : Int, 1 ≤ v → v ≤ 7 → ∃ x ∈ mid, x.2.2 = v)
    (hclock : (clock_readings ((a0, b0, 0) :: mid ++ [(a8, b8, 8), (a9, b9, 0)])).Pairwise
      (fun s t => s ≤ t))
    (m0 : MemState) (w0 : SystemState) :
    ∃ m w m1 w1 m2 w2,
      mem_run cfg (access_trace pid ((a0, b0, 0) :: mid)) (memory_init cfg m0) w0
        = some (m, w) ∧
      (m.page_tables pid 0).valid ≠ 0 ∧ (m.page_tables pid 0).frame_number = 0 ∧
      (∀ v : Int, 1 ≤ v → v ≤ 7 → (m.page_tables pid v).valid ≠ 0) ∧
      mem_step cfg m w (MemOp.access a8 b8 pid 8) = some (m1, w1) ∧
      w1.page_faults = w.page_faults + 1 ∧ w1.page_hits = w.page_hits ∧
      (m1.page_tables pid 0).valid = 0 ∧
      (m1.frame_pool 0).pid = pid ∧ (m1.frame_pool 0).virtual_page = 8 ∧
      (m1.page_tables pid 8).valid = 1 ∧ (m1.page_tables pid 8).frame_number = 0 ∧
      (∀ p u : Int, ¬ (p = pid ∧ (u = 0 ∨ u = 8)) →
        m1.page_tables p u = m.page_tables p u) ∧
      (∀ f : Int, f ≠ 0 → m1.frame_pool f = m.frame_pool f) ∧
      mem_step cfg m1 w1 (MemOp.access a9 b9 pid 0) = some (m2, w2) ∧
      w2.page_faults = w1.page_faults + 1 ∧ w2.page_hits = w1.page_hits := by
  have hafter : ∀ x ∈ mid, 1 ≤ x.2.2 ∧ x.2.2 ≤ 7 ∧ a0 ≤ x.1 ∧ a0 ≤ x.2.1 := by
    intro x hx
    have hx2 := clock_readings_mem (mid ++ [(a8, b8, 8), (a9, b9, 0)]) x
      (List.mem_append_left _ hx)
    have hc : (a0 :: b0 :: clock_readings (mid ++ [(a8, b8, 8), (a9, b9, 0)])).Pairwise
        (fun s t => s ≤ t) := hclock
    rw [List.pairwise_cons] at hc
    exact ⟨(hmid x hx).1, (hmid x hx).2, hc.1 _ (List.mem_cons_of_mem _ hx2.1),
      hc.1 _ (List.mem_cons_of_mem _ hx2.2)⟩
  obtain ⟨ma, e1, e2⟩ := first_access_filled cfg hframes pid hp0 hp1 m0 w0 a0 b0
  obtain ⟨m, w, L, f1, f2, _, f4, _⟩ := frames_filled_run cfg pid a0 m0.fifo_counter hp0 hp1
    mid [] ma { w0 with page_faults := w0.page_faults + 1, frames_used := count_used ma }
    e2 hafter
  have hfull : ∀ v : Int, 1 ≤ v → v ≤ 7 → v ∈ L := by
    intro v hv1 hv2
    obtain ⟨x, hx, rfl⟩ := hcover v hv1 hv2
    exact f4 x hx
  have hvalid := frames_filled_valid pid a0 m0.fifo_counter L m f2 hp0 hp1
  obtain ⟨m1, g1, g2, g3, g4, g5, g6, g7, g8⟩ := frames_full_evict cfg pid a0
    m0.fifo_counter L m f2 hp0 hp1 hfull w a8 b8
  have hb0 : pt_in_bounds pid 0 := ⟨hp0, hp1, le_refl _, by decide⟩
  obtain ⟨c1, c2, _, _⟩ := choose_frame_spec cfg m1 (by omega)
  obtain ⟨m2, l1, _⟩ := load_page_some m1 a9 b9 pid 0 (choose_frame cfg m1) g2 hb0 c1 c2
  have hacc := memory_access_fault cfg a9 b9 pid 0 m1
    { w with page_faults := w.page_faults + 1, frames_used := count_used m1 } hb0 g7 m2 l1
  have h00 := f2.1.2.1 0 (le_refl _) (by rw [f2.2.1]; decide)
    (by rw [f2.2.2.1]; exact hp0)
  rw [f2.2.2.1, f2.2.2.2.1] at h00
  refine ⟨m, w, m1,
    { w with page_faults := w.page_faults + 1, frames_used := count_used m1 }, m2,
    { w with page_faults := w.page_faults + 1 + 1, frames_used := count_used m2 },
    ?_, h00.2.1, h00.2.2, ?_, g1, rfl, rfl, g7, ?_, ?_, g5, g6, g8, ?_, ?_, rfl, rfl⟩
  · have e : access_trace pid ((a0, b0, 0) :: mid)
        = MemOp.access a0 b0 pid 0 :: access_trace pid mid := rfl
    rw [e]
    simp only [mem_run, e1]
    exact f1
  · intro v hv1 hv2
    exact (hvalid v (by omega) (by simp only [MAX_PAGES]; omega)).mpr (Or.inr (hfull v hv1 hv2))
  · rw [g4, set_frame, if_pos rfl]
  · rw [g4, set_frame, if_pos rfl]
  · intro f hf
    rw [g4, set_frame, if_neg hf]
  · simp only [mem_step, hacc]

/-- Witness of C22: process 3 under the default policy (LRU) with `memory_frames = 8`;
pages 0, 1, ..., 7 are loaded, pages 3 and 1 are touched again, the clock advances by at
most one per reading. -/
theorem fifo_lru_trace_witness :
    ∃ m w m1 w1 m2 w2,
      mem_run { config_load_defaults with memory_frames := 8 }
        (access_trace 3 ((0, 0, 0) :: [(1, 1, 1), (1, 2, 2), (2, 3, 3), (3, 3, 4), (4, 4, 5),
          (4, 5, 6), (5, 5, 7), (6, 6, 3), (6, 7, 1)]))
        (memory_init { config_load_defaults with memory_frames := 8 } mem_static) state_init
        = some (m, w) ∧
      (m.page_tables 3 0).valid ≠ 0 ∧ (m.page_tables 3 0).frame_number = 0 ∧
      (∀ v : Int, 1 ≤ v → v ≤ 7 → (m.page_tables 3 v).valid ≠ 0) ∧
      mem_step { config_load_defaults with memory_frames := 8 } m w (MemOp.access 8 8 3 8)
        = some (m1, w1) ∧
      w1.page_faults = w.page_faults + 1 ∧ w1.page_hits = w.page_hits ∧
      (m1.page_tables 3 0).valid = 0 ∧
      (m1.frame_pool 0).pid = 3 ∧ (m1.frame_pool 0).virtual_page = 8 ∧
      (m1.page_tables 3 8).valid = 1 ∧ (m1.page_tables 3 8).frame_number = 0 ∧
      (∀ p u : Int, ¬ (p = 3 ∧ (u = 0 ∨ u = 8)) →
        m1.page_tables p u = m.page_tables p u) ∧
      (∀ f : Int, f ≠ 0 → m1.frame_pool f = m.frame_pool f) ∧
      mem_step { config_load_defaults with memory_frames := 8 } m1 w1 (MemOp.access 9 9 3 0)
        = some (m2, w2) ∧
      w2.page_faults = w1.page_faults + 1 ∧ w2.page_hits = w1.page_hits :=
  fifo_lru_trace { config_load_defaults with memory_frames := 8 } rfl 3 (by decide)
    (by decide) 0 0 8 8 9 9
    [(1, 1, 1), (1, 2, 2), (2, 3, 3), (3, 3, 4), (4, 4, 5), (4, 5, 6), (5, 5, 7), (6, 6, 3),
     (6, 7, 1)]
    (by decide)
    (by
      intro v h1 h2
      have hv : v = 1 ∨ v = 2 ∨ v = 3 ∨ v = 4 ∨ v = 5 ∨ v = 6 ∨ v = 7 := by omega
      rcases hv with rfl | rfl | rfl | rfl | rfl | rfl | rfl <;> decide)
    (by decide) mem_static state_init

/-! ### Consistency in the words of the specification, for every pool -/

theorem consistent_frame_table (m : MemState) (hc : consistent m) :
    frame_table_consistency m := by
  obtain ⟨_, hc1, hc2, _⟩ := hc
  refine ⟨?_, ?_⟩
  · intro f hf0 hf1 hp
    exact (hc1 f hf0 hf1 hp).2
  · intro p v hb hval
    obtain ⟨k1, _, k3, k4⟩ := hc2 p v hb hval
    exact ⟨k1, k3, k4⟩

theorem empty_pool_frame_table (m : MemState) (he : empty_pool_inv m) :
    frame_table_consistency m := by
  obtain ⟨h0, h1, _⟩ := he
  refine ⟨?_, ?_⟩
  · intro f hf0 hf1 _
    omega
  · intro p v hb hval
    obtain ⟨k1, k2, k3⟩ := h1 p v hb hval
    rw [k1]
    exact ⟨le_refl _, k2, k3⟩

theorem memory_init_empty_pool (cfg : Config) (h : cfg.memory_frames ≤ 0) :
    empty_pool_inv (memory_init cfg mem_static) := by
  have hgt : ¬ (cfg.memory_frames > MAX_FRAMES) := by
    simp only [MAX_FRAMES]; omega
  refine ⟨?_, ?_, ?_⟩
  · simp only [memory_init, hgt, if_false]
    exact h
  · intro p v hb hval
    simp only [memory_init, hb, if_true] at hval
    exact absurd rfl hval
  · intro _ _ _
    have hno : ¬ ((0 : Int) ≤ 0 ∧ (0 : Int) < cfg.memory_frames) := by omega
    simp only [memory_init, hgt, if_false, hno, mem_static, MAX_PAGES]
    decide

theorem choose_frame_empty_pool (cfg : Config) (m : MemState) (h : m.total_frames ≤ 0) :
    choose_frame cfg m = 0 := by
  have hz : m.total_frames.toNat = 0 := by omega
  simp only [choose_frame, find_free_frame, evict_lru, evict_fifo, hz, find_free_loop,
    evict_lru_loop, evict_fifo_loop, Nat.zero_sub, if_true, ite_self]

/-- In an empty pool every call returns and keeps the pool in the states of
`empty_pool_inv`: a fault loads the page into slot 0 and invalidates the entry of the page
that was there, a hit touches slot 0, a release scans no frame. -/
theorem mem_step_empty_pool (cfg : Config) (op : MemOp) (m : MemState) (w : SystemState)
    (he : empty_pool_inv m) :
    ∃ m1 w1, mem_step cfg m w op = some (m1, w1) ∧ empty_pool_inv m1 := by
  obtain ⟨h0, h1, h2⟩ := he
  have hz : m.total_frames.toNat = 0 := by omega
  cases op with
  | free pid =>
    refine ⟨m, { w with frames_used := count_used m }, ?_, h0, h1, h2⟩
    simp only [mem_step, memory_free_process, hz, free_loop]
  | access t1 t2 pid vp =>
    by_cases hb : pt_in_bounds pid vp
    · have hfb0 : frame_in_bounds 0 := by
        unfold frame_in_bounds; decide
      have hn1 : ¬ (pid < 0 ∨ pid ≥ MAX_STUDENTS) := by
        have := hb.1; have := hb.2.1; omega
      have hn2 : ¬ (vp < 0 ∨ vp ≥ MAX_PAGES) := by
        have := hb.2.2.1; have := hb.2.2.2; omega
      by_cases hval : (m.page_tables pid vp).valid = 0
      · have hch := choose_frame_empty_pool cfg m h0
        by_cases hprev : (m.frame_pool 0).pid ≥ 0 ∧ (m.frame_pool 0).pid < MAX_STUDENTS
            ∧ (m.frame_pool 0).virtual_page ≥ 0
        · have hpb : pt_in_bounds (m.frame_pool 0).pid (m.frame_pool 0).virtual_page :=
            ⟨hprev.1, hprev.2.1, hprev.2.2, h2 hprev.1 hprev.2.1 hprev.2.2⟩
          cases hl : load_page m t1 t2 pid vp 0 with
          | none =>
            simp only [load_page, hfb0, hprev, hpb, hb, not_true_eq_false, if_false, if_true,
              and_self] at hl
            exact absurd hl (by simp)
          | some m1 =>
            have ha := memory_access_fault cfg t1 t2 pid vp m w hb hval m1
              (by rw [hch]; exact hl)
            have hms : mem_step cfg m w (MemOp.access t1 t2 pid vp)
                = some (m1, { w with page_faults := w.page_faults + 1,
                                     frames_used := count_used m1 }) := by
              simp only [mem_step, ha]
            simp only [load_page, hfb0, hprev, hpb, hb, not_true_eq_false, if_false, if_true,
              and_self, Option.some.injEq] at hl
            subst hl
            refine ⟨_, _, hms, h0, ?_, ?_⟩
            · intro p v hpv hv
              by_cases hpe : p = pid ∧ v = vp
              · obtain ⟨rfl, rfl⟩ := hpe
                simp [set_pte, set_frame]
              · exfalso
                simp only [set_pte, hpe, if_false] at hv
                by_cases hpp : p = (m.frame_pool 0).pid ∧ v = (m.frame_pool 0).virtual_page
                · simp only [hpp, and_self, if_true] at hv
                  exact hv rfl
                · simp only [hpp, if_false] at hv
                  obtain ⟨_, k2, k3⟩ := h1 p v hpv hv
                  exact hpp ⟨k2.symm, k3.symm⟩
            · intro _ _ _
              simp only [set_frame, if_true]
              exact hb.2.2.2
        · cases hl : load_page m t1 t2 pid vp 0 with
          | none =>
            simp only [load_page, hfb0, hprev, hb, not_true_eq_false, if_false, if_true] at hl
            exact absurd hl (by simp)
          | some m1 =>
            have ha := memory_access_fault cfg t1 t2 pid vp m w hb hval m1
              (by rw [hch]; exact hl)
            have hms : mem_step cfg m w (MemOp.access t1 t2 pid vp)
                = some (m1, { w with page_faults := w.page_faults + 1,
                                     frames_used := count_used m1 }) := by
              simp only [mem_step, ha]
            simp only [load_page, hfb0, hprev, hb, not_true_eq_false, if_false, if_true,
              Option.some.injEq] at hl
            subst hl
            refine ⟨_, _, hms, h0, ?_, ?_⟩
            · intro p v hpv hv
              by_cases hpe : p = pid ∧ v = vp
              · obtain ⟨rfl, rfl⟩ := hpe
                simp [set_pte, set_frame]
              · exfalso
                simp only [set_pte, hpe, if_false] at hv
                obtain ⟨_, k2, k3⟩ := h1 p v hpv hv
                apply hprev
                rw [k2, k3]
                exact ⟨hpv.1, hpv.2.1, hpv.2.2.1⟩
            · intro _ _ _
              simp only [set_frame, if_true]
              exact hb.2.2.2
      · obtain ⟨k1, k2, k3⟩ := h1 pid vp hb hval
        have hfb : frame_in_bounds (m.page_tables pid vp).frame_number := by
          rw [k1]; exact hfb0
        refine ⟨{ m with
            page_tables := set_pte m.page_tables pid vp
              { m.page_tables pid vp with last_accessed := t1 },
            frame_pool := set_frame m.frame_pool (m.page_tables pid vp).frame_number
              { m.frame_pool (m.page_tables pid vp).frame_number with last_accessed := t2 } },
          { w with page_hits := w.page_hits + 1 }, ?_, h0, ?_, ?_⟩
        · simp only [mem_step, memory_access, hn1, hn2, hval, hfb, if_false, if_true,
            not_true_eq_false, ne_eq, not_false_eq_true]
        · intro p v hpv hv
          have hv0 : (m.page_tables p v).valid ≠ 0 := by
            by_cases hpe : p = pid ∧ v = vp
            · obtain ⟨rfl, rfl⟩ := hpe; exact hval
            · simpa only [set_pte, hpe, if_false] using hv
          obtain ⟨j1, j2, j3⟩ := h1 p v hpv hv0
          have hfn : (set_pte m.page_tables pid vp
              { m.page_tables pid vp with last_accessed := t1 } p v).frame_number = 0 := by
            by_cases hpe : p = pid ∧ v = vp
            · obtain ⟨rfl, rfl⟩ := hpe
              simp only [set_pte, and_self, if_true]
              exact k1
            · simp only [set_pte, hpe, if_false]
              exact j1
          refine ⟨hfn, ?_, ?_⟩
          · show (set_frame m.frame_pool _ _ 0).pid = p
            rw [k1]
            simp only [set_frame, if_true]
            exact j2
          · show (set_frame m.frame_pool _ _ 0).virtual_page = v
            rw [k1]
            simp only [set_frame, if_true]
            exact j3
        · show 0 ≤ (set_frame m.frame_pool _ _ 0).pid →
            (set_frame m.frame_pool _ _ 0).pid < MAX_STUDENTS →
            0 ≤ (set_frame m.frame_pool _ _ 0).virtual_page →
            (set_frame m.frame_pool _ _ 0).virtual_page < MAX_PAGES
          rw [k1]
          simp only [set_frame, if_true]
          exact h2
    · refine ⟨m, w, ?_, h0, h1, h2⟩
      have hcase : (pid < 0 ∨ pid ≥ MAX_STUDENTS) ∨ (vp < 0 ∨ vp ≥ MAX_PAGES) := by
        by_contra hn
        apply hb
        unfold pt_in_bounds
        simp only [MAX_STUDENTS, MAX_PAGES] at hn ⊢
        omega
      rcases hcase with c1 | c2
      · simp only [mem_step, memory_access, c1, if_true]
      · by_cases c1 : pid < 0 ∨ pid ≥ MAX_STUDENTS
        · simp only [mem_step, memory_access, c1, if_true]
        · simp only [mem_step, memory_access, c1, c2, if_true, if_false]

theorem mem_run_empty_pool (cfg : Config) : ∀ (ops : List MemOp) (m : MemState)
    (w : SystemState), empty_pool_inv m →
    ∃ m1 w1, mem_run cfg ops m w = some (m1, w1) ∧ empty_pool_inv m1 := by
  intro ops
  induction ops with
  | nil => intro m w he; exact ⟨m, w, rfl, he⟩
  | cons op rest ih =>
    intro m w he
    obtain ⟨m1, w1, e1, e2⟩ := mem_step_empty_pool cfg op m w he
    obtain ⟨m2, w2, f1, f2⟩ := ih m1 w1 e2
    exact ⟨m2, w2, by simp only [mem_run, e1, f1], f2⟩

theorem memory_init_total_frames (cfg : Config) (m0 : MemState)
    (h : 1 ≤ cfg.memory_frames) : 1 ≤ (memory_init cfg m0).total_frames := by
  simp only [memory_init]
  split_ifs
  · decide
  · exact h

/-- Every state reached from `memory_init` on the static storage by accesses and by
releases of pids `≥ 0`: the calls return, and the state is a consistent pool of at least
one frame or a state of the empty pool. -/
theorem mem_run_pool (cfg : Config) (w0 : SystemState) (ops : List MemOp)
    (hfree : ∀ pid, MemOp.free pid ∈ ops → 0 ≤ pid) :
    ∃ m w, mem_run cfg ops (memory_init cfg mem_static) w0 = some (m, w) ∧
      ((1 ≤ m.total_frames ∧ consistent m) ∨ empty_pool_inv m) := by
  by_cases h : 1 ≤ cfg.memory_frames
  · have ht := memory_init_total_frames cfg mem_static h
    obtain ⟨m, w, e1, e2, e3⟩ := mem_run_total cfg ops (memory_init cfg mem_static) w0
      (memory_init_consistent cfg mem_static) ht hfree
    exact ⟨m, w, e1, Or.inl ⟨by rw [e3]; exact ht, e2⟩⟩
  · obtain ⟨m, w, e1, e2⟩ := mem_run_empty_pool cfg ops (memory_init cfg mem_static) w0
      (memory_init_empty_pool cfg (by omega))
    exact ⟨m, w, e1, Or.inr e2⟩

theorem mem_step_pool (cfg : Config) (op : MemOp) (m : MemState) (w : SystemState)
    (hs : (1 ≤ m.total_frames ∧ consistent m) ∨ empty_pool_inv m)
    (hok : ∀ pid, op = MemOp.free pid → 0 ≤ pid) :
    ∃ m1 w1, mem_step cfg m w op = some (m1, w1) ∧ frame_table_consistency m1 := by
  rcases hs with ⟨ht, hc⟩ | he
  · obtain ⟨m1, w1, e1, e2, _⟩ := mem_step_total cfg op m w hc ht hok
    exact ⟨m1, w1, e1, consistent_frame_table m1 e2⟩
  · obtain ⟨m1, w1, e1, e2⟩ := mem_step_empty_pool cfg op m w he
    exact ⟨m1, w1, e1, empty_pool_frame_table m1 e2⟩

theorem frame_table_no_shared_frame (m : MemState) (h : frame_table_consistency m)
    (p v p1 v1 : Int) (hb : pt_in_bounds p v) (hb1 : pt_in_bounds p1 v1)
    (hv : (m.page_tables p v).valid ≠ 0) (hv1 : (m.page_tables p1 v1).valid ≠ 0)
    (hf : (m.page_tables p v).frame_number = (m.page_tables p1 v1).frame_number) :
    p = p1 ∧ v = v1 := by
  obtain ⟨_, k2, k3⟩ := h.2 p v hb hv
  obtain ⟨_, j2, j3⟩ := h.2 p1 v1 hb1 hv1
  rw [hf] at k2 k3
  exact ⟨by rw [← k2, j2], by rw [← k3, j3]⟩

/-- C2. Frame/page-table consistency is an invariant, for every configuration (pools of
any size, the empty pool included) and both replacement policies. It holds after
`memory_init`. Every sequence of `memory_access` calls and of `memory_free_process(pid)`
calls with `0 ≤ pid` from there returns and reaches a state in which it holds, and in
which no two valid entries reference the same frame. From such a state every further
`memory_access(pid, vp)` and every further `memory_free_process(pid)` with `0 ≤ pid`
returns and preserves it. -/
theorem consistency_invariant (cfg : Config) (w0 : SystemState) (ops : List MemOp)
    (hfree : ∀ pid, MemOp.free pid ∈ ops → 0 ≤ pid) :
    frame_table_consistency (memory_init cfg mem_static) ∧
    ∃ m w, mem_run cfg ops (memory_init cfg mem_static) w0 = some (m, w) ∧
      frame_table_consistency m ∧
      (∀ p v p1 v1 : Int, pt_in_bounds p v → pt_in_bounds p1 v1 →
        (m.page_tables p v).valid ≠ 0 → (m.page_tables p1 v1).valid ≠ 0 →
        (m.page_tables p v).frame_number = (m.page_tables p1 v1).frame_number →
        p = p1 ∧ v = v1) ∧
      (∀ t1 t2 pid vp : Int, ∃ f m1 w1,
        memory_access cfg t1 t2 pid vp m w = some (f, m1, w1) ∧
        frame_table_consistency m1) ∧
      (∀ pid : Int, 0 ≤ pid → ∃ m1 w1,
        memory_free_process pid m w = some (m1, w1) ∧ frame_table_consistency m1) := by
  refine ⟨consistent_frame_table _ (memory_init_consistent cfg mem_static), ?_⟩
  obtain ⟨m, w, e1, hs⟩ := mem_run_pool cfg w0 ops hfree
  have hft : frame_table_consistency m := by
    rcases hs with ⟨_, hc⟩ | he
    · exact consistent_frame_table m hc
    · exact empty_pool_frame_table m he
  refine ⟨m, w, e1, hft, frame_table_no_shared_frame m hft, ?_, ?_⟩
  · intro t1 t2 pid vp
    obtain ⟨m1, w1, f1, f2⟩ := mem_step_pool cfg (MemOp.access t1 t2 pid vp) m w hs
      (by intro pid0 h; exact absurd h (by simp))
    simp only [mem_step] at f1
    cases ha : memory_access cfg t1 t2 pid vp m w with
    | none => rw [ha] at f1; exact absurd f1 (by simp)
    | some r =>
      obtain ⟨f, m2, w2⟩ := r
      rw [ha] at f1
      simp only [Option.some.injEq, Prod.mk.injEq] at f1
      obtain ⟨rfl, rfl⟩ := f1
      exact ⟨f, m2, w2, rfl, f2⟩
  · intro pid hpid
    obtain ⟨m1, w1, f1, f2⟩ := mem_step_pool cfg (MemOp.free pid) m w hs
      (by intro pid0 h; simp only [MemOp.free.injEq] at h; rw [← h]; exact hpid)
    exact ⟨m1, w1, f1, f2⟩

/-- Witness of C2: a pool of two frames under LRU; two faults fill it, a third fault
evicts, a hit follows, then process 1 is released. -/
theorem consistency_invariant_witness :
    ∃ m w, mem_run { config_load_defaults with memory_frames := 2 }
        [MemOp.access 1 1 0 0, MemOp.access 2 2 1 3, MemOp.access 3 3 0 5,
         MemOp.access 4 4 1 3, MemOp.free 1]
        (memory_init { config_load_defaults with memory_frames := 2 } mem_static) state_init
        = some (m, w) ∧
      frame_table_consistency m ∧
      (∀ pid : Int, 0 ≤ pid → ∃ m1 w1,
        memory_free_process pid m w = some (m1, w1) ∧ frame_table_consistency m1) := by
  obtain ⟨_, m, w, h1, h2, _, _, h5⟩ := consistency_invariant
    { config_load_defaults with memory_frames := 2 } state_init
    [MemOp.access 1 1 0 0, MemOp.access 2 2 1 3, MemOp.access 3 3 0 5,
     MemOp.access 4 4 1 3, MemOp.free 1]
    (by
      intro pid h
      simp only [List.mem_cons, List.mem_singleton, MemOp.free.injEq, List.mem_nil_iff,
        or_false, false_or, reduceCtorEq] at h
      omega)
  exact ⟨m, w, h1, h2, h5⟩

/-- C5, the failing input. With `memory_frames = 0` the pool is empty; the in-range access
`(0, 0)` faults, `find_free_frame` returns `-1`, the eviction scan returns its initial
index 0, and the page is loaded into slot 0 of `frame_pool`. The state satisfies
frame/page-table consistency (slot 0 and the entry of `(0, 0)` reference each other).
`memory_free_process(0)` scans the `total_frames = 0` frames of the pool and releases
nothing: slot 0 is still owned by pid 0 and the entry of `(0, 0)` is still valid with
`frame_number = 0`. -/
theorem memory_free_process_keeps_page_of_empty_pool :
    ∃ m w, mem_step { config_load_defaults with memory_frames := 0 }
        (memory_init { config_load_defaults with memory_frames := 0 } mem_static) state_init
        (MemOp.access 5 6 0 0) = some (m, w) ∧
      frame_table_consistency m ∧ m.total_frames = 0 ∧
      (m.frame_pool 0).pid = 0 ∧ (m.frame_pool 0).virtual_page = 0 ∧
      (m.page_tables 0 0).valid = 1 ∧ (m.page_tables 0 0).frame_number = 0 ∧
      ∃ m1 w1, memory_free_process 0 m w = some (m1, w1) ∧
        (m1.frame_pool 0).pid = 0 ∧ (m1.page_tables 0 0).valid = 1 ∧
        (m1.page_tables 0 0).frame_number = 0 ∧ w1.frames_used = 0 := by
  obtain ⟨m, w, e1, e2⟩ := mem_step_empty_pool
    { config_load_defaults with memory_frames := 0 } (MemOp.access 5 6 0 0)
    (memory_init { config_load_defaults with memory_frames := 0 } mem_static) state_init
    (memory_init_empty_pool _ (by decide))
  have hv : (mem_step { config_load_defaults with memory_frames := 0 }
      (memory_init { config_load_defaults with memory_frames := 0 } mem_static) state_init
      (MemOp.access 5 6 0 0)).bind (fun r =>
        (memory_free_process 0 r.1 r.2).map (fun r1 =>
          (r.1.total_frames, (r.1.frame_pool 0).pid, (r.1.frame_pool 0).virtual_page,
           (r.1.page_tables 0 0).valid, (r.1.page_tables 0 0).frame_number,
           (r1.1.frame_pool 0).pid, (r1.1.page_tables 0 0).valid,
           (r1.1.page_tables 0 0).frame_number, r1.2.frames_used)))
      = some (0, 0, 0, 1, 0, 0, 1, 0, 0) := rfl
  rw [e1] at hv
  simp only [Option.some_bind] at hv
  cases hf : memory_free_process 0 m w with
  | none => rw [hf] at hv; exact absurd hv (by simp)
  | some r1 =>
    obtain ⟨m1, w1⟩ := r1
    rw [hf] at hv
    simp only [Option.map_some', Option.some.injEq, Prod.mk.injEq] at hv
    obtain ⟨a1, a2, a3, a4, a5, a6, a7, a8, a9⟩ := hv
    exact ⟨m, w, e1, empty_pool_frame_table m e2, a1, a2, a3, a4, a5, m1, w1, hf,
      a6, a7, a8, a9⟩

end ExamOS
